import Mathlib

/-!
# FusionMatchTrade: order book, ledger and matching engine

A shallow embedding of the matching core of the repository
(`Order.hpp`/`Order.cpp`, `OrderBook.hpp`/`OrderBook.cpp`, `Trader.hpp`/`Trader.cpp`,
`MatchingEngine.hpp`/`MatchingEngine.cpp`) and theorems about it.

Modelling conventions.

* A `double` is a rational number (`ℚ`). The definitions of the first part compute with
  exact arithmetic. The definitions with the suffix `Double` (`matchStepDouble`,
  `OrderBook.addOrderDouble`, `Trader.onOrderFilledDouble`,
  `MatchingEngine.submitOrderDouble`) round every sum, difference, product and quotient
  to the nearest binary64 value, ties to even (`roundDouble`); the two agree on amounts
  that lie on one binary grid (`matchStepDouble_eq`, `OrderBook.addOrderDouble_eq`).
  Infinities and NaN are not represented.
* An `int` is an `Int`. `MatchingEngine.submitOrderInt32` and
  `MatchingEngine.submitOrderDouble` keep the id counter in 32 bits (`wrapInt32`); in
  the other definitions it does not overflow.
* `std::shared_ptr<Order>` is an address (`Ptr`) into an arena (`Heap`) that holds the
  `Order` objects; a mutation through one pointer is seen through every other one.
* `std::map<K, V>` is an association list kept in key order (`mapFind`, `mapInsert`,
  `mapErase`).
* `std::priority_queue<std::shared_ptr<Order>, ..., OrderPtrCompare>` is a list of
  addresses ordered by the comparator, best entry first (`pqPush`; `top` is the head,
  `pop` the tail). The standard leaves the relative order of equivalent entries (same
  price and same timestamp) open; the model keeps them first-in-first-out.
  `OrderBook.cpp` declares the scratch queues of `removeCompletedOrders` without the
  comparator and then move-assigns them to the members; the definitions of the first
  part give them the type of the members declared in `OrderBook.hpp`, and the
  definitions with the suffix `With` take the type of the members and the type of the
  scratch queues as parameters (`pqPush` for the type of the header, `pqPushByAddress`
  for the type that `OrderBook.cpp` writes, which orders by address).
* `Trader::updatePositionOnTrade` evaluates its closing test on an iterator that it may
  have erased. The definitions of the first part take the test as not firing there; the
  definitions of the ledger with the suffix `Raw` or `Double` follow the statements as
  they stand and have no result (`none`) when the position is erased a second time.
* `std::chrono::steady_clock::now()` is an argument (`now`). The `timestamp` field of
  `Trade`, which no operation reads, is left out.
* A C++ exception is a value of `Error`; an operation that can throw after it has
  changed state returns the state reached together with an `Outcome`.
* Console output is not modelled.
-/

namespace FusionMatchTrade

/-! ## Order.hpp -/

inductive OrderSide where
  | BUY
  | SELL
  deriving DecidableEq

inductive OrderType where
  | MARKET
  | LIMIT
  | STOP
  | STOP_LIMIT
  deriving DecidableEq

inductive OrderStatus where
  | PENDING
  | PARTIALLY_FILLED
  | FILLED
  | CANCELLED
  | REJECTED
  deriving DecidableEq

/-- The failure conditions of the core. `InvalidArgument` stands for the
`std::invalid_argument` thrown by `Order::Order`, `Order::addFill`, `Trader::addCash` and
`OrderBook::addOrder`; `TraderNotFound` for `std::invalid_argument("Trader not found")`;
`InsufficientFunds` for the `std::runtime_error` with the messages "Insufficient cash for
buy order" and "Insufficient cash for purchase"; `InsufficientInventory` for the
`std::runtime_error` with the messages "Insufficient shares for sell order" and
"Insufficient shares for sale". -/
inductive Error where
  | InvalidArgument
  | TraderNotFound
  | InsufficientFunds
  | InsufficientInventory
  deriving DecidableEq

/-- How a call ends: it returns a value, it throws, or (in the model only) the bound on
the number of loop iterations was reached. -/
inductive Outcome (α : Type) where
  | returned (a : α)
  | threw (e : Error)
  | outOfFuel
  deriving DecidableEq

structure Order where
  orderId : Int
  traderId : Int
  symbol : String
  quantity : ℚ
  price : ℚ
  side : OrderSide
  type : OrderType
  status : OrderStatus
  filledQuantity : ℚ
  timestamp : Nat
  deriving DecidableEq

namespace Order

/-- The constructor `Order::Order`; `now` is the reading of the steady clock. -/
def new (orderId traderId : Int) (symbol : String) (quantity price : ℚ)
    (side : OrderSide) (type : OrderType) (now : Nat) : Except Error Order :=
  if quantity ≤ 0 then .error .InvalidArgument
  else if type = .LIMIT ∧ price ≤ 0 then .error .InvalidArgument
  else .ok
    { orderId := orderId, traderId := traderId, symbol := symbol, quantity := quantity,
      price := price, side := side, type := type, status := .PENDING,
      filledQuantity := 0, timestamp := now }

def getRemainingQuantity (o : Order) : ℚ := o.quantity - o.filledQuantity

def setStatus (o : Order) (status : OrderStatus) : Order := { o with status := status }

def isComplete (o : Order) : Bool := decide (o.filledQuantity ≥ o.quantity)

def isBuy (o : Order) : Bool := decide (o.side = .BUY)

def isSell (o : Order) : Bool := decide (o.side = .SELL)

/-- The method `Order::addFill`. Both throws come before any assignment, so a failed
call leaves the order as it was. -/
def addFill (o : Order) (quantity : ℚ) : Except Error Order :=
  if quantity ≤ 0 then .error .InvalidArgument
  else if o.filledQuantity + quantity > o.quantity then .error .InvalidArgument
  else
    let o1 := { o with filledQuantity := o.filledQuantity + quantity }
    if o1.isComplete then .ok { o1 with status := .FILLED }
    else .ok { o1 with status := .PARTIALLY_FILLED }

/-- The comparator `Order::operator<`: `lt a b` is `a < b`, "a ranks below b". -/
def lt (a b : Order) : Bool :=
  if a.side = .BUY then
    if a.price ≠ b.price then decide (a.price < b.price)
    else decide (a.timestamp > b.timestamp)
  else
    if a.price ≠ b.price then decide (a.price > b.price)
    else decide (a.timestamp > b.timestamp)

/-- The test `!order->isComplete() && order->getStatus() != OrderStatus::CANCELLED`. -/
def isLive (o : Order) : Bool := !o.isComplete && decide (o.status ≠ .CANCELLED)

end Order

/-! ## Arena, maps and priority queues -/

abbrev Ptr := Int

abbrev Heap := Ptr → Order

/-- Write through a pointer. -/
def Heap.set (h : Heap) (p : Ptr) (o : Order) : Heap := fun q => if q = p then o else h q

/-- Lookup `std::map::find`. -/
def mapFind {κ ν : Type} [DecidableEq κ] : List (κ × ν) → κ → Option ν
  | [], _ => none
  | (k', v) :: m, k => if k' = k then some v else mapFind m k

/-- Assignment `m[k] = v`: replaces the value of an existing key, otherwise inserts the
pair at its place in key order. -/
def mapInsert {κ ν : Type} [DecidableEq κ] [LT κ] [DecidableRel (fun (a b : κ) => a < b)]
    (k : κ) (v : ν) : List (κ × ν) → List (κ × ν)
  | [] => [(k, v)]
  | (k', v') :: m =>
    if k' = k then (k, v) :: m
    else if k < k' then (k, v) :: (k', v') :: m
    else (k', v') :: mapInsert k v m

/-- Removal `std::map::erase` of a key. -/
def mapErase {κ ν : Type} [DecidableEq κ] (m : List (κ × ν)) (k : κ) : List (κ × ν) :=
  m.filter (fun e => decide (e.1 ≠ k))

/-- The operation `push` of a priority queue with comparator `OrderPtrCompare`
(`*a < *b`): the new entry goes in front of the first entry that ranks below it. -/
def pqPush (h : Heap) (x : Ptr) : List Ptr → List Ptr
  | [] => [x]
  | y :: q => if (h y).lt (h x) then x :: y :: q else y :: pqPush h x q

/-! ## OrderBook.hpp, OrderBook.cpp -/

structure Trade where
  buyOrderId : Int
  sellOrderId : Int
  buyTraderId : Int
  sellTraderId : Int
  symbol : String
  quantity : ℚ
  price : ℚ
  deriving DecidableEq

structure OrderBook where
  symbol : String
  bids : List Ptr
  asks : List Ptr
  orderMap : List (Int × Ptr)
  trades : List Trade
  deriving DecidableEq

/-- The state that the loop of `OrderBook::matchOrder` works on: the arena, the priority
queue of the opposite side and the local vector `trades`. -/
structure MatchState where
  heap : Heap
  queue : List Ptr
  trades : List Trade

/-- What one pass through the body of the `while` loop does. -/
inductive StepResult where
  | exit (s : MatchState)
  | next (s : MatchState)
  | threw (s : MatchState) (e : Error)

/-- The crossing test: `newOrder->getPrice() >= bestAsk->getPrice()` for an incoming buy,
`newOrder->getPrice() <= bestBid->getPrice()` for an incoming sell. -/
def crosses (newOrder best : Order) : Bool :=
  if newOrder.isBuy then decide (newOrder.price ≥ best.price)
  else decide (newOrder.price ≤ best.price)

/-- The record that `trades.emplace_back` builds: the incoming order is the buyer when it
is a buy and the seller otherwise. -/
def mkTrade (symbol : String) (newOrder best : Order) (tradeQuantity tradePrice : ℚ) :
    Trade :=
  if newOrder.isBuy then
    { buyOrderId := newOrder.orderId, sellOrderId := best.orderId,
      buyTraderId := newOrder.traderId, sellTraderId := best.traderId,
      symbol := symbol, quantity := tradeQuantity, price := tradePrice }
  else
    { buyOrderId := best.orderId, sellOrderId := newOrder.orderId,
      buyTraderId := best.traderId, sellTraderId := newOrder.traderId,
      symbol := symbol, quantity := tradeQuantity, price := tradePrice }

/-- One evaluation of the loop condition and, when it holds, one pass through the loop
body of `OrderBook::matchOrder`. The two branches of the source (incoming buy against
`asks_`, incoming sell against `bids_`) differ in the queue they work on, in the crossing
test (`crosses`) and in the order of the arguments of the trade record (`mkTrade`);
`n` is the incoming order and `s.queue` the queue of the opposite side. -/
def matchStep (symbol : String) (n : Ptr) (s : MatchState) : StepResult :=
  match s.queue with
  | [] => .exit s
  | best :: rest =>
    if (s.heap n).isComplete then .exit s
    else if (s.heap best).isComplete || decide ((s.heap best).status = .CANCELLED) then
      .next { s with queue := rest }
    else if crosses (s.heap n) (s.heap best) then
      let tradeQuantity :=
        min (s.heap n).getRemainingQuantity (s.heap best).getRemainingQuantity
      let tradePrice := (s.heap best).price
      match (s.heap n).addFill tradeQuantity with
      | .error e => .threw { s with queue := rest } e
      | .ok n1 =>
        let h1 := s.heap.set n n1
        match (h1 best).addFill tradeQuantity with
        | .error e => .threw { heap := h1, queue := rest, trades := s.trades } e
        | .ok b1 =>
          let h2 := h1.set best b1
          let t := mkTrade symbol (h2 n) (h2 best) tradeQuantity tradePrice
          let q := if (h2 best).isComplete then rest else pqPush h2 best rest
          .next { heap := h2, queue := q, trades := s.trades ++ [t] }
    else .exit s

/-- The `while` loop of `OrderBook::matchOrder`, at most `fuel` evaluations of its
condition. -/
def matchLoop (symbol : String) (n : Ptr) : Nat → MatchState → MatchState × Outcome Unit
  | 0, s => (s, .outOfFuel)
  | fuel + 1, s =>
    match matchStep symbol n s with
    | .exit s1 => (s1, .returned ())
    | .threw s1 e => (s1, .threw e)
    | .next s1 => matchLoop symbol n fuel s1

/-- The state an operation on a book leaves behind, and how the call ended. -/
structure BookResult (α : Type) where
  book : OrderBook
  heap : Heap
  outcome : Outcome α

namespace OrderBook

/-- The constructor `OrderBook::OrderBook`. -/
def new (symbol : String) : OrderBook :=
  { symbol := symbol, bids := [], asks := [], orderMap := [], trades := [] }

/-- The queue that an incoming order is matched against. -/
def opposite (b : OrderBook) (o : Order) : List Ptr := if o.isBuy then b.asks else b.bids

/-- Store the queue that the matching loop worked on. -/
def setOpposite (b : OrderBook) (o : Order) (q : List Ptr) : OrderBook :=
  if o.isBuy then { b with asks := q } else { b with bids := q }

/-- The private method `OrderBook::matchOrder`: the book with the opposite queue as the
loop left it, the arena, the trades made, and how the loop ended. The loop is given two
evaluations of its condition more than the opposite queue has entries. -/
def matchOrder (b : OrderBook) (h : Heap) (n : Ptr) : MatchState × Outcome Unit :=
  matchLoop b.symbol n ((b.opposite (h n)).length + 2)
    { heap := h, queue := b.opposite (h n), trades := [] }

/-- One of the two loops of `removeCompletedOrders`: entries are popped best first; a
live one is pushed on the new queue, a terminal one has its id erased from the index.
The new queue has the type of the members in `OrderBook.hpp` here; `OrderBook.cpp`
declares it without the comparator, for which see `OrderBook.purgeQueueWith`. -/
def purgeQueue (h : Heap) :
    List Ptr → List Ptr × List (Int × Ptr) → List Ptr × List (Int × Ptr)
  | [], acc => acc
  | p :: rest, (newQueue, m) =>
    if !(h p).isComplete && decide ((h p).status ≠ .CANCELLED) then
      purgeQueue h rest (pqPush h p newQueue, m)
    else purgeQueue h rest (newQueue, mapErase m (h p).orderId)

/-- The private method `OrderBook::removeCompletedOrders`. -/
def removeCompletedOrders (b : OrderBook) (h : Heap) : OrderBook :=
  let r1 := purgeQueue h b.bids ([], b.orderMap)
  let r2 := purgeQueue h b.asks ([], r1.2)
  { b with bids := r1.1, asks := r2.1, orderMap := r2.2 }

/-- The method `OrderBook::addOrder`; `n` is the `shared_ptr` passed in. When the loop
throws, the exception leaves `addOrder` with the index entry made, the opposite queue as
the loop left it and the trades of this call not appended. -/
def addOrder (b : OrderBook) (h : Heap) (n : Ptr) : BookResult Unit :=
  if (h n).symbol ≠ b.symbol then { book := b, heap := h, outcome := .threw .InvalidArgument }
  else
    let b1 := { b with orderMap := mapInsert (h n).orderId n b.orderMap }
    let r := matchOrder b1 h n
    let b2 := b1.setOpposite (h n) r.1.queue
    match r.2 with
    | .threw e => { book := b2, heap := r.1.heap, outcome := .threw e }
    | .outOfFuel => { book := b2, heap := r.1.heap, outcome := .outOfFuel }
    | .returned _ =>
      let b3 := { b2 with trades := b2.trades ++ r.1.trades }
      let b4 :=
        if !(r.1.heap n).isComplete then
          if (r.1.heap n).isBuy then { b3 with bids := pqPush r.1.heap n b3.bids }
          else { b3 with asks := pqPush r.1.heap n b3.asks }
        else b3
      { book := removeCompletedOrders b4 r.1.heap, heap := r.1.heap, outcome := .returned () }

/-- The method `OrderBook::cancelOrder`. -/
def cancelOrder (b : OrderBook) (h : Heap) (orderId : Int) : BookResult Bool :=
  match mapFind b.orderMap orderId with
  | some p =>
    let h1 := h.set p ((h p).setStatus .CANCELLED)
    let b1 := { b with orderMap := mapErase b.orderMap orderId }
    { book := removeCompletedOrders b1 h1, heap := h1, outcome := .returned true }
  | none => { book := b, heap := h, outcome := .returned false }

/-- The method `OrderBook::getOrder`. -/
def getOrder (b : OrderBook) (orderId : Int) : Option Ptr := mapFind b.orderMap orderId

/-- The scan of `getBestBidPrice` and `getBestAskPrice` over a copy of a queue: the price
of the first entry that is neither complete nor cancelled, `0` when there is none. -/
def bestLivePrice (h : Heap) : List Ptr → ℚ
  | [] => 0
  | p :: rest =>
    if !(h p).isComplete && decide ((h p).status ≠ .CANCELLED) then (h p).price
    else bestLivePrice h rest

def getBestBidPrice (b : OrderBook) (h : Heap) : ℚ := bestLivePrice h b.bids

def getBestAskPrice (b : OrderBook) (h : Heap) : ℚ := bestLivePrice h b.asks

def getSpread (b : OrderBook) (h : Heap) : ℚ :=
  if b.getBestBidPrice h > 0 ∧ b.getBestAskPrice h > 0 then
    b.getBestAskPrice h - b.getBestBidPrice h
  else 0

def getBidDepth (b : OrderBook) : Nat := b.bids.length

def getAskDepth (b : OrderBook) : Nat := b.asks.length

def getTrades (b : OrderBook) : List Trade := b.trades

def getLastTradePrice (b : OrderBook) : ℚ :=
  match b.trades.getLast? with
  | some t => t.price
  | none => 0

end OrderBook

/-! ## Trader.hpp, Trader.cpp -/

structure Position where
  symbol : String
  quantity : ℚ
  averagePrice : ℚ
  unrealizedPnL : ℚ
  deriving DecidableEq

/-- The constructor `Position::Position`. -/
def Position.new (sym : String) (qty avgPrice : ℚ) : Position :=
  { symbol := sym, quantity := qty, averagePrice := avgPrice, unrealizedPnL := 0 }

structure Trader where
  traderId : Int
  name : String
  cash : ℚ
  positions : List (String × Position)
  deriving DecidableEq

/-- The literal `1e-9` of `updatePositionOnTrade`. -/
def positionEpsilon : ℚ := 1 / 1000000000

namespace Trader

/-- The constructor `Trader::Trader`. -/
def new (traderId : Int) (name : String) (initialCash : ℚ) : Trader :=
  { traderId := traderId, name := name, cash := initialCash, positions := [] }

/-- The method `Trader::addCash`; the throw comes before the assignment. -/
def addCash (t : Trader) (amount : ℚ) : Except Error Trader :=
  if amount < 0 ∧ -amount > t.cash then .error .InvalidArgument
  else .ok { t with cash := t.cash + amount }

def hasSufficientCash (t : Trader) (amount : ℚ) : Bool := decide (t.cash ≥ amount)

def hasSufficientShares (t : Trader) (symbol : String) (quantity : ℚ) : Bool :=
  match mapFind t.positions symbol with
  | some position => decide (position.quantity ≥ quantity)
  | none => false

/-- The closing test of `updatePositionOnTrade` on a position that is still in the map:
`std::abs(it->second.quantity) < 1e-9` erases it, otherwise the updated position is what
the map holds. -/
def storePosition (t : Trader) (symbol : String) (position : Position) : Trader :=
  if |position.quantity| < positionEpsilon then
    { t with positions := mapErase t.positions symbol }
  else { t with positions := mapInsert symbol position t.positions }

/-- The private method `Trader::updatePositionOnTrade`. After `positions_.erase(it)` in
the reducing branch the source still evaluates its closing test on the erased iterator;
the model takes that test as not firing there, the position being gone already. -/
def updatePositionOnTrade (t : Trader) (symbol : String) (quantity price : ℚ) : Trader :=
  match mapFind t.positions symbol with
  | none =>
    if quantity > 0 then
      { t with positions := mapInsert symbol (Position.new symbol quantity price) t.positions }
    else t
  | some position =>
    if (position.quantity > 0 ∧ quantity > 0) ∨ (position.quantity < 0 ∧ quantity < 0) then
      let totalCost := position.quantity * position.averagePrice + quantity * price
      let totalQuantity := position.quantity + quantity
      let p1 :=
        if totalQuantity ≠ 0 then { position with averagePrice := totalCost / totalQuantity }
        else position
      t.storePosition symbol { p1 with quantity := totalQuantity }
    else
      let remainingQuantity := position.quantity + quantity
      if |remainingQuantity| < positionEpsilon then
        { t with positions := mapErase t.positions symbol }
      else if (position.quantity > 0 ∧ remainingQuantity > 0) ∨
          (position.quantity < 0 ∧ remainingQuantity < 0) then
        t.storePosition symbol { position with quantity := remainingQuantity }
      else
        t.storePosition symbol
          { position with quantity := remainingQuantity, averagePrice := price }

/-- The method `Trader::onOrderFilled`; both throws come before any assignment. -/
def onOrderFilled (t : Trader) (symbol : String) (quantity price : ℚ) (isBuy : Bool) :
    Except Error Trader :=
  if isBuy then
    let cost := quantity * price
    if cost > t.cash then .error .InsufficientFunds
    else .ok (({ t with cash := t.cash - cost }).updatePositionOnTrade symbol quantity price)
  else
    if !t.hasSufficientShares symbol quantity then .error .InsufficientInventory
    else
      .ok (({ t with cash := t.cash + quantity * price }).updatePositionOnTrade
        symbol (-quantity) price)

/-- The method `Trader::updatePosition`. -/
def updatePosition (t : Trader) (symbol : String) (marketPrice : ℚ) : Trader :=
  match mapFind t.positions symbol with
  | some position =>
    let p1 : Position :=
      { position with
        unrealizedPnL := position.quantity * (marketPrice - position.averagePrice) }
    { t with positions := mapInsert symbol p1 t.positions }
  | none => t

def getTotalPnL (t : Trader) : ℚ :=
  t.positions.foldl (fun totalPnL e => totalPnL + e.2.unrealizedPnL) 0

end Trader

/-! ## MatchingEngine.hpp, MatchingEngine.cpp -/

/-- The engine together with the arena of the `Order` objects that its index and its
books point into. `std::make_shared<Order>` in `submitOrder` places the new object at the
address equal to its order id, which the engine has not handed out before. -/
structure MatchingEngine where
  nextOrderId : Int
  orderBooks : List (String × OrderBook)
  traders : List (Int × Trader)
  orders : List (Int × Ptr)
  heap : Heap

/-- The state a call on the engine leaves behind, and how the call ended. -/
structure EngineResult (α : Type) where
  engine : MatchingEngine
  outcome : Outcome α

namespace MatchingEngine

/-- The constructor `MatchingEngine::MatchingEngine`; `heap` is the arena it works in. -/
def new (heap : Heap) : MatchingEngine :=
  { nextOrderId := 1, orderBooks := [], traders := [], orders := [], heap := heap }

def registerTrader (e : MatchingEngine) (trader : Trader) : MatchingEngine :=
  { e with traders := mapInsert trader.traderId trader e.traders }

def getTrader (e : MatchingEngine) (traderId : Int) : Option Trader :=
  mapFind e.traders traderId

def getOrder (e : MatchingEngine) (orderId : Int) : Option Ptr := mapFind e.orders orderId

def getOrderBook (e : MatchingEngine) (symbol : String) : Option OrderBook :=
  mapFind e.orderBooks symbol

/-- The private method `getOrCreateOrderBook`: the engine, with a new empty book entered
when the symbol had none, and the book of the symbol. -/
def getOrCreateOrderBook (e : MatchingEngine) (symbol : String) :
    MatchingEngine × OrderBook :=
  match mapFind e.orderBooks symbol with
  | none =>
    ({ e with orderBooks := mapInsert symbol (OrderBook.new symbol) e.orderBooks },
      OrderBook.new symbol)
  | some orderBook => (e, orderBook)

/-- One of the two calls `getTrader(id)->onOrderFilled(...)` of
`processTradeNotifications`, skipped when the id is not registered. -/
def notifyTrader (e : MatchingEngine) (traderId : Int) (trade : Trade) (isBuy : Bool) :
    Except Error MatchingEngine :=
  match e.getTrader traderId with
  | none => .ok e
  | some t =>
    match t.onOrderFilled trade.symbol trade.quantity trade.price isBuy with
    | .error err => .error err
    | .ok t1 => .ok { e with traders := mapInsert traderId t1 e.traders }

/-- The private method `processTradeNotifications`: buyer first, then seller, trade by
trade; an exception ends it with the ledgers as they are at that point. -/
def processTradeNotifications :
    MatchingEngine → List Trade → MatchingEngine × Outcome Unit
  | e, [] => (e, .returned ())
  | e, trade :: rest =>
    match e.notifyTrader trade.buyTraderId trade true with
    | .error err => (e, .threw err)
    | .ok e1 =>
      match e1.notifyTrader trade.sellTraderId trade false with
      | .error err => (e1, .threw err)
      | .ok e2 => processTradeNotifications e2 rest

/-- The method `MatchingEngine::submitOrder`; `now` is the clock reading that the `Order`
constructor takes. -/
def submitOrder (e : MatchingEngine) (traderId : Int) (symbol : String)
    (quantity price : ℚ) (side : OrderSide) (type : OrderType) (now : Nat) :
    EngineResult Int :=
  match e.getTrader traderId with
  | none => { engine := e, outcome := .threw .TraderNotFound }
  | some trader =>
    if side = .BUY ∧ !trader.hasSufficientCash (quantity * price) then
      { engine := e, outcome := .threw .InsufficientFunds }
    else if side ≠ .BUY ∧ !trader.hasSufficientShares symbol quantity then
      { engine := e, outcome := .threw .InsufficientInventory }
    else
      let orderId := e.nextOrderId
      let e1 := { e with nextOrderId := e.nextOrderId + 1 }
      match Order.new orderId traderId symbol quantity price side type now with
      | .error err => { engine := e1, outcome := .threw err }
      | .ok order =>
        let e2 :=
          { e1 with heap := e1.heap.set orderId order,
                    orders := mapInsert orderId orderId e1.orders }
        let r := e2.getOrCreateOrderBook symbol
        let tradesBefore := r.2.getTrades.length
        let added := r.2.addOrder r.1.heap orderId
        let e3 :=
          { r.1 with heap := added.heap,
                     orderBooks := mapInsert symbol added.book r.1.orderBooks }
        match added.outcome with
        | .threw err => { engine := e3, outcome := .threw err }
        | .outOfFuel => { engine := e3, outcome := .outOfFuel }
        | .returned _ =>
          let newTrades := added.book.getTrades.drop tradesBefore
          let r2 := e3.processTradeNotifications newTrades
          match r2.2 with
          | .threw err => { engine := r2.1, outcome := .threw err }
          | .outOfFuel => { engine := r2.1, outcome := .outOfFuel }
          | .returned _ => { engine := r2.1, outcome := .returned orderId }

/-- The method `MatchingEngine::cancelOrder`. -/
def cancelOrder (e : MatchingEngine) (orderId : Int) : EngineResult Bool :=
  match mapFind e.orders orderId with
  | none => { engine := e, outcome := .returned false }
  | some p =>
    match e.getOrderBook (e.heap p).symbol with
    | some orderBook =>
      let r := orderBook.cancelOrder e.heap orderId
      let e1 :=
        { e with heap := r.heap,
                 orderBooks := mapInsert (e.heap p).symbol r.book e.orderBooks }
      match r.outcome with
      | .returned true =>
        { engine := { e1 with orders := mapErase e1.orders orderId },
          outcome := .returned true }
      | out => { engine := e1, outcome := out }
    | none => { engine := e, outcome := .returned false }

def getLastPrice (e : MatchingEngine) (symbol : String) : ℚ :=
  match mapFind e.orderBooks symbol with
  | some orderBook => orderBook.getLastTradePrice
  | none => 0

def getBestBid (e : MatchingEngine) (symbol : String) : ℚ :=
  match mapFind e.orderBooks symbol with
  | some orderBook => orderBook.getBestBidPrice e.heap
  | none => 0

def getBestAsk (e : MatchingEngine) (symbol : String) : ℚ :=
  match mapFind e.orderBooks symbol with
  | some orderBook => orderBook.getBestAskPrice e.heap
  | none => 0

end MatchingEngine

/-! ## Notions used in the statements -/

/-- The fields of an order that no operation assigns after construction. -/
def Order.sameIdentity (o o1 : Order) : Prop :=
  o1.orderId = o.orderId ∧ o1.traderId = o.traderId ∧ o1.symbol = o.symbol ∧
  o1.quantity = o.quantity ∧ o1.price = o.price ∧ o1.side = o.side ∧ o1.type = o.type ∧
  o1.timestamp = o.timestamp

def Heap.sameIdentity (h h1 : Heap) : Prop := ∀ p, (h p).sameIdentity (h1 p)

/-! ## Sample data

The book of the test `OrderBookTest.MultipleMatches`: three resting sells 30@150, 40@151
and 50@152 at the addresses 1, 2 and 3, and an incoming buy 100@155 at the address 4. -/

/-- An order as `Order::Order` leaves it (pending, nothing filled), with the id as the
clock reading. -/
def sampleOrder (id : Int) (quantity price : ℚ) (side : OrderSide) : Order :=
  { orderId := id, traderId := 100 + id, symbol := "AAPL", quantity := quantity,
    price := price, side := side, type := .LIMIT, status := .PENDING, filledQuantity := 0,
    timestamp := id.toNat }

def sampleHeap : Heap := fun p =>
  if p = 1 then sampleOrder 1 30 150 .SELL
  else if p = 2 then sampleOrder 2 40 151 .SELL
  else if p = 3 then sampleOrder 3 50 152 .SELL
  else sampleOrder 4 100 155 .BUY

def sampleBook : OrderBook :=
  { symbol := "AAPL", bids := [], asks := [1, 2, 3], orderMap := [(1, 1), (2, 2), (3, 3)],
    trades := [] }

/-- The loop state in which `addOrder` starts matching the incoming buy. -/
def sampleStart : MatchState := { heap := sampleHeap, queue := [1, 2, 3], trades := [] }

/-- The loop state after the first pass: 30 traded at 150 with the order at address 1. -/
def sampleAfterFirst : MatchState :=
  { heap :=
      (sampleHeap.set 4
        { sampleOrder 4 100 155 .BUY with
          filledQuantity := 30, status := .PARTIALLY_FILLED }).set 1
        { sampleOrder 1 30 150 .SELL with filledQuantity := 30, status := .FILLED },
    queue := [2, 3],
    trades :=
      [{ buyOrderId := 4, sellOrderId := 1, buyTraderId := 104, sellTraderId := 101,
         symbol := "AAPL", quantity := 30, price := 150 }] }

/-- The price clause of price improvement for one trade: the trade carries the price and
the id of an order `r` of the queue `q0`, as the arena `h` records them, and that price
is on the incoming order's side of its limit. -/
def restingPriced (h : Heap) (n : Ptr) (q0 : List Ptr) (t : Trade) : Prop :=
  (∃ r ∈ q0, t.price = (h r).price ∧
      (if (h n).isBuy then t.sellOrderId else t.buyOrderId) = (h r).orderId) ∧
    (if (h n).isBuy then t.price ≤ (h n).price else (h n).price ≤ t.price)

/-- The representation invariant of a priority queue of one side: every entry is an
order of that side, and no entry ranks below an entry behind it. -/
def queueOrdered (h : Heap) (side : OrderSide) (q : List Ptr) : Prop :=
  (∀ p ∈ q, (h p).side = side) ∧ q.Pairwise (fun x y => (h x).lt (h y) = false)

/-- The representation invariant of the two priority queues of a book. -/
def OrderBook.wellFormed (b : OrderBook) (h : Heap) : Prop :=
  queueOrdered h .BUY b.bids ∧ queueOrdered h .SELL b.asks

/-- The loop states that the matching loop passes through when it starts in `s0`. -/
inductive LoopReach (symbol : String) (n : Ptr) (s0 : MatchState) : MatchState → Prop where
  | start : LoopReach symbol n s0 s0
  | step {s s1 : MatchState} :
    LoopReach symbol n s0 s → matchStep symbol n s = .next s1 → LoopReach symbol n s0 s1

/-- The side of the queue that an incoming order is matched against. -/
def oppositeSide (o : Order) : OrderSide := if o.isBuy then .SELL else .BUY

/-- The greedy sweep as the specification words it. `incoming` is the incoming order, `Q`
its quantity still to fill, `asks` the live orders of the opposite side in priority
order, and `filledBefore` the sum of the remaining quantities of the orders in front of
the list. An order at the head gets a trade when its price crosses the incoming limit
(at most the limit for an incoming buy, at least the limit for an incoming sell) and
`filledBefore < Q`; the trade has the price of that order and the quantity
`min (its remaining quantity) (Q - filledBefore)`; the sweep stops at the first order
that gets none. -/
def greedySweep (symbol : String) (incoming : Order) (Q : ℚ) :
    ℚ → List Order → List Trade
  | _, [] => []
  | filledBefore, a :: rest =>
    if (if incoming.side = .BUY then a.price ≤ incoming.price
        else incoming.price ≤ a.price) ∧ filledBefore < Q then
      (if incoming.side = .BUY then
          { buyOrderId := incoming.orderId, sellOrderId := a.orderId,
            buyTraderId := incoming.traderId, sellTraderId := a.traderId,
            symbol := symbol, quantity := min a.getRemainingQuantity (Q - filledBefore),
            price := a.price }
        else
          { buyOrderId := a.orderId, sellOrderId := incoming.orderId,
            buyTraderId := a.traderId, sellTraderId := incoming.traderId,
            symbol := symbol, quantity := min a.getRemainingQuantity (Q - filledBefore),
            price := a.price }) ::
        greedySweep symbol incoming Q (filledBefore + a.getRemainingQuantity) rest
    else []

/-- The queue of an order's own side, where `addOrder` leaves what it could not fill. -/
def OrderBook.own (b : OrderBook) (o : Order) : List Ptr := if o.isBuy then b.bids else b.asks

/-- The arenas that the operations on orders lead to. At the start every object is as
its constructor left it; the steps are the construction of a further object, a
successful `Order::addFill` (a refused one changes nothing), `OrderBook::addOrder` and
`OrderBook::cancelOrder` on any book, and `MatchingEngine::submitOrder` and
`MatchingEngine::cancelOrder` on any engine that works in the arena. -/
inductive ArenaReach : Heap → Prop where
  | start (h : Heap) :
    (∀ p, ∃ orderId traderId symbol quantity price side type now,
      Order.new orderId traderId symbol quantity price side type now = .ok (h p)) →
    ArenaReach h
  | construct (h : Heap) (p : Ptr) (o : Order) (orderId traderId : Int) (symbol : String)
      (quantity price : ℚ) (side : OrderSide) (type : OrderType) (now : Nat) :
    ArenaReach h →
    Order.new orderId traderId symbol quantity price side type now = .ok o →
    ArenaReach (h.set p o)
  | addFill (h : Heap) (p : Ptr) (quantity : ℚ) (o : Order) :
    ArenaReach h → (h p).addFill quantity = .ok o → ArenaReach (h.set p o)
  | addOrder (h : Heap) (b : OrderBook) (n : Ptr) :
    ArenaReach h → ArenaReach (b.addOrder h n).heap
  | cancelOrder (h : Heap) (b : OrderBook) (orderId : Int) :
    ArenaReach h → ArenaReach (b.cancelOrder h orderId).heap
  | submitOrder (e : MatchingEngine) (traderId : Int) (symbol : String) (quantity price : ℚ)
      (side : OrderSide) (type : OrderType) (now : Nat) :
    ArenaReach e.heap →
    ArenaReach (e.submitOrder traderId symbol quantity price side type now).engine.heap
  | engineCancelOrder (e : MatchingEngine) (orderId : Int) :
    ArenaReach e.heap → ArenaReach (e.cancelOrder orderId).engine.heap

/-! ## Sample engines

The traces below start from an engine whose arena cells hold a placeholder until
`submitOrder` writes an order into them, and whose sellers hold shares because they bought
them: the tests seed their sellers with a direct `onOrderFilled(symbol, quantity, price,
true)` in the same way. -/

def blankHeap : Heap := fun _ => sampleOrder 0 1 1 .BUY

/-- A trader constructed with `initialCash` who then bought `quantity` shares of `symbol`
at `price`. -/
def seededTrader (traderId : Int) (name : String) (initialCash : ℚ) (symbol : String)
    (quantity price : ℚ) : Trader :=
  match (Trader.new traderId name initialCash).onOrderFilled symbol quantity price true with
  | .ok t => t
  | .error _ => Trader.new traderId name initialCash

/-- Alice (id 1) with 100 in cash and no shares; Bob (id 2), who started with 20 in cash
and bought 2 shares of X at 10. -/
def sampleEngine : MatchingEngine :=
  ((MatchingEngine.new blankHeap).registerTrader (Trader.new 1 "Alice" 100)).registerTrader
    (seededTrader 2 "Bob" 20 "X" 2 10)

/-- Bob offers his 2 shares at 100 (order 1, rests), Alice buys 1 share at 100 (order 2,
trades with order 1), and order 1 is cancelled. -/
def cancelAfterFill : EngineResult Bool :=
  (((sampleEngine.submitOrder 2 "X" 2 100 .SELL .LIMIT 1).engine.submitOrder
    1 "X" 1 100 .BUY .LIMIT 2).engine).cancelOrder 1

/-- The orders of the test `OrderBookTest.SimpleMatchBuyAgainstSell`: a sell 100@150 at
address 1 and a buy 50@150 at address 2. -/
def simpleMatchHeap : Heap := fun p =>
  if p = 1 then sampleOrder 1 100 150 .SELL else sampleOrder 2 50 150 .BUY

/-- The test `SimpleMatchBuyAgainstSell` (the sell is added to an empty book, then the
buy, which fills 50 of the sell), followed by `cancelOrder(1)` as in the test
`CancelOrder`. -/
def cancelAfterFillBook : BookResult Bool :=
  (((OrderBook.new "AAPL").addOrder simpleMatchHeap 1).book.addOrder
    ((OrderBook.new "AAPL").addOrder simpleMatchHeap 1).heap 2).book.cancelOrder
    ((((OrderBook.new "AAPL").addOrder simpleMatchHeap 1).book.addOrder
      ((OrderBook.new "AAPL").addOrder simpleMatchHeap 1).heap 2).heap) 1

/-- The part of `submitOrder` that follows the construction of the order: the order is
entered in the arena and in the index, handed to the book of its symbol, and the trades
this made are applied to the ledgers. -/
def MatchingEngine.routeOrder (e : MatchingEngine) (symbol : String) (order : Order) :
    EngineResult Int :=
  let orderId := e.nextOrderId
  let e2 : MatchingEngine :=
    { e with nextOrderId := e.nextOrderId + 1,
             heap := e.heap.set orderId order,
             orders := mapInsert orderId orderId e.orders }
  let r := e2.getOrCreateOrderBook symbol
  let tradesBefore := r.2.getTrades.length
  let added := r.2.addOrder r.1.heap orderId
  let e3 :=
    { r.1 with heap := added.heap,
               orderBooks := mapInsert symbol added.book r.1.orderBooks }
  match added.outcome with
  | .threw err => { engine := e3, outcome := .threw err }
  | .outOfFuel => { engine := e3, outcome := .outOfFuel }
  | .returned _ =>
    let newTrades := added.book.getTrades.drop tradesBefore
    let r2 := e3.processTradeNotifications newTrades
    match r2.2 with
    | .threw err => { engine := r2.1, outcome := .threw err }
    | .outOfFuel => { engine := r2.1, outcome := .outOfFuel }
    | .returned _ => { engine := r2.1, outcome := .returned orderId }

/-- The conditions under which `submitOrder` fails before it hands an order to a book:
the trader is not registered, the pre-trade check fails, or the `Order` constructor
refuses the arguments. -/
def MatchingEngine.rejectsEarly (e : MatchingEngine) (traderId : Int) (symbol : String)
    (quantity price : ℚ) (side : OrderSide) (type : OrderType) : Prop :=
  match e.getTrader traderId with
  | none => True
  | some trader =>
    (side = .BUY ∧ trader.cash < quantity * price) ∨
    (side = .SELL ∧ trader.hasSufficientShares symbol quantity = false) ∨
    quantity ≤ 0 ∨ (type = .LIMIT ∧ price ≤ 0)

/-- Alice (id 1, 100 in cash) has two buys of 1 share at 100 resting, orders 1 and 2:
each passed the pre-trade check against the same 100. -/
def doubleSpendBefore : MatchingEngine :=
  ((sampleEngine.submitOrder 1 "X" 1 100 .BUY .LIMIT 1).engine.submitOrder
    1 "X" 1 100 .BUY .LIMIT 2).engine

/-- Bob then sells his 2 shares at 100. -/
def doubleSpendCall : EngineResult Int :=
  doubleSpendBefore.submitOrder 2 "X" 2 100 .SELL .LIMIT 3

/-- Alice (id 1) with 100000 in cash; Bob (id 2), who started with 1000 in cash and
bought 10 shares of X at 100. -/
def dustEngine : MatchingEngine :=
  ((MatchingEngine.new blankHeap).registerTrader (Trader.new 1 "Alice" 100000)).registerTrader
    (seededTrader 2 "Bob" 1000 "X" 10 100)

/-- Alice has two buys at 100 resting: order 1 for 9.9999999995 shares and order 2 for
1 share. -/
def dustBefore : MatchingEngine :=
  ((dustEngine.submitOrder 1 "X" (99999999995 / 10000000000) 100 .BUY .LIMIT
    1).engine.submitOrder 1 "X" 1 100 .BUY .LIMIT 2).engine

/-- Bob then sells his 10 shares at 100. -/
def dustCall : EngineResult Int := dustBefore.submitOrder 2 "X" 10 100 .SELL .LIMIT 3

/-- The ledger of a trader has non-negative cash and non-negative position quantities. -/
def Trader.nonneg (t : Trader) : Prop :=
  0 ≤ t.cash ∧ ∀ pk ∈ t.positions, 0 ≤ pk.2.quantity

/-- Every registered trader has a non-negative ledger. -/
def MatchingEngine.ledgersNonneg (e : MatchingEngine) : Prop :=
  ∀ kv ∈ e.traders, kv.2.nonneg

/-- Every order resting in a book of the engine has a non-negative price. -/
def MatchingEngine.restingPricesNonneg (e : MatchingEngine) : Prop :=
  ∀ bk ∈ e.orderBooks, ∀ p, (p ∈ bk.2.bids ∨ p ∈ bk.2.asks) → 0 ≤ (e.heap p).price

/-- The engine states reached from an engine that has traders with non-negative ledgers
registered and no book yet, through `submitOrder` calls (whether they return or throw)
for limit orders and for orders of any other type whose price is not negative,
`cancelOrder` calls and accepted `addCash` calls on registered traders. -/
inductive LedgerReach : MatchingEngine → Prop where
  | start (e : MatchingEngine) : e.ledgersNonneg → e.orderBooks = [] → LedgerReach e
  | submitOrder (e : MatchingEngine) (traderId : Int) (symbol : String) (quantity price : ℚ)
      (side : OrderSide) (type : OrderType) (now : Nat) :
    LedgerReach e → (type = .LIMIT ∨ 0 ≤ price) →
    LedgerReach (e.submitOrder traderId symbol quantity price side type now).engine
  | cancelOrder (e : MatchingEngine) (orderId : Int) :
    LedgerReach e → LedgerReach (e.cancelOrder orderId).engine
  | addCash (e : MatchingEngine) (traderId : Int) (trader trader1 : Trader) (amount : ℚ) :
    LedgerReach e → e.getTrader traderId = some trader →
    trader.addCash amount = .ok trader1 →
    LedgerReach { e with traders := mapInsert traderId trader1 e.traders }

/-- Bob offers 1 share at the price -20 as a market order (order 1, rests), and Alice
buys 1 share at -20 as a market order (order 2). -/
def negativePriceSale : EngineResult Int :=
  (sampleEngine.submitOrder 2 "X" 1 (-20) .SELL .MARKET 1).engine.submitOrder
    1 "X" 1 (-20) .BUY .MARKET 2

/-- Bob (id 2), who holds 2 shares of X, has two sells of 2 shares at 10 resting, orders 1
and 2: each passed the pre-trade check against the same 2 shares. -/
def doubleSellBefore : MatchingEngine :=
  ((sampleEngine.submitOrder 2 "X" 2 10 .SELL .LIMIT 1).engine.submitOrder
    2 "X" 2 10 .SELL .LIMIT 2).engine

/-- Alice (id 1, 100 in cash) then buys 4 shares at 10. -/
def doubleSellCall : EngineResult Int :=
  doubleSellBefore.submitOrder 1 "X" 4 10 .BUY .LIMIT 3

/-- A quantity that is a whole multiple of the epsilon of the ledger. -/
def onGrid (x : ℚ) : Prop := ∃ m : ℤ, x = m * positionEpsilon

/-- Bob's sell of 2 shares of X at 100 rests in the engine as order 1. -/
def restingSale : MatchingEngine := (sampleEngine.submitOrder 2 "X" 2 100 .SELL .LIMIT 1).engine

/-- The histories of an engine: `IssuedReach e ids` says that `e` is reached from a newly
constructed engine and that `ids` are the order ids that the `submitOrder` calls on the
way have returned, in the order of the calls. The steps are `registerTrader`, a
`submitOrder` call that returns an id, a `submitOrder` call that throws, `cancelOrder`,
and the calls that the holders of the shared `Trader` and `Order` objects make on them,
which change the ledgers or the arena in some way. -/
inductive IssuedReach : MatchingEngine → List Int → Prop where
  | start (heap : Heap) : IssuedReach (MatchingEngine.new heap) []
  | registerTrader (e : MatchingEngine) (ids : List Int) (trader : Trader) :
    IssuedReach e ids → IssuedReach (e.registerTrader trader) ids
  | submitReturned (e : MatchingEngine) (ids : List Int) (traderId : Int) (symbol : String)
      (quantity price : ℚ) (side : OrderSide) (type : OrderType) (now : Nat) (orderId : Int) :
    IssuedReach e ids →
    (e.submitOrder traderId symbol quantity price side type now).outcome = .returned orderId →
    IssuedReach (e.submitOrder traderId symbol quantity price side type now).engine
      (ids ++ [orderId])
  | submitFailed (e : MatchingEngine) (ids : List Int) (traderId : Int) (symbol : String)
      (quantity price : ℚ) (side : OrderSide) (type : OrderType) (now : Nat) :
    IssuedReach e ids →
    (∀ orderId, (e.submitOrder traderId symbol quantity price side type now).outcome
      ≠ .returned orderId) →
    IssuedReach (e.submitOrder traderId symbol quantity price side type now).engine ids
  | cancelOrder (e : MatchingEngine) (ids : List Int) (orderId : Int) :
    IssuedReach e ids → IssuedReach (e.cancelOrder orderId).engine ids
  | ledgers (e : MatchingEngine) (ids : List Int) (traders : List (Int × Trader)) :
    IssuedReach e ids → IssuedReach { e with traders := traders } ids
  | arena (e : MatchingEngine) (ids : List Int) (heap : Heap) :
    IssuedReach e ids → IssuedReach { e with heap := heap } ids

/-- The two priority queues hold live orders only: the state in which `addOrder` and
`cancelOrder` leave them when they return. -/
def OrderBook.allLive (b : OrderBook) (h : Heap) : Prop :=
  ∀ p, (p ∈ b.bids ∨ p ∈ b.asks) → (h p).isLive = true

/-- The order of the test `OrderBookTest.CancelOrder`: a buy 100@150 with the id 1. -/
def cancelTestHeap : Heap := fun _ => sampleOrder 1 100 150 .BUY

/-- The book of the test `OrderBookTest.CancelOrder` after `addOrder`. -/
def cancelTestBook : OrderBook := ((OrderBook.new "AAPL").addOrder cancelTestHeap 1).book

/-- The engine states reached from a newly constructed engine through `registerTrader`,
`submitOrder` (whether it returns or throws), `cancelOrder`, and the calls that the
holders of the shared `Trader` and `Order` objects make on them: the former change the
ledgers in some way, the latter (`addFill`, `setStatus`) change orders in some way that
keeps the fields assigned by the constructor only. -/
inductive EngineReach : MatchingEngine → Prop where
  | start (heap : Heap) : EngineReach (MatchingEngine.new heap)
  | registerTrader (e : MatchingEngine) (trader : Trader) :
    EngineReach e → EngineReach (e.registerTrader trader)
  | submitOrder (e : MatchingEngine) (traderId : Int) (symbol : String) (quantity price : ℚ)
      (side : OrderSide) (type : OrderType) (now : Nat) :
    EngineReach e →
    EngineReach (e.submitOrder traderId symbol quantity price side type now).engine
  | cancelOrder (e : MatchingEngine) (orderId : Int) :
    EngineReach e → EngineReach (e.cancelOrder orderId).engine
  | ledgers (e : MatchingEngine) (traders : List (Int × Trader)) :
    EngineReach e → EngineReach { e with traders := traders }
  | orderCalls (e : MatchingEngine) (heap : Heap) :
    EngineReach e → e.heap.sameIdentity heap → EngineReach { e with heap := heap }

/-- The test `OrderBookTest.SimpleMatchBuyAgainstSell`: the sell 100@150 (id 1) is added to
an empty book, then the buy 50@150 (id 2). -/
def simpleMatchResult : BookResult Unit :=
  ((OrderBook.new "AAPL").addOrder simpleMatchHeap 1).book.addOrder
    ((OrderBook.new "AAPL").addOrder simpleMatchHeap 1).heap 2

/-- Alice, constructed with 100 in cash, after a first buy of 0.0000000001 shares of X at
the price 1. -/
def dustHolder : Trader := seededTrader 1 "Alice" 100 "X" (1 / 10000000000) 1

/-- Bob, constructed with 100 in cash, after a buy of 1 share of X at the price 100. -/
def oneShareHolder : Trader := seededTrader 2 "Bob" 100 "X" 1 100

/-- Carol, constructed with 100 in cash, after a first buy of 0.0000000004 shares of X at
the price 2. -/
def smallHolder : Trader := seededTrader 3 "Carol" 100 "X" (4 / 10000000000) 2

/-- The first purchase of the test `TraderTest.AveragePriceCalculation`, 50 shares of AAPL
at 100, on a ledger constructed with 20000 in cash (the 10000 of the test's fixture do
not pay for its second purchase). -/
def averageTestHolder : Trader := seededTrader 1 "Alice" 20000 "AAPL" 50 100

/-- Dave, constructed with 10000 in cash, after a first buy of 0.00000000005 shares of
AAPL at 100. -/
def halfDustHolder : Trader := seededTrader 4 "Dave" 10000 "AAPL" (1 / 20000000000) 100

/-- The ledger states reached from a newly constructed trader through accepted
`onOrderFilled` calls whose quantity is at least the epsilon of the ledger. -/
inductive FillReach : Trader → Prop where
  | start (traderId : Int) (name : String) (initialCash : ℚ) :
    FillReach (Trader.new traderId name initialCash)
  | fill (t t1 : Trader) (symbol : String) (quantity price : ℚ) (isBuy : Bool) :
    FillReach t → positionEpsilon ≤ quantity →
    t.onOrderFilled symbol quantity price isBuy = .ok t1 → FillReach t1

/-- The book states reached from a newly constructed book through `addOrder` (whether it
returns or throws) and `cancelOrder`. The arena at the start is arbitrary: it holds the
orders that the calls are given, in whatever state their holders left them. -/
inductive BookReach : OrderBook → Heap → Prop where
  | start (symbol : String) (h : Heap) : BookReach (OrderBook.new symbol) h
  | addOrder (b : OrderBook) (h : Heap) (n : Ptr) :
    BookReach b h → BookReach (b.addOrder h n).book (b.addOrder h n).heap
  | cancelOrder (b : OrderBook) (h : Heap) (orderId : Int) :
    BookReach b h → BookReach (b.cancelOrder h orderId).book (b.cancelOrder h orderId).heap

/-- The orders of the test `OrderBookTest.AddMultipleBuyOrders`: buys 100@150, 50@155 and
75@145 at the addresses 1, 2 and 3. -/
def multipleBuysHeap : Heap := fun p =>
  if p = 1 then sampleOrder 1 100 150 .BUY
  else if p = 2 then sampleOrder 2 50 155 .BUY
  else sampleOrder 3 75 145 .BUY

/-- The test `OrderBookTest.AddMultipleBuyOrders`: the three buys are added to an empty
book. -/
def multipleBuys : BookResult Unit :=
  (((OrderBook.new "AAPL").addOrder multipleBuysHeap 1).book.addOrder
      ((OrderBook.new "AAPL").addOrder multipleBuysHeap 1).heap 2).book.addOrder
    (((OrderBook.new "AAPL").addOrder multipleBuysHeap 1).book.addOrder
      ((OrderBook.new "AAPL").addOrder multipleBuysHeap 1).heap 2).heap 3

/-- The orders of the test `OrderBookTest.NoMatchDueToPrice`: a buy 100@140 at the
address 1 and a sell 50@150 at the address 2. -/
def noMatchHeap : Heap := fun p =>
  if p = 1 then sampleOrder 1 100 140 .BUY else sampleOrder 2 50 150 .SELL

/-- The test `OrderBookTest.NoMatchDueToPrice`: the buy, then the sell, are added to an
empty book; both rest. -/
def noMatch : BookResult Unit :=
  ((OrderBook.new "AAPL").addOrder noMatchHeap 1).book.addOrder
    ((OrderBook.new "AAPL").addOrder noMatchHeap 1).heap 2

/-- A market buy of 100 shares constructed with the price 0 at the address 1 (the
constructor checks the price of limit orders only) and a limit sell 50@150 at the
address 2. -/
def marketBidHeap : Heap := fun p =>
  if p = 1 then { sampleOrder 1 100 0 .BUY with type := .MARKET }
  else sampleOrder 2 50 150 .SELL

/-- The market buy, then the limit sell, are added to an empty book; neither crosses the
other, both rest. -/
def marketBid : BookResult Unit :=
  ((OrderBook.new "AAPL").addOrder marketBidHeap 1).book.addOrder
    ((OrderBook.new "AAPL").addOrder marketBidHeap 1).heap 2

/-- What the matching loop of an incoming order `n` can have done to an order `r` that
was resting in the queue `q0` when the loop started in the arena `h`: nothing; or `r` is
complete; or `n` is complete and `r`, partially filled, was pushed back into the queue,
of which it had been the top entry. -/
def restingFate (h : Heap) (side : OrderSide) (q0 : List Ptr) (n r : Ptr) (s : MatchState) :
    Prop :=
  s.heap r = h r ∨ (s.heap r).isComplete = true ∨
    ((s.heap n).isComplete = true ∧ (s.heap r).status = .PARTIALLY_FILLED ∧
      ∃ rest, s.queue = pqPush s.heap r rest ∧ queueOrdered s.heap side (r :: rest) ∧
        ∀ y ∈ rest, y ∈ q0)

/-- Two sells 100@150 constructed at the same clock reading 5 (addresses 1 and 2), and
two buys 50@150 and 30@150 constructed later (addresses 3 and 4). -/
def tieHeap : Heap := fun p =>
  if p = 1 then { sampleOrder 1 100 150 .SELL with timestamp := 5 }
  else if p = 2 then { sampleOrder 2 100 150 .SELL with timestamp := 5 }
  else if p = 3 then { sampleOrder 3 50 150 .BUY with timestamp := 6 }
  else { sampleOrder 4 30 150 .BUY with timestamp := 7 }

/-- The two sells are added to an empty book, in the order of their ids. -/
def tieResting : BookResult Unit :=
  ((OrderBook.new "AAPL").addOrder tieHeap 1).book.addOrder
    ((OrderBook.new "AAPL").addOrder tieHeap 1).heap 2

/-- The buy 50@150 is added: it fills 50 of the sell with the id 1. -/
def tiePartial : BookResult Unit := tieResting.book.addOrder tieResting.heap 3

/-- The buy 30@150 is added next. -/
def tieNext : BookResult Unit := tiePartial.book.addOrder tiePartial.heap 4

/-- Two sells 100@150 constructed at the clock readings 1 and 2 (addresses 1 and 2), and
two buys 50@150 and 30@150 (addresses 3 and 4). -/
def partialFillHeap : Heap := fun p =>
  if p = 1 then sampleOrder 1 100 150 .SELL
  else if p = 2 then sampleOrder 2 100 150 .SELL
  else if p = 3 then sampleOrder 3 50 150 .BUY
  else sampleOrder 4 30 150 .BUY

/-- The two sells are added to an empty book. -/
def partialFillResting : BookResult Unit :=
  ((OrderBook.new "AAPL").addOrder partialFillHeap 1).book.addOrder
    ((OrderBook.new "AAPL").addOrder partialFillHeap 1).heap 2

/-- The ledger states reached from a newly constructed trader through `onOrderFilled`
calls with a quantity above 0; a call that throws leaves the ledger as it was. -/
inductive PositiveFillReach : Trader → Prop where
  | start (traderId : Int) (name : String) (initialCash : ℚ) :
    PositiveFillReach (Trader.new traderId name initialCash)
  | fill (t t1 : Trader) (symbol : String) (quantity price : ℚ) (isBuy : Bool) :
    PositiveFillReach t → 0 < quantity →
    t.onOrderFilled symbol quantity price isBuy = .ok t1 → PositiveFillReach t1
  | refused (t : Trader) (symbol : String) (quantity price : ℚ) (isBuy : Bool) (e : Error) :
    PositiveFillReach t → 0 < quantity →
    t.onOrderFilled symbol quantity price isBuy = .error e → PositiveFillReach t

/-- The condition under which `updatePositionOnTrade` runs its last branch
(`position.quantity = remainingQuantity; position.averagePrice = price;`): the symbol has
a position, the trade does not add to it in its own direction, and the remaining
quantity is neither within the epsilon of zero nor of the sign of the position. -/
def Trader.signFlips (t : Trader) (symbol : String) (quantity : ℚ) : Bool :=
  match mapFind t.positions symbol with
  | none => false
  | some position =>
    !decide ((position.quantity > 0 ∧ quantity > 0) ∨ (position.quantity < 0 ∧ quantity < 0)) &&
    !decide (|position.quantity + quantity| < positionEpsilon) &&
    !decide ((position.quantity > 0 ∧ position.quantity + quantity > 0) ∨
      (position.quantity < 0 ∧ position.quantity + quantity < 0))

/-- No bid of the book is priced at or above an ask of the book. -/
def OrderBook.neverCrossed (b : OrderBook) (h : Heap) : Prop :=
  ∀ x ∈ b.bids, ∀ y ∈ b.asks, (h x).price < (h y).price

/-- The record of a trade between the incoming order `n` and an order of the queue `q0`,
as `trades.emplace_back` builds it from the two orders of the arena `h`: the book's
symbol, and ids and trader ids of the buy order and of the sell order. -/
def tradeBetween (h : Heap) (symbol : String) (n : Ptr) (q0 : List Ptr) (t : Trade) : Prop :=
  t.symbol = symbol ∧ ∃ r ∈ q0,
    if (h n).isBuy then
      t.buyOrderId = (h n).orderId ∧ t.buyTraderId = (h n).traderId ∧
      t.sellOrderId = (h r).orderId ∧ t.sellTraderId = (h r).traderId
    else
      t.buyOrderId = (h r).orderId ∧ t.buyTraderId = (h r).traderId ∧
      t.sellOrderId = (h n).orderId ∧ t.sellTraderId = (h n).traderId

/-- The sum of the quantities of the trades of a log that name the order id as their buy
order or as their sell order. -/
def tradedQuantity (orderId : Int) (trades : List Trade) : ℚ :=
  (trades.map (fun t =>
    if t.buyOrderId = orderId ∨ t.sellOrderId = orderId then t.quantity else 0)).sum

/-- The test of the branch `asks_.pop(); continue;` (`bids_.pop(); continue;`) of the
matching loop in the loop state `s`: the loop condition holds and the top entry of the
opposite queue is complete or cancelled. -/
def takesSkip (n : Ptr) (s : MatchState) : Bool :=
  match s.queue with
  | [] => false
  | best :: _ =>
    !(s.heap n).isComplete &&
      ((s.heap best).isComplete || decide ((s.heap best).status = .CANCELLED))

/-- The book states reached from a newly constructed book through `addOrder` (whether it
returns or throws) and `cancelOrder`, together with the orders that `addOrder` has been
given; the arena at the start is arbitrary. -/
inductive AddedReach : OrderBook → Heap → List Ptr → Prop where
  | start (symbol : String) (h : Heap) : AddedReach (OrderBook.new symbol) h []
  | addOrder (b : OrderBook) (h : Heap) (given : List Ptr) (n : Ptr) :
    AddedReach b h given →
    AddedReach (b.addOrder h n).book (b.addOrder h n).heap (n :: given)
  | cancelOrder (b : OrderBook) (h : Heap) (given : List Ptr) (orderId : Int) :
    AddedReach b h given →
    AddedReach (b.cancelOrder h orderId).book (b.cancelOrder h orderId).heap given

/-- The book states reached from a newly constructed book through `cancelOrder` calls
and through `addOrder` calls that are each given a new order: an object that no earlier
call was given, as its constructor left it, with an id that no order given earlier has
(as `MatchingEngine::submitOrder` does). `h0` is the arena with all the orders as
constructed, `given` the orders that `addOrder` has been given so far. -/
inductive FreshReach (h0 : Heap) : OrderBook → Heap → List Ptr → Prop where
  | start (symbol : String) :
    (∀ p, ∃ orderId traderId sym quantity price side type now,
      Order.new orderId traderId sym quantity price side type now = .ok (h0 p)) →
    FreshReach h0 (OrderBook.new symbol) h0 []
  | addOrder (b : OrderBook) (h : Heap) (given : List Ptr) (n : Ptr) :
    FreshReach h0 b h given → n ∉ given →
    (∀ p ∈ given, (h0 p).orderId ≠ (h0 n).orderId) →
    FreshReach h0 (b.addOrder h n).book (b.addOrder h n).heap (n :: given)
  | cancelOrder (b : OrderBook) (h : Heap) (given : List Ptr) (orderId : Int) :
    FreshReach h0 b h given →
    FreshReach h0 (b.cancelOrder h orderId).book (b.cancelOrder h orderId).heap given

/-- The orders of the test `OrderBookTest.SimpleMatchSellAgainstBuy`: a buy 100@150 at
the address 1 and a sell 50@150 at the address 2. -/
def sellAgainstBuyHeap : Heap := fun p =>
  if p = 1 then sampleOrder 1 100 150 .BUY else sampleOrder 2 50 150 .SELL

/-- The test `OrderBookTest.SimpleMatchSellAgainstBuy`: the buy is added to an empty
book, then the sell, which fills 50 of the buy. -/
def sellAgainstBuy : BookResult Unit :=
  ((OrderBook.new "AAPL").addOrder sellAgainstBuyHeap 1).book.addOrder
    ((OrderBook.new "AAPL").addOrder sellAgainstBuyHeap 1).heap 2

/-- The sum of the cash balances of all registered traders. -/
def MatchingEngine.totalCash (e : MatchingEngine) : ℚ :=
  (e.traders.map (fun kv => kv.2.cash)).sum

/-- The engine states reached from a newly constructed engine through `registerTrader`,
`submitOrder` (whether it returns or throws), `cancelOrder`, and the calls that the
holders of the shared objects make on them: a call on a registered `Trader` changes that
ledger in some way, a call on an `Order` (`addFill`, `setStatus`) keeps the fields
assigned by the constructor. -/
inductive MarketReach : MatchingEngine → Prop where
  | start (heap : Heap) : MarketReach (MatchingEngine.new heap)
  | registerTrader (e : MatchingEngine) (trader : Trader) :
    MarketReach e → MarketReach (e.registerTrader trader)
  | submitOrder (e : MatchingEngine) (traderId : Int) (symbol : String) (quantity price : ℚ)
      (side : OrderSide) (type : OrderType) (now : Nat) :
    MarketReach e →
    MarketReach (e.submitOrder traderId symbol quantity price side type now).engine
  | cancelOrder (e : MatchingEngine) (orderId : Int) :
    MarketReach e → MarketReach (e.cancelOrder orderId).engine
  | ledgerCall (e : MatchingEngine) (traderId : Int) (t t1 : Trader) :
    MarketReach e → e.getTrader traderId = some t →
    MarketReach { e with traders := mapInsert traderId t1 e.traders }
  | orderCall (e : MatchingEngine) (heap : Heap) :
    MarketReach e → e.heap.sameIdentity heap → MarketReach { e with heap := heap }

/-- The registry of traders holds its entries under ascending ids (as a `std::map`
does), and every order resting in a book was issued by the engine for a trader that is
registered. -/
def MatchingEngine.ownersRegistered (e : MatchingEngine) : Prop :=
  e.traders.Pairwise (fun a b => a.1 < b.1) ∧
  ∀ bk ∈ e.orderBooks, ∀ p, (p ∈ bk.2.bids ∨ p ∈ bk.2.asks) →
    p < e.nextOrderId ∧ ∃ t, e.getTrader (e.heap p).traderId = some t

/-! ## The id counter as an `int`

`MatchingEngine.hpp` declares `int nextOrderId_`. The definitions above hold it in an
unbounded integer; the ones below hold it in 32 bits, two's complement, as the builds of
the repository do. -/

/-- The value that an `int` of 32 bits holds after it is assigned the number `x`
(two's complement: `INT_MAX + 1` is `INT_MIN`). -/
def wrapInt32 (x : Int) : Int := (x + 2147483648) % 4294967296 - 2147483648

/-- The private method `Trader::updatePositionOnTrade`, the closing test after
`positions_.erase(it)` included. -/
def Trader.updatePositionOnTradeRaw (t : Trader) (symbol : String) (quantity price : ℚ) :
    Option Trader :=
  match mapFind t.positions symbol with
  | none =>
    if quantity > 0 then
      some
        { t with positions := mapInsert symbol (Position.new symbol quantity price) t.positions }
    else some t
  | some position =>
    if (position.quantity > 0 ∧ quantity > 0) ∨ (position.quantity < 0 ∧ quantity < 0) then
      let totalCost := position.quantity * position.averagePrice + quantity * price
      let totalQuantity := position.quantity + quantity
      let p1 :=
        if totalQuantity ≠ 0 then { position with averagePrice := totalCost / totalQuantity }
        else position
      some (t.storePosition symbol { p1 with quantity := totalQuantity })
    else
      let remainingQuantity := position.quantity + quantity
      if |remainingQuantity| < positionEpsilon then
        if |position.quantity| < positionEpsilon then none
        else some { t with positions := mapErase t.positions symbol }
      else if (position.quantity > 0 ∧ remainingQuantity > 0) ∨
          (position.quantity < 0 ∧ remainingQuantity < 0) then
        some (t.storePosition symbol { position with quantity := remainingQuantity })
      else
        some (t.storePosition symbol
          { position with quantity := remainingQuantity, averagePrice := price })

/-- The method `Trader::onOrderFilled` over `updatePositionOnTradeRaw`: it returns, it
throws (both throws come before any assignment), or it has no defined result. -/
def Trader.onOrderFilledRaw (t : Trader) (symbol : String) (quantity price : ℚ)
    (isBuy : Bool) : Option (Except Error Trader) :=
  if isBuy then
    let cost := quantity * price
    if cost > t.cash then some (.error .InsufficientFunds)
    else
      match ({ t with cash := t.cash - cost }).updatePositionOnTradeRaw symbol quantity price with
      | none => none
      | some t1 => some (.ok t1)
  else
    if !t.hasSufficientShares symbol quantity then some (.error .InsufficientInventory)
    else
      match ({ t with cash := t.cash + quantity * price }).updatePositionOnTradeRaw
          symbol (-quantity) price with
      | none => none
      | some t1 => some (.ok t1)

/-- The states of a ledger reached from a newly constructed `Trader` through
`onOrderFilled` calls with a quantity above 0 that return or throw; a call without a
defined result ends the history. -/
inductive RawFillReach : Trader → Prop where
  | start (traderId : Int) (name : String) (initialCash : ℚ) :
    RawFillReach (Trader.new traderId name initialCash)
  | fill (t t1 : Trader) (symbol : String) (quantity price : ℚ) (isBuy : Bool) :
    RawFillReach t → 0 < quantity →
    t.onOrderFilledRaw symbol quantity price isBuy = some (.ok t1) → RawFillReach t1
  | refused (t : Trader) (symbol : String) (quantity price : ℚ) (isBuy : Bool) (e : Error) :
    RawFillReach t → 0 < quantity →
    t.onOrderFilledRaw symbol quantity price isBuy = some (.error e) → RawFillReach t

/-- Bob's sale of 0.9999999999 of his 1 share of X at 100. -/
def nearlyAllSale : Option (Except Error Trader) :=
  oneShareHolder.onOrderFilledRaw "X" (9999999999 / 10000000000) 100 false

/-- The operation `push` of `std::priority_queue<std::shared_ptr<Order>>`: the entry with
the greatest address is on top; the arena is not looked at. -/
def pqPushByAddress (h : Heap) (x : Ptr) : List Ptr → List Ptr
  | [] => [x]
  | y :: q => if y < x then x :: y :: q else y :: pqPushByAddress h x q

/-- One evaluation of the loop condition and one pass through the loop body of
`OrderBook::matchOrder`, for members with the insertion `push`. -/
def matchStepWith (push : Heap → Ptr → List Ptr → List Ptr) (symbol : String) (n : Ptr)
    (s : MatchState) : StepResult :=
  match s.queue with
  | [] => .exit s
  | best :: rest =>
    if (s.heap n).isComplete then .exit s
    else if (s.heap best).isComplete || decide ((s.heap best).status = .CANCELLED) then
      .next { s with queue := rest }
    else if crosses (s.heap n) (s.heap best) then
      let tradeQuantity :=
        min (s.heap n).getRemainingQuantity (s.heap best).getRemainingQuantity
      let tradePrice := (s.heap best).price
      match (s.heap n).addFill tradeQuantity with
      | .error e => .threw { s with queue := rest } e
      | .ok n1 =>
        let h1 := s.heap.set n n1
        match (h1 best).addFill tradeQuantity with
        | .error e => .threw { heap := h1, queue := rest, trades := s.trades } e
        | .ok b1 =>
          let h2 := h1.set best b1
          let t := mkTrade symbol (h2 n) (h2 best) tradeQuantity tradePrice
          let q := if (h2 best).isComplete then rest else push h2 best rest
          .next { heap := h2, queue := q, trades := s.trades ++ [t] }
    else .exit s

/-- The `while` loop of `OrderBook::matchOrder` for members with the insertion `push`, at
most `fuel` evaluations of its condition. -/
def matchLoopWith (push : Heap → Ptr → List Ptr → List Ptr) (symbol : String) (n : Ptr) :
    Nat → MatchState → MatchState × Outcome Unit
  | 0, s => (s, .outOfFuel)
  | fuel + 1, s =>
    match matchStepWith push symbol n s with
    | .exit s1 => (s1, .returned ())
    | .threw s1 e => (s1, .threw e)
    | .next s1 => matchLoopWith push symbol n fuel s1

/-- The private method `OrderBook::matchOrder` for members with the insertion `push`. -/
def OrderBook.matchOrderWith (push : Heap → Ptr → List Ptr → List Ptr) (b : OrderBook)
    (h : Heap) (n : Ptr) : MatchState × Outcome Unit :=
  matchLoopWith push b.symbol n ((b.opposite (h n)).length + 2)
    { heap := h, queue := b.opposite (h n), trades := [] }

/-- One of the two loops of `removeCompletedOrders` for scratch queues with the insertion
`scratch`: a live entry is pushed on the new queue, a terminal one has its id erased
from the index. -/
def OrderBook.purgeQueueWith (scratch : Heap → Ptr → List Ptr → List Ptr) (h : Heap) :
    List Ptr → List Ptr × List (Int × Ptr) → List Ptr × List (Int × Ptr)
  | [], acc => acc
  | p :: rest, (newQueue, m) =>
    if !(h p).isComplete && decide ((h p).status ≠ .CANCELLED) then
      purgeQueueWith scratch h rest (scratch h p newQueue, m)
    else purgeQueueWith scratch h rest (newQueue, mapErase m (h p).orderId)

/-- The private method `OrderBook::removeCompletedOrders` for scratch queues with the
insertion `scratch`; the members receive the scratch queues as they were built. -/
def OrderBook.removeCompletedOrdersWith (scratch : Heap → Ptr → List Ptr → List Ptr)
    (b : OrderBook) (h : Heap) : OrderBook :=
  let r1 := OrderBook.purgeQueueWith scratch h b.bids ([], b.orderMap)
  let r2 := OrderBook.purgeQueueWith scratch h b.asks ([], r1.2)
  { b with bids := r1.1, asks := r2.1, orderMap := r2.2 }

/-- The method `OrderBook::addOrder` for members with the insertion `push` and scratch
queues with the insertion `scratch`. -/
def OrderBook.addOrderWith (push scratch : Heap → Ptr → List Ptr → List Ptr)
    (b : OrderBook) (h : Heap) (n : Ptr) : BookResult Unit :=
  if (h n).symbol ≠ b.symbol then { book := b, heap := h, outcome := .threw .InvalidArgument }
  else
    let b1 := { b with orderMap := mapInsert (h n).orderId n b.orderMap }
    let r := OrderBook.matchOrderWith push b1 h n
    let b2 := b1.setOpposite (h n) r.1.queue
    match r.2 with
    | .threw e => { book := b2, heap := r.1.heap, outcome := .threw e }
    | .outOfFuel => { book := b2, heap := r.1.heap, outcome := .outOfFuel }
    | .returned _ =>
      let b3 := { b2 with trades := b2.trades ++ r.1.trades }
      let b4 :=
        if !(r.1.heap n).isComplete then
          if (r.1.heap n).isBuy then { b3 with bids := push r.1.heap n b3.bids }
          else { b3 with asks := push r.1.heap n b3.asks }
        else b3
      { book := OrderBook.removeCompletedOrdersWith scratch b4 r.1.heap, heap := r.1.heap,
        outcome := .returned () }

/-- The method `OrderBook::cancelOrder` for scratch queues with the insertion
`scratch`. -/
def OrderBook.cancelOrderWith (scratch : Heap → Ptr → List Ptr → List Ptr) (b : OrderBook)
    (h : Heap) (orderId : Int) : BookResult Bool :=
  match mapFind b.orderMap orderId with
  | some p =>
    let h1 := h.set p ((h p).setStatus .CANCELLED)
    let b1 := { b with orderMap := mapErase b.orderMap orderId }
    { book := OrderBook.removeCompletedOrdersWith scratch b1 h1, heap := h1,
      outcome := .returned true }
  | none => { book := b, heap := h, outcome := .returned false }

/-- The orders of the test `MatchingEngineTest.PriorityOrderMatching`, the first sell
(100 at 150) at the address 2, the second sell (100 at 149) at the address 1, the buy of
50 at 155 at the address 3. -/
def priorityHeap : Heap := fun p =>
  if p = 2 then sampleOrder 1 100 150 .SELL
  else if p = 1 then sampleOrder 2 100 149 .SELL
  else sampleOrder 3 50 155 .BUY

/-- The two sells of `priorityHeap` added to an empty book, the scratch queues typed as
in `OrderBook.cpp`, the members with the insertion `push`. -/
def priorityResting (push : Heap → Ptr → List Ptr → List Ptr) : BookResult Unit :=
  ((OrderBook.new "AAPL").addOrderWith push pqPushByAddress priorityHeap 2).book.addOrderWith
    push pqPushByAddress priorityHeap 1

/-- The buy of `priorityHeap` added after the two sells. -/
def priorityMatch (push : Heap → Ptr → List Ptr → List Ptr) : BookResult Unit :=
  (priorityResting push).book.addOrderWith push pqPushByAddress (priorityResting push).heap 3

/-- Two sells, 100 at 149 at the address 1 and 100 at 150 at the address 2, and a buy of
50 at 149 at the address 3. -/
def laterWorseHeap : Heap := fun p =>
  if p = 1 then sampleOrder 1 100 149 .SELL
  else if p = 2 then sampleOrder 2 100 150 .SELL
  else sampleOrder 3 50 149 .BUY

/-- The two sells of `laterWorseHeap` added to an empty book, the scratch queues typed as
in `OrderBook.cpp`, the members with the insertion `push`. -/
def laterWorseResting (push : Heap → Ptr → List Ptr → List Ptr) : BookResult Unit :=
  ((OrderBook.new "AAPL").addOrderWith push pqPushByAddress laterWorseHeap 1).book.addOrderWith
    push pqPushByAddress laterWorseHeap 2

/-- The buy of `laterWorseHeap` added after the two sells. -/
def laterWorseBuy (push : Heap → Ptr → List Ptr → List Ptr) : BookResult Unit :=
  (laterWorseResting push).book.addOrderWith push pqPushByAddress
    (laterWorseResting push).heap 3

/-- The orders of the test `OrderBookTest.AddMultipleSellOrders` (100 at 160, 50 at 155,
75 at 165), at the addresses 1, 2, 3. -/
def multipleSellsHeap : Heap := fun p =>
  if p = 1 then sampleOrder 1 100 160 .SELL
  else if p = 2 then sampleOrder 2 50 155 .SELL
  else sampleOrder 3 75 165 .SELL

/-- The test `OrderBookTest.AddMultipleSellOrders`, the scratch queues typed as in
`OrderBook.cpp`, the members with the insertion `push`. -/
def multipleSells (push : Heap → Ptr → List Ptr → List Ptr) : BookResult Unit :=
  (((OrderBook.new "AAPL").addOrderWith push pqPushByAddress multipleSellsHeap 1).book.addOrderWith
    push pqPushByAddress multipleSellsHeap 2).book.addOrderWith push pqPushByAddress
      multipleSellsHeap 3

/-- The test `OrderBookTest.AddMultipleBuyOrders` (100 at 150, 50 at 155, 75 at 145, at
the addresses 1, 2, 3), the scratch queues typed as in `OrderBook.cpp`, the members with
the insertion `push`. -/
def multipleBuysByAddress (push : Heap → Ptr → List Ptr → List Ptr) : BookResult Unit :=
  (((OrderBook.new "AAPL").addOrderWith push pqPushByAddress multipleBuysHeap 1).book.addOrderWith
    push pqPushByAddress multipleBuysHeap 2).book.addOrderWith push pqPushByAddress
      multipleBuysHeap 3

/-! ## Quantities as `double`

`Order.hpp` holds the quantity and the filled quantity of an order in a `double`. The
definitions above compute with them exactly. The ones below round the difference of
`getRemainingQuantity` and the sum of `addFill` as binary64 arithmetic does (round to
nearest, ties to even); a `double` is the rational number it stands for. Infinities and
NaN are not represented: the numbers are finite, and a result beyond the largest finite
`double` is left as the rounding gives it. -/

/-- The integer nearest to `x`; of two equally near ones the even one. -/
def roundHalfEven (x : ℚ) : ℤ :=
  if x - ⌊x⌋ < 1 / 2 then ⌊x⌋
  else if 1 / 2 < x - ⌊x⌋ then ⌊x⌋ + 1
  else if ⌊x⌋ % 2 = 0 then ⌊x⌋
  else ⌊x⌋ + 1

/-- The power `2 ^ e` for an integer exponent. -/
def twoPow (e : ℤ) : ℚ :=
  if 0 ≤ e then ((2 ^ e.toNat : ℕ) : ℚ) else 1 / ((2 ^ (-e).toNat : ℕ) : ℚ)

/-- The number of halvings that bring `n` below 2, at most `fuel` of them: the integer
part of the binary logarithm of `n` when `fuel` is at least `n`. -/
def floorLog2 : Nat → Nat → Nat
  | 0, _ => 0
  | fuel + 1, n => if n < 2 then 0 else floorLog2 fuel (n / 2) + 1

/-- The exponent `e` with `2 ^ e ≤ |x| < 2 ^ (e + 1)`, for `x ≠ 0`: the difference of the
binary logarithms of numerator and denominator, or one less. -/
def binade (x : ℚ) : ℤ :=
  if twoPow ((floorLog2 x.num.natAbs x.num.natAbs : ℤ) - (floorLog2 x.den x.den : ℤ)) ≤ |x| then
    (floorLog2 x.num.natAbs x.num.natAbs : ℤ) - (floorLog2 x.den x.den : ℤ)
  else (floorLog2 x.num.natAbs x.num.natAbs : ℤ) - (floorLog2 x.den x.den : ℤ) - 1

/-- The `double` that a computation with the exact result `x` yields: `x` rounded to 53
significant bits, and to a multiple of `2 ^ (-1074)` below `2 ^ (-1022)`. -/
def roundDouble (x : ℚ) : ℚ :=
  if x = 0 then 0
  else
    (roundHalfEven (x / twoPow (max (binade x) (-1022) - 52)) : ℚ) *
      twoPow (max (binade x) (-1022) - 52)

/-- The method `Order::getRemainingQuantity`, `quantity_ - filledQuantity_` in
`double`. -/
def Order.getRemainingQuantityDouble (o : Order) : ℚ :=
  roundDouble (o.quantity - o.filledQuantity)

/-- The method `Order::addFill` with the sum `filledQuantity_ + quantity` in `double`,
in the test and in the assignment. -/
def Order.addFillDouble (o : Order) (quantity : ℚ) : Except Error Order :=
  if quantity ≤ 0 then .error .InvalidArgument
  else if roundDouble (o.filledQuantity + quantity) > o.quantity then .error .InvalidArgument
  else
    let o1 := { o with filledQuantity := roundDouble (o.filledQuantity + quantity) }
    if o1.isComplete then .ok { o1 with status := .FILLED }
    else .ok { o1 with status := .PARTIALLY_FILLED }

/-- One evaluation of the loop condition and one pass through the loop body of
`OrderBook::matchOrder`, with the arithmetic of `double`. -/
def matchStepDouble (symbol : String) (n : Ptr) (s : MatchState) : StepResult :=
  match s.queue with
  | [] => .exit s
  | best :: rest =>
    if (s.heap n).isComplete then .exit s
    else if (s.heap best).isComplete || decide ((s.heap best).status = .CANCELLED) then
      .next { s with queue := rest }
    else if crosses (s.heap n) (s.heap best) then
      let tradeQuantity :=
        min (s.heap n).getRemainingQuantityDouble (s.heap best).getRemainingQuantityDouble
      let tradePrice := (s.heap best).price
      match (s.heap n).addFillDouble tradeQuantity with
      | .error e => .threw { s with queue := rest } e
      | .ok n1 =>
        let h1 := s.heap.set n n1
        match (h1 best).addFillDouble tradeQuantity with
        | .error e => .threw { heap := h1, queue := rest, trades := s.trades } e
        | .ok b1 =>
          let h2 := h1.set best b1
          let t := mkTrade symbol (h2 n) (h2 best) tradeQuantity tradePrice
          let q := if (h2 best).isComplete then rest else pqPush h2 best rest
          .next { heap := h2, queue := q, trades := s.trades ++ [t] }
    else .exit s

/-- The `while` loop of `OrderBook::matchOrder` with the arithmetic of `double`, at most
`fuel` evaluations of its condition. -/
def matchLoopDouble (symbol : String) (n : Ptr) :
    Nat → MatchState → MatchState × Outcome Unit
  | 0, s => (s, .outOfFuel)
  | fuel + 1, s =>
    match matchStepDouble symbol n s with
    | .exit s1 => (s1, .returned ())
    | .threw s1 e => (s1, .threw e)
    | .next s1 => matchLoopDouble symbol n fuel s1

/-- The private method `OrderBook::matchOrder` with the arithmetic of `double`; the loop
is given `fuel` evaluations of its condition (the outcome `outOfFuel` says that it has
not ended by then). -/
def OrderBook.matchOrderDouble (fuel : Nat) (b : OrderBook) (h : Heap) (n : Ptr) :
    MatchState × Outcome Unit :=
  matchLoopDouble b.symbol n fuel { heap := h, queue := b.opposite (h n), trades := [] }

/-- The method `OrderBook::addOrder` with the arithmetic of `double`. -/
def OrderBook.addOrderDouble (fuel : Nat) (b : OrderBook) (h : Heap) (n : Ptr) :
    BookResult Unit :=
  if (h n).symbol ≠ b.symbol then { book := b, heap := h, outcome := .threw .InvalidArgument }
  else
    let b1 := { b with orderMap := mapInsert (h n).orderId n b.orderMap }
    let r := OrderBook.matchOrderDouble fuel b1 h n
    let b2 := b1.setOpposite (h n) r.1.queue
    match r.2 with
    | .threw e => { book := b2, heap := r.1.heap, outcome := .threw e }
    | .outOfFuel => { book := b2, heap := r.1.heap, outcome := .outOfFuel }
    | .returned _ =>
      let b3 := { b2 with trades := b2.trades ++ r.1.trades }
      let b4 :=
        if !(r.1.heap n).isComplete then
          if (r.1.heap n).isBuy then { b3 with bids := pqPush r.1.heap n b3.bids }
          else { b3 with asks := pqPush r.1.heap n b3.asks }
        else b3
      { book := OrderBook.removeCompletedOrders b4 r.1.heap, heap := r.1.heap,
        outcome := .returned () }

/-- Two sells, of 1 - 2^-52 at 10 and of 10 at 11, and a buy of 3 + 2^-51 at 20. -/
def overfillHeap : Heap := fun p =>
  if p = 1 then sampleOrder 1 (1 - 1 / 4503599627370496) 10 .SELL
  else if p = 2 then sampleOrder 2 10 11 .SELL
  else sampleOrder 3 (3 + 1 / 2251799813685248) 20 .BUY

/-- The two sells of `overfillHeap` added to an empty book. -/
def overfillResting : BookResult Unit :=
  ((OrderBook.new "AAPL").addOrderDouble 10 overfillHeap 1).book.addOrderDouble 10
    overfillHeap 2

/-- The buy of `overfillHeap` added after the two sells. -/
def overfillBuy : BookResult Unit :=
  overfillResting.book.addOrderDouble 10 overfillResting.heap 3

/-- Two sells, of 1/2 + 2^-52 at 10 and of 10 at 11, and a buy of 3 + 2^-51 at 20. -/
def dustTradeHeap : Heap := fun p =>
  if p = 1 then sampleOrder 1 (1 / 2 + 1 / 4503599627370496) 10 .SELL
  else if p = 2 then sampleOrder 2 10 11 .SELL
  else sampleOrder 3 (3 + 1 / 2251799813685248) 20 .BUY

/-- The two sells of `dustTradeHeap` added to an empty book. -/
def dustTradeResting : BookResult Unit :=
  ((OrderBook.new "AAPL").addOrderDouble 10 dustTradeHeap 1).book.addOrderDouble 10
    dustTradeHeap 2

/-- The buy of `dustTradeHeap` added after the two sells. -/
def dustTradeBuy : BookResult Unit :=
  dustTradeResting.book.addOrderDouble 10 dustTradeResting.heap 3

/-- An order whose quantity and filled quantity are multiples `a * 2 ^ e` and
`b * 2 ^ e` of one power of two, with `b ≤ a < 2 ^ 52` and `-1074 ≤ e ≤ 971`: `double`
values on one grid (for `e = 0` the whole numbers below `2 ^ 52`, for `e = -10` the
multiples of 1/1024 below `2 ^ 42`). Every sum and difference of quantities that the
matching loop forms for orders on one grid is a multiple of `2 ^ e` below
`2 ^ 53 * 2 ^ e`, which `double` arithmetic computes without rounding. -/
def Order.onBinaryGrid (e : ℤ) (o : Order) : Prop :=
  -1074 ≤ e ∧ e ≤ 971 ∧
    ∃ a b : ℕ, o.quantity = a * twoPow e ∧ o.filledQuantity = b * twoPow e ∧ b ≤ a ∧
      a < 2 ^ 52

/-- The histories of `FreshReach` with the arithmetic of `double` and orders with
quantities on the grid of `2 ^ e`: every order is as its constructor made it, and each `addOrder`
is given an order not given before, with an id not given before. -/
inductive GridFreshReach (e : ℤ) (h0 : Heap) : OrderBook → Heap → List Ptr → Prop where
  | start (symbol : String) :
    (∀ p, ∃ orderId traderId sym quantity price side type now,
      Order.new orderId traderId sym quantity price side type now = .ok (h0 p)) →
    (∀ p, (h0 p).onBinaryGrid e) →
    GridFreshReach e h0 (OrderBook.new symbol) h0 []
  | addOrder (b : OrderBook) (h : Heap) (given : List Ptr) (n : Ptr) (fuel : Nat) :
    GridFreshReach e h0 b h given → n ∉ given →
    (∀ p ∈ given, (h0 p).orderId ≠ (h0 n).orderId) →
    (b.opposite (h n)).length + 2 ≤ fuel →
    GridFreshReach e h0 (b.addOrderDouble fuel h n).book (b.addOrderDouble fuel h n).heap
      (n :: given)
  | cancelOrder (b : OrderBook) (h : Heap) (given : List Ptr) (orderId : Int) :
    GridFreshReach e h0 b h given →
    GridFreshReach e h0 (b.cancelOrder h orderId).book (b.cancelOrder h orderId).heap given

/-- The history of `overfillBuy` under the conditions of `FreshReach`, with the
arithmetic of `double`: three orders as constructed, with distinct ids, each added
once. -/
inductive DoubleFreshReach (h0 : Heap) : OrderBook → Heap → List Ptr → Prop where
  | start (symbol : String) :
    (∀ p, ∃ orderId traderId sym quantity price side type now,
      Order.new orderId traderId sym quantity price side type now = .ok (h0 p)) →
    DoubleFreshReach h0 (OrderBook.new symbol) h0 []
  | addOrder (b : OrderBook) (h : Heap) (given : List Ptr) (n : Ptr) (fuel : Nat) :
    DoubleFreshReach h0 b h given → n ∉ given →
    (∀ p ∈ given, (h0 p).orderId ≠ (h0 n).orderId) →
    (b.opposite (h n)).length + 2 ≤ fuel →
    DoubleFreshReach h0 (b.addOrderDouble fuel h n).book (b.addOrderDouble fuel h n).heap
      (n :: given)
  | cancelOrder (b : OrderBook) (h : Heap) (given : List Ptr) (orderId : Int) :
    DoubleFreshReach h0 b h given →
    DoubleFreshReach h0 (b.cancelOrder h orderId).book (b.cancelOrder h orderId).heap given

/-- The loop state in which `addOrder` starts matching the buy of `dustTradeHeap`. -/
def dustTradeStart : MatchState :=
  { heap := dustTradeResting.heap, queue := dustTradeResting.book.asks, trades := [] }

/-- The loop state after the first pass for the buy of `dustTradeHeap`. -/
def dustTradeFirst : MatchState := (matchLoopDouble "AAPL" 3 1 dustTradeStart).1

/-- The loop state after the second pass for the buy of `dustTradeHeap`. -/
def dustTradeSecond : MatchState := (matchLoopDouble "AAPL" 3 2 dustTradeStart).1

/-- The test `OrderBookTest.SimpleMatchBuyAgainstSell` with the arithmetic of `double`:
the sell 100@150 added to an empty book. -/
def simpleMatchSellDouble : BookResult Unit :=
  (OrderBook.new "AAPL").addOrderDouble 2 simpleMatchHeap 1

/-- The test `OrderBookTest.SimpleMatchBuyAgainstSell` with the arithmetic of `double`:
the buy 50@150 added after the sell. -/
def simpleMatchBuyDouble : BookResult Unit :=
  simpleMatchSellDouble.book.addOrderDouble 3 simpleMatchSellDouble.heap 2

/-- A queue type keeps its entries: after a push the queue holds the new entry and the
entries it held before. -/
def pushKeepsEntries (push : Heap → Ptr → List Ptr → List Ptr) : Prop :=
  ∀ (h : Heap) (x : Ptr) (q : List Ptr) (p : Ptr), p ∈ push h x q ↔ p = x ∨ p ∈ q

/-- The representation invariant of a queue of one side whose type compares addresses:
every entry is an order of that side, and no entry has a lower address than an entry
behind it. -/
def queueByAddress (h : Heap) (side : OrderSide) (q : List Ptr) : Prop :=
  (∀ p ∈ q, (h p).side = side) ∧ q.Pairwise (fun x y => y ≤ x)

/-- The representation invariant of the two queues of a book as `removeCompletedOrders`
leaves them when its scratch queues compare addresses. -/
def OrderBook.wellFormedByAddress (b : OrderBook) (h : Heap) : Prop :=
  queueByAddress h .BUY b.bids ∧ queueByAddress h .SELL b.asks

/-- The two sells of `partialFillHeap` added to an empty book, the members typed as in
`OrderBook.hpp` and the scratch queues as in `OrderBook.cpp`. -/
def partialFillByAddress : BookResult Unit :=
  ((OrderBook.new "AAPL").addOrderWith pqPush pqPushByAddress partialFillHeap 1).book.addOrderWith
    pqPush pqPushByAddress partialFillHeap 2

/-- The book states reached from a newly constructed book through `addOrder` (whether it
returns or throws) and `cancelOrder`, for members with the insertion `push` and scratch
queues with the insertion `scratch`. -/
inductive BookReachWith (push scratch : Heap → Ptr → List Ptr → List Ptr) :
    OrderBook → Heap → Prop where
  | start (symbol : String) (h : Heap) : BookReachWith push scratch (OrderBook.new symbol) h
  | addOrder (b : OrderBook) (h : Heap) (n : Ptr) : BookReachWith push scratch b h →
    BookReachWith push scratch (b.addOrderWith push scratch h n).book
      (b.addOrderWith push scratch h n).heap
  | cancelOrder (b : OrderBook) (h : Heap) (orderId : Int) : BookReachWith push scratch b h →
    BookReachWith push scratch (b.cancelOrderWith scratch h orderId).book
      (b.cancelOrderWith scratch h orderId).heap

/-- The market buy and the limit sell of `marketBidHeap` added to an empty book, for
members with the insertion `push` and scratch queues with the insertion `scratch`. -/
def marketBidWith (push scratch : Heap → Ptr → List Ptr → List Ptr) : BookResult Unit :=
  ((OrderBook.new "AAPL").addOrderWith push scratch marketBidHeap 1).book.addOrderWith push
    scratch ((OrderBook.new "AAPL").addOrderWith push scratch marketBidHeap 1).heap 2

/-- The test `OrderBookTest.NoMatchDueToPrice`, for members with the insertion `push` and
scratch queues with the insertion `scratch`. -/
def noMatchWith (push scratch : Heap → Ptr → List Ptr → List Ptr) : BookResult Unit :=
  ((OrderBook.new "AAPL").addOrderWith push scratch noMatchHeap 1).book.addOrderWith push
    scratch ((OrderBook.new "AAPL").addOrderWith push scratch noMatchHeap 1).heap 2

/-! ## The ledger and `submitOrder` with the arithmetic of `double`

The definitions below put together what the sections above treat one at a time: every
sum, difference, product and quotient of the ledger is rounded to a `double`
(`roundDouble`, each operation on its own), the matching is `addOrderDouble`, the closing
test of `updatePositionOnTrade` reads through the erased iterator (`none` when the
position is erased a second time), and `nextOrderId_` is an `int` of 32 bits. Comparisons,
negation and `std::abs` are exact on `double` values. The queues have the type of
`OrderBook.hpp`. -/

/-- The literal `1e-9` of `updatePositionOnTrade` as the `double` it denotes. -/
def positionEpsilonDouble : ℚ := roundDouble positionEpsilon

/-- The closing test of `updatePositionOnTrade` on a position that is still in the map,
with the literal as a `double`. -/
def Trader.storePositionDouble (t : Trader) (symbol : String) (position : Position) :
    Trader :=
  if |position.quantity| < positionEpsilonDouble then
    { t with positions := mapErase t.positions symbol }
  else { t with positions := mapInsert symbol position t.positions }

/-- The private method `Trader::updatePositionOnTrade` with the arithmetic of `double`,
the closing test after `positions_.erase(it)` included. -/
def Trader.updatePositionOnTradeDouble (t : Trader) (symbol : String) (quantity price : ℚ) :
    Option Trader :=
  match mapFind t.positions symbol with
  | none =>
    if quantity > 0 then
      some
        { t with positions := mapInsert symbol (Position.new symbol quantity price) t.positions }
    else some t
  | some position =>
    if (position.quantity > 0 ∧ quantity > 0) ∨ (position.quantity < 0 ∧ quantity < 0) then
      let totalCost :=
        roundDouble (roundDouble (position.quantity * position.averagePrice) +
          roundDouble (quantity * price))
      let totalQuantity := roundDouble (position.quantity + quantity)
      let p1 :=
        if totalQuantity ≠ 0 then
          { position with averagePrice := roundDouble (totalCost / totalQuantity) }
        else position
      some (t.storePositionDouble symbol { p1 with quantity := totalQuantity })
    else
      let remainingQuantity := roundDouble (position.quantity + quantity)
      if |remainingQuantity| < positionEpsilonDouble then
        if |position.quantity| < positionEpsilonDouble then none
        else some { t with positions := mapErase t.positions symbol }
      else if (position.quantity > 0 ∧ remainingQuantity > 0) ∨
          (position.quantity < 0 ∧ remainingQuantity < 0) then
        some (t.storePositionDouble symbol { position with quantity := remainingQuantity })
      else
        some (t.storePositionDouble symbol
          { position with quantity := remainingQuantity, averagePrice := price })

/-- The method `Trader::onOrderFilled` with the arithmetic of `double`: it returns, it
throws (both throws come before any assignment), or it has no defined result. -/
def Trader.onOrderFilledDouble (t : Trader) (symbol : String) (quantity price : ℚ)
    (isBuy : Bool) : Option (Except Error Trader) :=
  if isBuy then
    let cost := roundDouble (quantity * price)
    if cost > t.cash then some (.error .InsufficientFunds)
    else
      match ({ t with cash := roundDouble (t.cash - cost) }).updatePositionOnTradeDouble
          symbol quantity price with
      | none => none
      | some t1 => some (.ok t1)
  else
    if !t.hasSufficientShares symbol quantity then some (.error .InsufficientInventory)
    else
      match ({ t with cash := roundDouble (t.cash + roundDouble (quantity * price)) }
          ).updatePositionOnTradeDouble symbol (-quantity) price with
      | none => none
      | some t1 => some (.ok t1)

/-- One of the two calls `getTrader(id)->onOrderFilled(...)` of
`processTradeNotifications`, skipped when the id is not registered (`if (buyer)`,
`if (seller)`), over `onOrderFilledDouble`. -/
def MatchingEngine.notifyTraderDouble (e : MatchingEngine) (traderId : Int) (trade : Trade)
    (isBuy : Bool) : Option (Except Error MatchingEngine) :=
  match e.getTrader traderId with
  | none => some (.ok e)
  | some t =>
    match t.onOrderFilledDouble trade.symbol trade.quantity trade.price isBuy with
    | none => none
    | some (.error err) => some (.error err)
    | some (.ok t1) => some (.ok { e with traders := mapInsert traderId t1 e.traders })

/-- The private method `processTradeNotifications` over `notifyTraderDouble`. -/
def MatchingEngine.processTradeNotificationsDouble :
    MatchingEngine → List Trade → Option (MatchingEngine × Outcome Unit)
  | e, [] => some (e, .returned ())
  | e, trade :: rest =>
    match e.notifyTraderDouble trade.buyTraderId trade true with
    | none => none
    | some (.error err) => some (e, .threw err)
    | some (.ok e1) =>
      match e1.notifyTraderDouble trade.sellTraderId trade false with
      | none => none
      | some (.error err) => some (e1, .threw err)
      | some (.ok e2) => processTradeNotificationsDouble e2 rest

/-- The method `MatchingEngine::submitOrder` with the arithmetic of `double`, the id
counter in 32 bits and the ledger pass `processTradeNotificationsDouble`: the state left
and how the call ended, or `none` when the call has no defined result. The matching loop
is given `fuel` evaluations of its condition. -/
def MatchingEngine.submitOrderDouble (fuel : Nat) (e : MatchingEngine) (traderId : Int)
    (symbol : String) (quantity price : ℚ) (side : OrderSide) (type : OrderType) (now : Nat) :
    Option (EngineResult Int) :=
  match e.getTrader traderId with
  | none => some { engine := e, outcome := .threw .TraderNotFound }
  | some trader =>
    if side = .BUY ∧ !trader.hasSufficientCash (roundDouble (quantity * price)) then
      some { engine := e, outcome := .threw .InsufficientFunds }
    else if side ≠ .BUY ∧ !trader.hasSufficientShares symbol quantity then
      some { engine := e, outcome := .threw .InsufficientInventory }
    else
      let orderId := e.nextOrderId
      let e1 := { e with nextOrderId := wrapInt32 (e.nextOrderId + 1) }
      match Order.new orderId traderId symbol quantity price side type now with
      | .error err => some { engine := e1, outcome := .threw err }
      | .ok order =>
        let e2 :=
          { e1 with heap := e1.heap.set orderId order,
                    orders := mapInsert orderId orderId e1.orders }
        let r := e2.getOrCreateOrderBook symbol
        let tradesBefore := r.2.getTrades.length
        let added := r.2.addOrderDouble fuel r.1.heap orderId
        let e3 :=
          { r.1 with heap := added.heap,
                     orderBooks := mapInsert symbol added.book r.1.orderBooks }
        match added.outcome with
        | .threw err => some { engine := e3, outcome := .threw err }
        | .outOfFuel => some { engine := e3, outcome := .outOfFuel }
        | .returned _ =>
          let newTrades := added.book.getTrades.drop tradesBefore
          match e3.processTradeNotificationsDouble newTrades with
          | none => none
          | some r2 =>
            match r2.2 with
            | .threw err => some { engine := r2.1, outcome := .threw err }
            | .outOfFuel => some { engine := r2.1, outcome := .outOfFuel }
            | .returned _ => some { engine := r2.1, outcome := .returned orderId }

/-- A call `addOrder(order)` on the book that `getOrderBook(symbol)` hands out, a
`std::shared_ptr<OrderBook>` to the engine's own book, by a holder of the engine; `p` is
the address of the caller's `Order` object. Without a book for the symbol `getOrderBook`
returns a null pointer and there is nothing to call. The engine does not hear of the
call: its index of orders and its ledgers stay as they are. -/
def MatchingEngine.addOrderThroughHandle (fuel : Nat) (e : MatchingEngine) (symbol : String)
    (p : Ptr) : MatchingEngine :=
  match e.getOrderBook symbol with
  | none => e
  | some orderBook =>
    { e with heap := (orderBook.addOrderDouble fuel e.heap p).heap,
             orderBooks :=
               mapInsert symbol (orderBook.addOrderDouble fuel e.heap p).book e.orderBooks }

/-- The registry of traders holds its entries under ascending ids (as a `std::map`
does), and every order that rests in a book belongs to a registered trader and lives at
an address other than the one at which `std::make_shared<Order>` places the next order
(the arena puts the order with the id `i` at the address `i`). -/
def MatchingEngine.restingOwnersRegistered (e : MatchingEngine) : Prop :=
  e.traders.Pairwise (fun a b => a.1 < b.1) ∧
  ∀ bk ∈ e.orderBooks, ∀ p ∈ bk.2.bids ++ bk.2.asks,
    p ≠ e.nextOrderId ∧ (e.getTrader (e.heap p).traderId).isSome = true

/-- The quantity of the order is a whole multiple `a` of `2^q`, its price a whole multiple
`k` of `2^d`, and `a * k` is below `2^53`: the product of a part of the quantity with the
price is a `double`. -/
def Order.valueOnGrid (q d : ℤ) (o : Order) : Prop :=
  ∃ a k : ℕ, o.quantity = a * twoPow q ∧ o.price = k * twoPow d ∧ a * k < 2 ^ 53

/-- The value `quantity * price` of the trade is a whole multiple of `2^g` below
`2^53 * 2^g`. -/
def Trade.valueOnGrid (g : ℤ) (t : Trade) : Prop :=
  ∃ v : ℕ, t.quantity * t.price = v * twoPow g ∧ v < 2 ^ 53

/-- The cash balance of every registered trader is a whole multiple of `2^g`, not below
zero, and their sum is below `2^53 * 2^g`: every balance between zero and the sum that
is a multiple of `2^g` is a `double`. -/
def MatchingEngine.cashOnGrid (e : MatchingEngine) (g : ℤ) : Prop :=
  -1074 ≤ g ∧ (∀ kt ∈ e.traders, ∃ m : ℕ, kt.2.cash = m * twoPow g) ∧
    e.totalCash < 2 ^ 53 * twoPow g

/-- An arena whose address 1000 holds a sell of 1 share of X at 100 by the trader 9,
constructed by a holder of the engine. -/
def outsideSellHeap : Heap := fun p =>
  if p = 1000 then
    { orderId := 77, traderId := 9, symbol := "X", quantity := 1, price := 100, side := .SELL,
      type := .LIMIT, status := .PENDING, filledQuantity := 0, timestamp := 1 }
  else blankHeap p

/-- Alice (id 1) is registered with 150 in cash and submits a buy of 1 share of X at 50,
which rests and brings the book of X into being. -/
def outsideSellBefore : Option (EngineResult Int) :=
  ((MatchingEngine.new outsideSellHeap).registerTrader
    (Trader.new 1 "Alice" 150)).submitOrderDouble 10 1 "X" 1 50 .BUY .LIMIT 2

/-- The holder adds the sell at the address 1000 through `getOrderBook("X")`; it rests.
The trader 9 is not registered. -/
def outsideSellResting : Option MatchingEngine :=
  outsideSellBefore.map (fun r => r.engine.addOrderThroughHandle 10 "X" 1000)

/-- Alice submits a buy of 1 share of X at 100, which trades with the sell of the
trader 9. -/
def outsideSellCall : Option (EngineResult Int) :=
  outsideSellResting.bind (fun e => e.submitOrderDouble 10 1 "X" 1 100 .BUY .LIMIT 3)

/-- Alice (id 1) with 10^17 in cash, Bob (id 2) with 8 in cash and 1 share of X, and
Bob's sell of 1 share of X at 8, which rests. -/
def largeCashResting : Option (EngineResult Int) :=
  (((MatchingEngine.new blankHeap).registerTrader
    (Trader.new 1 "Alice" 100000000000000000)).registerTrader
      { traderId := 2, name := "Bob", cash := 8,
        positions := [("X", Position.new "X" 1 8)] }).submitOrderDouble
          10 2 "X" 1 8 .SELL .LIMIT 1

/-- Alice submits a buy of 1 share of X at 8, which trades with Bob's sell. -/
def largeCashCall : Option (EngineResult Int) :=
  largeCashResting.bind (fun r => r.engine.submitOrderDouble 10 1 "X" 1 8 .BUY .LIMIT 2)

/-! ## Termination of the matching loop with the arithmetic of `double` -/

/-- The exponent of the unit in the last place that `roundDouble` rounds `x` to. -/
def ulpExponent (x : ℚ) : ℤ := max (binade x) (-1022) - 52

/-- The quantity and the filled quantity of the order are `double` values (rounding
leaves them as they are), and the filled quantity is not below zero. -/
def Order.inDouble (o : Order) : Prop :=
  roundDouble o.quantity = o.quantity ∧ roundDouble o.filledQuantity = o.filledQuantity ∧
    0 ≤ o.filledQuantity

/-- The number of steps of `2 ^ (-1074)`, the least distance between two `double`
values, that fit between the filled quantity and the quantity of the order. -/
def Order.stepsLeft (o : Order) : Nat :=
  ⌊(o.quantity - o.filledQuantity) / twoPow (-1074)⌋.toNat

/-- A bound on the number of evaluations of the loop condition that the matching loop
for the incoming order `n` still makes from the loop state `s`: every pass takes an
entry from the queue for good or moves the filled quantity of `n` or of the top entry
up by a step. -/
def loopMeasure (n : Ptr) (s : MatchState) : Nat :=
  (s.heap n).stepsLeft + (s.queue.map (fun p => (s.heap p).stepsLeft + 1)).sum

/-! # Properties -/

@[simp] theorem Heap.set_same (h : Heap) (p : Ptr) (o : Order) : (h.set p o) p = o := by
  simp [Heap.set]

theorem Heap.set_other (h : Heap) (p q : Ptr) (o : Order) (hne : q ≠ p) :
    (h.set p o) q = h q := by
  simp [Heap.set, hne]

theorem Heap.set_apply (h : Heap) (p q : Ptr) (o : Order) :
    (h.set p o) q = if q = p then o else h q := rfl

theorem Order.sameIdentity_refl (o : Order) : o.sameIdentity o := by
  simp [Order.sameIdentity]

theorem Order.sameIdentity_trans {a b c : Order} (h1 : a.sameIdentity b)
    (h2 : b.sameIdentity c) : a.sameIdentity c := by
  obtain ⟨a1, a2, a3, a4, a5, a6, a7, a8⟩ := h1
  obtain ⟨b1, b2, b3, b4, b5, b6, b7, b8⟩ := h2
  exact ⟨b1.trans a1, b2.trans a2, b3.trans a3, b4.trans a4, b5.trans a5, b6.trans a6,
    b7.trans a7, b8.trans a8⟩

theorem Order.isComplete_iff (o : Order) : o.isComplete = true ↔ o.quantity ≤ o.filledQuantity := by
  simp [Order.isComplete]

theorem Order.isComplete_false_iff (o : Order) :
    o.isComplete = false ↔ o.filledQuantity < o.quantity := by
  simp [Order.isComplete]

/-- What a successful `addFill` does. -/
theorem Order.addFill_ok {o o1 : Order} {q : ℚ} (h : o.addFill q = .ok o1) :
    0 < q ∧ o.filledQuantity + q ≤ o.quantity ∧ o1.filledQuantity = o.filledQuantity + q ∧
    o.sameIdentity o1 ∧
    o1.status = (if o.quantity ≤ o.filledQuantity + q then OrderStatus.FILLED
      else OrderStatus.PARTIALLY_FILLED) := by
  simp only [Order.addFill, Order.isComplete, ge_iff_le, decide_eq_true_eq] at h
  split_ifs at h with h1 h2 h3
  · injection h with h; subst h
    refine ⟨lt_of_not_ge h1, le_of_not_gt h2, rfl, ?_, ?_⟩
    · simp [Order.sameIdentity]
    · simp [h3]
  · injection h with h; subst h
    refine ⟨lt_of_not_ge h1, le_of_not_gt h2, rfl, ?_, ?_⟩
    · simp [Order.sameIdentity]
    · simp [h3]

/-- A failed `addFill` is one of the two guards. -/
theorem Order.addFill_error {o : Order} {q : ℚ} {e : Error} (h : o.addFill q = .error e) :
    e = .InvalidArgument ∧ (q ≤ 0 ∨ o.quantity < o.filledQuantity + q) := by
  simp only [Order.addFill, Order.isComplete, ge_iff_le, decide_eq_true_eq] at h
  split_ifs at h with h1 h2 h3
  · injection h with h; exact ⟨h.symm, Or.inl h1⟩
  · injection h with h; exact ⟨h.symm, Or.inr h2⟩

theorem Order.addFill_succeeds {o : Order} {q : ℚ} (hq : 0 < q)
    (hle : o.filledQuantity + q ≤ o.quantity) : ∃ o1, o.addFill q = .ok o1 := by
  simp only [Order.addFill]
  rw [if_neg (not_le.mpr hq), if_neg (not_lt.mpr hle)]
  split_ifs <;> exact ⟨_, rfl⟩

theorem matchStep_exit {symbol : String} {n : Ptr} {s s1 : MatchState}
    (h : matchStep symbol n s = .exit s1) : s1 = s := by
  unfold matchStep at h
  split at h
  · injection h with h; exact h.symm
  · simp only at h
    split_ifs at h
    · injection h with h; exact h.symm
    · split at h
      · cases h
      · split at h <;> cases h
    · injection h with h; exact h.symm

/-- The two ways in which a pass through the loop body leads to another evaluation of the
loop condition: a terminal entry was discarded, or a trade was made. -/
theorem matchStep_next {symbol : String} {n : Ptr} {s s1 : MatchState}
    (h : matchStep symbol n s = .next s1) :
    ∃ best rest, s.queue = best :: rest ∧ (s.heap n).isComplete = false ∧
      ((((s.heap best).isComplete = true ∨ (s.heap best).status = .CANCELLED) ∧
          s1 = { s with queue := rest }) ∨
       ((s.heap best).isComplete = false ∧ (s.heap best).status ≠ .CANCELLED ∧
         crosses (s.heap n) (s.heap best) = true ∧
         ∃ n1 b1,
           (s.heap n).addFill
             (min (s.heap n).getRemainingQuantity (s.heap best).getRemainingQuantity)
               = .ok n1 ∧
           ((s.heap.set n n1) best).addFill
             (min (s.heap n).getRemainingQuantity (s.heap best).getRemainingQuantity)
               = .ok b1 ∧
           s1 =
             { heap := (s.heap.set n n1).set best b1,
               queue :=
                 if (((s.heap.set n n1).set best b1) best).isComplete then rest
                 else pqPush ((s.heap.set n n1).set best b1) best rest,
               trades := s.trades ++
                 [mkTrade symbol (((s.heap.set n n1).set best b1) n)
                   (((s.heap.set n n1).set best b1) best)
                   (min (s.heap n).getRemainingQuantity (s.heap best).getRemainingQuantity)
                   (s.heap best).price] })) := by
  unfold matchStep at h
  split at h
  · cases h
  · rename_i best rest hq
    refine ⟨best, rest, hq, ?_⟩
    simp only at h
    split_ifs at h with h1 h2 h3
    · simp only [Bool.not_eq_true] at h1
      refine ⟨h1, Or.inl ⟨?_, ?_⟩⟩
      · simpa using h2
      · injection h with h; exact h.symm
    · simp only [Bool.not_eq_true] at h1
      simp only [Bool.or_eq_true, decide_eq_true_eq, not_or, Bool.not_eq_true] at h2
      refine ⟨h1, Or.inr ⟨h2.1, h2.2, h3, ?_⟩⟩
      split at h
      · cases h
      · rename_i n1 hn1
        split at h
        · cases h
        · rename_i b1 hb1
          injection h with h
          exact ⟨n1, b1, hn1, hb1, h.symm⟩

/-- The two ways in which a pass through the loop body throws: the fill of the incoming
order is refused, or the fill of the resting order is. -/
theorem matchStep_threw {symbol : String} {n : Ptr} {s s1 : MatchState} {e : Error}
    (h : matchStep symbol n s = .threw s1 e) :
    ∃ best rest, s.queue = best :: rest ∧ s1.queue = rest ∧ s1.trades = s.trades ∧
      (s.heap n).isComplete = false ∧ (s.heap best).isComplete = false ∧
      ((s1.heap = s.heap ∧
          (s.heap n).addFill
            (min (s.heap n).getRemainingQuantity (s.heap best).getRemainingQuantity)
              = .error e) ∨
        ∃ n1,
          (s.heap n).addFill
            (min (s.heap n).getRemainingQuantity (s.heap best).getRemainingQuantity)
              = .ok n1 ∧
          s1.heap = s.heap.set n n1 ∧
          ((s.heap.set n n1) best).addFill
            (min (s.heap n).getRemainingQuantity (s.heap best).getRemainingQuantity)
              = .error e) := by
  unfold matchStep at h
  split at h
  · cases h
  · rename_i best rest hq
    refine ⟨best, rest, hq, ?_⟩
    simp only at h
    split_ifs at h with h1 h2 h3
    simp only [Bool.not_eq_true] at h1
    simp only [Bool.or_eq_true, decide_eq_true_eq, not_or, Bool.not_eq_true] at h2
    split at h
    · rename_i e1 he1
      injection h with h h'
      subst h h'
      exact ⟨rfl, rfl, h1, h2.1, Or.inl ⟨rfl, he1⟩⟩
    · rename_i n1 hn1
      split at h
      · rename_i e1 he1
        injection h with h h'
        subst h h'
        exact ⟨rfl, rfl, h1, h2.1, Or.inr ⟨n1, hn1, rfl, he1⟩⟩
      · cases h

/-- A property of the loop state that every pass keeps holds when the loop ends, however
it ends. -/
theorem matchLoop_invariant (symbol : String) (n : Ptr) (I : MatchState → Prop)
    (hnext : ∀ s s1, I s → matchStep symbol n s = .next s1 → I s1)
    (hthrew : ∀ s s1 e, I s → matchStep symbol n s = .threw s1 e → I s1) :
    ∀ fuel s, I s → I (matchLoop symbol n fuel s).1 := by
  intro fuel
  induction fuel with
  | zero => intro s hs; simpa [matchLoop] using hs
  | succ k ih =>
    intro s hs
    unfold matchLoop
    split
    · rename_i s1 h1
      rw [matchStep_exit h1]; exact hs
    · rename_i s1 e h1
      exact hthrew s s1 e hs h1
    · rename_i s1 h1
      exact ih s1 (hnext s s1 hs h1)

theorem mem_pqPush {h : Heap} {x p : Ptr} {q : List Ptr} :
    p ∈ pqPush h x q ↔ p = x ∨ p ∈ q := by
  induction q with
  | nil => simp [pqPush]
  | cons y q ih =>
    unfold pqPush
    split_ifs
    · simp
    · simp only [List.mem_cons, ih]
      tauto

theorem Heap.identity_refl (h : Heap) : h.sameIdentity h :=
  fun p => Order.sameIdentity_refl (h p)

theorem Heap.identity_trans {a b c : Heap} (h1 : a.sameIdentity b)
    (h2 : b.sameIdentity c) : a.sameIdentity c :=
  fun p => Order.sameIdentity_trans (h1 p) (h2 p)

theorem Heap.identity_set {h : Heap} {p : Ptr} {o : Order}
    (ho : (h p).sameIdentity o) : h.sameIdentity (h.set p o) := by
  intro q
  by_cases hq : q = p
  · subst hq; simpa using ho
  · rw [Heap.set_other _ _ _ _ hq]; exact Order.sameIdentity_refl _

/-- In a pass that makes a trade the incoming order and the resting order are two
objects: were they one, its second fill would be refused. -/
theorem trade_distinct {o n1 b1 : Order} {q : ℚ} {n best : Ptr} {hp : Heap}
    (ho : hp n = o) (hinc : o.isComplete = false)
    (hq : q = min o.getRemainingQuantity (hp best).getRemainingQuantity)
    (h1 : o.addFill q = .ok n1) (h2 : ((hp.set n n1) best).addFill q = .ok b1) :
    best ≠ n := by
  intro hbn
  subst hbn
  rw [Heap.set_same] at h2
  obtain ⟨-, -, hf1, hid1, -⟩ := Order.addFill_ok h1
  obtain ⟨hq2, hle2, -, -, -⟩ := Order.addFill_ok h2
  rw [Order.isComplete_false_iff] at hinc
  rw [ho, min_self] at hq
  have hq1 : n1.quantity = o.quantity := hid1.2.2.2.1
  simp only [Order.getRemainingQuantity] at hq
  rw [hf1, hq1] at hle2
  linarith

/-- The state after a pass that makes a trade, read off the two fills. -/
theorem matchStep_trade_heap {n best : Ptr} {hp : Heap} {n1 b1 : Order} {q : ℚ}
    (hinc : (hp n).isComplete = false)
    (hq : q = min (hp n).getRemainingQuantity (hp best).getRemainingQuantity)
    (h1 : (hp n).addFill q = .ok n1) (h2 : ((hp.set n n1) best).addFill q = .ok b1) :
    best ≠ n ∧ (hp best).addFill q = .ok b1 ∧
      ((hp.set n n1).set best b1) n = n1 ∧ ((hp.set n n1).set best b1) best = b1 ∧
      ∀ p, p ≠ n → p ≠ best → ((hp.set n n1).set best b1) p = hp p := by
  have hne : best ≠ n := trade_distinct rfl hinc hq h1 h2
  refine ⟨hne, ?_, ?_, ?_, ?_⟩
  · rwa [Heap.set_other _ _ _ _ hne] at h2
  · rw [Heap.set_other _ _ _ _ (Ne.symm hne), Heap.set_same]
  · rw [Heap.set_same]
  · intro p hpn hpb
    rw [Heap.set_other _ _ _ _ hpb, Heap.set_other _ _ _ _ hpn]

/-- What a pass of the loop that appends a trade does to the two orders. -/
theorem matchStep_trade (symbol : String) (n : Ptr) (s s1 : MatchState) (t : Trade)
    (hstep : matchStep symbol n s = .next s1) (htrade : s1.trades = s.trades ++ [t]) :
    ∃ r rest, s.queue = r :: rest ∧
      t.quantity = min (s.heap n).getRemainingQuantity (s.heap r).getRemainingQuantity ∧
      (s1.heap n).getRemainingQuantity = (s.heap n).getRemainingQuantity - t.quantity ∧
      (s1.heap r).getRemainingQuantity = (s.heap r).getRemainingQuantity - t.quantity ∧
      (if (s.heap n).isBuy then
          t.buyOrderId = (s.heap n).orderId ∧ t.sellOrderId = (s.heap r).orderId
        else t.buyOrderId = (s.heap r).orderId ∧ t.sellOrderId = (s.heap n).orderId) := by
  obtain ⟨best, rest, hq, hinc, hcase⟩ := matchStep_next hstep
  refine ⟨best, rest, hq, ?_⟩
  rcases hcase with ⟨-, hs1⟩ | ⟨-, -, -, n1, b1, hn1, hb1, hs1⟩
  · subst hs1
    simp at htrade
  · obtain ⟨hne, hb1', hhn, hhb, -⟩ := matchStep_trade_heap hinc rfl hn1 hb1
    obtain ⟨-, -, hfn, hidn, -⟩ := Order.addFill_ok hn1
    obtain ⟨-, -, hfb, hidb, -⟩ := Order.addFill_ok hb1'
    subst hs1
    simp only [List.append_cancel_left_eq, List.cons.injEq, and_true] at htrade
    subst htrade
    simp only [hhn, hhb]
    have hnq : n1.quantity = (s.heap n).quantity := hidn.2.2.2.1
    have hbq : b1.quantity = (s.heap best).quantity := hidb.2.2.2.1
    have hnside : n1.side = (s.heap n).side := hidn.2.2.2.2.2.1
    have hn1buy : n1.isBuy = (s.heap n).isBuy := by simp [Order.isBuy, hnside]
    refine ⟨?_, ?_, ?_, ?_⟩
    · unfold mkTrade; split_ifs <;> rfl
    · have : (mkTrade symbol n1 b1
          (min (s.heap n).getRemainingQuantity (s.heap best).getRemainingQuantity)
          (s.heap best).price).quantity =
          min (s.heap n).getRemainingQuantity (s.heap best).getRemainingQuantity := by
        unfold mkTrade; split_ifs <;> rfl
      rw [this]
      simp only [Order.getRemainingQuantity, hfn, hnq]
      ring
    · have : (mkTrade symbol n1 b1
          (min (s.heap n).getRemainingQuantity (s.heap best).getRemainingQuantity)
          (s.heap best).price).quantity =
          min (s.heap n).getRemainingQuantity (s.heap best).getRemainingQuantity := by
        unfold mkTrade; split_ifs <;> rfl
      rw [this]
      simp only [Order.getRemainingQuantity, hfb, hbq]
      ring
    · unfold mkTrade
      rw [hn1buy]
      split_ifs
      · exact ⟨hidn.1, hidb.1⟩
      · exact ⟨hidb.1, hidn.1⟩

theorem OrderBook.removeCompletedOrders_trades (b : OrderBook) (h : Heap) :
    (b.removeCompletedOrders h).trades = b.trades := rfl

theorem OrderBook.removeCompletedOrders_symbol (b : OrderBook) (h : Heap) :
    (b.removeCompletedOrders h).symbol = b.symbol := rfl

theorem OrderBook.setOpposite_trades (b : OrderBook) (o : Order) (q : List Ptr) :
    (b.setOpposite o q).trades = b.trades := by
  unfold OrderBook.setOpposite; split_ifs <;> rfl

theorem OrderBook.setOpposite_symbol (b : OrderBook) (o : Order) (q : List Ptr) :
    (b.setOpposite o q).symbol = b.symbol := by
  unfold OrderBook.setOpposite; split_ifs <;> rfl

theorem OrderBook.setOpposite_orderMap (b : OrderBook) (o : Order) (q : List Ptr) :
    (b.setOpposite o q).orderMap = b.orderMap := by
  unfold OrderBook.setOpposite; split_ifs <;> rfl

/-- The trade log after `addOrder`: the trades of the matching loop are appended when the
call returns, and nothing is appended when it throws. -/
theorem OrderBook.addOrder_trades (b : OrderBook) (h : Heap) (n : Ptr) :
    (b.addOrder h n).book.trades = b.trades ∨
    ((b.addOrder h n).outcome = .returned () ∧
      (b.addOrder h n).book.trades = b.trades ++
        (matchOrder { b with orderMap := mapInsert (h n).orderId n b.orderMap } h n).1.trades) := by
  unfold OrderBook.addOrder
  split_ifs with hsym
  · exact Or.inl rfl
  · simp only
    split
    · left; simp [OrderBook.setOpposite_trades]
    · left; simp [OrderBook.setOpposite_trades]
    · right
      refine ⟨rfl, ?_⟩
      simp only [OrderBook.removeCompletedOrders_trades]
      split_ifs <;> simp [OrderBook.setOpposite_trades]

/-- Every pass of the loop keeps the identity fields of all orders. -/
theorem matchStep_next_sameIdentity {symbol : String} {n : Ptr} {s s1 : MatchState}
    (h : matchStep symbol n s = .next s1) : s.heap.sameIdentity s1.heap := by
  obtain ⟨best, rest, -, hinc, hcase⟩ := matchStep_next h
  rcases hcase with ⟨-, hs1⟩ | ⟨-, -, -, n1, b1, hn1, hb1, hs1⟩
  · subst hs1; exact Heap.identity_refl _
  · subst hs1
    obtain ⟨-, -, -, hidn, -⟩ := Order.addFill_ok hn1
    obtain ⟨-, -, -, hidb, -⟩ := Order.addFill_ok hb1
    exact Heap.identity_trans (Heap.identity_set hidn) (Heap.identity_set hidb)

theorem matchStep_threw_sameIdentity {symbol : String} {n : Ptr} {s s1 : MatchState}
    {e : Error} (h : matchStep symbol n s = .threw s1 e) : s.heap.sameIdentity s1.heap := by
  obtain ⟨best, rest, -, -, -, -, -, hcase⟩ := matchStep_threw h
  rcases hcase with ⟨hh, -⟩ | ⟨n1, hn1, hh, -⟩
  · rw [hh]; exact Heap.identity_refl _
  · rw [hh]
    obtain ⟨-, -, -, hidn, -⟩ := Order.addFill_ok hn1
    exact Heap.identity_set hidn

/-- The entries of the queue after a pass were in the queue before it. -/
theorem matchStep_next_queue {symbol : String} {n : Ptr} {s s1 : MatchState}
    (h : matchStep symbol n s = .next s1) : ∀ p ∈ s1.queue, p ∈ s.queue := by
  obtain ⟨best, rest, hq, -, hcase⟩ := matchStep_next h
  rcases hcase with ⟨-, hs1⟩ | ⟨-, -, -, n1, b1, -, -, hs1⟩
  · subst hs1; intro p hp; rw [hq]; exact List.mem_cons_of_mem _ hp
  · subst hs1
    intro p hp
    rw [hq]
    simp only at hp
    split_ifs at hp
    · exact List.mem_cons_of_mem _ hp
    · rcases mem_pqPush.mp hp with rfl | hp
      · exact List.mem_cons_self _ _
      · exact List.mem_cons_of_mem _ hp

theorem matchStep_threw_queue {symbol : String} {n : Ptr} {s s1 : MatchState} {e : Error}
    (h : matchStep symbol n s = .threw s1 e) : ∀ p ∈ s1.queue, p ∈ s.queue := by
  obtain ⟨best, rest, hq, hq1, -⟩ := matchStep_threw h
  intro p hp
  rw [hq]; rw [hq1] at hp
  exact List.mem_cons_of_mem _ hp

theorem matchLoop_restingPriced (symbol : String) (n : Ptr) (h : Heap) (q0 : List Ptr)
    (fuel : Nat) (s : MatchState) (hid : h.sameIdentity s.heap)
    (hq : ∀ p ∈ s.queue, p ∈ q0) (ht : ∀ t ∈ s.trades, restingPriced h n q0 t) :
    ∀ t ∈ (matchLoop symbol n fuel s).1.trades, restingPriced h n q0 t := by
  have key := matchLoop_invariant symbol n
    (fun s => h.sameIdentity s.heap ∧ (∀ p ∈ s.queue, p ∈ q0) ∧
      ∀ t ∈ s.trades, restingPriced h n q0 t) ?_ ?_ fuel s ⟨hid, hq, ht⟩
  · exact key.2.2
  · intro s s1 ⟨hid, hq, ht⟩ hstep
    refine ⟨Heap.identity_trans hid (matchStep_next_sameIdentity hstep),
      fun p hp => hq p (matchStep_next_queue hstep p hp), ?_⟩
    obtain ⟨best, rest, hqe, hinc, hcase⟩ := matchStep_next hstep
    rcases hcase with ⟨-, hs1⟩ | ⟨-, -, hcross, n1, b1, hn1, hb1, hs1⟩
    · subst hs1; exact ht
    · obtain ⟨hne, hb1', hhn, hhb, -⟩ := matchStep_trade_heap hinc rfl hn1 hb1
      obtain ⟨-, -, -, hidn, -⟩ := Order.addFill_ok hn1
      obtain ⟨-, -, -, hidb, -⟩ := Order.addFill_ok hb1'
      subst hs1
      intro t htm
      simp only [List.mem_append, List.mem_singleton] at htm
      rcases htm with htm | rfl
      · exact ht t htm
      · rw [hhn, hhb]
        have hbest : best ∈ q0 := hq best (by rw [hqe]; exact List.mem_cons_self _ _)
        have hsn := hid n
        have hsb := hid best
        have hnside : n1.side = (h n).side := hidn.2.2.2.2.2.1.trans hsn.2.2.2.2.2.1
        have hn1buy : n1.isBuy = (h n).isBuy := by simp [Order.isBuy, hnside]
        have hsbuy : (s.heap n).isBuy = (h n).isBuy := by
          simp [Order.isBuy, hsn.2.2.2.2.2.1]
        have hprice : (s.heap best).price = (h best).price := hsb.2.2.2.2.1
        have hnprice : (s.heap n).price = (h n).price := hsn.2.2.2.2.1
        have hbid : b1.orderId = (h best).orderId := hidb.1.trans hsb.1
        unfold restingPriced
        refine ⟨⟨best, hbest, ?_, ?_⟩, ?_⟩
        · unfold mkTrade; split_ifs <;> exact hprice
        · unfold mkTrade; rw [hn1buy]; split_ifs <;> exact hbid
        · unfold crosses at hcross
          rw [hsbuy] at hcross
          unfold mkTrade
          rw [hn1buy]
          split_ifs with hb
          · rw [if_pos hb] at hcross
            simp only [ge_iff_le, decide_eq_true_eq] at hcross
            show (s.heap best).price ≤ (h n).price
            rw [← hnprice]; exact hcross
          · rw [if_neg hb] at hcross
            simp only [decide_eq_true_eq] at hcross
            show (h n).price ≤ (s.heap best).price
            rw [← hnprice]; exact hcross
  · intro s s1 e ⟨hid, hq, ht⟩ hstep
    refine ⟨Heap.identity_trans hid (matchStep_threw_sameIdentity hstep),
      fun p hp => hq p (matchStep_threw_queue hstep p hp), ?_⟩
    obtain ⟨best, rest, -, -, htr, -⟩ := matchStep_threw hstep
    rw [htr]; exact ht

/-- C2 (price improvement). The trades that `addOrder` appends to the trade log each
carry the limit price of an order `r` that was resting in the opposite queue of the book
before the call, and name `r` as the counterparty of the incoming order; hence the trade
price is at most the incoming order's price when the incoming order is a buy and at
least that price when it is a sell, and differs from the incoming price whenever the two
limit prices differ. -/
theorem price_improvement (b : OrderBook) (h : Heap) (n : Ptr) :
    ∃ ts, (b.addOrder h n).book.trades = b.trades ++ ts ∧
      ∀ t ∈ ts,
        (∃ r ∈ b.opposite (h n), t.price = (h r).price ∧
          (if (h n).isBuy then t.sellOrderId else t.buyOrderId) = (h r).orderId ∧
          (t.price = (h n).price → (h r).price = (h n).price)) ∧
        (if (h n).isBuy then t.price ≤ (h n).price else (h n).price ≤ t.price) := by
  rcases OrderBook.addOrder_trades b h n with h0 | ⟨-, h1⟩
  · exact ⟨[], by simpa using h0, by simp⟩
  · refine ⟨_, h1, ?_⟩
    intro t ht
    have := matchLoop_restingPriced b.symbol n h (b.opposite (h n)) _ _
      (Heap.identity_refl h) (fun p hp => hp) (by simp) t ht
    obtain ⟨⟨r, hr, hp, hid⟩, hbound⟩ := this
    exact ⟨⟨r, hr, hp, hid, fun heq => hp ▸ heq⟩, hbound⟩

theorem Order.lt_iff (a b : Order) :
    a.lt b = true ↔
      (if a.side = .BUY then a.price < b.price else b.price < a.price) ∨
        (a.price = b.price ∧ b.timestamp < a.timestamp) := by
  unfold Order.lt
  by_cases hs : a.side = .BUY <;> by_cases hp : a.price = b.price <;>
    simp [hs, hp]

theorem Order.lt_congr {a a1 b b1 : Order} (ha : a.sameIdentity a1) (hb : b.sameIdentity b1) :
    a1.lt b1 = a.lt b := by
  obtain ⟨-, -, -, -, hap, has, -, hat⟩ := ha
  obtain ⟨-, -, -, -, hbp, -, -, hbt⟩ := hb
  unfold Order.lt
  rw [hap, has, hat, hbp, hbt]

/-- Among orders of one side the comparator is asymmetric. -/
theorem Order.lt_oneWay {a b : Order} (hs : a.side = b.side) (h : a.lt b = true) :
    b.lt a = false := by
  rw [← Bool.not_eq_true, Order.lt_iff]
  rw [Order.lt_iff] at h
  rw [← hs]
  intro h2
  by_cases hb : a.side = .BUY
  · simp only [hb, if_true] at h h2
    rcases h with h | ⟨h, h'⟩ <;> rcases h2 with h2 | ⟨h2, h2'⟩
    · exact lt_asymm h h2
    · rw [h2] at h; exact lt_irrefl _ h
    · rw [h] at h2; exact lt_irrefl _ h2
    · exact lt_asymm h' h2'
  · simp only [hb, if_false] at h h2
    rcases h with h | ⟨h, h'⟩ <;> rcases h2 with h2 | ⟨h2, h2'⟩
    · exact lt_asymm h h2
    · rw [h2] at h; exact lt_irrefl _ h
    · rw [h] at h2; exact lt_irrefl _ h2
    · exact lt_asymm h' h2'

/-- Among orders of one side the comparator is transitive. -/
theorem Order.lt_chain {a b c : Order} (hab : a.side = b.side)
    (h1 : a.lt b = true) (h2 : b.lt c = true) : a.lt c = true := by
  rw [Order.lt_iff] at h1 h2 ⊢
  rw [← hab] at h2
  by_cases hb : a.side = .BUY
  · simp only [hb, if_true] at h1 h2 ⊢
    rcases h1 with h1 | ⟨h1, h1'⟩ <;> rcases h2 with h2 | ⟨h2, h2'⟩
    · exact Or.inl (lt_trans h1 h2)
    · exact Or.inl (h2 ▸ h1)
    · exact Or.inl (h1 ▸ h2)
    · exact Or.inr ⟨h1.trans h2, lt_trans h2' h1'⟩
  · simp only [hb, if_false] at h1 h2 ⊢
    rcases h1 with h1 | ⟨h1, h1'⟩ <;> rcases h2 with h2 | ⟨h2, h2'⟩
    · exact Or.inl (lt_trans h2 h1)
    · exact Or.inl (h2 ▸ h1)
    · exact Or.inl (h1 ▸ h2)
    · exact Or.inr ⟨h1.trans h2, lt_trans h2' h1'⟩

theorem queueOrdered_congr {h h1 : Heap} (hid : h.sameIdentity h1) {side : OrderSide}
    {q : List Ptr} (hq : queueOrdered h side q) : queueOrdered h1 side q := by
  refine ⟨fun p hp => ?_, ?_⟩
  · rw [(hid p).2.2.2.2.2.1]; exact hq.1 p hp
  · refine hq.2.imp ?_
    intro x y hxy
    rw [Order.lt_congr (hid x) (hid y)]; exact hxy

theorem queueOrdered_tail {h : Heap} {side : OrderSide} {p : Ptr} {q : List Ptr}
    (hq : queueOrdered h side (p :: q)) : queueOrdered h side q :=
  ⟨fun x hx => hq.1 x (List.mem_cons_of_mem _ hx), (List.pairwise_cons.mp hq.2).2⟩

theorem queueOrdered_pqPush {h : Heap} {side : OrderSide} {x : Ptr} {q : List Ptr}
    (hq : queueOrdered h side q) (hx : (h x).side = side) :
    queueOrdered h side (pqPush h x q) := by
  refine ⟨fun p hp => ?_, ?_⟩
  · rcases mem_pqPush.mp hp with rfl | hp
    · exact hx
    · exact hq.1 p hp
  · induction q with
    | nil => simp [pqPush]
    | cons y q ih =>
      have hy : (h y).side = side := hq.1 y (List.mem_cons_self _ _)
      obtain ⟨hyq, hqq⟩ := List.pairwise_cons.mp hq.2
      unfold pqPush
      split_ifs with hlt
      · refine List.pairwise_cons.mpr ⟨?_, hq.2⟩
        intro z hz
        rcases List.mem_cons.mp hz with rfl | hz
        · exact Order.lt_oneWay (hy.trans hx.symm) hlt
        · by_contra hc
          rw [Bool.not_eq_false] at hc
          have := Order.lt_chain (hy.trans hx.symm) hlt hc
          rw [hyq z hz] at this
          cases this
      · refine List.pairwise_cons.mpr ⟨?_, ih (queueOrdered_tail hq)⟩
        intro z hz
        rcases mem_pqPush.mp hz with rfl | hz
        · simpa using hlt
        · exact hyq z hz

/-- A pass of the loop keeps the queue it works on ordered. -/
theorem matchStep_next_ordered {symbol : String} {n : Ptr} {s s1 : MatchState}
    {side : OrderSide} (h : matchStep symbol n s = .next s1)
    (hq : queueOrdered s.heap side s.queue) : queueOrdered s1.heap side s1.queue := by
  have hid := matchStep_next_sameIdentity h
  obtain ⟨best, rest, hqe, hinc, hcase⟩ := matchStep_next h
  rw [hqe] at hq
  rcases hcase with ⟨-, hs1⟩ | ⟨-, -, -, n1, b1, hn1, hb1, hs1⟩
  · subst hs1; exact queueOrdered_tail hq
  · subst hs1
    have hq1 := queueOrdered_congr hid hq
    simp only at hq1 ⊢
    split_ifs
    · exact queueOrdered_tail hq1
    · exact queueOrdered_pqPush (queueOrdered_tail hq1) (hq1.1 best (List.mem_cons_self _ _))

theorem LoopReach.sameIdentity {symbol : String} {n : Ptr} {s0 s : MatchState}
    (hr : LoopReach symbol n s0 s) : s0.heap.sameIdentity s.heap := by
  induction hr with
  | start => exact Heap.identity_refl _
  | step _ hstep ih => exact Heap.identity_trans ih (matchStep_next_sameIdentity hstep)

theorem LoopReach.ordered {symbol : String} {n : Ptr} {s0 s : MatchState} {side : OrderSide}
    (hr : LoopReach symbol n s0 s) (h0 : queueOrdered s0.heap side s0.queue) :
    queueOrdered s.heap side s.queue := by
  induction hr with
  | start => exact h0
  | step _ hstep ih => exact matchStep_next_ordered hstep ih

theorem OrderBook.wellFormed_opposite {b : OrderBook} {h : Heap} (hwf : b.wellFormed h)
    (o : Order) : queueOrdered h (oppositeSide o) (b.opposite o) := by
  unfold oppositeSide OrderBook.opposite
  split_ifs
  · exact hwf.2
  · exact hwf.1

/-- Price-time priority for the queue type of `OrderBook.hpp` (the scratch queues of
`removeCompletedOrders` carrying `OrderPtrCompare` too). Let the book be well formed
(each of its priority queues holds orders of its own side, ordered by the comparator).
Whenever the matching loop of `addOrder` makes a trade `t`, the order `r` it trades with
is the top entry of the opposite queue at that moment, `t` names `r`, and every other
entry `x` resting in that queue at that moment has a strictly worse price than `r`
(higher when `r` is a sell, lower when `r` is a buy), or the same price and a submission
instant not earlier than that of `r`. -/
theorem OrderBook.priority_of_ordered_queue (b : OrderBook) (h : Heap) (n : Ptr) (hwf : b.wellFormed h)
    (s s1 : MatchState) (t : Trade)
    (hreach : LoopReach b.symbol n { heap := h, queue := b.opposite (h n), trades := [] } s)
    (hstep : matchStep b.symbol n s = .next s1) (htrade : s1.trades = s.trades ++ [t]) :
    ∃ r rest, s.queue = r :: rest ∧
      (if (s.heap n).isBuy then t.sellOrderId else t.buyOrderId) = (s.heap r).orderId ∧
      ∀ x ∈ rest,
        (if (s.heap r).side = .SELL then (s.heap r).price < (s.heap x).price
          else (s.heap x).price < (s.heap r).price) ∨
        ((s.heap x).price = (s.heap r).price ∧
          (s.heap r).timestamp ≤ (s.heap x).timestamp) := by
  have hord : queueOrdered s.heap (oppositeSide (h n)) s.queue :=
    hreach.ordered (OrderBook.wellFormed_opposite hwf (h n))
  obtain ⟨r, rest, hq, -, -, -, hnames⟩ := matchStep_trade b.symbol n s s1 t hstep htrade
  refine ⟨r, rest, hq, ?_, ?_⟩
  · split_ifs with hb
    · rw [if_pos hb] at hnames; exact hnames.2
    · rw [if_neg hb] at hnames; exact hnames.1
  · intro x hx
    rw [hq] at hord
    have hnlt : (s.heap r).lt (s.heap x) = false := (List.pairwise_cons.mp hord.2).1 x hx
    rw [← Bool.not_eq_true, Order.lt_iff, not_or, not_and_or] at hnlt
    obtain ⟨hp, ht⟩ := hnlt
    by_cases hside : (s.heap r).side = .SELL
    · have hnb : (s.heap r).side ≠ .BUY := by rw [hside]; decide
      rw [if_neg hnb, not_lt] at hp
      rw [if_pos hside]
      rcases lt_or_eq_of_le hp with hlt | heq
      · exact Or.inl hlt
      · right
        refine ⟨heq.symm, ?_⟩
        rcases ht with ht | ht
        · exact absurd heq ht
        · exact not_lt.mp ht
    · have hb : (s.heap r).side = .BUY := by
        cases hsd : (s.heap r).side
        · rfl
        · exact absurd hsd hside
      rw [if_pos hb, not_lt] at hp
      rw [if_neg hside]
      rcases lt_or_eq_of_le hp with hlt | heq
      · exact Or.inl hlt
      · right
        refine ⟨heq, ?_⟩
        rcases ht with ht | ht
        · exact absurd heq.symm ht
        · exact not_lt.mp ht

theorem sampleBook_wellFormed : sampleBook.wellFormed sampleHeap := by
  refine ⟨⟨by simp [sampleBook], by simp [sampleBook]⟩, ⟨?_, ?_⟩⟩
  · with_unfolding_all decide
  · with_unfolding_all decide

theorem greedySweep_done (symbol : String) (incoming : Order) (Q acc : ℚ) (l : List Order)
    (h : ¬ acc < Q) : greedySweep symbol incoming Q acc l = [] := by
  cases l with
  | nil => rfl
  | cons a rest =>
    unfold greedySweep
    rw [if_neg (fun hc => h hc.2)]

theorem Order.isLive_iff (o : Order) :
    o.isLive = true ↔ o.isComplete = false ∧ o.status ≠ .CANCELLED := by
  simp [Order.isLive]

theorem Order.isBuy_iff (o : Order) : o.isBuy = true ↔ o.side = .BUY := by
  simp [Order.isBuy]

/-- When the incoming order is complete and the queue is not empty, the pass exits. -/
theorem matchStep_complete {symbol : String} {n : Ptr} {s : MatchState}
    (h : (s.heap n).isComplete = true) : matchStep symbol n s = .exit s := by
  unfold matchStep
  split
  · rfl
  · simp [h]

theorem matchLoop_complete {symbol : String} {n : Ptr} {s : MatchState} (fuel : Nat)
    (h : (s.heap n).isComplete = true) :
    matchLoop symbol n (fuel + 1) s = (s, .returned ()) := by
  unfold matchLoop
  rw [matchStep_complete h]

/-- The matching loop makes exactly the trades of the greedy sweep, and returns. -/
theorem matchLoop_greedySweep (symbol : String) (n : Ptr) (h : Heap) (Q : ℚ) :
    ∀ (q : List Ptr) (s : MatchState) (acc : ℚ) (fuel : Nat),
      s.queue = q → q.length + 2 ≤ fuel → (n :: q).Nodup →
      (∀ p ∈ q, s.heap p = h p) → (h n).sameIdentity (s.heap n) →
      (s.heap n).getRemainingQuantity = Q - acc →
      (matchLoop symbol n fuel s).2 = .returned () ∧
      (matchLoop symbol n fuel s).1.trades = s.trades ++
        greedySweep symbol (h n) Q acc ((q.filter (fun p => (h p).isLive)).map h) := by
  intro q
  induction q with
  | nil =>
    intro s acc fuel hq hfuel _ _ _ _
    obtain ⟨k, rfl⟩ : ∃ k, fuel = k + 1 := ⟨fuel - 1, by omega⟩
    have hstep : matchStep symbol n s = .exit s := by
      unfold matchStep; rw [hq]
    unfold matchLoop
    rw [hstep]
    simp [greedySweep]
  | cons best rest ih =>
    intro s acc fuel hq hfuel hnd hrest hid hrem
    obtain ⟨k, rfl⟩ : ∃ k, fuel = k + 1 := ⟨fuel - 1, by omega⟩
    simp only [List.length_cons] at hfuel
    have hbest : s.heap best = h best := hrest best (List.mem_cons_self _ _)
    have hne : best ≠ n := by
      intro hc
      rw [List.nodup_cons] at hnd
      exact hnd.1 (hc ▸ List.mem_cons_self _ _)
    have hndrest : (n :: rest).Nodup := by
      rw [List.nodup_cons] at hnd ⊢
      exact ⟨fun hc => hnd.1 (List.mem_cons_of_mem _ hc), (List.nodup_cons.mp hnd.2).2⟩
    have hbnotin : best ∉ rest := (List.nodup_cons.mp (List.nodup_cons.mp hnd).2).1
    by_cases hcomp : (s.heap n).isComplete = true
    · -- the incoming order is complete already
      rw [matchLoop_complete k hcomp]
      refine ⟨rfl, ?_⟩
      rw [greedySweep_done]
      · simp
      · rw [Order.isComplete_iff] at hcomp
        simp only [Order.getRemainingQuantity] at hrem
        intro hc; linarith
    · rw [Bool.not_eq_true] at hcomp
      have hacc : acc < Q := by
        rw [Order.isComplete_false_iff] at hcomp
        simp only [Order.getRemainingQuantity] at hrem
        linarith
      by_cases hlive : (h best).isLive = true
      · -- a live entry on top
        have hfilter : (best :: rest).filter (fun p => (h p).isLive) =
            best :: rest.filter (fun p => (h p).isLive) := by
          rw [List.filter_cons_of_pos]; simpa using hlive
        rw [hfilter, List.map_cons]
        obtain ⟨hbinc, hbstat⟩ := (Order.isLive_iff _).mp hlive
        have hside : (s.heap n).side = (h n).side := hid.2.2.2.2.2.1
        have hprice : (s.heap n).price = (h n).price := hid.2.2.2.2.1
        by_cases hcross : crosses (s.heap n) (s.heap best) = true
        · -- the prices cross: a trade
          have hremb : 0 < (h best).getRemainingQuantity := by
            rw [Order.isComplete_false_iff] at hbinc
            simp only [Order.getRemainingQuantity]; linarith
          have hremn : 0 < (s.heap n).getRemainingQuantity := by rw [hrem]; linarith
          have htq : 0 < min (s.heap n).getRemainingQuantity (h best).getRemainingQuantity :=
            lt_min hremn hremb
          obtain ⟨n1, hn1⟩ := Order.addFill_succeeds (o := s.heap n) htq (by
            have := min_le_left (s.heap n).getRemainingQuantity (h best).getRemainingQuantity
            simp only [Order.getRemainingQuantity] at this ⊢
            linarith)
          obtain ⟨b1, hb1⟩ := Order.addFill_succeeds (o := h best) htq (by
            have := min_le_right (s.heap n).getRemainingQuantity (h best).getRemainingQuantity
            simp only [Order.getRemainingQuantity] at this ⊢
            linarith)
          obtain ⟨-, -, hfn, hidn, -⟩ := Order.addFill_ok hn1
          obtain ⟨-, -, hfb, hidb, -⟩ := Order.addFill_ok hb1
          have hstep : matchStep symbol n s = .next
              { heap := (s.heap.set n n1).set best b1,
                queue := if b1.isComplete then rest
                  else pqPush ((s.heap.set n n1).set best b1) best rest,
                trades := s.trades ++ [mkTrade symbol n1 b1
                  (min (s.heap n).getRemainingQuantity (h best).getRemainingQuantity)
                  (h best).price] } := by
            unfold matchStep
            rw [hq]
            simp only [hcomp, hbest, hbinc, Bool.false_eq_true, if_false, Bool.false_or,
              decide_eq_true_eq, hbstat]
            rw [← hbest, if_pos hcross, hbest, hn1]
            simp only [Heap.set_other _ _ _ _ hne, hbest, hb1, Heap.set_same,
              Heap.set_other _ _ _ _ (Ne.symm hne)]
          have htrade : mkTrade symbol n1 b1
              (min (s.heap n).getRemainingQuantity (h best).getRemainingQuantity)
              (h best).price =
              (if (h n).side = .BUY then
                ({ buyOrderId := (h n).orderId, sellOrderId := (h best).orderId,
                   buyTraderId := (h n).traderId, sellTraderId := (h best).traderId,
                   symbol := symbol,
                   quantity := min (h best).getRemainingQuantity (Q - acc),
                   price := (h best).price } : Trade)
              else
                { buyOrderId := (h best).orderId, sellOrderId := (h n).orderId,
                  buyTraderId := (h best).traderId, sellTraderId := (h n).traderId,
                  symbol := symbol,
                  quantity := min (h best).getRemainingQuantity (Q - acc),
                  price := (h best).price }) := by
            have e1 : n1.orderId = (h n).orderId := hidn.1.trans hid.1
            have e2 : n1.traderId = (h n).traderId := hidn.2.1.trans hid.2.1
            have e3 : n1.side = (h n).side := hidn.2.2.2.2.2.1.trans hside
            unfold mkTrade
            simp only [Order.isBuy, e3, decide_eq_true_eq, e1, e2, hidb.1, hidb.2.1, hrem,
              min_comm (Q - acc)]
          have hcross' : (if (h n).side = .BUY then (h best).price ≤ (h n).price
              else (h n).price ≤ (h best).price) := by
            unfold crosses at hcross
            simp only [Order.isBuy, hside, hprice, hbest, decide_eq_true_eq, ge_iff_le] at hcross
            split_ifs at hcross ⊢ with hb
            · simpa using hcross
            · simpa using hcross
          have hsweep : greedySweep symbol (h n) Q acc
              (h best :: (rest.filter (fun p => (h p).isLive)).map h) =
              mkTrade symbol n1 b1
                (min (s.heap n).getRemainingQuantity (h best).getRemainingQuantity)
                (h best).price ::
              greedySweep symbol (h n) Q (acc + (h best).getRemainingQuantity)
                ((rest.filter (fun p => (h p).isLive)).map h) := by
            rw [htrade]
            conv_lhs => unfold greedySweep
            rw [if_pos ⟨hcross', hacc⟩]
          rw [hsweep]
          unfold matchLoop
          rw [hstep]
          by_cases hbc : b1.isComplete = true
          · -- the resting order is used up: the sweep goes on
            simp only [hbc, if_true]
            have hmin : min (s.heap n).getRemainingQuantity (h best).getRemainingQuantity =
                (h best).getRemainingQuantity := by
              rw [Order.isComplete_iff, hfb, hidb.2.2.2.1] at hbc
              have := min_le_right (s.heap n).getRemainingQuantity
                (h best).getRemainingQuantity
              simp only [Order.getRemainingQuantity] at this hbc ⊢
              linarith
            have := ih
              { heap := (s.heap.set n n1).set best b1, queue := rest,
                trades := s.trades ++ [mkTrade symbol n1 b1
                  (min (s.heap n).getRemainingQuantity (h best).getRemainingQuantity)
                  (h best).price] }
              (acc + (h best).getRemainingQuantity) k rfl (by omega) hndrest
              (by
                intro p hp
                have hpb : p ≠ best := fun hc => hbnotin (hc ▸ hp)
                have hpn : p ≠ n := fun hc =>
                  (List.nodup_cons.mp hndrest).1 (hc ▸ hp)
                simp only [Heap.set_other _ _ _ _ hpb, Heap.set_other _ _ _ _ hpn]
                exact hrest p (List.mem_cons_of_mem _ hp))
              (by
                simp only [Heap.set_other _ _ _ _ (Ne.symm hne), Heap.set_same]
                exact Order.sameIdentity_trans hid hidn)
              (by
                simp only [Heap.set_other _ _ _ _ (Ne.symm hne), Heap.set_same]
                simp only [Order.getRemainingQuantity, hfn, hidn.2.2.2.1] at hrem hmin ⊢
                linarith)
            refine ⟨this.1, ?_⟩
            rw [this.2]
            simp
          · -- the resting order keeps a remainder: the incoming order is complete
            rw [Bool.not_eq_true] at hbc
            simp only [hbc, Bool.false_eq_true, if_false]
            have hlt : (s.heap n).getRemainingQuantity < (h best).getRemainingQuantity := by
              rw [Order.isComplete_false_iff, hfb, hidb.2.2.2.1] at hbc
              by_contra hc
              rw [not_lt] at hc
              rw [min_eq_right hc] at hbc
              simp only [Order.getRemainingQuantity] at hbc
              linarith
            have hn1c : n1.isComplete = true := by
              rw [Order.isComplete_iff, hfn, hidn.2.2.2.1, min_eq_left hlt.le]
              simp only [Order.getRemainingQuantity]
              linarith
            obtain ⟨k', rfl⟩ : ∃ k', k = k' + 1 := ⟨k - 1, by omega⟩
            rw [matchLoop_complete k' (by
              simp only [Heap.set_other _ _ _ _ (Ne.symm hne), Heap.set_same]
              exact hn1c)]
            refine ⟨rfl, ?_⟩
            rw [greedySweep_done _ _ _ _ _ (by intro hc; rw [hrem] at hlt; linarith)]
        · -- the prices do not cross: the loop breaks
          have hstep : matchStep symbol n s = .exit s := by
            unfold matchStep
            rw [hq]
            simp only [hcomp, Bool.false_eq_true, if_false, hbest, hbinc, Bool.false_or,
              decide_eq_true_eq, hbstat]
            rw [← hbest, if_neg hcross]
          unfold matchLoop
          rw [hstep]
          refine ⟨rfl, ?_⟩
          have hcross' : ¬ (if (h n).side = .BUY then (h best).price ≤ (h n).price
              else (h n).price ≤ (h best).price) := by
            unfold crosses at hcross
            simp only [Order.isBuy, hside, hprice, hbest, decide_eq_true_eq, ge_iff_le] at hcross
            split_ifs at hcross ⊢ with hb
            · simpa using hcross
            · simpa using hcross
          conv_rhs => unfold greedySweep
          rw [if_neg (fun hc => hcross' hc.1)]
          simp
      · -- a terminal entry on top is discarded
        have hfilter : (best :: rest).filter (fun p => (h p).isLive) =
            rest.filter (fun p => (h p).isLive) := by
          rw [List.filter_cons_of_neg]; simpa using hlive
        rw [hfilter]
        have hterm : ((s.heap best).isComplete || decide ((s.heap best).status = .CANCELLED))
            = true := by
          rw [hbest]
          rw [Order.isLive_iff, not_and_or] at hlive
          rcases hlive with hl | hl
          · simp only [Bool.not_eq_false] at hl; simp [hl]
          · simp only [ne_eq, not_not] at hl; simp [hl]
        have hstep : matchStep symbol n s = .next { s with queue := rest } := by
          unfold matchStep
          rw [hq]
          simp only [hcomp, Bool.false_eq_true, if_false, hterm, if_true]
        unfold matchLoop
        rw [hstep]
        exact ih { s with queue := rest } acc k rfl (by omega) hndrest
          (fun p hp => hrest p (List.mem_cons_of_mem _ hp)) hid hrem

theorem length_pqPush (h : Heap) (x : Ptr) (q : List Ptr) :
    (pqPush h x q).length = q.length + 1 := by
  induction q with
  | nil => rfl
  | cons y q ih =>
    unfold pqPush
    split_ifs
    · rfl
    · simp [ih]

/-- In a pass that makes a trade, one of the two orders ends complete. -/
theorem trade_completes {o b n1 b1 : Order} {q : ℚ}
    (hq : q = min o.getRemainingQuantity b.getRemainingQuantity)
    (h1 : o.addFill q = .ok n1) (h2 : b.addFill q = .ok b1)
    (hb : b1.isComplete = false) : n1.isComplete = true := by
  obtain ⟨-, -, hfn, hidn, -⟩ := Order.addFill_ok h1
  obtain ⟨-, -, hfb, hidb, -⟩ := Order.addFill_ok h2
  rw [Order.isComplete_false_iff, hfb, hidb.2.2.2.1] at hb
  rw [Order.isComplete_iff, hfn, hidn.2.2.2.1]
  have hlt : o.getRemainingQuantity < b.getRemainingQuantity := by
    by_contra hc
    rw [not_lt] at hc
    rw [hq, min_eq_right hc] at hb
    simp only [Order.getRemainingQuantity] at hb
    linarith
  rw [hq, min_eq_left hlt.le]
  simp only [Order.getRemainingQuantity]
  linarith

/-- The loop ends within two evaluations of its condition more than the queue has
entries, whatever the state it starts in. -/
theorem matchLoop_terminates (symbol : String) (n : Ptr) :
    ∀ (fuel : Nat) (s : MatchState),
      (s.queue.length + 2 ≤ fuel ∨ ((s.heap n).isComplete = true ∧ 1 ≤ fuel)) →
      (matchLoop symbol n fuel s).2 ≠ .outOfFuel := by
  intro fuel
  induction fuel with
  | zero => intro s hs; omega
  | succ k ih =>
    intro s hs
    unfold matchLoop
    split
    · simp
    · simp
    · rename_i s1 hstep
      obtain ⟨best, rest, hq, hinc, hcase⟩ := matchStep_next hstep
      have hlen : rest.length + 3 ≤ k + 1 := by
        rcases hs with hs | ⟨hc, -⟩
        · rw [hq] at hs; simpa using hs
        · rw [hinc] at hc; cases hc
      rcases hcase with ⟨-, hs1⟩ | ⟨-, -, -, n1, b1, hn1, hb1, hs1⟩
      · subst hs1
        exact ih _ (Or.inl (by simp only; omega))
      · obtain ⟨hne, hb1', hhn, hhb, -⟩ := matchStep_trade_heap hinc rfl hn1 hb1
        subst hs1
        by_cases hbc : b1.isComplete = true
        · refine ih _ (Or.inl ?_)
          simp only [hhb, hbc, if_true]; omega
        · rw [Bool.not_eq_true] at hbc
          refine ih _ (Or.inr ⟨?_, by omega⟩)
          simp only [hhn]
          exact trade_completes rfl hn1 hb1' hbc

/-- A pass throws only when the incoming order is itself the top entry of the queue it is
matched against. -/
theorem matchStep_threw_alias {symbol : String} {n : Ptr} {s s1 : MatchState} {e : Error}
    (h : matchStep symbol n s = .threw s1 e) : ∃ rest, s.queue = n :: rest := by
  obtain ⟨best, rest, hq, -, -, hinc, hbinc, hcase⟩ := matchStep_threw h
  refine ⟨rest, ?_⟩
  rw [Order.isComplete_false_iff] at hinc hbinc
  have hmin1 := min_le_left (s.heap n).getRemainingQuantity (s.heap best).getRemainingQuantity
  have hmin2 := min_le_right (s.heap n).getRemainingQuantity (s.heap best).getRemainingQuantity
  have hpos : 0 < min (s.heap n).getRemainingQuantity (s.heap best).getRemainingQuantity := by
    apply lt_min <;> simp only [Order.getRemainingQuantity] <;> linarith
  simp only [Order.getRemainingQuantity] at hmin1 hmin2 hpos
  rcases hcase with ⟨-, herr⟩ | ⟨n1, hn1, -, herr⟩
  · obtain ⟨-, hbad⟩ := Order.addFill_error herr
    simp only [Order.getRemainingQuantity] at hbad
    rcases hbad with hbad | hbad <;> linarith
  · by_cases hbn : best = n
    · rw [hq, hbn]
    · rw [Heap.set_other _ _ _ _ hbn] at herr
      obtain ⟨-, hbad⟩ := Order.addFill_error herr
      simp only [Order.getRemainingQuantity] at hbad
      rcases hbad with hbad | hbad <;> linarith

/-- The loop does not throw when the incoming order is not in the queue it is matched
against. -/
theorem matchLoop_no_throw (symbol : String) (n : Ptr) :
    ∀ (fuel : Nat) (s : MatchState), n ∉ s.queue →
      ∀ e, (matchLoop symbol n fuel s).2 ≠ .threw e := by
  intro fuel
  induction fuel with
  | zero => intro s _ e; simp [matchLoop]
  | succ k ih =>
    intro s hs e
    unfold matchLoop
    split
    · simp
    · rename_i s1 e1 hstep
      obtain ⟨rest, hq⟩ := matchStep_threw_alias hstep
      exact absurd (hq ▸ List.mem_cons_self _ _) hs
    · rename_i s1 hstep
      exact ih s1 (fun hc => hs (matchStep_next_queue hstep n hc)) e

/-- When the loop returns, its last pass was an exit. -/
theorem matchLoop_returned_exit (symbol : String) (n : Ptr) :
    ∀ (fuel : Nat) (s : MatchState), (matchLoop symbol n fuel s).2 = .returned () →
      matchStep symbol n (matchLoop symbol n fuel s).1 = .exit (matchLoop symbol n fuel s).1 := by
  intro fuel
  induction fuel with
  | zero => intro s h; simp [matchLoop] at h
  | succ k ih =>
    intro s h
    cases hstep : matchStep symbol n s with
    | exit s1 =>
      simp only [matchLoop, hstep] at h ⊢
      have := matchStep_exit hstep
      subst this
      exact hstep
    | threw s1 e => simp [matchLoop, hstep] at h
    | next s1 =>
      simp only [matchLoop, hstep] at h ⊢
      exact ih s1 h

/-- What an exit means: the queue is empty, or the incoming order is complete, or the top
entry is live and its price does not cross. -/
theorem matchStep_exit_cases {symbol : String} {n : Ptr} {s : MatchState}
    (h : matchStep symbol n s = .exit s) :
    s.queue = [] ∨ (s.heap n).isComplete = true ∨
      ∃ best rest, s.queue = best :: rest ∧ (s.heap best).isLive = true ∧
        crosses (s.heap n) (s.heap best) = false := by
  unfold matchStep at h
  split at h
  · rename_i hq; exact Or.inl hq
  · rename_i best rest hq
    simp only at h
    split_ifs at h with h1 h2 h3
    · exact Or.inr (Or.inl h1)
    · split at h
      · cases h
      · split at h <;> cases h
    · right; right
      refine ⟨best, rest, hq, ?_, by simpa using h3⟩
      simp only [Bool.or_eq_true, decide_eq_true_eq, not_or, Bool.not_eq_true] at h2
      rw [Order.isLive_iff]
      exact ⟨h2.1, h2.2⟩

theorem mem_purgeQueue (h : Heap) (p : Ptr) :
    ∀ (q acc : List Ptr) (m : List (Int × Ptr)),
      p ∈ (OrderBook.purgeQueue h q (acc, m)).1 ↔ p ∈ acc ∨ (p ∈ q ∧ (h p).isLive = true) := by
  intro q
  induction q with
  | nil => intro acc m; simp [OrderBook.purgeQueue]
  | cons y q ih =>
    intro acc m
    unfold OrderBook.purgeQueue
    split_ifs with hl
    · rw [ih, mem_pqPush]
      have hy : (h y).isLive = true := by simpa [Order.isLive] using hl
      constructor
      · rintro ((rfl | h1) | ⟨h1, h2⟩)
        · exact Or.inr ⟨List.mem_cons_self _ _, hy⟩
        · exact Or.inl h1
        · exact Or.inr ⟨List.mem_cons_of_mem _ h1, h2⟩
      · rintro (h1 | ⟨h1, h2⟩)
        · exact Or.inl (Or.inr h1)
        · rcases List.mem_cons.mp h1 with rfl | h1
          · exact Or.inl (Or.inl rfl)
          · exact Or.inr ⟨h1, h2⟩
    · rw [ih]
      have hy : ¬ (h y).isLive = true := by simpa [Order.isLive] using hl
      constructor
      · rintro (h1 | ⟨h1, h2⟩)
        · exact Or.inl h1
        · exact Or.inr ⟨List.mem_cons_of_mem _ h1, h2⟩
      · rintro (h1 | ⟨h1, h2⟩)
        · exact Or.inl h1
        · rcases List.mem_cons.mp h1 with rfl | h1
          · exact absurd h2 hy
          · exact Or.inr ⟨h1, h2⟩

theorem OrderBook.mem_removeCompletedOrders_bids (b : OrderBook) (h : Heap) (p : Ptr) :
    p ∈ (b.removeCompletedOrders h).bids ↔ p ∈ b.bids ∧ (h p).isLive = true := by
  unfold OrderBook.removeCompletedOrders
  simp only
  rw [mem_purgeQueue]
  simp

theorem OrderBook.mem_removeCompletedOrders_asks (b : OrderBook) (h : Heap) (p : Ptr) :
    p ∈ (b.removeCompletedOrders h).asks ↔ p ∈ b.asks ∧ (h p).isLive = true := by
  unfold OrderBook.removeCompletedOrders
  simp only
  rw [mem_purgeQueue]
  simp

/-- What `addOrder` leaves when the symbol fits and the matching loop returns. -/
theorem OrderBook.addOrder_of_returned (b : OrderBook) (h : Heap) (n : Ptr) (s : MatchState)
    (hsym : (h n).symbol = b.symbol)
    (hs : matchLoop b.symbol n ((b.opposite (h n)).length + 2)
      { heap := h, queue := b.opposite (h n), trades := [] } = (s, .returned ())) :
    b.addOrder h n =
      { book := removeCompletedOrders
          (if !(s.heap n).isComplete then
            if (s.heap n).isBuy then
              { (({ b with orderMap := mapInsert (h n).orderId n b.orderMap } : OrderBook).setOpposite
                    (h n) s.queue) with
                trades := b.trades ++ s.trades,
                bids := pqPush s.heap n
                  (({ b with orderMap := mapInsert (h n).orderId n b.orderMap } : OrderBook).setOpposite
                    (h n) s.queue).bids }
            else
              { (({ b with orderMap := mapInsert (h n).orderId n b.orderMap } : OrderBook).setOpposite
                    (h n) s.queue) with
                trades := b.trades ++ s.trades,
                asks := pqPush s.heap n
                  (({ b with orderMap := mapInsert (h n).orderId n b.orderMap } : OrderBook).setOpposite
                    (h n) s.queue).asks }
          else
            { (({ b with orderMap := mapInsert (h n).orderId n b.orderMap } : OrderBook).setOpposite
                  (h n) s.queue) with
              trades := b.trades ++ s.trades }) s.heap,
        heap := s.heap, outcome := .returned () } := by
  have hm : matchOrder { b with orderMap := mapInsert (h n).orderId n b.orderMap } h n =
      (s, .returned ()) := hs
  unfold OrderBook.addOrder
  rw [if_neg (by simpa using hsym)]
  simp only [hm, OrderBook.setOpposite_trades]

/-- With exact arithmetic, `addOrder` for an incoming order `n` that carries the symbol of
the book, the entries of the opposite queue being distinct objects and none of them `n`,
returns and appends to the trade log exactly the trades of `greedySweep` over the live
entries of the opposite queue in queue order, for the quantity of `n` still to fill. -/
theorem OrderBook.addOrder_greedySweep (b : OrderBook) (h : Heap) (n : Ptr)
    (hsym : (h n).symbol = b.symbol) (hnd : (n :: b.opposite (h n)).Nodup) :
    (b.addOrder h n).outcome = .returned () ∧
    (b.addOrder h n).book.trades = b.trades ++
      greedySweep b.symbol (h n) (h n).getRemainingQuantity 0
        (((b.opposite (h n)).filter (fun p => (h p).isLive)).map h) := by
  have key := matchLoop_greedySweep b.symbol n h (h n).getRemainingQuantity
    (b.opposite (h n)) { heap := h, queue := b.opposite (h n), trades := [] } 0
    ((b.opposite (h n)).length + 2) rfl le_rfl hnd (fun _ _ => rfl)
    (Order.sameIdentity_refl _) (by simp)
  obtain ⟨s, hs⟩ : ∃ s, matchLoop b.symbol n ((b.opposite (h n)).length + 2)
      { heap := h, queue := b.opposite (h n), trades := [] } = (s, .returned ()) :=
    ⟨_, Prod.ext rfl key.1⟩
  rw [hs] at key
  rw [OrderBook.addOrder_of_returned b h n s hsym hs]
  refine ⟨rfl, ?_⟩
  rw [OrderBook.removeCompletedOrders_trades]
  have := key.2
  simp only [List.nil_append] at this
  rw [← this]
  split_ifs <;> rfl

theorem OrderBook.not_mem_opposite {b : OrderBook} {h : Heap} (hwf : b.wellFormed h)
    (n : Ptr) : n ∉ b.opposite (h n) := by
  intro hc
  have hside := (OrderBook.wellFormed_opposite hwf (h n)).1 n hc
  unfold oppositeSide Order.isBuy at hside
  by_cases hb : (h n).side = .BUY
  · simp [hb] at hside
  · simp [hb] at hside

/-- The facts about the loop state that the proof of maximal matching carries through the
loop. -/
theorem matchLoop_maximal_invariant (symbol : String) (n : Ptr) (h : Heap) (side : OrderSide)
    (fuel : Nat) (s : MatchState)
    (hid : h.sameIdentity s.heap) (hord : queueOrdered s.heap side s.queue)
    (hstat : (s.heap n).status ≠ .CANCELLED) (hn : n ∉ s.queue) :
    h.sameIdentity (matchLoop symbol n fuel s).1.heap ∧
    queueOrdered (matchLoop symbol n fuel s).1.heap side (matchLoop symbol n fuel s).1.queue ∧
    ((matchLoop symbol n fuel s).1.heap n).status ≠ .CANCELLED ∧
    n ∉ (matchLoop symbol n fuel s).1.queue := by
  refine matchLoop_invariant symbol n
    (fun s => h.sameIdentity s.heap ∧ queueOrdered s.heap side s.queue ∧
      (s.heap n).status ≠ .CANCELLED ∧ n ∉ s.queue) ?_ ?_ fuel s ⟨hid, hord, hstat, hn⟩
  · intro s s1 ⟨hid, hord, hstat, hn⟩ hstep
    refine ⟨Heap.identity_trans hid (matchStep_next_sameIdentity hstep),
      matchStep_next_ordered hstep hord, ?_,
      fun hc => hn (matchStep_next_queue hstep n hc)⟩
    obtain ⟨best, rest, -, hinc, hcase⟩ := matchStep_next hstep
    rcases hcase with ⟨-, hs1⟩ | ⟨-, -, -, n1, b1, hn1, hb1, hs1⟩
    · subst hs1; exact hstat
    · obtain ⟨-, -, hhn, -, -⟩ := matchStep_trade_heap hinc rfl hn1 hb1
      obtain ⟨-, -, -, -, hst⟩ := Order.addFill_ok hn1
      subst hs1
      simp only [hhn, hst]
      split_ifs <;> decide
  · intro s s1 e ⟨_, _, _, hn⟩ hstep
    obtain ⟨rest, hq⟩ := matchStep_threw_alias hstep
    exact absurd (hq ▸ List.mem_cons_self _ _) hn

/-- Behind a live top entry whose price does not cross, no entry of an ordered queue has
a price that crosses. -/
theorem no_cross_behind {hp : Heap} {side : OrderSide} {o : Order} {best : Ptr}
    {rest : List Ptr} (hside : side = oppositeSide o)
    (hord : queueOrdered hp side (best :: rest))
    (hcross : crosses o (hp best) = false) :
    ∀ x ∈ best :: rest,
      (if o.isBuy then o.price < (hp x).price else (hp x).price < o.price) := by
  have hb0 : (if o.isBuy then o.price < (hp best).price else (hp best).price < o.price) := by
    unfold crosses at hcross
    split_ifs at hcross ⊢ <;> simpa using hcross
  intro x hx
  rcases List.mem_cons.mp hx with rfl | hx
  · exact hb0
  · have hnlt : (hp best).lt (hp x) = false := (List.pairwise_cons.mp hord.2).1 x hx
    have hbs : (hp best).side = side := hord.1 best (List.mem_cons_self _ _)
    rw [← Bool.not_eq_true, Order.lt_iff, not_or] at hnlt
    obtain ⟨hprice, -⟩ := hnlt
    rw [hbs, hside] at hprice
    unfold oppositeSide at hprice
    by_cases hb : o.isBuy = true
    · simp only [hb, if_true] at hb0 hprice ⊢
      rw [if_neg (by decide), not_lt] at hprice
      exact lt_of_lt_of_le hb0 hprice
    · simp only [hb, Bool.false_eq_true, if_false, if_true, not_lt] at hb0 hprice ⊢
      exact lt_of_le_of_lt hprice hb0

/-- Matching is maximal for the queue type of `OrderBook.hpp` (the scratch queues of
`removeCompletedOrders` carrying `OrderPtrCompare` too). Let the book be well formed, let
the incoming order `n` carry the symbol of the book, not be cancelled and not be in the
queue of its own side yet. Then `addOrder` returns, and afterwards either `n` is complete
and is not in the queue of its own side, or `n` is in the queue of its own side and no
live entry of the opposite queue has a price that crosses the limit of `n`: for a buy
every live ask is priced above the limit, for a sell every live bid is priced below
it. -/
theorem OrderBook.addOrder_maximal (b : OrderBook) (h : Heap) (n : Ptr)
    (hwf : b.wellFormed h) (hsym : (h n).symbol = b.symbol)
    (hnew : n ∉ b.own (h n)) (hstat : (h n).status ≠ .CANCELLED) :
    (b.addOrder h n).outcome = .returned () ∧
    ((((b.addOrder h n).heap n).isComplete = true ∧ n ∉ (b.addOrder h n).book.own (h n)) ∨
      (n ∈ (b.addOrder h n).book.own (h n) ∧
        ∀ x ∈ (b.addOrder h n).book.opposite (h n),
          ((b.addOrder h n).heap x).isLive = true →
          (if (h n).isBuy then (h n).price < ((b.addOrder h n).heap x).price
            else ((b.addOrder h n).heap x).price < (h n).price))) := by
  have hopp : n ∉ b.opposite (h n) := OrderBook.not_mem_opposite hwf n
  have hterm := matchLoop_terminates b.symbol n ((b.opposite (h n)).length + 2)
    { heap := h, queue := b.opposite (h n), trades := [] } (Or.inl le_rfl)
  have hnothrow := matchLoop_no_throw b.symbol n ((b.opposite (h n)).length + 2)
    { heap := h, queue := b.opposite (h n), trades := [] } hopp
  obtain ⟨s, hs⟩ : ∃ s, matchLoop b.symbol n ((b.opposite (h n)).length + 2)
      { heap := h, queue := b.opposite (h n), trades := [] } = (s, .returned ()) := by
    refine ⟨_, Prod.ext rfl ?_⟩
    cases hout : (matchLoop b.symbol n ((b.opposite (h n)).length + 2)
      { heap := h, queue := b.opposite (h n), trades := [] }).2 with
    | returned u => rfl
    | threw e => exact absurd hout (hnothrow e)
    | outOfFuel => exact absurd hout hterm
  have hinv := matchLoop_maximal_invariant b.symbol n h (oppositeSide (h n))
    ((b.opposite (h n)).length + 2) { heap := h, queue := b.opposite (h n), trades := [] }
    (Heap.identity_refl h) (OrderBook.wellFormed_opposite hwf (h n)) hstat hopp
  have hexit := matchLoop_returned_exit b.symbol n ((b.opposite (h n)).length + 2)
    { heap := h, queue := b.opposite (h n), trades := [] } (by rw [hs])
  rw [hs] at hinv hexit
  obtain ⟨hid, hord, hst, hnq⟩ := hinv
  simp only at hid hord hst hnq hexit
  rw [OrderBook.addOrder_of_returned b h n s hsym hs]
  refine ⟨rfl, ?_⟩
  have hside : (s.heap n).side = (h n).side := (hid n).2.2.2.2.2.1
  have hprice : (s.heap n).price = (h n).price := (hid n).2.2.2.2.1
  have hbuy : (s.heap n).isBuy = (h n).isBuy := by simp [Order.isBuy, hside]
  simp only [hbuy]
  by_cases hb : (h n).isBuy = true
  · -- an incoming buy: own queue `bids`, opposite queue `asks`
    simp only [OrderBook.own, OrderBook.opposite, OrderBook.setOpposite, hb, if_true] at hnew ⊢
    by_cases hc : (s.heap n).isComplete = true
    · left
      refine ⟨hc, ?_⟩
      simp only [hc, Bool.not_true, Bool.false_eq_true, if_false]
      rw [OrderBook.mem_removeCompletedOrders_bids]
      exact fun hmem => hnew hmem.1
    · right
      rw [Bool.not_eq_true] at hc
      simp only [hc, Bool.not_false, if_true]
      refine ⟨?_, ?_⟩
      · rw [OrderBook.mem_removeCompletedOrders_bids]
        exact ⟨mem_pqPush.mpr (Or.inl rfl), (Order.isLive_iff _).mpr ⟨hc, hst⟩⟩
      · intro x hx hlive
        rw [OrderBook.mem_removeCompletedOrders_asks] at hx
        rcases matchStep_exit_cases hexit with hq | hcomp | ⟨best, rest, hq, -, hcr⟩
        · simp only at hx; rw [hq] at hx; exact absurd hx.1 (List.not_mem_nil _)
        · rw [hc] at hcomp; cases hcomp
        · rw [hq] at hord
          have := no_cross_behind (o := s.heap n)
            (by unfold oppositeSide; rw [hbuy]) hord hcr x (by simpa [hq] using hx.1)
          rw [hbuy, if_pos hb, hprice] at this
          exact this
  · -- an incoming sell: own queue `asks`, opposite queue `bids`
    simp only [OrderBook.own, OrderBook.opposite, OrderBook.setOpposite, hb,
      Bool.false_eq_true, if_false] at hnew ⊢
    by_cases hc : (s.heap n).isComplete = true
    · left
      refine ⟨hc, ?_⟩
      simp only [hc, Bool.not_true, Bool.false_eq_true, if_false]
      rw [OrderBook.mem_removeCompletedOrders_asks]
      exact fun hmem => hnew hmem.1
    · right
      rw [Bool.not_eq_true] at hc
      simp only [hc, Bool.not_false, if_true]
      refine ⟨?_, ?_⟩
      · rw [OrderBook.mem_removeCompletedOrders_asks]
        exact ⟨mem_pqPush.mpr (Or.inl rfl), (Order.isLive_iff _).mpr ⟨hc, hst⟩⟩
      · intro x hx hlive
        rw [OrderBook.mem_removeCompletedOrders_bids] at hx
        rcases matchStep_exit_cases hexit with hq | hcomp | ⟨best, rest, hq, -, hcr⟩
        · simp only at hx; rw [hq] at hx; exact absurd hx.1 (List.not_mem_nil _)
        · rw [hc] at hcomp; cases hcomp
        · rw [hq] at hord
          have := no_cross_behind (o := s.heap n)
            (by unfold oppositeSide; rw [hbuy]) hord hcr x (by simpa [hq] using hx.1)
          rw [hbuy, if_neg hb, hprice] at this
          exact this

theorem Order.new_ok {orderId traderId : Int} {symbol : String} {quantity price : ℚ}
    {side : OrderSide} {type : OrderType} {now : Nat} {o : Order}
    (h : Order.new orderId traderId symbol quantity price side type now = .ok o) :
    0 < quantity ∧ (type = .LIMIT → 0 < price) ∧
      o = { orderId := orderId, traderId := traderId, symbol := symbol, quantity := quantity,
            price := price, side := side, type := type, status := .PENDING,
            filledQuantity := 0, timestamp := now } := by
  unfold Order.new at h
  split_ifs at h with h1 h2
  injection h with h
  refine ⟨lt_of_not_ge h1, ?_, h.symm⟩
  intro ht
  by_contra hc
  exact h2 ⟨ht, not_lt.mp hc⟩

/-- A property of the orders that fills keep holds in the arena after the matching loop
whenever it holds before. -/
theorem matchLoop_heap_invariant (I : Order → Prop)
    (hfill : ∀ o q o1, I o → o.addFill q = .ok o1 → I o1)
    (symbol : String) (n : Ptr) (fuel : Nat) (s : MatchState) (hs : ∀ p, I (s.heap p)) :
    ∀ p, I ((matchLoop symbol n fuel s).1.heap p) := by
  refine matchLoop_invariant symbol n (fun s => ∀ p, I (s.heap p)) ?_ ?_ fuel s hs
  · intro s s1 hs hstep
    obtain ⟨best, rest, -, -, hcase⟩ := matchStep_next hstep
    rcases hcase with ⟨-, hs1⟩ | ⟨-, -, -, n1, b1, hn1, hb1, hs1⟩
    · subst hs1; exact hs
    · subst hs1
      have h1 : ∀ p, I ((s.heap.set n n1) p) := by
        intro p
        rw [Heap.set_apply]
        split_ifs
        · exact hfill _ _ _ (hs n) hn1
        · exact hs p
      intro p
      simp only
      rw [Heap.set_apply]
      split_ifs
      · exact hfill _ _ _ (h1 best) hb1
      · exact h1 p
  · intro s s1 e hs hstep
    obtain ⟨best, rest, -, -, -, -, -, hcase⟩ := matchStep_threw hstep
    rcases hcase with ⟨hh, -⟩ | ⟨n1, hn1, hh, -⟩
    · rw [hh]; exact hs
    · rw [hh]
      intro p
      rw [Heap.set_apply]
      split_ifs
      · exact hfill _ _ _ (hs n) hn1
      · exact hs p

/-- The arena after `addOrder` is the arena the matching loop left, or the arena before
the call. -/
theorem OrderBook.addOrder_heap (b : OrderBook) (h : Heap) (n : Ptr) :
    (b.addOrder h n).heap = h ∨
    (b.addOrder h n).heap =
      (matchOrder { b with orderMap := mapInsert (h n).orderId n b.orderMap } h n).1.heap := by
  unfold OrderBook.addOrder
  split_ifs
  · exact Or.inl rfl
  · right
    simp only
    split <;> rfl

theorem OrderBook.addOrder_heap_invariant (I : Order → Prop)
    (hfill : ∀ o q o1, I o → o.addFill q = .ok o1 → I o1)
    (b : OrderBook) (h : Heap) (n : Ptr) (hh : ∀ p, I (h p)) :
    ∀ p, I ((b.addOrder h n).heap p) := by
  rcases OrderBook.addOrder_heap b h n with h0 | h1
  · rw [h0]; exact hh
  · rw [h1]
    exact matchLoop_heap_invariant I hfill _ _ _ _ hh

theorem OrderBook.cancelOrder_heap (b : OrderBook) (h : Heap) (orderId : Int) :
    (b.cancelOrder h orderId).heap = h ∨
    ∃ p, mapFind b.orderMap orderId = some p ∧
      (b.cancelOrder h orderId).heap = h.set p ((h p).setStatus .CANCELLED) := by
  unfold OrderBook.cancelOrder
  split
  · rename_i p hp; exact Or.inr ⟨p, hp, rfl⟩
  · exact Or.inl rfl

theorem OrderBook.cancelOrder_heap_invariant (I : Order → Prop)
    (hcancel : ∀ o, I o → I (o.setStatus .CANCELLED))
    (b : OrderBook) (h : Heap) (orderId : Int) (hh : ∀ p, I (h p)) :
    ∀ p, I ((b.cancelOrder h orderId).heap p) := by
  rcases OrderBook.cancelOrder_heap b h orderId with h0 | ⟨q, -, h1⟩
  · rw [h0]; exact hh
  · rw [h1]
    intro p
    rw [Heap.set_apply]
    split_ifs
    · exact hcancel _ (hh q)
    · exact hh p

theorem MatchingEngine.notifyTrader_heap {e e1 : MatchingEngine} {traderId : Int}
    {trade : Trade} {isBuy : Bool} (h : e.notifyTrader traderId trade isBuy = .ok e1) :
    e1.heap = e.heap ∧ e1.orders = e.orders ∧ e1.orderBooks = e.orderBooks ∧
      e1.nextOrderId = e.nextOrderId := by
  unfold MatchingEngine.notifyTrader at h
  split at h
  · injection h with h; subst h; exact ⟨rfl, rfl, rfl, rfl⟩
  · split at h
    · cases h
    · injection h with h; subst h; exact ⟨rfl, rfl, rfl, rfl⟩

/-- The ledger pass touches nothing but the traders. -/
theorem MatchingEngine.processTradeNotifications_frame :
    ∀ (trades : List Trade) (e : MatchingEngine),
      (e.processTradeNotifications trades).1.heap = e.heap ∧
      (e.processTradeNotifications trades).1.orders = e.orders ∧
      (e.processTradeNotifications trades).1.orderBooks = e.orderBooks ∧
      (e.processTradeNotifications trades).1.nextOrderId = e.nextOrderId := by
  intro trades
  induction trades with
  | nil => intro e; exact ⟨rfl, rfl, rfl, rfl⟩
  | cons t ts ih =>
    intro e
    unfold MatchingEngine.processTradeNotifications
    split
    · exact ⟨rfl, rfl, rfl, rfl⟩
    · rename_i e1 h1
      obtain ⟨a1, a2, a3, a4⟩ := MatchingEngine.notifyTrader_heap h1
      split
      · exact ⟨a1, a2, a3, a4⟩
      · rename_i e2 h2
        obtain ⟨b1, b2, b3, b4⟩ := MatchingEngine.notifyTrader_heap h2
        obtain ⟨c1, c2, c3, c4⟩ := ih e2
        exact ⟨c1.trans (b1.trans a1), c2.trans (b2.trans a2), c3.trans (b3.trans a3),
          c4.trans (b4.trans a4)⟩

theorem MatchingEngine.getOrCreateOrderBook_heap (e : MatchingEngine) (symbol : String) :
    (e.getOrCreateOrderBook symbol).1.heap = e.heap := by
  unfold MatchingEngine.getOrCreateOrderBook
  split <;> rfl

/-- The arena after `submitOrder`: unchanged, or the new order written at the address of
its id and `addOrder` run on some book. -/
theorem MatchingEngine.submitOrder_heap (e : MatchingEngine) (traderId : Int)
    (symbol : String) (quantity price : ℚ) (side : OrderSide) (type : OrderType) (now : Nat) :
    (e.submitOrder traderId symbol quantity price side type now).engine.heap = e.heap ∨
    ∃ (order : Order) (b : OrderBook),
      Order.new e.nextOrderId traderId symbol quantity price side type now = .ok order ∧
      (e.submitOrder traderId symbol quantity price side type now).engine.heap =
        (b.addOrder (e.heap.set e.nextOrderId order) e.nextOrderId).heap := by
  unfold MatchingEngine.submitOrder
  split
  · exact Or.inl rfl
  · split_ifs
    · exact Or.inl rfl
    · exact Or.inl rfl
    · simp only
      split
      · exact Or.inl rfl
      · rename_i order horder
        right
        refine ⟨order,
          (MatchingEngine.getOrCreateOrderBook
            { nextOrderId := e.nextOrderId + 1, orderBooks := e.orderBooks,
              traders := e.traders,
              orders := mapInsert e.nextOrderId e.nextOrderId e.orders,
              heap := e.heap.set e.nextOrderId order } symbol).2, horder, ?_⟩
        simp only [MatchingEngine.getOrCreateOrderBook_heap]
        split
        · rfl
        · rfl
        · split <;>
            simp only [(MatchingEngine.processTradeNotifications_frame _ _).1]

theorem MatchingEngine.engineCancel_heap (e : MatchingEngine) (orderId : Int) :
    (e.cancelOrder orderId).engine.heap = e.heap ∨
    ∃ b : OrderBook, (e.cancelOrder orderId).engine.heap = (b.cancelOrder e.heap orderId).heap := by
  unfold MatchingEngine.cancelOrder
  split
  · exact Or.inl rfl
  · split
    · rename_i b hb
      right
      refine ⟨b, ?_⟩
      simp only
      split <;> rfl
    · exact Or.inl rfl

/-- A property of orders that the constructor establishes and that fills and cancellation
keep holds for every object of every reachable arena. -/
theorem ArenaReach.orders_invariant (I : Order → Prop)
    (hnew : ∀ orderId traderId symbol quantity price side type now o,
      Order.new orderId traderId symbol quantity price side type now = .ok o → I o)
    (hfill : ∀ o q o1, I o → o.addFill q = .ok o1 → I o1)
    (hcancel : ∀ o, I o → I (o.setStatus .CANCELLED))
    {h : Heap} (hr : ArenaReach h) : ∀ p, I (h p) := by
  induction hr with
  | start h h0 =>
    intro p
    obtain ⟨a1, a2, a3, a4, a5, a6, a7, a8, hp⟩ := h0 p
    exact hnew _ _ _ _ _ _ _ _ _ hp
  | construct h p o a1 a2 a3 a4 a5 a6 a7 a8 _ ho ih =>
    intro q
    rw [Heap.set_apply]
    split_ifs
    · exact hnew _ _ _ _ _ _ _ _ _ ho
    · exact ih q
  | addFill h p q o _ ho ih =>
    intro r
    rw [Heap.set_apply]
    split_ifs
    · exact hfill _ _ _ (ih p) ho
    · exact ih r
  | addOrder h b n _ ih => exact OrderBook.addOrder_heap_invariant I hfill b h n ih
  | cancelOrder h b orderId _ ih =>
    exact OrderBook.cancelOrder_heap_invariant I hcancel b h orderId ih
  | submitOrder e traderId symbol quantity price side type now _ ih =>
    rcases MatchingEngine.submitOrder_heap e traderId symbol quantity price side type now
      with h0 | ⟨order, b, horder, h1⟩
    · rw [h0]; exact ih
    · rw [h1]
      refine OrderBook.addOrder_heap_invariant I hfill b _ _ ?_
      intro p
      rw [Heap.set_apply]
      split_ifs
      · exact hnew _ _ _ _ _ _ _ _ _ horder
      · exact ih p
  | engineCancelOrder e orderId _ ih =>
    rcases MatchingEngine.engineCancel_heap e orderId with h0 | ⟨b, h1⟩
    · rw [h0]; exact ih
    · rw [h1]
      exact OrderBook.cancelOrder_heap_invariant I hcancel b e.heap orderId ih

/-- C6 (fill bound). In every arena reachable through the construction of orders,
`Order::addFill`, `OrderBook::addOrder`, `OrderBook::cancelOrder`,
`MatchingEngine::submitOrder` and `MatchingEngine::cancelOrder`, every order has
`0 ≤ filledQuantity ≤ quantity`. -/
theorem fill_bound (h : Heap) (hr : ArenaReach h) (p : Ptr) :
    0 ≤ (h p).filledQuantity ∧ (h p).filledQuantity ≤ (h p).quantity := by
  refine ArenaReach.orders_invariant
    (fun o => 0 ≤ o.filledQuantity ∧ o.filledQuantity ≤ o.quantity) ?_ ?_ ?_ hr p
  · intro a1 a2 a3 a4 a5 a6 a7 a8 o ho
    obtain ⟨hq, -, rfl⟩ := Order.new_ok ho
    exact ⟨le_refl _, hq.le⟩
  · intro o q o1 ⟨h0, _⟩ ho
    obtain ⟨hq, hle, hf, hid, -⟩ := Order.addFill_ok ho
    rw [hf, hid.2.2.2.1]
    exact ⟨by linarith, hle⟩
  · intro o ho
    exact ho

theorem sampleHeap_start : ArenaReach sampleHeap := by
  refine ArenaReach.start _ (fun p => ?_)
  unfold sampleHeap
  split_ifs
  · exact ⟨1, 101, "AAPL", 30, 150, .SELL, .LIMIT, 1, by with_unfolding_all rfl⟩
  · exact ⟨2, 102, "AAPL", 40, 151, .SELL, .LIMIT, 2, by with_unfolding_all rfl⟩
  · exact ⟨3, 103, "AAPL", 50, 152, .SELL, .LIMIT, 3, by with_unfolding_all rfl⟩
  · exact ⟨4, 104, "AAPL", 100, 155, .BUY, .LIMIT, 4, by with_unfolding_all rfl⟩

/-- Witness of C6: the sell 50@152 of the test `MultipleMatches` after the incoming buy
was added; 30 of its 50 are filled. -/
theorem fill_bound_witness :
    0 ≤ ((sampleBook.addOrder sampleHeap 4).heap 3).filledQuantity ∧
      ((sampleBook.addOrder sampleHeap 4).heap 3).filledQuantity ≤
        ((sampleBook.addOrder sampleHeap 4).heap 3).quantity :=
  fill_bound (sampleBook.addOrder sampleHeap 4).heap
    (ArenaReach.addOrder sampleHeap sampleBook 4 sampleHeap_start) 3

/-- Counterexample to C7 as stated. On a book: the sell 100@150 of the test
`SimpleMatchBuyAgainstSell` is filled for 50 by the buy 50@150 and then cancelled with
`OrderBook::cancelOrder`, which returns true; the order, which the caller still holds as
the tests do, has `0 < filledQuantity < quantity` and status `CANCELLED`, not
`PARTIALLY_FILLED`. On the engine: Bob's sell of 2 shares trades 1 share with Alice's buy
and is then cancelled through `MatchingEngine::cancelOrder`, with the same result for an
order obtained with `getOrder` before the call. -/
theorem status_tracks_fill_counterexample :
    (cancelAfterFillBook.outcome = .returned true ∧
      (cancelAfterFillBook.heap 1).status = .CANCELLED ∧
      (cancelAfterFillBook.heap 1).filledQuantity = 50 ∧
      (cancelAfterFillBook.heap 1).quantity = 100 ∧
      ¬ ((cancelAfterFillBook.heap 1).status = .PARTIALLY_FILLED ↔
          (0 < (cancelAfterFillBook.heap 1).filledQuantity ∧
            (cancelAfterFillBook.heap 1).filledQuantity <
              (cancelAfterFillBook.heap 1).quantity))) ∧
    (cancelAfterFill.outcome = .returned true ∧
      (cancelAfterFill.engine.heap 1).status = .CANCELLED ∧
      ¬ ((cancelAfterFill.engine.heap 1).status = .PARTIALLY_FILLED ↔
          (0 < (cancelAfterFill.engine.heap 1).filledQuantity ∧
            (cancelAfterFill.engine.heap 1).filledQuantity <
              (cancelAfterFill.engine.heap 1).quantity))) := by
  with_unfolding_all decide

/-- C7, amended (status tracks fill progress unless cancelled). In every arena reachable
through construction, `addFill`, `OrderBook::addOrder`/`cancelOrder` and
`MatchingEngine::submitOrder`/`cancelOrder`, every order whose status is not `CANCELLED`
has status `FILLED` if and only if `filledQuantity = quantity`, and status
`PARTIALLY_FILLED` if and only if `0 < filledQuantity < quantity`. -/
theorem status_tracks_fill (h : Heap) (hr : ArenaReach h) (p : Ptr)
    (hlive : (h p).status ≠ .CANCELLED) :
    ((h p).status = .FILLED ↔ (h p).filledQuantity = (h p).quantity) ∧
    ((h p).status = .PARTIALLY_FILLED ↔
      (0 < (h p).filledQuantity ∧ (h p).filledQuantity < (h p).quantity)) := by
  have key := ArenaReach.orders_invariant
    (fun o => 0 ≤ o.filledQuantity ∧ o.filledQuantity ≤ o.quantity ∧
      (o.status ≠ .CANCELLED →
        ((o.status = .FILLED ↔ o.filledQuantity = o.quantity) ∧
          (o.status = .PARTIALLY_FILLED ↔
            (0 < o.filledQuantity ∧ o.filledQuantity < o.quantity))))) ?_ ?_ ?_ hr p
  · exact key.2.2 hlive
  · intro a1 a2 a3 a4 a5 a6 a7 a8 o ho
    obtain ⟨hq, -, rfl⟩ := Order.new_ok ho
    refine ⟨le_refl _, hq.le, fun _ => ⟨?_, ?_⟩⟩
    · exact ⟨fun hc => (by cases hc), fun hc => absurd hc.symm (ne_of_gt hq)⟩
    · exact ⟨fun hc => (by cases hc), fun hc => absurd hc.1 (lt_irrefl _)⟩
  · intro o q o1 ⟨h0, h1, _⟩ ho
    obtain ⟨hq, hle, hf, hid, hst⟩ := Order.addFill_ok ho
    have hqq : o1.quantity = o.quantity := hid.2.2.2.1
    refine ⟨by rw [hf]; linarith, by rw [hf, hqq]; exact hle, fun _ => ?_⟩
    rw [hst, hf, hqq]
    by_cases hc : o.quantity ≤ o.filledQuantity + q
    · rw [if_pos hc]
      exact ⟨⟨fun _ => le_antisymm hle hc, fun _ => rfl⟩,
        ⟨fun hs => (by cases hs), fun hs => absurd hs.2 (not_lt.mpr hc)⟩⟩
    · rw [if_neg hc]
      exact ⟨⟨fun hs => (by cases hs), fun heq => absurd heq.ge hc⟩,
        ⟨fun _ => ⟨by linarith, not_le.mp hc⟩, fun _ => rfl⟩⟩
  · intro o ⟨h0, h1, _⟩
    exact ⟨h0, h1, fun hc => absurd rfl hc⟩

/-- Witness of the amended C7: the sell 50@152 of the test `MultipleMatches` after the
incoming buy was added is partially filled, 30 of 50. -/
theorem status_tracks_fill_witness :
    (((sampleBook.addOrder sampleHeap 4).heap 3).status = .FILLED ↔
      ((sampleBook.addOrder sampleHeap 4).heap 3).filledQuantity =
        ((sampleBook.addOrder sampleHeap 4).heap 3).quantity) ∧
    (((sampleBook.addOrder sampleHeap 4).heap 3).status = .PARTIALLY_FILLED ↔
      (0 < ((sampleBook.addOrder sampleHeap 4).heap 3).filledQuantity ∧
        ((sampleBook.addOrder sampleHeap 4).heap 3).filledQuantity <
          ((sampleBook.addOrder sampleHeap 4).heap 3).quantity)) :=
  status_tracks_fill (sampleBook.addOrder sampleHeap 4).heap
    (ArenaReach.addOrder sampleHeap sampleBook 4 sampleHeap_start) 3
    (by with_unfolding_all decide)

theorem Order.new_error {orderId traderId : Int} {symbol : String} {quantity price : ℚ}
    {side : OrderSide} {type : OrderType} {now : Nat} {err : Error}
    (h : Order.new orderId traderId symbol quantity price side type now = .error err) :
    err = .InvalidArgument ∧ (quantity ≤ 0 ∨ (type = .LIMIT ∧ price ≤ 0)) := by
  unfold Order.new at h
  split_ifs at h with h1 h2
  · injection h with h; exact ⟨h.symm, Or.inl h1⟩
  · injection h with h; exact ⟨h.symm, Or.inr h2⟩

theorem Order.new_succeeds (orderId traderId : Int) (symbol : String) {quantity price : ℚ}
    (side : OrderSide) {type : OrderType} (now : Nat)
    (hq : 0 < quantity) (hp : type = .LIMIT → 0 < price) :
    ∃ o, Order.new orderId traderId symbol quantity price side type now = .ok o := by
  unfold Order.new
  rw [if_neg (not_le.mpr hq), if_neg (fun hc => absurd (hp hc.1) (not_lt.mpr hc.2))]
  exact ⟨_, rfl⟩

/-- Once the pre-trade check is passed and the order is constructed, `submitOrder` is
`routeOrder`. -/
theorem MatchingEngine.submitOrder_eq_routeOrder (e : MatchingEngine) (traderId : Int)
    (symbol : String) (quantity price : ℚ) (side : OrderSide) (type : OrderType)
    (now : Nat) (trader : Trader) (order : Order)
    (ht : e.getTrader traderId = some trader)
    (h1 : ¬ (side = .BUY ∧ (!trader.hasSufficientCash (quantity * price)) = true))
    (h2 : ¬ (side ≠ .BUY ∧ (!trader.hasSufficientShares symbol quantity) = true))
    (ho : Order.new e.nextOrderId traderId symbol quantity price side type now = .ok order) :
    e.submitOrder traderId symbol quantity price side type now = e.routeOrder symbol order := by
  unfold MatchingEngine.submitOrder MatchingEngine.routeOrder
  simp only [ht, if_neg h1, if_neg h2, ho]

/-- The five ways in which `submitOrder` goes. -/
theorem MatchingEngine.submitOrder_cases (e : MatchingEngine) (traderId : Int)
    (symbol : String) (quantity price : ℚ) (side : OrderSide) (type : OrderType) (now : Nat) :
    (e.getTrader traderId = none ∧
      e.submitOrder traderId symbol quantity price side type now =
        { engine := e, outcome := .threw .TraderNotFound }) ∨
    (∃ trader, e.getTrader traderId = some trader ∧
      ((side = .BUY ∧ trader.cash < quantity * price ∧
          e.submitOrder traderId symbol quantity price side type now =
            { engine := e, outcome := .threw .InsufficientFunds }) ∨
        (side = .SELL ∧ trader.hasSufficientShares symbol quantity = false ∧
          e.submitOrder traderId symbol quantity price side type now =
            { engine := e, outcome := .threw .InsufficientInventory }) ∨
        ((side = .BUY → quantity * price ≤ trader.cash) ∧
          (side = .SELL → trader.hasSufficientShares symbol quantity = true) ∧
          (((quantity ≤ 0 ∨ (type = .LIMIT ∧ price ≤ 0)) ∧
              e.submitOrder traderId symbol quantity price side type now =
                { engine := { e with nextOrderId := e.nextOrderId + 1 },
                  outcome := .threw .InvalidArgument }) ∨
            (∃ order,
              Order.new e.nextOrderId traderId symbol quantity price side type now
                = .ok order ∧
              e.submitOrder traderId symbol quantity price side type now =
                e.routeOrder symbol order))))) := by
  cases ht : e.getTrader traderId with
  | none =>
    left
    refine ⟨rfl, ?_⟩
    unfold MatchingEngine.submitOrder
    simp only [ht]
  | some trader =>
    right
    refine ⟨trader, rfl, ?_⟩
    by_cases h1 : side = .BUY ∧ (!trader.hasSufficientCash (quantity * price)) = true
    · left
      refine ⟨h1.1, ?_, ?_⟩
      · simpa [Trader.hasSufficientCash] using h1.2
      · unfold MatchingEngine.submitOrder
        simp only [ht, if_pos h1]
    · by_cases h2 : side ≠ .BUY ∧ (!trader.hasSufficientShares symbol quantity) = true
      · right; left
        refine ⟨?_, by simpa using h2.2, ?_⟩
        · cases side
          · exact absurd rfl h2.1
          · rfl
        · unfold MatchingEngine.submitOrder
          simp only [ht, if_neg h1, if_pos h2]
      · right; right
        refine ⟨?_, ?_, ?_⟩
        · intro hs
          by_contra hc
          exact h1 ⟨hs, by simpa [Trader.hasSufficientCash] using hc⟩
        · intro hs
          by_contra hc
          exact h2 ⟨by rw [hs]; decide, by simpa using hc⟩
        · cases ho : Order.new e.nextOrderId traderId symbol quantity price side type now with
          | error err =>
            left
            obtain ⟨herr, hwhy⟩ := Order.new_error ho
            refine ⟨hwhy, ?_⟩
            unfold MatchingEngine.submitOrder
            simp only [ht, if_neg h1, if_neg h2, ho, herr]
          | ok order =>
            right
            exact ⟨order, rfl, MatchingEngine.submitOrder_eq_routeOrder e traderId symbol
              quantity price side type now trader order ht h1 h2 ho⟩

theorem matchLoop_threw_kind (symbol : String) (n : Ptr) :
    ∀ (fuel : Nat) (s : MatchState) (e : Error),
      (matchLoop symbol n fuel s).2 = .threw e → e = .InvalidArgument := by
  intro fuel
  induction fuel with
  | zero => intro s e h; simp [matchLoop] at h
  | succ k ih =>
    intro s e h
    cases hstep : matchStep symbol n s with
    | exit s1 => simp [matchLoop, hstep] at h
    | threw s1 e1 =>
      simp only [matchLoop, hstep, Outcome.threw.injEq] at h
      subst h
      obtain ⟨best, rest, -, -, -, -, -, hcase⟩ := matchStep_threw hstep
      rcases hcase with ⟨-, herr⟩ | ⟨n1, -, -, herr⟩
      · exact (Order.addFill_error herr).1
      · exact (Order.addFill_error herr).1
    | next s1 =>
      simp only [matchLoop, hstep] at h
      exact ih s1 e h

/-- The only exception that leaves `addOrder` is `InvalidArgument`. -/
theorem OrderBook.addOrder_threw_kind (b : OrderBook) (h : Heap) (n : Ptr) (e : Error)
    (hthrew : (b.addOrder h n).outcome = .threw e) : e = .InvalidArgument := by
  unfold OrderBook.addOrder at hthrew
  split_ifs at hthrew with hsym
  · simp only [Outcome.threw.injEq] at hthrew; exact hthrew.symm
  · simp only at hthrew
    split at hthrew
    · rename_i e1 h1
      simp only [Outcome.threw.injEq] at hthrew
      subst hthrew
      exact matchLoop_threw_kind _ _ _ _ _ h1
    · cases hthrew
    · cases hthrew

theorem Trader.onOrderFilled_error {t : Trader} {symbol : String} {quantity price : ℚ}
    {isBuy : Bool} {err : Error}
    (h : t.onOrderFilled symbol quantity price isBuy = .error err) :
    (isBuy = true ∧ err = .InsufficientFunds ∧ t.cash < quantity * price) ∨
    (isBuy = false ∧ err = .InsufficientInventory ∧
      t.hasSufficientShares symbol quantity = false) := by
  simp only [Trader.onOrderFilled] at h
  split_ifs at h with h1 h2 h3
  · injection h with h; exact Or.inl ⟨h1, h.symm, h2⟩
  · injection h with h
    exact Or.inr ⟨by simpa using h1, h.symm, by simpa using h3⟩

theorem MatchingEngine.notifyTrader_error {e : MatchingEngine} {traderId : Int}
    {trade : Trade} {isBuy : Bool} {err : Error}
    (h : e.notifyTrader traderId trade isBuy = .error err) :
    err = .InsufficientFunds ∨ err = .InsufficientInventory := by
  unfold MatchingEngine.notifyTrader at h
  split at h
  · cases h
  · split at h
    · rename_i err1 h1
      injection h with h
      subst h
      rcases Trader.onOrderFilled_error h1 with ⟨-, h2, -⟩ | ⟨-, h2, -⟩
      · exact Or.inl h2
      · exact Or.inr h2
    · cases h

/-- The ledger pass ends by returning or by one of the two ledger exceptions. -/
theorem MatchingEngine.processTradeNotifications_outcome :
    ∀ (trades : List Trade) (e : MatchingEngine),
      (e.processTradeNotifications trades).2 = .returned () ∨
      (e.processTradeNotifications trades).2 = .threw .InsufficientFunds ∨
      (e.processTradeNotifications trades).2 = .threw .InsufficientInventory := by
  intro trades
  induction trades with
  | nil => intro e; exact Or.inl rfl
  | cons t ts ih =>
    intro e
    unfold MatchingEngine.processTradeNotifications
    split
    · rename_i err h1
      rcases MatchingEngine.notifyTrader_error h1 with h | h <;> subst h
      · exact Or.inr (Or.inl rfl)
      · exact Or.inr (Or.inr rfl)
    · split
      · rename_i err h1
        rcases MatchingEngine.notifyTrader_error h1 with h | h <;> subst h
        · exact Or.inr (Or.inl rfl)
        · exact Or.inr (Or.inr rfl)
      · exact ih _

theorem MatchingEngine.getOrCreateOrderBook_frame (e : MatchingEngine) (symbol : String) :
    (e.getOrCreateOrderBook symbol).1.nextOrderId = e.nextOrderId ∧
    (e.getOrCreateOrderBook symbol).1.traders = e.traders ∧
    (e.getOrCreateOrderBook symbol).1.orders = e.orders := by
  unfold MatchingEngine.getOrCreateOrderBook
  split <;> exact ⟨rfl, rfl, rfl⟩

/-- Whatever `routeOrder` does, the id it used is spent, and an exception that leaves it
is not `TraderNotFound`. -/
theorem MatchingEngine.routeOrder_facts (e : MatchingEngine) (symbol : String)
    (order : Order) :
    (e.routeOrder symbol order).engine.nextOrderId = e.nextOrderId + 1 ∧
    (e.routeOrder symbol order).outcome ≠ .threw .TraderNotFound ∧
    (∀ id, (e.routeOrder symbol order).outcome = .returned id → id = e.nextOrderId) := by
  unfold MatchingEngine.routeOrder
  simp only
  split
  · rename_i err herr
    have := OrderBook.addOrder_threw_kind _ _ _ _ herr
    subst this
    exact ⟨(MatchingEngine.getOrCreateOrderBook_frame _ _).1, by simp, by simp⟩
  · exact ⟨(MatchingEngine.getOrCreateOrderBook_frame _ _).1, by simp, by simp⟩
  · split
    · rename_i err herr
      refine ⟨?_, ?_, by simp⟩
      · rw [(MatchingEngine.processTradeNotifications_frame _ _).2.2.2]
        exact (MatchingEngine.getOrCreateOrderBook_frame _ _).1
      · rcases MatchingEngine.processTradeNotifications_outcome _ _ with h | h | h <;>
          rw [herr] at h <;> simp at h <;> simp [h]
    · refine ⟨?_, by simp, by simp⟩
      rw [(MatchingEngine.processTradeNotifications_frame _ _).2.2.2]
      exact (MatchingEngine.getOrCreateOrderBook_frame _ _).1
    · refine ⟨?_, by simp, ?_⟩
      · rw [(MatchingEngine.processTradeNotifications_frame _ _).2.2.2]
        exact (MatchingEngine.getOrCreateOrderBook_frame _ _).1
      · intro id hid
        simp only [Outcome.returned.injEq] at hid
        exact hid.symm

/-- Counterexample to C9 as stated. Alice has 100 in cash and two resting buys of 1 share
at 100; Bob's sell of 2 shares at 100 trades with both. The first trade is applied to
both ledgers, the second is refused by Alice's ledger, and `submitOrder` fails with
`InsufficientFunds` after the index has grown from 2 to 3 orders, the bid depth of the
book has gone from 2 to 0, and cash and positions of both traders have changed. -/
theorem no_orphan_state_counterexample :
    doubleSpendCall.outcome = .threw .InsufficientFunds ∧
    doubleSpendBefore.orders.length = 2 ∧ doubleSpendCall.engine.orders.length = 3 ∧
    (doubleSpendBefore.getOrderBook "X").map OrderBook.getBidDepth = some 2 ∧
    (doubleSpendCall.engine.getOrderBook "X").map OrderBook.getBidDepth = some 0 ∧
    (doubleSpendBefore.getTrader 1).map (fun t => t.cash) = some 100 ∧
    (doubleSpendCall.engine.getTrader 1).map (fun t => t.cash) = some 0 ∧
    (doubleSpendBefore.getTrader 2).map (fun t => t.cash) = some 0 ∧
    (doubleSpendCall.engine.getTrader 2).map (fun t => t.cash) = some 100 ∧
    (doubleSpendBefore.getTrader 1).map (fun t => t.positions.length) = some 0 ∧
    (doubleSpendCall.engine.getTrader 1).map (fun t => t.positions.length) = some 1 := by
  with_unfolding_all decide

/-- C9, amended (no orphan state on early rejection). Whenever `submitOrder` is called
with an unregistered trader, or with arguments that fail the pre-trade check (a buy whose
quantity times price exceeds the trader's cash, a sell for which the trader has not
enough shares), or with arguments that the `Order` constructor refuses (quantity not
positive, or a limit order with a price that is not positive), the call fails, and the
order index, the order books, the traders with their cash and positions, and the arena
are the same after the call as before it. -/
theorem no_orphan_state_on_early_rejection (e : MatchingEngine) (traderId : Int)
    (symbol : String) (quantity price : ℚ) (side : OrderSide) (type : OrderType) (now : Nat)
    (hearly : e.rejectsEarly traderId symbol quantity price side type) :
    (∃ err, (e.submitOrder traderId symbol quantity price side type now).outcome
      = .threw err) ∧
    (e.submitOrder traderId symbol quantity price side type now).engine.orders = e.orders ∧
    (e.submitOrder traderId symbol quantity price side type now).engine.orderBooks
      = e.orderBooks ∧
    (e.submitOrder traderId symbol quantity price side type now).engine.traders
      = e.traders ∧
    (e.submitOrder traderId symbol quantity price side type now).engine.heap = e.heap := by
  rcases MatchingEngine.submitOrder_cases e traderId symbol quantity price side type now with
    ⟨-, hr⟩ | ⟨trader, ht, ⟨-, -, hr⟩ | ⟨-, -, hr⟩ | ⟨hb, hs, ⟨-, hr⟩ | ⟨order, ho, -⟩⟩⟩
  · rw [hr]; exact ⟨⟨_, rfl⟩, rfl, rfl, rfl, rfl⟩
  · rw [hr]; exact ⟨⟨_, rfl⟩, rfl, rfl, rfl, rfl⟩
  · rw [hr]; exact ⟨⟨_, rfl⟩, rfl, rfl, rfl, rfl⟩
  · rw [hr]; exact ⟨⟨_, rfl⟩, rfl, rfl, rfl, rfl⟩
  · exfalso
    unfold MatchingEngine.rejectsEarly at hearly
    rw [ht] at hearly
    obtain ⟨hq, hp, -⟩ := Order.new_ok ho
    rcases hearly with ⟨h1, h2⟩ | ⟨h1, h2⟩ | h1 | ⟨h1, h2⟩
    · exact absurd (hb h1) (not_le.mpr h2)
    · rw [hs h1] at h2; cases h2
    · exact absurd hq (not_lt.mpr h1)
    · exact absurd (hp h1) (not_lt.mpr h2)

/-- Witness of the amended C9: Alice, with 100 in cash, submits a buy of 2 shares at
100. -/
theorem no_orphan_state_on_early_rejection_witness :
    (∃ err, (sampleEngine.submitOrder 1 "X" 2 100 .BUY .LIMIT 1).outcome = .threw err) ∧
    (sampleEngine.submitOrder 1 "X" 2 100 .BUY .LIMIT 1).engine.orders
      = sampleEngine.orders ∧
    (sampleEngine.submitOrder 1 "X" 2 100 .BUY .LIMIT 1).engine.orderBooks
      = sampleEngine.orderBooks ∧
    (sampleEngine.submitOrder 1 "X" 2 100 .BUY .LIMIT 1).engine.traders
      = sampleEngine.traders ∧
    (sampleEngine.submitOrder 1 "X" 2 100 .BUY .LIMIT 1).engine.heap = sampleEngine.heap :=
  no_orphan_state_on_early_rejection sampleEngine 1 "X" 2 100 .BUY .LIMIT 1
    (by with_unfolding_all exact Or.inl ⟨rfl, by with_unfolding_all decide⟩)

/-- Counterexample to C10 as stated. Bob holds 10 shares and sells 10: the pre-trade
check passes. The order trades 9.9999999995 shares with Alice's first buy, which leaves
Bob a position of 0.0000000005 shares, below the epsilon of the ledger, so the position
is erased; the second trade, for the remaining 0.0000000005 shares, is then refused by
Bob's ledger and `submitOrder` fails with `InsufficientInventory`, although Bob held a
position in the symbol that was not less than the order quantity. -/
theorem submit_rejection_conditions_counterexample :
    (dustBefore.getTrader 2).map (fun t => (mapFind t.positions "X").map
      (fun position => decide (10 ≤ position.quantity))) = some (some true) ∧
    dustCall.outcome = .threw .InsufficientInventory := by
  with_unfolding_all decide

/-- C10, amended (rejection conditions of the pre-trade stage). `submitOrder` fails with
`TraderNotFound` if and only if the trader id is not registered. For a registered trader,
a buy fails with `InsufficientFunds` without an order id being spent if and only if
quantity times price exceeds the trader's cash, and a sell fails with
`InsufficientInventory` without an order id being spent if and only if the trader holds
no position in the symbol or holds less than the order quantity. -/
theorem submit_rejection_conditions (e : MatchingEngine) (traderId : Int)
    (symbol : String) (quantity price : ℚ) (side : OrderSide) (type : OrderType) (now : Nat) :
    ((e.submitOrder traderId symbol quantity price side type now).outcome
        = .threw .TraderNotFound ↔ e.getTrader traderId = none) ∧
    ∀ trader, e.getTrader traderId = some trader →
      (side = .BUY →
        (((e.submitOrder traderId symbol quantity price side type now).outcome
            = .threw .InsufficientFunds ∧
          (e.submitOrder traderId symbol quantity price side type now).engine.nextOrderId
            = e.nextOrderId) ↔ trader.cash < quantity * price)) ∧
      (side = .SELL →
        (((e.submitOrder traderId symbol quantity price side type now).outcome
            = .threw .InsufficientInventory ∧
          (e.submitOrder traderId symbol quantity price side type now).engine.nextOrderId
            = e.nextOrderId) ↔
          (mapFind trader.positions symbol = none ∨
            ∃ position, mapFind trader.positions symbol = some position ∧
              position.quantity < quantity))) := by
  have hshares : ∀ trader : Trader, trader.hasSufficientShares symbol quantity = false ↔
      (mapFind trader.positions symbol = none ∨
        ∃ position, mapFind trader.positions symbol = some position ∧
          position.quantity < quantity) := by
    intro trader
    unfold Trader.hasSufficientShares
    cases hpos : mapFind trader.positions symbol with
    | none => simp
    | some position => simp
  rcases MatchingEngine.submitOrder_cases e traderId symbol quantity price side type now with
    ⟨hnone, hr⟩ | ⟨trader, ht, ⟨hb, hc, hr⟩ | ⟨hs, hc, hr⟩ |
      ⟨hb, hs, ⟨-, hr⟩ | ⟨order, ho, hr⟩⟩⟩
  · -- not registered
    refine ⟨by rw [hr]; simp [hnone], ?_⟩
    intro trader ht
    rw [hnone] at ht; cases ht
  · -- the cash check fails
    refine ⟨by rw [hr, ht]; simp, ?_⟩
    intro trader1 ht1
    rw [ht] at ht1; injection ht1 with ht1; subst ht1
    refine ⟨fun _ => by rw [hr]; simp [hc], fun hs => ?_⟩
    rw [hb] at hs; cases hs
  · -- the share check fails
    refine ⟨by rw [hr, ht]; simp, ?_⟩
    intro trader1 ht1
    rw [ht] at ht1; injection ht1 with ht1; subst ht1
    refine ⟨fun hb => ?_, fun _ => ?_⟩
    · rw [hs] at hb; cases hb
    · rw [hr, ← hshares]; simp [hc]
  · -- the constructor refuses the arguments
    refine ⟨by rw [hr, ht]; simp, ?_⟩
    intro trader1 ht1
    rw [ht] at ht1; injection ht1 with ht1; subst ht1
    refine ⟨fun hbuy => ?_, fun hsell => ?_⟩
    · rw [hr]
      constructor
      · intro hc; simp at hc
      · intro hc; exact absurd (hb hbuy) (not_le.mpr hc)
    · rw [hr, ← hshares, hs hsell]
      simp
  · -- the order is constructed and routed
    obtain ⟨hid, hnf, -⟩ := MatchingEngine.routeOrder_facts e symbol order
    refine ⟨by rw [hr, ht]; simp [hnf], ?_⟩
    intro trader1 ht1
    rw [ht] at ht1; injection ht1 with ht1; subst ht1
    refine ⟨fun hbuy => ?_, fun hsell => ?_⟩
    · rw [hr, hid]
      constructor
      · intro hc; exact absurd hc.2 (by omega)
      · intro hc; exact absurd (hb hbuy) (not_le.mpr hc)
    · rw [hr, hid, ← hshares, hs hsell]
      constructor
      · intro hc; exact absurd hc.2 (by omega)
      · intro hc; cases hc

/-- Witness of the amended C10: Alice, with 100 in cash, submits a buy of 2 shares at
100. -/
theorem submit_rejection_conditions_witness :
    (((sampleEngine.submitOrder 1 "X" 2 100 .BUY .LIMIT 1).outcome
        = .threw .InsufficientFunds ∧
      (sampleEngine.submitOrder 1 "X" 2 100 .BUY .LIMIT 1).engine.nextOrderId
        = sampleEngine.nextOrderId) ↔ (Trader.new 1 "Alice" 100).cash < 2 * 100) :=
  ((submit_rejection_conditions sampleEngine 1 "X" 2 100 .BUY .LIMIT 1).2
    (Trader.new 1 "Alice" 100) (by with_unfolding_all decide)).1 rfl

theorem mem_mapInsert {κ ν : Type} [DecidableEq κ] [LT κ]
    [DecidableRel (fun (a b : κ) => a < b)] {k : κ} {v : ν} {x : κ × ν} :
    ∀ {m : List (κ × ν)}, x ∈ mapInsert k v m → x = (k, v) ∨ x ∈ m := by
  intro m
  induction m with
  | nil => intro h; simpa [mapInsert] using h
  | cons y m ih =>
    intro h
    obtain ⟨k1, v1⟩ := y
    unfold mapInsert at h
    split_ifs at h
    · rcases List.mem_cons.mp h with h | h
      · exact Or.inl h
      · exact Or.inr (List.mem_cons_of_mem _ h)
    · rcases List.mem_cons.mp h with h | h
      · exact Or.inl h
      · exact Or.inr h
    · rcases List.mem_cons.mp h with h | h
      · exact Or.inr (h ▸ List.mem_cons_self _ _)
      · rcases ih h with h | h
        · exact Or.inl h
        · exact Or.inr (List.mem_cons_of_mem _ h)

theorem mem_mapErase {κ ν : Type} [DecidableEq κ] {k : κ} {x : κ × ν} {m : List (κ × ν)}
    (h : x ∈ mapErase m k) : x ∈ m := by
  unfold mapErase at h
  exact (List.mem_filter.mp h).1

theorem mapFind_mem {κ ν : Type} [DecidableEq κ] {k : κ} {v : ν} :
    ∀ {m : List (κ × ν)}, mapFind m k = some v → (k, v) ∈ m := by
  intro m
  induction m with
  | nil => intro h; simp [mapFind] at h
  | cons y m ih =>
    intro h
    obtain ⟨k1, v1⟩ := y
    unfold mapFind at h
    split_ifs at h with hk
    · injection h with h
      subst h hk
      exact List.mem_cons_self _ _
    · exact List.mem_cons_of_mem _ (ih h)

/-- The ledger property of non-negativity, for one trader. -/
theorem Trader.storePosition_nonneg {t : Trader} {symbol : String} {position : Position}
    (ht : ∀ pk ∈ t.positions, 0 ≤ pk.2.quantity) (hp : 0 ≤ position.quantity) :
    ∀ pk ∈ (t.storePosition symbol position).positions, 0 ≤ pk.2.quantity := by
  unfold Trader.storePosition
  split_ifs
  · intro pk hpk; exact ht pk (mem_mapErase hpk)
  · intro pk hpk
    rcases mem_mapInsert hpk with h | h
    · rw [h]; exact hp
    · exact ht pk h

theorem Trader.storePosition_cash (t : Trader) (symbol : String) (position : Position) :
    (t.storePosition symbol position).cash = t.cash := by
  unfold Trader.storePosition
  split_ifs <;> rfl

theorem Trader.updatePositionOnTrade_cash (t : Trader) (symbol : String)
    (quantity price : ℚ) : (t.updatePositionOnTrade symbol quantity price).cash = t.cash := by
  unfold Trader.updatePositionOnTrade
  split
  · split_ifs <;> rfl
  · simp only
    split_ifs <;> simp only [Trader.storePosition_cash]

/-- A position update keeps all quantities non-negative when the position it works on
stays non-negative. -/
theorem Trader.updatePositionOnTrade_nonneg {t : Trader} {symbol : String}
    {quantity price : ℚ} (ht : ∀ pk ∈ t.positions, 0 ≤ pk.2.quantity)
    (hsum : ∀ position, mapFind t.positions symbol = some position →
      0 ≤ position.quantity + quantity) :
    ∀ pk ∈ (t.updatePositionOnTrade symbol quantity price).positions,
      0 ≤ pk.2.quantity := by
  unfold Trader.updatePositionOnTrade
  split
  · split_ifs with hq
    · intro pk hpk
      rcases mem_mapInsert hpk with h | h
      · rw [h]; exact le_of_lt hq
      · exact ht pk h
    · exact ht
  · rename_i position hpos
    have hs := hsum position hpos
    simp only
    split_ifs
    · exact Trader.storePosition_nonneg ht hs
    · exact Trader.storePosition_nonneg ht hs
    · intro pk hpk; exact ht pk (mem_mapErase hpk)
    · exact Trader.storePosition_nonneg ht hs
    · exact Trader.storePosition_nonneg ht hs

/-- A fill with positive quantity and non-negative price that the ledger accepts keeps
cash and positions non-negative. -/
theorem Trader.onOrderFilled_nonneg {t t1 : Trader} {symbol : String} {quantity price : ℚ}
    {isBuy : Bool} (hq : 0 < quantity) (hp : 0 ≤ price)
    (hc : 0 ≤ t.cash) (ht : ∀ pk ∈ t.positions, 0 ≤ pk.2.quantity)
    (h : t.onOrderFilled symbol quantity price isBuy = .ok t1) :
    0 ≤ t1.cash ∧ ∀ pk ∈ t1.positions, 0 ≤ pk.2.quantity := by
  simp only [Trader.onOrderFilled] at h
  split_ifs at h with h1 h2 h3
  · injection h with h
    subst h
    refine ⟨?_, ?_⟩
    · rw [Trader.updatePositionOnTrade_cash]
      simp only
      linarith
    · refine Trader.updatePositionOnTrade_nonneg
        (t := { t with cash := t.cash - quantity * price }) ht ?_
      intro position hpos
      have := ht _ (mapFind_mem hpos)
      simp only at this
      linarith
  · injection h with h
    subst h
    refine ⟨?_, ?_⟩
    · rw [Trader.updatePositionOnTrade_cash]
      simp only
      have := mul_nonneg hq.le hp
      linarith
    · refine Trader.updatePositionOnTrade_nonneg
        (t := { t with cash := t.cash + quantity * price }) ht ?_
      intro position hpos
      simp only [Bool.not_eq_true, Bool.not_eq_false'] at h3
      unfold Trader.hasSufficientShares at h3
      simp only at hpos
      rw [hpos] at h3
      simp only [ge_iff_le, decide_eq_true_eq] at h3
      linarith

theorem mkTrade_quantity (symbol : String) (a b : Order) (q p : ℚ) :
    (mkTrade symbol a b q p).quantity = q := by
  unfold mkTrade; split_ifs <;> rfl

theorem mkTrade_price (symbol : String) (a b : Order) (q p : ℚ) :
    (mkTrade symbol a b q p).price = p := by
  unfold mkTrade; split_ifs <;> rfl

/-- Every trade of the matching loop has a positive quantity. -/
theorem matchLoop_trades_positive (symbol : String) (n : Ptr) (fuel : Nat) (s : MatchState)
    (hs : ∀ t ∈ s.trades, 0 < t.quantity) :
    ∀ t ∈ (matchLoop symbol n fuel s).1.trades, 0 < t.quantity := by
  refine matchLoop_invariant symbol n (fun s => ∀ t ∈ s.trades, 0 < t.quantity) ?_ ?_
    fuel s hs
  · intro s s1 hs hstep
    obtain ⟨best, rest, -, hinc, hcase⟩ := matchStep_next hstep
    rcases hcase with ⟨-, hs1⟩ | ⟨hbinc, -, -, n1, b1, -, -, hs1⟩
    · subst hs1; exact hs
    · subst hs1
      intro t ht
      simp only [List.mem_append, List.mem_singleton] at ht
      rcases ht with ht | rfl
      · exact hs t ht
      · rw [mkTrade_quantity]
        rw [Order.isComplete_false_iff] at hinc hbinc
        apply lt_min <;> simp only [Order.getRemainingQuantity] <;> linarith
  · intro s s1 e hs hstep
    obtain ⟨best, rest, -, -, htr, -⟩ := matchStep_threw hstep
    rw [htr]; exact hs

theorem matchLoop_queue_subset (symbol : String) (n : Ptr) (fuel : Nat) (s : MatchState) :
    ∀ p ∈ (matchLoop symbol n fuel s).1.queue, p ∈ s.queue := by
  refine matchLoop_invariant symbol n (fun s1 => ∀ p ∈ s1.queue, p ∈ s.queue) ?_ ?_
    fuel s (fun p hp => hp)
  · intro s1 s2 hs hstep p hp
    exact hs p (matchStep_next_queue hstep p hp)
  · intro s1 s2 e hs hstep p hp
    exact hs p (matchStep_threw_queue hstep p hp)

theorem matchLoop_sameIdentity (symbol : String) (n : Ptr) (fuel : Nat) (s : MatchState) :
    s.heap.sameIdentity (matchLoop symbol n fuel s).1.heap := by
  refine matchLoop_invariant symbol n (fun s1 => s.heap.sameIdentity s1.heap) ?_ ?_
    fuel s (Heap.identity_refl _)
  · intro s1 s2 hs hstep
    exact Heap.identity_trans hs (matchStep_next_sameIdentity hstep)
  · intro s1 s2 e hs hstep
    exact Heap.identity_trans hs (matchStep_threw_sameIdentity hstep)

/-- No operation of a book changes the identity fields of an order. -/
theorem OrderBook.addOrder_sameIdentity (b : OrderBook) (h : Heap) (n : Ptr) :
    h.sameIdentity (b.addOrder h n).heap := by
  rcases OrderBook.addOrder_heap b h n with h0 | h1
  · rw [h0]; exact Heap.identity_refl _
  · rw [h1]; exact matchLoop_sameIdentity _ _ _ _

theorem OrderBook.cancelOrder_sameIdentity (b : OrderBook) (h : Heap) (orderId : Int) :
    h.sameIdentity (b.cancelOrder h orderId).heap := by
  rcases OrderBook.cancelOrder_heap b h orderId with h0 | ⟨p, -, h1⟩
  · rw [h0]; exact Heap.identity_refl _
  · rw [h1]
    apply Heap.identity_set
    simp [Order.sameIdentity, Order.setStatus]

/-- The trades that `addOrder` appends have a positive quantity and carry the price of an
order of the opposite queue. -/
theorem OrderBook.addOrder_trades_spec (b : OrderBook) (h : Heap) (n : Ptr) :
    ∃ ts, (b.addOrder h n).book.trades = b.trades ++ ts ∧
      ∀ t ∈ ts, 0 < t.quantity ∧ ∃ r ∈ b.opposite (h n), t.price = (h r).price := by
  rcases OrderBook.addOrder_trades b h n with h0 | ⟨-, h1⟩
  · exact ⟨[], by simpa using h0, by simp⟩
  · refine ⟨_, h1, ?_⟩
    intro t ht
    refine ⟨matchLoop_trades_positive b.symbol n _ _ (by simp) t ht, ?_⟩
    obtain ⟨⟨r, hr, hp, -⟩, -⟩ := matchLoop_restingPriced b.symbol n h (b.opposite (h n)) _ _
      (Heap.identity_refl h) (fun p hp => hp) (by simp) t ht
    exact ⟨r, hr, hp⟩

theorem OrderBook.mem_setOpposite {b : OrderBook} {o : Order} {q : List Ptr} {p : Ptr}
    (h : p ∈ (b.setOpposite o q).bids ∨ p ∈ (b.setOpposite o q).asks) :
    p ∈ q ∨ p ∈ b.bids ∨ p ∈ b.asks := by
  unfold OrderBook.setOpposite at h
  split_ifs at h
  · rcases h with h | h
    · exact Or.inr (Or.inl h)
    · exact Or.inl h
  · rcases h with h | h
    · exact Or.inl h
    · exact Or.inr (Or.inr h)

theorem OrderBook.mem_opposite {b : OrderBook} {o : Order} {p : Ptr}
    (h : p ∈ b.opposite o) : p ∈ b.bids ∨ p ∈ b.asks := by
  unfold OrderBook.opposite at h
  split_ifs at h
  · exact Or.inr h
  · exact Or.inl h

/-- The entries of the queues after `addOrder` are the incoming order or entries that
were there before. -/
theorem OrderBook.addOrder_queues (b : OrderBook) (h : Heap) (n p : Ptr)
    (hp : p ∈ (b.addOrder h n).book.bids ∨ p ∈ (b.addOrder h n).book.asks) :
    p = n ∨ p ∈ b.bids ∨ p ∈ b.asks := by
  have hloop : ∀ x ∈ (matchOrder { b with orderMap := mapInsert (h n).orderId n b.orderMap }
      h n).1.queue, x ∈ b.bids ∨ x ∈ b.asks := by
    intro x hx
    exact OrderBook.mem_opposite (o := h n) (matchLoop_queue_subset _ _ _ _ x hx)
  have hb2 : ∀ x, (x ∈ (OrderBook.setOpposite
        { b with orderMap := mapInsert (h n).orderId n b.orderMap } (h n)
        (matchOrder { b with orderMap := mapInsert (h n).orderId n b.orderMap }
          h n).1.queue).bids ∨
      x ∈ (OrderBook.setOpposite
        { b with orderMap := mapInsert (h n).orderId n b.orderMap } (h n)
        (matchOrder { b with orderMap := mapInsert (h n).orderId n b.orderMap }
          h n).1.queue).asks) → x ∈ b.bids ∨ x ∈ b.asks := by
    intro x hx
    rcases OrderBook.mem_setOpposite hx with h1 | h1
    · exact hloop x h1
    · exact h1
  unfold OrderBook.addOrder at hp
  split_ifs at hp with hsym
  · exact Or.inr hp
  · simp only at hp
    split at hp
    · exact Or.inr (hb2 p hp)
    · exact Or.inr (hb2 p hp)
    · rw [OrderBook.mem_removeCompletedOrders_bids, OrderBook.mem_removeCompletedOrders_asks]
        at hp
      split_ifs at hp
      · rcases hp with ⟨hp, -⟩ | ⟨hp, -⟩
        · rcases mem_pqPush.mp hp with hp | hp
          · exact Or.inl hp
          · exact Or.inr (hb2 p (Or.inl hp))
        · exact Or.inr (hb2 p (Or.inr hp))
      · rcases hp with ⟨hp, -⟩ | ⟨hp, -⟩
        · exact Or.inr (hb2 p (Or.inl hp))
        · rcases mem_pqPush.mp hp with hp | hp
          · exact Or.inl hp
          · exact Or.inr (hb2 p (Or.inr hp))
      · rcases hp with ⟨hp, -⟩ | ⟨hp, -⟩
        · exact Or.inr (hb2 p (Or.inl hp))
        · exact Or.inr (hb2 p (Or.inr hp))

theorem OrderBook.cancelOrder_queues (b : OrderBook) (h : Heap) (orderId : Int) (p : Ptr)
    (hp : p ∈ (b.cancelOrder h orderId).book.bids ∨ p ∈ (b.cancelOrder h orderId).book.asks) :
    p ∈ b.bids ∨ p ∈ b.asks := by
  unfold OrderBook.cancelOrder at hp
  split at hp
  · rw [OrderBook.mem_removeCompletedOrders_bids, OrderBook.mem_removeCompletedOrders_asks]
      at hp
    rcases hp with ⟨hp, -⟩ | ⟨hp, -⟩
    · exact Or.inl hp
    · exact Or.inr hp
  · exact hp

/-- What `routeOrder` does, spelled out: `book` is the book of the symbol (found, or
newly created and empty), `books` the registry after the lookup; the order is added to
`book`, the registry entry of the symbol is replaced, and when `addOrder` has returned
the trades it appended are applied to the ledgers. -/
theorem MatchingEngine.routeOrder_shape (e : MatchingEngine) (symbol : String)
    (order : Order) :
    ∃ (book : OrderBook) (books : List (String × OrderBook)),
      (book = OrderBook.new symbol ∨ (symbol, book) ∈ e.orderBooks) ∧
      (∀ bk ∈ books, bk ∈ e.orderBooks ∨ bk.2 = OrderBook.new symbol) ∧
      ((e.routeOrder symbol order).engine =
          { nextOrderId := e.nextOrderId + 1,
            orderBooks := mapInsert symbol
              (book.addOrder (e.heap.set e.nextOrderId order) e.nextOrderId).book books,
            traders := e.traders,
            orders := mapInsert e.nextOrderId e.nextOrderId e.orders,
            heap := (book.addOrder (e.heap.set e.nextOrderId order) e.nextOrderId).heap } ∨
        ((book.addOrder (e.heap.set e.nextOrderId order) e.nextOrderId).outcome
            = .returned () ∧
          (e.routeOrder symbol order).engine =
            (MatchingEngine.processTradeNotifications
              { nextOrderId := e.nextOrderId + 1,
                orderBooks := mapInsert symbol
                  (book.addOrder (e.heap.set e.nextOrderId order) e.nextOrderId).book books,
                traders := e.traders,
                orders := mapInsert e.nextOrderId e.nextOrderId e.orders,
                heap := (book.addOrder (e.heap.set e.nextOrderId order) e.nextOrderId).heap }
              ((book.addOrder (e.heap.set e.nextOrderId order)
                e.nextOrderId).book.trades.drop book.trades.length)).1)) := by
  unfold MatchingEngine.routeOrder MatchingEngine.getOrCreateOrderBook
  simp only [OrderBook.getTrades]
  cases hfind : mapFind e.orderBooks symbol with
  | none =>
    refine ⟨OrderBook.new symbol, mapInsert symbol (OrderBook.new symbol) e.orderBooks,
      Or.inl rfl, ?_, ?_⟩
    · intro bk hbk
      rcases mem_mapInsert hbk with h | h
      · right; rw [h]
      · exact Or.inl h
    · simp only
      split
      · exact Or.inl rfl
      · exact Or.inl rfl
      · rename_i u hret
        right
        refine ⟨by rw [hret], ?_⟩
        split <;> rfl
  | some book =>
    refine ⟨book, e.orderBooks, Or.inr (mapFind_mem hfind), fun bk hbk => Or.inl hbk, ?_⟩
    simp only
    split
    · exact Or.inl rfl
    · exact Or.inl rfl
    · rename_i u hret
      right
      refine ⟨by rw [hret], ?_⟩
      split <;> rfl

theorem MatchingEngine.notifyTrader_nonneg {e e1 : MatchingEngine} {traderId : Int}
    {trade : Trade} {isBuy : Bool} (h : e.notifyTrader traderId trade isBuy = .ok e1)
    (hq : 0 < trade.quantity) (hp : 0 ≤ trade.price) (hl : e.ledgersNonneg) :
    e1.ledgersNonneg := by
  unfold MatchingEngine.notifyTrader at h
  split at h
  · injection h with h; subst h; exact hl
  · rename_i t ht
    split at h
    · cases h
    · rename_i t1 ht1
      injection h with h
      subst h
      have htn : t.nonneg := hl _ (mapFind_mem ht)
      have := Trader.onOrderFilled_nonneg hq hp htn.1 htn.2 ht1
      intro kv hkv
      rcases mem_mapInsert hkv with h | h
      · rw [h]; exact this
      · exact hl kv h

/-- Applying trades of positive quantity and non-negative price keeps the ledgers
non-negative, also when the pass is cut short by an exception. -/
theorem MatchingEngine.processTradeNotifications_nonneg :
    ∀ (trades : List Trade) (e : MatchingEngine),
      (∀ t ∈ trades, 0 < t.quantity ∧ 0 ≤ t.price) → e.ledgersNonneg →
      (e.processTradeNotifications trades).1.ledgersNonneg := by
  intro trades
  induction trades with
  | nil => intro e _ hl; exact hl
  | cons t ts ih =>
    intro e hts hl
    have ht := hts t (List.mem_cons_self _ _)
    unfold MatchingEngine.processTradeNotifications
    split
    · exact hl
    · rename_i e1 h1
      have hl1 := MatchingEngine.notifyTrader_nonneg h1 ht.1 ht.2 hl
      split
      · exact hl1
      · rename_i e2 h2
        exact ih e2 (fun t' ht' => hts t' (List.mem_cons_of_mem _ ht'))
          (MatchingEngine.notifyTrader_nonneg h2 ht.1 ht.2 hl1)

/-- Routing an order with a non-negative price keeps the ledgers and the prices of the
resting orders non-negative. -/
theorem MatchingEngine.routeOrder_nonneg (e : MatchingEngine) (symbol : String)
    (order : Order) (hprice : 0 ≤ order.price)
    (hl : e.ledgersNonneg) (hr : e.restingPricesNonneg) :
    (e.routeOrder symbol order).engine.ledgersNonneg ∧
    (e.routeOrder symbol order).engine.restingPricesNonneg := by
  obtain ⟨book, books, hbook, hbooks, hshape⟩ := MatchingEngine.routeOrder_shape e symbol order
  -- prices in the arena after the write
  have hset : ∀ bk ∈ e.orderBooks, ∀ p, (p ∈ bk.2.bids ∨ p ∈ bk.2.asks) →
      0 ≤ ((e.heap.set e.nextOrderId order) p).price := by
    intro bk hbk p hp
    rw [Heap.set_apply]
    split_ifs
    · exact hprice
    · exact hr bk hbk p hp
  have hbookq : ∀ p, (p ∈ book.bids ∨ p ∈ book.asks) →
      0 ≤ ((e.heap.set e.nextOrderId order) p).price := by
    intro p hp
    rcases hbook with h | h
    · rw [h] at hp; simp [OrderBook.new] at hp
    · exact hset _ h p hp
  have hid := OrderBook.addOrder_sameIdentity book (e.heap.set e.nextOrderId order)
    e.nextOrderId
  have hsame : ∀ p, ((book.addOrder (e.heap.set e.nextOrderId order) e.nextOrderId).heap p).price
      = ((e.heap.set e.nextOrderId order) p).price := fun p => (hid p).2.2.2.2.1
  -- the registry after the call
  have hB : ∀ bk ∈ mapInsert symbol
      (book.addOrder (e.heap.set e.nextOrderId order) e.nextOrderId).book books,
      ∀ p, (p ∈ bk.2.bids ∨ p ∈ bk.2.asks) →
      0 ≤ ((book.addOrder (e.heap.set e.nextOrderId order) e.nextOrderId).heap p).price := by
    intro bk hbk p hp
    rw [hsame]
    rcases mem_mapInsert hbk with h | h
    · rw [h] at hp
      rcases OrderBook.addOrder_queues _ _ _ _ hp with h1 | h1
      · rw [h1, Heap.set_same]; exact hprice
      · exact hbookq p h1
    · rcases hbooks bk h with h1 | h1
      · exact hset bk h1 p hp
      · rw [h1] at hp; simp [OrderBook.new] at hp
  rcases hshape with hs | ⟨-, hs⟩
  · rw [hs]
    exact ⟨hl, hB⟩
  · rw [hs]
    obtain ⟨f1, -, f3, -⟩ := MatchingEngine.processTradeNotifications_frame
      ((book.addOrder (e.heap.set e.nextOrderId order) e.nextOrderId).book.trades.drop
        book.trades.length)
      { nextOrderId := e.nextOrderId + 1,
        orderBooks := mapInsert symbol
          (book.addOrder (e.heap.set e.nextOrderId order) e.nextOrderId).book books,
        traders := e.traders,
        orders := mapInsert e.nextOrderId e.nextOrderId e.orders,
        heap := (book.addOrder (e.heap.set e.nextOrderId order) e.nextOrderId).heap }
    refine ⟨?_, ?_⟩
    · refine MatchingEngine.processTradeNotifications_nonneg _ _ ?_ (fun kv hkv => hl kv hkv)
      obtain ⟨ts, hts, hspec⟩ := OrderBook.addOrder_trades_spec book
        (e.heap.set e.nextOrderId order) e.nextOrderId
      rw [hts, List.drop_left]
      intro t ht
      obtain ⟨hq, r, hr1, hr2⟩ := hspec t ht
      refine ⟨hq, ?_⟩
      rw [hr2]
      exact hbookq r (OrderBook.mem_opposite hr1)
    · intro bk hbk p hp
      rw [f3] at hbk
      rw [f1]
      exact hB bk hbk p hp

theorem MatchingEngine.cancelOrder_nonneg (e : MatchingEngine) (orderId : Int)
    (hl : e.ledgersNonneg) (hr : e.restingPricesNonneg) :
    (e.cancelOrder orderId).engine.ledgersNonneg ∧
    (e.cancelOrder orderId).engine.restingPricesNonneg := by
  unfold MatchingEngine.cancelOrder
  split
  · exact ⟨hl, hr⟩
  · rename_i p hp
    split
    · rename_i orderBook hbook
      have hmem := mapFind_mem hbook
      have hid := OrderBook.cancelOrder_sameIdentity orderBook e.heap orderId
      have hB : ∀ bk ∈ mapInsert (e.heap p).symbol
          (orderBook.cancelOrder e.heap orderId).book e.orderBooks,
          ∀ q, (q ∈ bk.2.bids ∨ q ∈ bk.2.asks) →
          0 ≤ ((orderBook.cancelOrder e.heap orderId).heap q).price := by
        intro bk hbk q hq
        rw [(hid q).2.2.2.2.1]
        rcases mem_mapInsert hbk with h | h
        · rw [h] at hq
          exact hr _ hmem q (OrderBook.cancelOrder_queues _ _ _ _ hq)
        · exact hr bk h q hq
      simp only
      split
      · exact ⟨hl, hB⟩
      · exact ⟨hl, hB⟩
    · exact ⟨hl, hr⟩

theorem Trader.addCash_nonneg {t t1 : Trader} {amount : ℚ} (ht : t.nonneg)
    (h : t.addCash amount = .ok t1) : t1.nonneg := by
  unfold Trader.addCash at h
  split_ifs at h with hc
  injection h with h
  subst h
  refine ⟨?_, ht.2⟩
  simp only
  rw [not_and_or, not_lt, not_lt] at hc
  have := ht.1
  rcases hc with hc | hc <;> linarith

/-- The two facts that hold in every state of `LedgerReach`. -/
theorem LedgerReach.ledger_invariant {e : MatchingEngine} (hreach : LedgerReach e) :
    e.ledgersNonneg ∧ e.restingPricesNonneg := by
  induction hreach with
  | start e hl hb =>
    refine ⟨hl, ?_⟩
    intro bk hbk
    rw [hb] at hbk
    cases hbk
  | submitOrder e traderId symbol quantity price side type now _ hprice ih =>
    rcases MatchingEngine.submitOrder_cases e traderId symbol quantity price side type now
      with ⟨-, hr⟩ | ⟨trader, ht, ⟨-, -, hr⟩ | ⟨-, -, hr⟩ |
        ⟨-, -, ⟨-, hr⟩ | ⟨order, ho, hr⟩⟩⟩
    · rw [hr]; exact ih
    · rw [hr]; exact ih
    · rw [hr]; exact ih
    · rw [hr]; exact ih
    · rw [hr]
      obtain ⟨-, hp, horder⟩ := Order.new_ok ho
      refine MatchingEngine.routeOrder_nonneg e symbol order ?_ ih.1 ih.2
      rw [horder]
      rcases hprice with h | h
      · exact (hp h).le
      · exact h
  | cancelOrder e orderId _ ih => exact MatchingEngine.cancelOrder_nonneg e orderId ih.1 ih.2
  | addCash e traderId trader trader1 amount _ ht hcash ih =>
    refine ⟨?_, ih.2⟩
    intro kv hkv
    rcases mem_mapInsert hkv with h | h
    · rw [h]
      exact Trader.addCash_nonneg (ih.1 _ (mapFind_mem ht)) hcash
    · exact ih.1 kv h

/-- Counterexample to C8 as stated. Both traders start with non-negative cash. Bob's
market sell of 1 share at the price -20 is accepted and rests; Alice's market buy at -20
is accepted and trades with it at -20; the trade credits -20 to Bob, whose cash goes from
0 to -20. -/
theorem ledger_nonneg_counterexample :
    sampleEngine.traders.map (fun kv => kv.2.cash) = [100, 0] ∧
    (sampleEngine.submitOrder 2 "X" 1 (-20) .SELL .MARKET 1).outcome = .returned 1 ∧
    negativePriceSale.outcome = .returned 2 ∧
    (negativePriceSale.engine.getTrader 2).map (fun t => t.cash) = some (-20) := by
  with_unfolding_all decide

/-- C8, amended (ledger non-negativity when no price is negative). Start from an engine
in which traders with non-negative cash and non-negative position quantities are
registered and no order has been submitted. After any sequence of `submitOrder` calls of
either side, for limit orders or for orders of another type whose price is not negative,
of `cancelOrder` calls and of accepted `addCash` calls, every trader's cash is `≥ 0` and
every position quantity is `≥ 0`; in particular every accepted call leaves them so. -/
theorem ledger_nonneg (e : MatchingEngine) (hreach : LedgerReach e) :
    ∀ kv ∈ e.traders, 0 ≤ kv.2.cash ∧ ∀ pk ∈ kv.2.positions, 0 ≤ pk.2.quantity :=
  hreach.ledger_invariant.1

theorem sampleEngine_start : LedgerReach sampleEngine := by
  refine LedgerReach.start _ ?_ rfl
  intro kv hkv
  have hl : sampleEngine.traders =
      [(1, Trader.new 1 "Alice" 100),
        (2, { traderId := 2, name := "Bob", cash := 0,
              positions := [("X", Position.new "X" 2 10)] })] := by
    with_unfolding_all decide
  rw [hl] at hkv
  simp only [List.mem_cons, List.mem_singleton, List.not_mem_nil, or_false] at hkv
  rcases hkv with h | h <;> subst h
  · exact ⟨by norm_num [Trader.new], by simp [Trader.new]⟩
  · refine ⟨le_refl _, ?_⟩
    intro pk hpk
    simp only [List.mem_singleton] at hpk
    subst hpk
    norm_num [Position.new]

/-- Witness of the amended C8: Bob's ledger after his limit sell of 2 shares at 100 and
Alice's limit buy of 1 share at 100, which trades with it. -/
theorem ledger_nonneg_witness :
    (0 : ℚ) ≤ 100 ∧
      ∀ pk ∈ [("X", ({ symbol := "X", quantity := 1, averagePrice := 10,
                        unrealizedPnL := 0 } : Position))],
        0 ≤ pk.2.quantity :=
  ledger_nonneg _
    (LedgerReach.submitOrder _ 1 "X" 1 100 .BUY .LIMIT 2
      (LedgerReach.submitOrder _ 2 "X" 2 100 .SELL .LIMIT 1 sampleEngine_start (Or.inl rfl))
      (Or.inl rfl))
    (2, { traderId := 2, name := "Bob", cash := 100,
          positions := [("X", { symbol := "X", quantity := 1, averagePrice := 10,
                                unrealizedPnL := 0 })] })
    (by with_unfolding_all decide)

theorem matchStep_threw_ordered {symbol : String} {n : Ptr} {s s1 : MatchState} {e : Error}
    {side : OrderSide} (h : matchStep symbol n s = .threw s1 e)
    (hq : queueOrdered s.heap side s.queue) : queueOrdered s1.heap side s1.queue := by
  have hid := matchStep_threw_sameIdentity h
  obtain ⟨best, rest, hqe, hq1, -⟩ := matchStep_threw h
  rw [hqe] at hq
  rw [hq1]
  exact queueOrdered_tail (queueOrdered_congr hid hq)

/-- The matching loop keeps the queue it works on ordered, however it ends. -/
theorem matchLoop_ordered (symbol : String) (n : Ptr) (side : OrderSide) (fuel : Nat)
    (s : MatchState) (hs : queueOrdered s.heap side s.queue) :
    queueOrdered (matchLoop symbol n fuel s).1.heap side (matchLoop symbol n fuel s).1.queue :=
  matchLoop_invariant symbol n (fun s => queueOrdered s.heap side s.queue)
    (fun _ _ hs hstep => matchStep_next_ordered hstep hs)
    (fun _ _ _ hs hstep => matchStep_threw_ordered hstep hs) fuel s hs

theorem purgeQueue_ordered (h : Heap) (side : OrderSide) :
    ∀ (q acc : List Ptr) (m : List (Int × Ptr)),
      queueOrdered h side acc → (∀ p ∈ q, (h p).side = side) →
      queueOrdered h side (OrderBook.purgeQueue h q (acc, m)).1 := by
  intro q
  induction q with
  | nil => intro acc m hacc _; exact hacc
  | cons y q ih =>
    intro acc m hacc hq
    unfold OrderBook.purgeQueue
    split_ifs
    · exact ih _ _ (queueOrdered_pqPush hacc (hq y (List.mem_cons_self _ _)))
        (fun p hp => hq p (List.mem_cons_of_mem _ hp))
    · exact ih _ _ hacc (fun p hp => hq p (List.mem_cons_of_mem _ hp))

theorem queueOrdered_nil (h : Heap) (side : OrderSide) : queueOrdered h side [] :=
  ⟨fun _ hp => absurd hp (List.not_mem_nil _), List.Pairwise.nil⟩

/-- The purge keeps a book well formed. -/
theorem OrderBook.wellFormed_removeCompletedOrders {b : OrderBook} {h : Heap}
    (hwf : b.wellFormed h) : (b.removeCompletedOrders h).wellFormed h := by
  unfold OrderBook.removeCompletedOrders OrderBook.wellFormed
  exact ⟨purgeQueue_ordered h .BUY _ _ _ (queueOrdered_nil _ _) hwf.1.1,
    purgeQueue_ordered h .SELL _ _ _ (queueOrdered_nil _ _) hwf.2.1⟩

theorem OrderBook.wellFormed_new (symbol : String) (h : Heap) :
    (OrderBook.new symbol).wellFormed h :=
  ⟨queueOrdered_nil _ _, queueOrdered_nil _ _⟩

theorem OrderBook.wellFormed_congr {b : OrderBook} {h h1 : Heap} (hid : h.sameIdentity h1)
    (hwf : b.wellFormed h) : b.wellFormed h1 :=
  ⟨queueOrdered_congr hid hwf.1, queueOrdered_congr hid hwf.2⟩

/-- The queues of a book stay well formed under `addOrder`, whether it returns or
throws. -/
theorem OrderBook.wellFormed_addOrder {b : OrderBook} {h : Heap} (n : Ptr)
    (hwf : b.wellFormed h) : (b.addOrder h n).book.wellFormed (b.addOrder h n).heap := by
  have hid := matchLoop_sameIdentity b.symbol n ((b.opposite (h n)).length + 2)
    { heap := h, queue := b.opposite (h n), trades := [] }
  have hord := matchLoop_ordered b.symbol n (oppositeSide (h n))
    ((b.opposite (h n)).length + 2) { heap := h, queue := b.opposite (h n), trades := [] }
    (OrderBook.wellFormed_opposite hwf (h n))
  have hwf1 := OrderBook.wellFormed_congr hid hwf
  have hside : ((matchLoop b.symbol n ((b.opposite (h n)).length + 2)
      { heap := h, queue := b.opposite (h n), trades := [] }).1.heap n).side = (h n).side :=
    (hid n).2.2.2.2.2.1
  -- the book with the opposite queue as the loop left it
  have hb2 : (OrderBook.setOpposite
      { b with orderMap := mapInsert (h n).orderId n b.orderMap } (h n)
      (matchLoop b.symbol n ((b.opposite (h n)).length + 2)
        { heap := h, queue := b.opposite (h n), trades := [] }).1.queue).wellFormed
      (matchLoop b.symbol n ((b.opposite (h n)).length + 2)
        { heap := h, queue := b.opposite (h n), trades := [] }).1.heap := by
    unfold OrderBook.setOpposite
    unfold oppositeSide at hord
    split_ifs with hb
    · rw [if_pos hb] at hord
      exact ⟨hwf1.1, hord⟩
    · rw [if_neg hb] at hord
      exact ⟨hord, hwf1.2⟩
  unfold OrderBook.addOrder
  split_ifs with hsym
  · exact hwf
  · simp only
    split
    · exact hb2
    · exact hb2
    · apply OrderBook.wellFormed_removeCompletedOrders
      split_ifs with hc hbuy
      · refine ⟨queueOrdered_pqPush hb2.1 ?_, hb2.2⟩
        rw [Order.isBuy_iff] at hbuy
        exact hbuy
      · refine ⟨hb2.1, queueOrdered_pqPush hb2.2 ?_⟩
        rw [Order.isBuy_iff] at hbuy
        cases hsd : ((matchOrder { b with orderMap := mapInsert (h n).orderId n b.orderMap }
          h n).1.heap n).side
        · exact absurd hsd hbuy
        · rfl
      · exact hb2

theorem OrderBook.wellFormed_cancelOrder {b : OrderBook} {h : Heap} (orderId : Int)
    (hwf : b.wellFormed h) :
    (b.cancelOrder h orderId).book.wellFormed (b.cancelOrder h orderId).heap := by
  have hid := OrderBook.cancelOrder_sameIdentity b h orderId
  unfold OrderBook.cancelOrder at hid ⊢
  split
  · rename_i p hp
    simp only [hp] at hid
    apply OrderBook.wellFormed_removeCompletedOrders
    exact OrderBook.wellFormed_congr (b := { b with orderMap := mapErase b.orderMap orderId })
      hid hwf
  · exact hwf

/-- The bound on the loop passes that `matchOrder` sets is never reached: `addOrder` ends
by returning or by throwing, on every book and arena. -/
theorem OrderBook.addOrder_ends (b : OrderBook) (h : Heap) (n : Ptr) :
    (b.addOrder h n).outcome ≠ .outOfFuel := by
  have hterm := matchLoop_terminates b.symbol n ((b.opposite (h n)).length + 2)
    { heap := h, queue := b.opposite (h n), trades := [] } (Or.inl le_rfl)
  unfold OrderBook.addOrder
  split_ifs
  · simp
  · simp only
    split
    · simp
    · rename_i hout
      exact absurd hout hterm
    · simp

/-- Every `submitOrder` call ends by returning or by throwing. -/
theorem MatchingEngine.submitOrder_ends (e : MatchingEngine) (traderId : Int)
    (symbol : String) (quantity price : ℚ) (side : OrderSide) (type : OrderType) (now : Nat) :
    (e.submitOrder traderId symbol quantity price side type now).outcome ≠ .outOfFuel := by
  rcases MatchingEngine.submitOrder_cases e traderId symbol quantity price side type now with
    ⟨-, hr⟩ | ⟨trader, ht, ⟨-, -, hr⟩ | ⟨-, -, hr⟩ | ⟨-, -, ⟨-, hr⟩ | ⟨order, -, hr⟩⟩⟩
  · rw [hr]; simp
  · rw [hr]; simp
  · rw [hr]; simp
  · rw [hr]; simp
  · rw [hr]
    unfold MatchingEngine.routeOrder
    simp only
    split
    · simp
    · rename_i hout
      exact absurd hout (OrderBook.addOrder_ends _ _ _)
    · split
      · simp
      · rename_i hout
        rcases MatchingEngine.processTradeNotifications_outcome _ _ with h | h | h <;>
          rw [hout] at h <;> cases h
      · simp

theorem mapFind_mapInsert_same {κ ν : Type} [DecidableEq κ] [LT κ]
    [DecidableRel (fun (a b : κ) => a < b)] (k : κ) (v : ν) :
    ∀ m : List (κ × ν), mapFind (mapInsert k v m) k = some v := by
  intro m
  induction m with
  | nil => simp [mapInsert, mapFind]
  | cons x m ih =>
    obtain ⟨k1, v1⟩ := x
    unfold mapInsert
    split_ifs with h1 h2
    · simp [mapFind]
    · simp [mapFind]
    · simp [mapFind, h1, ih]

theorem mapFind_mapInsert_other {κ ν : Type} [DecidableEq κ] [LT κ]
    [DecidableRel (fun (a b : κ) => a < b)] {k j : κ} (v : ν) (hj : j ≠ k) :
    ∀ m : List (κ × ν), mapFind (mapInsert k v m) j = mapFind m j := by
  intro m
  induction m with
  | nil => simp [mapInsert, mapFind, Ne.symm hj]
  | cons x m ih =>
    obtain ⟨k1, v1⟩ := x
    unfold mapInsert
    split_ifs with h1 h2
    · subst h1
      simp [mapFind, Ne.symm hj]
    · simp [mapFind, Ne.symm hj]
    · by_cases h3 : k1 = j
      · simp [mapFind, h3]
      · simp [mapFind, h3, ih]

theorem mapFind_mapErase_same {κ ν : Type} [DecidableEq κ] (k : κ) :
    ∀ m : List (κ × ν), mapFind (mapErase m k) k = none := by
  intro m
  induction m with
  | nil => simp [mapErase, mapFind]
  | cons x m ih =>
    obtain ⟨k1, v1⟩ := x
    unfold mapErase at ih ⊢
    rw [List.filter_cons]
    by_cases h1 : k1 = k
    · rw [if_neg (by simpa using h1)]
      exact ih
    · rw [if_pos (by simpa using h1)]
      simp only [mapFind, if_neg h1]
      exact ih

theorem mapFind_mapErase_other {κ ν : Type} [DecidableEq κ] {k j : κ} (hj : j ≠ k) :
    ∀ m : List (κ × ν), mapFind (mapErase m k) j = mapFind m j := by
  intro m
  induction m with
  | nil => simp [mapErase, mapFind]
  | cons x m ih =>
    obtain ⟨k1, v1⟩ := x
    unfold mapErase at ih ⊢
    rw [List.filter_cons]
    by_cases h1 : k1 = k
    · rw [if_neg (by simpa using h1)]
      subst h1
      simp only [mapFind, if_neg (Ne.symm hj)]
      exact ih
    · rw [if_pos (by simpa using h1)]
      by_cases h3 : k1 = j
      · simp only [mapFind, if_pos h3]
      · simp only [mapFind, if_neg h3]
        exact ih

/-- Counterexample to C11 as stated. Bob holds 2 shares and has two sells of 2 shares at
10 resting; Alice's buy of 4 shares at 10 passes the pre-trade check and trades with both.
The first trade is applied to both ledgers; of the second, Alice's side is applied and
Bob's is refused by his ledger, and `submitOrder` fails with `InsufficientInventory`
after the id 3 has been issued and entered in the index (the next id is 4, not 3), the
ask depth of the book has gone from 2 to 0, Alice has paid 40 and Bob has received 20. -/
theorem pretrade_rejection_atomic_counterexample :
    doubleSellCall.outcome = .threw .InsufficientInventory ∧
    doubleSellBefore.nextOrderId = 3 ∧ doubleSellCall.engine.nextOrderId = 4 ∧
    doubleSellBefore.getOrder 3 = none ∧ doubleSellCall.engine.getOrder 3 = some 3 ∧
    (doubleSellBefore.getOrderBook "X").map OrderBook.getAskDepth = some 2 ∧
    (doubleSellCall.engine.getOrderBook "X").map OrderBook.getAskDepth = some 0 ∧
    (doubleSellBefore.getTrader 1).map (fun t => t.cash) = some 100 ∧
    (doubleSellCall.engine.getTrader 1).map (fun t => t.cash) = some 60 ∧
    (doubleSellBefore.getTrader 2).map (fun t => t.cash) = some 0 ∧
    (doubleSellCall.engine.getTrader 2).map (fun t => t.cash) = some 20 := by
  with_unfolding_all decide

/-- C11, amended (rejection by the pre-trade stage is atomic). When `submitOrder` is
called for a trader that is not registered it fails with `TraderNotFound`; when it is
called for a buy whose quantity times price exceeds the cash of the registered trader it
fails with `InsufficientFunds`; when it is called for a sell and the registered trader
has not enough shares of the symbol it fails with `InsufficientInventory`. In each of the
three cases the engine after the call is the engine before it: the next order id, the
order index, the order books, the ledgers and the arena are unchanged, so that every
later call does what it would have done without the rejected one. -/
theorem pretrade_rejection_atomic (e : MatchingEngine) (traderId : Int) (symbol : String)
    (quantity price : ℚ) (side : OrderSide) (type : OrderType) (now : Nat) :
    (e.getTrader traderId = none →
      e.submitOrder traderId symbol quantity price side type now =
        { engine := e, outcome := .threw .TraderNotFound }) ∧
    (∀ trader, e.getTrader traderId = some trader →
      (side = .BUY → trader.cash < quantity * price →
        e.submitOrder traderId symbol quantity price side type now =
          { engine := e, outcome := .threw .InsufficientFunds }) ∧
      (side = .SELL → trader.hasSufficientShares symbol quantity = false →
        e.submitOrder traderId symbol quantity price side type now =
          { engine := e, outcome := .threw .InsufficientInventory })) := by
  rcases MatchingEngine.submitOrder_cases e traderId symbol quantity price side type now with
    ⟨hnone, hr⟩ | ⟨trader, ht, ⟨hb, hc, hr⟩ | ⟨hs, hc, hr⟩ | ⟨hb, hs, -⟩⟩
  · refine ⟨fun _ => hr, ?_⟩
    intro trader ht
    rw [hnone] at ht; cases ht
  · refine ⟨fun hn => ?_, ?_⟩
    · rw [ht] at hn; cases hn
    · intro trader1 ht1
      rw [ht] at ht1; injection ht1 with ht1; subst ht1
      refine ⟨fun _ _ => hr, fun hsell _ => ?_⟩
      rw [hb] at hsell; cases hsell
  · refine ⟨fun hn => ?_, ?_⟩
    · rw [ht] at hn; cases hn
    · intro trader1 ht1
      rw [ht] at ht1; injection ht1 with ht1; subst ht1
      refine ⟨fun hbuy _ => ?_, fun _ _ => hr⟩
      rw [hs] at hbuy; cases hbuy
  · refine ⟨fun hn => ?_, ?_⟩
    · rw [ht] at hn; cases hn
    · intro trader1 ht1
      rw [ht] at ht1; injection ht1 with ht1; subst ht1
      refine ⟨fun hbuy hc => ?_, fun hsell hc => ?_⟩
      · exact absurd (hb hbuy) (not_le.mpr hc)
      · rw [hs hsell] at hc; cases hc

/-- Witness of the amended C11: Alice, who holds no shares, submits a sell of 1 share of
X at 10. -/
theorem pretrade_rejection_atomic_witness :
    sampleEngine.submitOrder 1 "X" 1 10 .SELL .LIMIT 1 =
      { engine := sampleEngine, outcome := .threw .InsufficientInventory } :=
  ((pretrade_rejection_atomic sampleEngine 1 "X" 1 10 .SELL .LIMIT 1).2
    (Trader.new 1 "Alice" 100) (by with_unfolding_all decide)).2 rfl
    (by with_unfolding_all decide)

theorem Trader.storePosition_other (t : Trader) (symbol : String) (position : Position)
    {sym : String} (hs : sym ≠ symbol) :
    mapFind (t.storePosition symbol position).positions sym = mapFind t.positions sym := by
  unfold Trader.storePosition
  split_ifs with h
  · exact mapFind_mapErase_other hs _
  · exact mapFind_mapInsert_other _ hs _

/-- The position update leaves the positions in other symbols alone. -/
theorem Trader.updatePositionOnTrade_other (t : Trader) (symbol : String) (quantity price : ℚ)
    {sym : String} (hs : sym ≠ symbol) :
    mapFind (t.updatePositionOnTrade symbol quantity price).positions sym =
      mapFind t.positions sym := by
  unfold Trader.updatePositionOnTrade
  split
  · split_ifs
    · exact mapFind_mapInsert_other _ hs _
    · rfl
  · simp only
    split_ifs
    · exact Trader.storePosition_other _ _ _ hs
    · exact Trader.storePosition_other _ _ _ hs
    · exact mapFind_mapErase_other hs _
    · exact Trader.storePosition_other _ _ _ hs
    · exact Trader.storePosition_other _ _ _ hs

theorem onGrid_zero : onGrid 0 := ⟨0, by simp⟩

theorem mkTrade_symbol (symbol : String) (a b : Order) (q p : ℚ) :
    (mkTrade symbol a b q p).symbol = symbol := by
  unfold mkTrade
  split_ifs <;> rfl

/-- What `routeOrder` has done when it returns: `book` is the book of the symbol (found,
or new and empty), `e3` the engine after `addOrder` has returned and before the ledger
pass, which returns as well. -/
theorem MatchingEngine.routeOrder_returned {e : MatchingEngine} {symbol : String}
    {order : Order} {orderId : Int}
    (hret : (e.routeOrder symbol order).outcome = .returned orderId) :
    ∃ (book : OrderBook) (e3 : MatchingEngine),
      (e.getOrderBook symbol = some book ∨
        (e.getOrderBook symbol = none ∧ book = OrderBook.new symbol)) ∧
      (book.addOrder (e.heap.set e.nextOrderId order) e.nextOrderId).outcome = .returned () ∧
      e3.traders = e.traders ∧
      e3.getOrderBook symbol =
        some (book.addOrder (e.heap.set e.nextOrderId order) e.nextOrderId).book ∧
      (e3.processTradeNotifications
        ((book.addOrder (e.heap.set e.nextOrderId order) e.nextOrderId).book.trades.drop
          book.trades.length)).2 = .returned () ∧
      (e.routeOrder symbol order).engine =
        (e3.processTradeNotifications
          ((book.addOrder (e.heap.set e.nextOrderId order) e.nextOrderId).book.trades.drop
            book.trades.length)).1 := by
  unfold MatchingEngine.routeOrder MatchingEngine.getOrCreateOrderBook at hret ⊢
  simp only [OrderBook.getTrades, MatchingEngine.getOrderBook] at hret ⊢
  cases hfind : mapFind e.orderBooks symbol with
  | none =>
    simp only [hfind] at hret ⊢
    refine ⟨OrderBook.new symbol,
      { nextOrderId := e.nextOrderId + 1,
        orderBooks := mapInsert symbol
          ((OrderBook.new symbol).addOrder (e.heap.set e.nextOrderId order) e.nextOrderId).book
          (mapInsert symbol (OrderBook.new symbol) e.orderBooks),
        traders := e.traders,
        orders := mapInsert e.nextOrderId e.nextOrderId e.orders,
        heap :=
          ((OrderBook.new symbol).addOrder (e.heap.set e.nextOrderId order) e.nextOrderId).heap },
      by simp, ?_⟩
    split at hret
    · cases hret
    · cases hret
    · rename_i u hadd
      split at hret
      · cases hret
      · cases hret
      · rename_i u2 hproc
        refine ⟨by rw [hadd], rfl, by simp only [mapFind_mapInsert_same], hproc, ?_⟩
        simp only [hadd, hproc]
  | some book =>
    simp only [hfind] at hret ⊢
    refine ⟨book,
      { nextOrderId := e.nextOrderId + 1,
        orderBooks := mapInsert symbol
          (book.addOrder (e.heap.set e.nextOrderId order) e.nextOrderId).book e.orderBooks,
        traders := e.traders,
        orders := mapInsert e.nextOrderId e.nextOrderId e.orders,
        heap := (book.addOrder (e.heap.set e.nextOrderId order) e.nextOrderId).heap },
      by simp, ?_⟩
    split at hret
    · cases hret
    · cases hret
    · rename_i u hadd
      split at hret
      · cases hret
      · cases hret
      · rename_i u2 hproc
        refine ⟨by rw [hadd], rfl, by simp only [mapFind_mapInsert_same], hproc, ?_⟩
        simp only [hadd, hproc]

/-- The id counter after `submitOrder`: unchanged or advanced by one; a call that returns
an id returns the counter's value and advances it. -/
theorem MatchingEngine.submitOrder_nextOrderId (e : MatchingEngine) (traderId : Int)
    (symbol : String) (quantity price : ℚ) (side : OrderSide) (type : OrderType) (now : Nat) :
    ((e.submitOrder traderId symbol quantity price side type now).engine.nextOrderId
        = e.nextOrderId ∨
      (e.submitOrder traderId symbol quantity price side type now).engine.nextOrderId
        = e.nextOrderId + 1) ∧
    ∀ orderId, (e.submitOrder traderId symbol quantity price side type now).outcome
        = .returned orderId →
      orderId = e.nextOrderId ∧
      (e.submitOrder traderId symbol quantity price side type now).engine.nextOrderId
        = e.nextOrderId + 1 := by
  rcases MatchingEngine.submitOrder_cases e traderId symbol quantity price side type now with
    ⟨-, hr⟩ | ⟨trader0, -, ⟨-, -, hr⟩ | ⟨-, -, hr⟩ | ⟨-, -, ⟨-, hr⟩ | ⟨order, ho, hr⟩⟩⟩
  · rw [hr]; exact ⟨Or.inl rfl, fun _ h => by cases h⟩
  · rw [hr]; exact ⟨Or.inl rfl, fun _ h => by cases h⟩
  · rw [hr]; exact ⟨Or.inl rfl, fun _ h => by cases h⟩
  · rw [hr]; exact ⟨Or.inr rfl, fun _ h => by cases h⟩
  · rw [hr]
    obtain ⟨h1, -, h3⟩ := MatchingEngine.routeOrder_facts e symbol order
    exact ⟨Or.inr h1, fun id hid => ⟨h3 id hid, h1⟩⟩

theorem MatchingEngine.cancelOrder_nextOrderId (e : MatchingEngine) (orderId : Int) :
    (e.cancelOrder orderId).engine.nextOrderId = e.nextOrderId := by
  unfold MatchingEngine.cancelOrder
  split
  · rfl
  · split
    · simp only
      split <;> rfl
    · rfl

/-- Along every history the id counter is positive and above all ids returned so far,
and the ids returned increase strictly. -/
theorem IssuedReach.counter_invariant {e : MatchingEngine} {ids : List Int}
    (h : IssuedReach e ids) :
    0 < e.nextOrderId ∧ (∀ id ∈ ids, 0 < id ∧ id < e.nextOrderId) ∧
      ids.Pairwise (fun a b => a < b) := by
  induction h with
  | start heap => exact ⟨by simp [MatchingEngine.new], by simp, List.Pairwise.nil⟩
  | registerTrader e ids trader _ ih => exact ih
  | submitReturned e ids traderId symbol quantity price side type now orderId _ hret ih =>
    obtain ⟨hpos, hlt, hpw⟩ := ih
    obtain ⟨hid, hnext⟩ :=
      (MatchingEngine.submitOrder_nextOrderId e traderId symbol quantity price side type
        now).2 orderId hret
    rw [hnext]
    refine ⟨by omega, ?_, ?_⟩
    · intro id hmem
      rcases List.mem_append.mp hmem with hmem | hmem
      · have := hlt id hmem
        exact ⟨this.1, by omega⟩
      · rw [List.mem_singleton] at hmem
        subst hmem
        rw [hid]
        exact ⟨hpos, by omega⟩
    · rw [List.pairwise_append]
      refine ⟨hpw, List.pairwise_singleton _ _, ?_⟩
      intro a ha b hb
      rw [List.mem_singleton] at hb
      rw [hb, hid]
      exact (hlt a ha).2
  | submitFailed e ids traderId symbol quantity price side type now _ _ ih =>
    obtain ⟨hpos, hlt, hpw⟩ := ih
    rcases (MatchingEngine.submitOrder_nextOrderId e traderId symbol quantity price side type
      now).1 with hnext | hnext
    · rw [hnext]; exact ⟨hpos, hlt, hpw⟩
    · rw [hnext]
      exact ⟨by omega, fun id hmem => ⟨(hlt id hmem).1, by have := (hlt id hmem).2; omega⟩, hpw⟩
  | cancelOrder e ids orderId _ ih =>
    rw [MatchingEngine.cancelOrder_nextOrderId]
    exact ih
  | ledgers e ids traders _ ih => exact ih
  | arena e ids heap _ ih => exact ih

theorem length_purgeQueue (h : Heap) :
    ∀ (q acc : List Ptr) (m : List (Int × Ptr)),
      (OrderBook.purgeQueue h q (acc, m)).1.length =
        acc.length + q.countP (fun x => (h x).isLive) := by
  intro q
  induction q with
  | nil => intro acc m; simp [OrderBook.purgeQueue]
  | cons y q ih =>
    intro acc m
    unfold OrderBook.purgeQueue
    split_ifs with hl
    · have hy : (h y).isLive = true := by simpa [Order.isLive] using hl
      rw [ih, length_pqPush]
      simp only [List.countP_cons, hy, if_true]
      omega
    · have hy : ¬ (h y).isLive = true := by simpa [Order.isLive] using hl
      rw [ih]
      simp only [List.countP_cons, hy, Bool.false_eq_true, if_false, add_zero]

/-- The purge erases from the index only ids of terminal entries of the queue. -/
theorem mapFind_purgeQueue (h : Heap) (id : Int) :
    ∀ (q acc : List Ptr) (m : List (Int × Ptr)),
      (∀ x ∈ q, (h x).isLive = false → (h x).orderId ≠ id) →
      mapFind (OrderBook.purgeQueue h q (acc, m)).2 id = mapFind m id := by
  intro q
  induction q with
  | nil => intro acc m _; simp [OrderBook.purgeQueue]
  | cons y q ih =>
    intro acc m hq
    unfold OrderBook.purgeQueue
    split_ifs with hl
    · exact ih _ _ (fun x hx => hq x (List.mem_cons_of_mem _ hx))
    · have hy : (h y).isLive = false := by simpa [Order.isLive] using hl
      rw [ih _ _ (fun x hx => hq x (List.mem_cons_of_mem _ hx))]
      exact mapFind_mapErase_other (Ne.symm (hq y (List.mem_cons_self _ _) hy)) _

/-- The purge does not bring an id into the index. -/
theorem mapFind_purgeQueue_none (h : Heap) (id : Int) :
    ∀ (q acc : List Ptr) (m : List (Int × Ptr)),
      mapFind m id = none → mapFind (OrderBook.purgeQueue h q (acc, m)).2 id = none := by
  intro q
  induction q with
  | nil => intro acc m hm; simpa [OrderBook.purgeQueue] using hm
  | cons y q ih =>
    intro acc m hm
    unfold OrderBook.purgeQueue
    split_ifs with hl
    · exact ih _ _ hm
    · apply ih
      by_cases hid : (h y).orderId = id
      · rw [hid]; exact mapFind_mapErase_same _ _
      · rw [mapFind_mapErase_other (Ne.symm hid)]; exact hm

/-- After a purge the queues hold live orders only. -/
theorem OrderBook.allLive_removeCompletedOrders (b : OrderBook) (h : Heap) :
    (b.removeCompletedOrders h).allLive h := by
  intro p hp
  rw [OrderBook.mem_removeCompletedOrders_bids, OrderBook.mem_removeCompletedOrders_asks] at hp
  rcases hp with ⟨-, hp⟩ | ⟨-, hp⟩ <;> exact hp

/-- The `cancelOrder` call leaves live orders only in the queues. -/
theorem OrderBook.allLive_cancelOrder (b : OrderBook) (h : Heap) (orderId : Int)
    (hb : b.allLive h) :
    (b.cancelOrder h orderId).book.allLive (b.cancelOrder h orderId).heap := by
  unfold OrderBook.cancelOrder
  split
  · exact OrderBook.allLive_removeCompletedOrders _ _
  · exact hb

/-- An `addOrder` call that returns leaves live orders only in the queues. -/
theorem OrderBook.allLive_addOrder (b : OrderBook) (h : Heap) (n : Ptr)
    (hret : (b.addOrder h n).outcome = .returned ()) :
    (b.addOrder h n).book.allLive (b.addOrder h n).heap := by
  unfold OrderBook.addOrder at hret ⊢
  by_cases hsym : (h n).symbol ≠ b.symbol
  · rw [if_pos hsym] at hret
    cases hret
  · rw [if_neg hsym] at hret ⊢
    simp only at hret ⊢
    split at hret
    · cases hret
    · cases hret
    · rename_i u hm
      simp only [hm]
      exact OrderBook.allLive_removeCompletedOrders _ _

/-- With live entries only in a queue, the entries that stay live once the order at `p`
is cancelled are the entries other than `p`. -/
theorem countP_live_cancelled (h : Heap) (p : Ptr) :
    ∀ q : List Ptr, (∀ x ∈ q, (h x).isLive = true) →
      q.countP (fun x => ((h.set p ((h p).setStatus .CANCELLED)) x).isLive) + q.count p
        = q.length := by
  intro q
  induction q with
  | nil => intro _; simp
  | cons y q ih =>
    intro hq
    have ih1 := ih (fun x hx => hq x (List.mem_cons_of_mem _ hx))
    by_cases hy : y = p
    · subst hy
      have hdead : ((h.set y ((h y).setStatus .CANCELLED)) y).isLive = false := by
        simp [Heap.set, Order.isLive, Order.setStatus]
      simp only [List.countP_cons, hdead, Bool.false_eq_true, if_false, add_zero,
        List.count_cons_self, List.length_cons]
      omega
    · have hlive : ((h.set p ((h p).setStatus .CANCELLED)) y).isLive = true := by
        rw [Heap.set_other _ _ _ _ hy]
        exact hq y (List.mem_cons_self _ _)
      simp only [List.countP_cons, hlive, if_true, List.length_cons]
      rw [List.count_cons_of_ne (fun hc => hy hc.symm)]
      omega

/-- C14 (`OrderBook::cancelOrder`). If the id is not in the lookup index, `cancelOrder`
returns false and leaves book and orders as they are. Otherwise, with `p` the order that
the index holds for the id, it returns true; the order at `p` has its status set to
cancelled and is otherwise unchanged, its filled quantity included; every other order is
unchanged; `p` is in neither priority queue, and the id is not in the index; the trade
log is unchanged. When the queues held live orders only, as `addOrder` and `cancelOrder`
leave them, each depth drops by the number of entries that `p` had in the queue (by one
on the side where the order was resting, by nothing on the other side), the other
entries stay in their queues, and, `p` carrying the id, the other ids keep their index
entries. -/
theorem cancelOrder_contract (b : OrderBook) (h : Heap) (orderId : Int) :
    (b.getOrder orderId = none →
      b.cancelOrder h orderId = { book := b, heap := h, outcome := .returned false }) ∧
    (∀ p, b.getOrder orderId = some p →
      (b.cancelOrder h orderId).outcome = .returned true ∧
      (b.cancelOrder h orderId).heap p = { h p with status := .CANCELLED } ∧
      (∀ q, q ≠ p → (b.cancelOrder h orderId).heap q = h q) ∧
      p ∉ (b.cancelOrder h orderId).book.bids ∧ p ∉ (b.cancelOrder h orderId).book.asks ∧
      (b.cancelOrder h orderId).book.getOrder orderId = none ∧
      (b.cancelOrder h orderId).book.trades = b.trades ∧
      (b.allLive h →
        (b.cancelOrder h orderId).book.getBidDepth + b.bids.count p = b.getBidDepth ∧
        (b.cancelOrder h orderId).book.getAskDepth + b.asks.count p = b.getAskDepth ∧
        (∀ q, q ≠ p →
          (q ∈ (b.cancelOrder h orderId).book.bids ↔ q ∈ b.bids) ∧
          (q ∈ (b.cancelOrder h orderId).book.asks ↔ q ∈ b.asks)) ∧
        ((h p).orderId = orderId → ∀ id, id ≠ orderId →
          (b.cancelOrder h orderId).book.getOrder id = b.getOrder id))) := by
  constructor
  · intro hnone
    unfold OrderBook.getOrder at hnone
    unfold OrderBook.cancelOrder
    rw [hnone]
  · intro p hp
    unfold OrderBook.getOrder at hp
    have hdead : ((h.set p ((h p).setStatus .CANCELLED)) p).isLive = false := by
      simp [Heap.set, Order.isLive, Order.setStatus]
    have hcancel : b.cancelOrder h orderId =
        { book := OrderBook.removeCompletedOrders
            { b with orderMap := mapErase b.orderMap orderId }
            (h.set p ((h p).setStatus .CANCELLED)),
          heap := h.set p ((h p).setStatus .CANCELLED), outcome := .returned true } := by
      unfold OrderBook.cancelOrder
      rw [hp]
    rw [hcancel]
    refine ⟨rfl, ?_, ?_, ?_, ?_, ?_, ?_, ?_⟩
    · simp only [Heap.set_same, Order.setStatus]
    · intro q hq
      exact Heap.set_other _ _ _ _ hq
    · intro hmem
      rw [OrderBook.mem_removeCompletedOrders_bids] at hmem
      rw [hdead] at hmem
      cases hmem.2
    · intro hmem
      rw [OrderBook.mem_removeCompletedOrders_asks] at hmem
      rw [hdead] at hmem
      cases hmem.2
    · simp only [OrderBook.getOrder, OrderBook.removeCompletedOrders]
      apply mapFind_purgeQueue_none
      apply mapFind_purgeQueue_none
      exact mapFind_mapErase_same _ _
    · exact OrderBook.removeCompletedOrders_trades _ _
    · intro hlive
      refine ⟨?_, ?_, ?_, ?_⟩
      · simp only [OrderBook.getBidDepth, OrderBook.removeCompletedOrders, length_purgeQueue,
          List.length_nil, zero_add]
        exact countP_live_cancelled h p b.bids (fun x hx => hlive x (Or.inl hx))
      · simp only [OrderBook.getAskDepth, OrderBook.removeCompletedOrders, length_purgeQueue,
          List.length_nil, zero_add]
        exact countP_live_cancelled h p b.asks (fun x hx => hlive x (Or.inr hx))
      · intro q hq
        rw [OrderBook.mem_removeCompletedOrders_bids, OrderBook.mem_removeCompletedOrders_asks,
          Heap.set_other _ _ _ _ hq]
        exact ⟨⟨fun hx => hx.1, fun hx => ⟨hx, hlive q (Or.inl hx)⟩⟩,
          ⟨fun hx => hx.1, fun hx => ⟨hx, hlive q (Or.inr hx)⟩⟩⟩
      · intro hkey id hid
        have hterm : ∀ x, (x ∈ b.bids ∨ x ∈ b.asks) →
            ((h.set p ((h p).setStatus .CANCELLED)) x).isLive = false →
            ((h.set p ((h p).setStatus .CANCELLED)) x).orderId ≠ id := by
          intro x hx hxdead
          by_cases hxp : x = p
          · subst hxp
            simp only [Heap.set_same, Order.setStatus]
            rw [hkey]
            exact Ne.symm hid
          · rw [Heap.set_other _ _ _ _ hxp, hlive x hx] at hxdead
            cases hxdead
        simp only [OrderBook.getOrder, OrderBook.removeCompletedOrders]
        rw [mapFind_purgeQueue _ _ _ _ _ (fun x hx => hterm x (Or.inr hx)),
          mapFind_purgeQueue _ _ _ _ _ (fun x hx => hterm x (Or.inl hx))]
        exact mapFind_mapErase_other hid _

/-- Witness of C14, the test `OrderBookTest.CancelOrder`: a buy 100@150 with the id 1
rests in the book; `cancelOrder(1)` returns true, the order is cancelled with nothing
filled, the bid depth goes from 1 to 0, and `cancelOrder(999)` returns false. -/
theorem cancelOrder_contract_witness :
    cancelTestBook.getBidDepth = 1 ∧ cancelTestBook.bids.count 1 = 1 ∧
    (cancelTestBook.cancelOrder cancelTestHeap 1).outcome = .returned true ∧
    (cancelTestBook.cancelOrder cancelTestHeap 1).heap 1 =
      { cancelTestHeap 1 with status := .CANCELLED } ∧
    (cancelTestBook.cancelOrder cancelTestHeap 1).book.getBidDepth +
      cancelTestBook.bids.count 1 = cancelTestBook.getBidDepth ∧
    cancelTestBook.cancelOrder cancelTestHeap 999 =
      { book := cancelTestBook, heap := cancelTestHeap, outcome := .returned false } :=
  ⟨by with_unfolding_all decide, by with_unfolding_all decide,
    ((cancelOrder_contract cancelTestBook cancelTestHeap 1).2 1
      (by with_unfolding_all decide)).1,
    ((cancelOrder_contract cancelTestBook cancelTestHeap 1).2 1
      (by with_unfolding_all decide)).2.1,
    (((cancelOrder_contract cancelTestBook cancelTestHeap 1).2 1
      (by with_unfolding_all decide)).2.2.2.2.2.2.2
        (fun _ _ =>
          (by with_unfolding_all decide : (sampleOrder 1 100 150 .BUY).isLive = true))).1,
    (cancelOrder_contract cancelTestBook cancelTestHeap 999).1 (by with_unfolding_all decide)⟩

/-- What `routeOrder` does to the index, the registry of books and the identity of the
orders, however it ends. -/
theorem MatchingEngine.routeOrder_index (e : MatchingEngine) (symbol : String)
    (order : Order) :
    (e.routeOrder symbol order).engine.orders
      = mapInsert e.nextOrderId e.nextOrderId e.orders ∧
    (∃ bk, (e.routeOrder symbol order).engine.getOrderBook symbol = some bk) ∧
    (∀ s, s ≠ symbol →
      (e.routeOrder symbol order).engine.getOrderBook s = e.getOrderBook s) ∧
    (e.heap.set e.nextOrderId order).sameIdentity (e.routeOrder symbol order).engine.heap := by
  unfold MatchingEngine.routeOrder MatchingEngine.getOrCreateOrderBook
  simp only [OrderBook.getTrades, MatchingEngine.getOrderBook]
  cases hfind : mapFind e.orderBooks symbol with
  | none =>
    simp only
    split
    · refine ⟨rfl, ⟨_, mapFind_mapInsert_same _ _ _⟩, ?_, OrderBook.addOrder_sameIdentity _ _ _⟩
      intro s hs
      rw [mapFind_mapInsert_other _ hs, mapFind_mapInsert_other _ hs]
    · refine ⟨rfl, ⟨_, mapFind_mapInsert_same _ _ _⟩, ?_, OrderBook.addOrder_sameIdentity _ _ _⟩
      intro s hs
      rw [mapFind_mapInsert_other _ hs, mapFind_mapInsert_other _ hs]
    · have hframe := fun ts e0 => MatchingEngine.processTradeNotifications_frame ts e0
      split <;>
      · simp only [(hframe _ _).1, (hframe _ _).2.1, (hframe _ _).2.2.1]
        refine ⟨trivial, ⟨_, mapFind_mapInsert_same _ _ _⟩, ?_,
          OrderBook.addOrder_sameIdentity _ _ _⟩
        intro s hs
        rw [mapFind_mapInsert_other _ hs, mapFind_mapInsert_other _ hs]
  | some book =>
    simp only
    split
    · refine ⟨rfl, ⟨_, mapFind_mapInsert_same _ _ _⟩, ?_, OrderBook.addOrder_sameIdentity _ _ _⟩
      intro s hs
      rw [mapFind_mapInsert_other _ hs]
    · refine ⟨rfl, ⟨_, mapFind_mapInsert_same _ _ _⟩, ?_, OrderBook.addOrder_sameIdentity _ _ _⟩
      intro s hs
      rw [mapFind_mapInsert_other _ hs]
    · have hframe := fun ts e0 => MatchingEngine.processTradeNotifications_frame ts e0
      split <;>
      · simp only [(hframe _ _).1, (hframe _ _).2.1, (hframe _ _).2.2.1]
        refine ⟨trivial, ⟨_, mapFind_mapInsert_same _ _ _⟩, ?_,
          OrderBook.addOrder_sameIdentity _ _ _⟩
        intro s hs
        rw [mapFind_mapInsert_other _ hs]

theorem mapFind_mapInsert_some {κ ν : Type} [DecidableEq κ] [LT κ]
    [DecidableRel (fun (a b : κ) => a < b)] {k j : κ} {v w : ν} {m : List (κ × ν)}
    (h : mapFind (mapInsert k v m) j = some w) :
    (j = k ∧ w = v) ∨ (j ≠ k ∧ mapFind m j = some w) := by
  by_cases hj : j = k
  · subst hj
    rw [mapFind_mapInsert_same] at h
    injection h with h
    exact Or.inl ⟨rfl, h.symm⟩
  · rw [mapFind_mapInsert_other _ hj] at h
    exact Or.inr ⟨hj, h⟩

theorem mapFind_mapErase_some {κ ν : Type} [DecidableEq κ] {k j : κ} {w : ν}
    {m : List (κ × ν)} (h : mapFind (mapErase m k) j = some w) :
    j ≠ k ∧ mapFind m j = some w := by
  by_cases hj : j = k
  · subst hj
    rw [mapFind_mapErase_same] at h
    cases h
  · rw [mapFind_mapErase_other hj] at h
    exact ⟨hj, h⟩

/-- What `MatchingEngine::cancelOrder` does to the index, the registry of books, the
identity of the orders, the ledgers and the id counter. -/
theorem MatchingEngine.cancelOrder_index (e : MatchingEngine) (orderId : Int) :
    ((e.cancelOrder orderId).engine.orders = e.orders ∨
      (e.cancelOrder orderId).engine.orders = mapErase e.orders orderId) ∧
    (∀ s bk, e.getOrderBook s = some bk →
      ∃ bk1, (e.cancelOrder orderId).engine.getOrderBook s = some bk1) ∧
    e.heap.sameIdentity (e.cancelOrder orderId).engine.heap ∧
    (e.cancelOrder orderId).engine.traders = e.traders ∧
    (e.cancelOrder orderId).engine.nextOrderId = e.nextOrderId := by
  unfold MatchingEngine.cancelOrder
  split
  · exact ⟨Or.inl rfl, fun s bk h => ⟨bk, h⟩, Heap.identity_refl _, rfl, rfl⟩
  · rename_i p hp
    split
    · rename_i book hbook
      have hbooks : ∀ s bk, e.getOrderBook s = some bk →
          ∃ bk1, mapFind (mapInsert (e.heap p).symbol (book.cancelOrder e.heap orderId).book
            e.orderBooks) s = some bk1 := by
        intro s bk hs
        by_cases hsym : s = (e.heap p).symbol
        · rw [hsym]; exact ⟨_, mapFind_mapInsert_same _ _ _⟩
        · rw [mapFind_mapInsert_other _ hsym]; exact ⟨bk, hs⟩
      simp only
      split
      · exact ⟨Or.inr rfl, hbooks, OrderBook.cancelOrder_sameIdentity _ _ _, rfl, rfl⟩
      · exact ⟨Or.inl rfl, hbooks, OrderBook.cancelOrder_sameIdentity _ _ _, rfl, rfl⟩
    · exact ⟨Or.inl rfl, fun s bk h => ⟨bk, h⟩, Heap.identity_refl _, rfl, rfl⟩

/-- In every reachable engine state an indexed order lives at the address of its id, the
id is below the id counter, and the symbol of the order has a book. -/
theorem EngineReach.index_invariant {e : MatchingEngine} (h : EngineReach e) :
    ∀ id p, e.getOrder id = some p →
      p = id ∧ id < e.nextOrderId ∧ ∃ book, e.getOrderBook (e.heap p).symbol = some book := by
  induction h with
  | start heap => intro id p hp; simp [MatchingEngine.getOrder, MatchingEngine.new, mapFind] at hp
  | registerTrader e trader _ ih => exact ih
  | submitOrder e traderId symbol quantity price side type now _ ih =>
    rcases MatchingEngine.submitOrder_cases e traderId symbol quantity price side type now with
      ⟨-, hr⟩ | ⟨trader0, -, ⟨-, -, hr⟩ | ⟨-, -, hr⟩ | ⟨-, -, ⟨-, hr⟩ | ⟨order, ho, hr⟩⟩⟩
    · rw [hr]; exact ih
    · rw [hr]; exact ih
    · rw [hr]; exact ih
    · rw [hr]
      intro id p hp
      obtain ⟨h1, h2, h3⟩ := ih id p hp
      have h4 : id < e.nextOrderId + 1 := by omega
      exact ⟨h1, h4, h3⟩
    · rw [hr]
      obtain ⟨hnext, -, -⟩ := MatchingEngine.routeOrder_facts e symbol order
      obtain ⟨horders, hnew, hold, hident⟩ := MatchingEngine.routeOrder_index e symbol order
      have hosym : order.symbol = symbol := by rw [(Order.new_ok ho).2.2]
      intro id p hp
      unfold MatchingEngine.getOrder at hp
      rw [horders] at hp
      rw [hnext]
      rcases mapFind_mapInsert_some hp with ⟨hid, hpv⟩ | ⟨hid, hp0⟩
      · subst hid hpv
        refine ⟨rfl, by omega, ?_⟩
        have hs := (hident e.nextOrderId).2.2.1
        rw [Heap.set_same] at hs
        rw [hs, hosym]
        exact hnew
      · obtain ⟨h1, h2, bk, h3⟩ := ih id p hp0
        refine ⟨h1, by omega, ?_⟩
        have hpn : p ≠ e.nextOrderId := by rw [h1]; exact ne_of_lt h2
        have hs := (hident p).2.2.1
        rw [Heap.set_other _ _ _ _ hpn] at hs
        rw [hs]
        by_cases hsym : (e.heap p).symbol = symbol
        · rw [hsym]; exact hnew
        · rw [hold _ hsym]; exact ⟨bk, h3⟩
  | cancelOrder e orderId _ ih =>
    obtain ⟨horders, hbooks, hident, -, hnext⟩ := MatchingEngine.cancelOrder_index e orderId
    intro id p hp
    unfold MatchingEngine.getOrder at hp
    have hp0 : e.getOrder id = some p := by
      rcases horders with ho | ho
      · rw [ho] at hp; exact hp
      · rw [ho] at hp; exact (mapFind_mapErase_some hp).2
    obtain ⟨h1, h2, bk, h3⟩ := ih id p hp0
    rw [hnext, (hident p).2.2.1]
    exact ⟨h1, h2, hbooks _ bk h3⟩
  | ledgers e traders _ ih => exact ih
  | orderCalls e heap _ hident ih =>
    intro id p hp
    obtain ⟨h1, h2, bk, h3⟩ := ih id p hp
    refine ⟨h1, h2, bk, ?_⟩
    show e.getOrderBook (heap p).symbol = some bk
    rw [(hident p).2.2.1]
    exact h3

/-- A `cancelOrder` for an id that the engine's index does not hold returns false and
leaves the engine as it is. -/
theorem MatchingEngine.cancelOrder_unknown (e : MatchingEngine) (orderId : Int)
    (h : e.getOrder orderId = none) :
    e.cancelOrder orderId = { engine := e, outcome := .returned false } := by
  unfold MatchingEngine.getOrder at h
  unfold MatchingEngine.cancelOrder
  rw [h]

/-- A `cancelOrder` that returns true has erased the id from the engine's index. -/
theorem MatchingEngine.cancelOrder_erases (e : MatchingEngine) (orderId : Int)
    (h : (e.cancelOrder orderId).outcome = .returned true) :
    (e.cancelOrder orderId).engine.getOrder orderId = none := by
  unfold MatchingEngine.cancelOrder at h ⊢
  split at h
  · cases h
  · split at h
    · simp only at h ⊢
      split at h
      · rename_i hout
        simp only [hout, MatchingEngine.getOrder]
        exact mapFind_mapErase_same _ _
      · rename_i hne
        exact absurd h (hne)
    · cases h

/-- C15 (`MatchingEngine::cancelOrder`). In every reachable engine state: if the id is
not in the engine's index, `cancelOrder` returns false and leaves the engine as it is;
otherwise the order's symbol has a book and `cancelOrder` ends as the `cancelOrder` of
that book does. When the call returns true, `getOrder` of the id finds nothing afterwards
and a second `cancelOrder` of the id returns false without changing anything. The
ledgers are the same after the call as before it in every case. -/
theorem engine_cancelOrder_contract (e : MatchingEngine) (hreach : EngineReach e)
    (orderId : Int) :
    (e.getOrder orderId = none →
      e.cancelOrder orderId = { engine := e, outcome := .returned false }) ∧
    (∀ p, e.getOrder orderId = some p →
      ∃ book, e.getOrderBook (e.heap p).symbol = some book ∧
        (e.cancelOrder orderId).outcome = (book.cancelOrder e.heap orderId).outcome) ∧
    ((e.cancelOrder orderId).outcome = .returned true →
      (e.cancelOrder orderId).engine.getOrder orderId = none ∧
      (e.cancelOrder orderId).engine.cancelOrder orderId =
        { engine := (e.cancelOrder orderId).engine, outcome := .returned false }) ∧
    (e.cancelOrder orderId).engine.traders = e.traders := by
  refine ⟨MatchingEngine.cancelOrder_unknown e orderId, ?_, ?_,
    (MatchingEngine.cancelOrder_index e orderId).2.2.2.1⟩
  · intro p hp
    obtain ⟨-, -, book, hbook⟩ := EngineReach.index_invariant hreach orderId p hp
    refine ⟨book, hbook, ?_⟩
    unfold MatchingEngine.getOrder at hp
    unfold MatchingEngine.cancelOrder
    rw [hp]
    simp only [hbook]
    split
    · rename_i hout; rw [hout]
    · rfl
  · intro htrue
    have hgone := MatchingEngine.cancelOrder_erases e orderId htrue
    exact ⟨hgone, MatchingEngine.cancelOrder_unknown _ orderId hgone⟩

theorem restingSale_reach : EngineReach restingSale :=
  EngineReach.submitOrder sampleEngine 2 "X" 2 100 .SELL .LIMIT 1
    (EngineReach.registerTrader _ _
      (EngineReach.registerTrader _ _ (EngineReach.start blankHeap)))

/-- Witness of C15, after the test `MatchingEngineTest.CancelOrder`: Bob's resting sell,
order 1, is cancelled; the call returns true, the id is gone from the index, a second
`cancelOrder(1)` returns false, the ledgers are unchanged, and `cancelOrder(999)` returns
false and changes nothing. -/
theorem engine_cancelOrder_contract_witness :
    (restingSale.cancelOrder 1).outcome = .returned true ∧
    ((restingSale.cancelOrder 1).engine.getOrder 1 = none ∧
      (restingSale.cancelOrder 1).engine.cancelOrder 1 =
        { engine := (restingSale.cancelOrder 1).engine, outcome := .returned false }) ∧
    (restingSale.cancelOrder 1).engine.traders = restingSale.traders ∧
    restingSale.cancelOrder 999 = { engine := restingSale, outcome := .returned false } :=
  ⟨by with_unfolding_all decide,
    (engine_cancelOrder_contract restingSale restingSale_reach 1).2.2.1
      (by with_unfolding_all decide),
    (engine_cancelOrder_contract restingSale restingSale_reach 1).2.2.2,
    (engine_cancelOrder_contract restingSale restingSale_reach 999).1
      (by with_unfolding_all decide)⟩

/-- C16 at its failing input, the test `OrderBookTest.SimpleMatchBuyAgainstSell`. Both
`addOrder` calls return; the buy with the id 2 is completely filled by the one trade
(status `FILLED`, nothing remaining), and `getOrder(2)` still returns it: the order was
never pushed on a queue, so `removeCompletedOrders`, which erases the ids of the terminal
orders it pops from the queues, does not meet it. The sell with the id 1, partly filled
and resting, is in the index as the claim says. -/
theorem lookup_index_keeps_filled_order :
    simpleMatchResult.outcome = .returned () ∧
    simpleMatchResult.book.trades.length = 1 ∧
    (simpleMatchResult.heap 2).isComplete = true ∧
    (simpleMatchResult.heap 2).status = .FILLED ∧
    (simpleMatchResult.heap 2).getRemainingQuantity = 0 ∧
    simpleMatchResult.book.getOrder 2 = some 2 ∧
    simpleMatchResult.book.bids = [] ∧ simpleMatchResult.book.asks = [1] ∧
    simpleMatchResult.book.getOrder 1 = some 1 := by
  with_unfolding_all decide

theorem Trader.mapFind_storePosition (t : Trader) (symbol : String) (position : Position) :
    mapFind (t.storePosition symbol position).positions symbol =
      if |position.quantity| < positionEpsilon then none else some position := by
  unfold Trader.storePosition
  split_ifs with h
  · exact mapFind_mapErase_same _ _
  · exact mapFind_mapInsert_same _ _ _

/-- The position update on a symbol without a position: a purchase creates the position
with the quantity and the price of the trade. -/
theorem Trader.updatePositionOnTrade_absent (t : Trader) (symbol : String)
    (quantity price : ℚ) (hfind : mapFind t.positions symbol = none) (hq : 0 < quantity) :
    mapFind (t.updatePositionOnTrade symbol quantity price).positions symbol =
      some (Position.new symbol quantity price) := by
  unfold Trader.updatePositionOnTrade
  rw [hfind]
  simp only [if_pos hq]
  exact mapFind_mapInsert_same _ _ _

/-- The position update on a symbol with a position: the position is removed when the
sum of the quantities is below the epsilon; otherwise it holds the sum, with the average
price recomputed (adding in the same direction), kept (reducing without crossing zero)
or set to the trade price (crossing zero). -/
theorem Trader.updatePositionOnTrade_present (t : Trader) (symbol : String)
    (quantity price : ℚ) (position : Position)
    (hfind : mapFind t.positions symbol = some position) :
    mapFind (t.updatePositionOnTrade symbol quantity price).positions symbol =
      if |position.quantity + quantity| < positionEpsilon then none
      else some
        { position with
          quantity := position.quantity + quantity,
          averagePrice :=
            if (position.quantity > 0 ∧ quantity > 0) ∨ (position.quantity < 0 ∧ quantity < 0)
            then
              (if position.quantity + quantity ≠ 0 then
                (position.quantity * position.averagePrice + quantity * price) /
                  (position.quantity + quantity)
              else position.averagePrice)
            else if (position.quantity > 0 ∧ position.quantity + quantity > 0) ∨
                (position.quantity < 0 ∧ position.quantity + quantity < 0) then
              position.averagePrice
            else price } := by
  unfold Trader.updatePositionOnTrade
  rw [hfind]
  simp only
  split_ifs <;>
    first
    | (rw [Trader.mapFind_storePosition]; simp only [*, if_true, if_false])
    | exact mapFind_mapErase_same _ _

/-- Counterexample to C17 as stated. Alice holds 0.0000000001 shares of X and has cash for
more; a buy fill of another 0.0000000001 shares at the price 1 is accepted, and her
position does not have its quantity increased to 0.0000000002: that sum is below the
epsilon of the ledger, and the position is removed. -/
theorem ledger_buy_fill_counterexample :
    mapFind dustHolder.positions "X" =
      some { symbol := "X", quantity := 1 / 10000000000, averagePrice := 1,
             unrealizedPnL := 0 } ∧
    dustHolder.onOrderFilled "X" (1 / 10000000000) 1 true =
      .ok { traderId := 1, name := "Alice", cash := 100 - 2 / 10000000000,
            positions := [] } :=
  ⟨by with_unfolding_all rfl, by with_unfolding_all rfl⟩

/-- C17, amended (ledger buy fill). For a quantity greater than 0 and any price, the buy
fill `onOrderFilled(symbol, quantity, price, true)` fails with `InsufficientFunds` if and
only if quantity times price exceeds the cash (a failed call changes nothing: the throw
comes before any assignment). Otherwise it is accepted, cash decreases by exactly
quantity times price, the positions in other symbols are unchanged, and in the symbol: a
position that was absent is created with the quantity and with the price as average
price; a position that was present has its quantity increased by the quantity, unless the
increased quantity is below the epsilon 1e-9 in absolute value, in which case the
position is removed. -/
theorem ledger_buy_fill (t : Trader) (symbol : String) (quantity price : ℚ)
    (hq : 0 < quantity) :
    (t.onOrderFilled symbol quantity price true = .error .InsufficientFunds ↔
      t.cash < quantity * price) ∧
    (¬ t.cash < quantity * price →
      ∃ t1, t.onOrderFilled symbol quantity price true = .ok t1 ∧
        t1.cash = t.cash - quantity * price ∧
        (∀ sym, sym ≠ symbol → mapFind t1.positions sym = mapFind t.positions sym) ∧
        (mapFind t.positions symbol = none →
          mapFind t1.positions symbol = some (Position.new symbol quantity price)) ∧
        (∀ position, mapFind t.positions symbol = some position →
          (|position.quantity + quantity| < positionEpsilon →
            mapFind t1.positions symbol = none) ∧
          (¬ |position.quantity + quantity| < positionEpsilon →
            ∃ position1, mapFind t1.positions symbol = some position1 ∧
              position1.quantity = position.quantity + quantity))) := by
  have hdef : t.onOrderFilled symbol quantity price true =
      if quantity * price > t.cash then .error .InsufficientFunds
      else .ok (({ t with cash := t.cash - quantity * price }).updatePositionOnTrade
        symbol quantity price) := by
    simp only [Trader.onOrderFilled, if_true]
  constructor
  · rw [hdef]
    constructor
    · intro h
      by_contra hc
      rw [if_neg hc] at h
      cases h
    · intro h
      rw [if_pos h]
  · intro hc
    refine ⟨_, by rw [hdef, if_neg hc], ?_, ?_, ?_, ?_⟩
    · rw [Trader.updatePositionOnTrade_cash]
    · intro sym hsym
      exact Trader.updatePositionOnTrade_other _ _ _ _ hsym
    · intro hnone
      exact Trader.updatePositionOnTrade_absent { t with cash := t.cash - quantity * price }
        symbol quantity price hnone hq
    · intro position hfind
      have hp := Trader.updatePositionOnTrade_present
        { t with cash := t.cash - quantity * price } symbol quantity price position hfind
      constructor
      · intro hsmall
        rw [hp, if_pos hsmall]
      · intro hbig
        rw [hp, if_neg hbig]
        exact ⟨_, rfl, rfl⟩

/-- Witness of the amended C17, the test `TraderTest.BuyOrderFilled`: a trader with
10000 in cash buys 50 shares of AAPL at 100. -/
theorem ledger_buy_fill_witness :
    ∃ t1, (Trader.new 1 "Alice" 10000).onOrderFilled "AAPL" 50 100 true = .ok t1 ∧
      t1.cash = (Trader.new 1 "Alice" 10000).cash - 50 * 100 ∧
      mapFind t1.positions "AAPL" = some (Position.new "AAPL" 50 100) :=
  let ⟨t1, h1, h2, _, h4, _⟩ :=
    (ledger_buy_fill (Trader.new 1 "Alice" 10000) "AAPL" 50 100 (by norm_num)).2
      (by with_unfolding_all decide)
  ⟨t1, h1, h2, h4 rfl⟩

/-- The sell fill with the erase branch of the position update taken as returning. For a
quantity greater than 0, `onOrderFilled(symbol, quantity, price, false)` fails with
`InsufficientInventory` if and only if the trader has no position in the symbol or a
position whose quantity is less than the quantity. Otherwise it is accepted, cash
increases by exactly quantity times price, the positions in other symbols are unchanged,
and the position in the symbol has its quantity decreased by the quantity with its
average cost unchanged when the remaining quantity is at least the epsilon 1e-9, and is
removed from the position set when the remaining quantity is below 1e-9. -/
theorem Trader.onOrderFilled_sell (t : Trader) (symbol : String) (quantity price : ℚ)
    (hq : 0 < quantity) :
    (t.onOrderFilled symbol quantity price false = .error .InsufficientInventory ↔
      (mapFind t.positions symbol = none ∨
        ∃ position, mapFind t.positions symbol = some position ∧
          position.quantity < quantity)) ∧
    (∀ position, mapFind t.positions symbol = some position → quantity ≤ position.quantity →
      ∃ t1, t.onOrderFilled symbol quantity price false = .ok t1 ∧
        t1.cash = t.cash + quantity * price ∧
        (∀ sym, sym ≠ symbol → mapFind t1.positions sym = mapFind t.positions sym) ∧
        (positionEpsilon ≤ position.quantity - quantity →
          mapFind t1.positions symbol =
            some { position with quantity := position.quantity - quantity }) ∧
        (position.quantity - quantity < positionEpsilon →
          mapFind t1.positions symbol = none)) := by
  have hdef : t.onOrderFilled symbol quantity price false =
      if !t.hasSufficientShares symbol quantity then .error .InsufficientInventory
      else .ok (({ t with cash := t.cash + quantity * price }).updatePositionOnTrade
        symbol (-quantity) price) := by
    simp only [Trader.onOrderFilled, Bool.false_eq_true, if_false]
  have hshares : t.hasSufficientShares symbol quantity = false ↔
      (mapFind t.positions symbol = none ∨
        ∃ position, mapFind t.positions symbol = some position ∧
          position.quantity < quantity) := by
    unfold Trader.hasSufficientShares
    cases hpos : mapFind t.positions symbol with
    | none => simp
    | some position => simp
  constructor
  · rw [hdef, ← hshares]
    constructor
    · intro h
      by_contra hc
      rw [if_neg (by simpa using hc)] at h
      cases h
    · intro h
      rw [if_pos (by simpa using h)]
  · intro position hfind hle
    have hnot : ¬ ((!t.hasSufficientShares symbol quantity) = true) := by
      have : t.hasSufficientShares symbol quantity = true := by
        unfold Trader.hasSufficientShares
        rw [hfind]
        simpa using hle
      simp [this]
    refine ⟨_, by rw [hdef, if_neg hnot], ?_, ?_, ?_, ?_⟩
    · rw [Trader.updatePositionOnTrade_cash]
    · intro sym hsym
      exact Trader.updatePositionOnTrade_other _ _ _ _ hsym
    · intro hbig
      have hp := Trader.updatePositionOnTrade_present
        { t with cash := t.cash + quantity * price } symbol (-quantity) price position hfind
      have heps : (0 : ℚ) < positionEpsilon := by unfold positionEpsilon; norm_num
      have hrem : ¬ |position.quantity + -quantity| < positionEpsilon := by
        rw [abs_of_nonneg (by linarith)]
        linarith
      have hpos : position.quantity > 0 := by linarith
      have hrpos : position.quantity + -quantity > 0 := by linarith
      have hdir : ¬ ((position.quantity > 0 ∧ -quantity > 0) ∨
          (position.quantity < 0 ∧ -quantity < 0)) := by
        rintro (⟨-, h2⟩ | ⟨h1, -⟩) <;> linarith
      rw [hp, if_neg hrem, if_neg hdir, if_pos (Or.inl ⟨hpos, hrpos⟩)]
      simp only [sub_eq_add_neg]
    · intro hsmall
      have hp := Trader.updatePositionOnTrade_present
        { t with cash := t.cash + quantity * price } symbol (-quantity) price position hfind
      have hrem : |position.quantity + -quantity| < positionEpsilon := by
        rw [abs_of_nonneg (by linarith)]
        linarith
      rw [hp, if_pos hrem]

/-- Counterexample to C19 as stated. Carol holds 0.0000000004 shares of X at the average
cost 2; a buy fill of 0.0000000005 shares at the price 3 is applied, and there is no
resulting position with the quantity 0.0000000009 and the average cost 23/9: the sum is
below the epsilon of the ledger, and the position is removed. -/
theorem volume_weighted_average_cost_counterexample :
    mapFind smallHolder.positions "X" =
      some { symbol := "X", quantity := 4 / 10000000000, averagePrice := 2,
             unrealizedPnL := 0 } ∧
    smallHolder.onOrderFilled "X" (5 / 10000000000) 3 true =
      .ok { traderId := 3, name := "Carol",
            cash := 100 - 8 / 10000000000 - 15 / 10000000000, positions := [] } :=
  ⟨by with_unfolding_all rfl, by with_unfolding_all rfl⟩

/-- C19, amended (volume-weighted average cost). Let a buy fill of the quantity `d > 0` at
the price `p` be applied by a ledger that has the cash for it. If the ledger holds a
position in the symbol with the quantity `q > 0` and the average cost `a`, and `q + d` is
at least the epsilon 1e-9, the resulting position has the quantity `q + d` and the
average cost `(q * a + d * p) / (q + d)`, its other fields unchanged; if `q + d` is below
1e-9, the position is removed. If the ledger holds no position in the symbol, the fill
creates one with the quantity `d` and the average cost `p`. -/
theorem volume_weighted_average_cost (t : Trader) (symbol : String) (d p : ℚ)
    (hd : 0 < d) (hcash : d * p ≤ t.cash) :
    (∀ position, mapFind t.positions symbol = some position → 0 < position.quantity →
      ∃ t1, t.onOrderFilled symbol d p true = .ok t1 ∧
        (positionEpsilon ≤ position.quantity + d →
          mapFind t1.positions symbol =
            some { position with
                   quantity := position.quantity + d,
                   averagePrice := (position.quantity * position.averagePrice + d * p) /
                     (position.quantity + d) }) ∧
        (position.quantity + d < positionEpsilon → mapFind t1.positions symbol = none)) ∧
    (mapFind t.positions symbol = none →
      ∃ t1, t.onOrderFilled symbol d p true = .ok t1 ∧
        mapFind t1.positions symbol =
          some { symbol := symbol, quantity := d, averagePrice := p, unrealizedPnL := 0 }) := by
  have hdef : t.onOrderFilled symbol d p true =
      .ok (({ t with cash := t.cash - d * p }).updatePositionOnTrade symbol d p) := by
    simp only [Trader.onOrderFilled, if_true]
    rw [if_neg (not_lt.mpr hcash)]
  constructor
  · intro position hfind hq
    have hp := Trader.updatePositionOnTrade_present
      { t with cash := t.cash - d * p } symbol d p position hfind
    have hsum : 0 < position.quantity + d := by linarith
    refine ⟨_, hdef, ?_, ?_⟩
    · intro hbig
      have hrem : ¬ |position.quantity + d| < positionEpsilon := by
        rw [abs_of_pos hsum]
        linarith
      rw [hp, if_neg hrem, if_pos (Or.inl ⟨hq, hd⟩), if_pos (ne_of_gt hsum)]
    · intro hsmall
      have hrem : |position.quantity + d| < positionEpsilon := by
        rw [abs_of_pos hsum]
        exact hsmall
      rw [hp, if_pos hrem]
  · intro hnone
    refine ⟨_, hdef, ?_⟩
    exact Trader.updatePositionOnTrade_absent { t with cash := t.cash - d * p } symbol d p
      hnone hd

/-- Witness of the amended C19, the purchases of the test
`TraderTest.AveragePriceCalculation`: Alice holds 50 shares of AAPL bought at 100 and buys
another 50 at 120; the position has the quantity 100 and the average cost 110. -/
theorem volume_weighted_average_cost_witness :
    ∃ t1, averageTestHolder.onOrderFilled "AAPL" 50 120 true = .ok t1 ∧
      mapFind t1.positions "AAPL" =
        some { symbol := "AAPL", quantity := 100, averagePrice := 110, unrealizedPnL := 0 } := by
  obtain ⟨t1, h1, h2, -⟩ :=
    (volume_weighted_average_cost averageTestHolder "AAPL" 50 120 (by norm_num)
      (by with_unfolding_all decide)).1
      (Position.new "AAPL" 50 100) (by with_unfolding_all rfl)
      (by simp only [Position.new]; norm_num)
  refine ⟨t1, h1, ?_⟩
  rw [h2 (by simp only [Position.new, positionEpsilon]; norm_num)]
  simp only [Position.new]
  norm_num

/-- C20 at its failing input. A newly constructed trader with 10000 in cash is given a buy
fill of 0.0000000001 shares of AAPL at 100: `onOrderFilled` accepts it, and
`updatePositionOnTrade`, finding no position, stores one with the quantity 0.0000000001,
which is below the epsilon 1e-9; the closing test that prunes such a quantity is in the
branch for a position that exists already. That branch does prune the same quantity:
Dave, who holds 0.00000000005 shares, is given a buy fill of another 0.00000000005, and
his position, with the sum 0.0000000001, is removed. -/
theorem epsilon_pruning_misses_first_buy :
    (Trader.new 1 "Alice" 10000).onOrderFilled "AAPL" (1 / 10000000000) 100 true =
      .ok { traderId := 1, name := "Alice", cash := 10000 - 1 / 100000000,
            positions := [("AAPL", { symbol := "AAPL", quantity := 1 / 10000000000,
                                     averagePrice := 100, unrealizedPnL := 0 })] } ∧
    |(1 / 10000000000 : ℚ)| < positionEpsilon ∧
    mapFind halfDustHolder.positions "AAPL" =
      some { symbol := "AAPL", quantity := 1 / 20000000000, averagePrice := 100,
             unrealizedPnL := 0 } ∧
    halfDustHolder.onOrderFilled "AAPL" (1 / 20000000000) 100 true =
      .ok { traderId := 4, name := "Dave", cash := 10000 - 1 / 100000000,
            positions := [] } :=
  ⟨by with_unfolding_all rfl, by simp only [positionEpsilon]; norm_num [abs_of_pos],
    by with_unfolding_all rfl, by with_unfolding_all rfl⟩

theorem Trader.storePosition_aboveEpsilon {t : Trader} {symbol : String} {position : Position}
    (ht : ∀ pk ∈ t.positions, positionEpsilon ≤ |pk.2.quantity|) :
    ∀ pk ∈ (t.storePosition symbol position).positions, positionEpsilon ≤ |pk.2.quantity| := by
  unfold Trader.storePosition
  split_ifs with h
  · intro pk hpk
    exact ht pk (mem_mapErase hpk)
  · intro pk hpk
    rcases mem_mapInsert hpk with h1 | h1
    · rw [h1]; exact not_lt.mp h
    · exact ht pk h1

/-- The position update stores no quantity below the epsilon, except for a purchase of
less than the epsilon in a symbol without a position. -/
theorem Trader.updatePositionOnTrade_aboveEpsilon {t : Trader} {symbol : String}
    {quantity price : ℚ} (ht : ∀ pk ∈ t.positions, positionEpsilon ≤ |pk.2.quantity|)
    (hq : 0 < quantity → positionEpsilon ≤ quantity) :
    ∀ pk ∈ (t.updatePositionOnTrade symbol quantity price).positions,
      positionEpsilon ≤ |pk.2.quantity| := by
  unfold Trader.updatePositionOnTrade
  split
  · split_ifs with h
    · intro pk hpk
      rcases mem_mapInsert hpk with h1 | h1
      · rw [h1]
        simp only [Position.new]
        rw [abs_of_pos h]
        exact hq h
      · exact ht pk h1
    · exact ht
  · simp only
    split_ifs
    · exact Trader.storePosition_aboveEpsilon ht
    · exact Trader.storePosition_aboveEpsilon ht
    · intro pk hpk; exact ht pk (mem_mapErase hpk)
    · exact Trader.storePosition_aboveEpsilon ht
    · exact Trader.storePosition_aboveEpsilon ht

/-- When every fill has a quantity of at least the epsilon, no stored position has a
quantity below the epsilon in absolute value. -/
theorem FillReach.positions_aboveEpsilon {t : Trader} (h : FillReach t) :
    ∀ pk ∈ t.positions, positionEpsilon ≤ |pk.2.quantity| := by
  induction h with
  | start traderId name initialCash => intro pk hpk; simp [Trader.new] at hpk
  | fill t t1 symbol quantity price isBuy _ hq hfill ih =>
    have heps : (0 : ℚ) < positionEpsilon := by unfold positionEpsilon; norm_num
    simp only [Trader.onOrderFilled] at hfill
    split_ifs at hfill with hb hc hs
    · injection hfill with hfill
      subst hfill
      exact Trader.updatePositionOnTrade_aboveEpsilon (t := { t with cash := _ }) ih
        (fun _ => hq)
    · injection hfill with hfill
      subst hfill
      exact Trader.updatePositionOnTrade_aboveEpsilon (t := { t with cash := _ }) ih
        (fun hneg => by linarith)

/-- C21 (`Trader::addCash`). The call fails with `InvalidArgument` if and only if the
amount is negative and its absolute value exceeds the cash (a failed call changes
nothing: the throw comes before the assignment). Otherwise it is accepted and the ledger
afterwards is the ledger before with `cash + amount` as cash, positions unchanged. A
ledger with cash of at least 0 has cash of at least 0 after an accepted call. -/
theorem addCash_contract (t : Trader) (amount : ℚ) :
    (t.addCash amount = .error .InvalidArgument ↔ (amount < 0 ∧ -amount > t.cash)) ∧
    (¬ (amount < 0 ∧ -amount > t.cash) →
      t.addCash amount = .ok { t with cash := t.cash + amount }) ∧
    (∀ t1, t.addCash amount = .ok t1 →
      t1.cash = t.cash + amount ∧ t1.positions = t.positions ∧
      t1.traderId = t.traderId ∧ t1.name = t.name ∧ (0 ≤ t.cash → 0 ≤ t1.cash)) := by
  unfold Trader.addCash
  refine ⟨?_, ?_, ?_⟩
  · constructor
    · intro h
      by_contra hc
      rw [if_neg hc] at h
      cases h
    · intro h
      rw [if_pos h]
  · intro h
    rw [if_neg h]
  · intro t1 h
    split_ifs at h with hc
    injection h with h
    subst h
    refine ⟨rfl, rfl, rfl, rfl, ?_⟩
    intro hcash
    show 0 ≤ t.cash + amount
    by_cases ha : amount < 0
    · have : ¬ (-amount > t.cash) := fun h2 => hc ⟨ha, h2⟩
      linarith [not_lt.mp this]
    · linarith [not_lt.mp ha]

/-- Witness of C21, the test `TraderTest.CashManagement`: a ledger with 10000 in cash takes
a deposit of 5000 and a withdrawal of 3000, which leave 12000, and refuses a withdrawal of
15000. -/
theorem addCash_contract_witness :
    (Trader.new 1 "Alice" 10000).addCash 5000 =
      .ok { Trader.new 1 "Alice" 10000 with cash := (Trader.new 1 "Alice" 10000).cash + 5000 } ∧
    (Trader.new 1 "Alice" 15000).addCash (-3000) =
      .ok { Trader.new 1 "Alice" 15000 with
            cash := (Trader.new 1 "Alice" 15000).cash + -3000 } ∧
    (Trader.new 1 "Alice" 12000).addCash (-15000) = .error .InvalidArgument :=
  ⟨(addCash_contract (Trader.new 1 "Alice" 10000) 5000).2.1
      (by simp only [Trader.new]; norm_num),
    (addCash_contract (Trader.new 1 "Alice" 15000) (-3000)).2.1
      (by simp only [Trader.new]; norm_num),
    (addCash_contract (Trader.new 1 "Alice" 12000) (-15000)).1.mpr
      (by simp only [Trader.new]; norm_num)⟩

/-- C22 (`Order::Order`). The construction fails with `InvalidArgument` if and only if
the quantity is not positive, or the type is `LIMIT` and the price is not positive. In
every other case it succeeds, and the order constructed has the status `PENDING`, the
filled quantity 0, a remaining quantity equal to the quantity asked for, and the id,
trader, symbol, quantity, price, side and type given (and the clock reading as its
timestamp). -/
theorem order_construction (orderId traderId : Int) (symbol : String) (quantity price : ℚ)
    (side : OrderSide) (type : OrderType) (now : Nat) :
    (Order.new orderId traderId symbol quantity price side type now = .error .InvalidArgument ↔
      (quantity ≤ 0 ∨ (type = .LIMIT ∧ price ≤ 0))) ∧
    (¬ (quantity ≤ 0 ∨ (type = .LIMIT ∧ price ≤ 0)) →
      ∃ o, Order.new orderId traderId symbol quantity price side type now = .ok o) ∧
    (∀ o, Order.new orderId traderId symbol quantity price side type now = .ok o →
      o.status = .PENDING ∧ o.filledQuantity = 0 ∧ o.getRemainingQuantity = quantity ∧
      o.orderId = orderId ∧ o.traderId = traderId ∧ o.symbol = symbol ∧
      o.quantity = quantity ∧ o.price = price ∧ o.side = side ∧ o.type = type ∧
      o.timestamp = now) := by
  refine ⟨?_, ?_, ?_⟩
  · constructor
    · intro h
      exact (Order.new_error h).2
    · intro h
      unfold Order.new
      rcases h with h | h
      · rw [if_pos h]
      · by_cases hq : quantity ≤ 0
        · rw [if_pos hq]
        · rw [if_neg hq, if_pos h]
  · intro h
    push_neg at h
    exact Order.new_succeeds orderId traderId symbol side now h.1
      (fun ht => h.2 ht)
  · intro o h
    obtain ⟨-, -, ho⟩ := Order.new_ok h
    subst ho
    simp [Order.getRemainingQuantity]

/-- Witness of C22, the tests `OrderTest.ConstructorValidInput`,
`ConstructorInvalidQuantity` and `ConstructorInvalidPrice`. -/
theorem order_construction_witness :
    (∃ o, Order.new 1 100 "AAPL" 50 150 .BUY .LIMIT 0 = .ok o) ∧
    Order.new 1 100 "AAPL" 0 150 .BUY .LIMIT 0 = .error .InvalidArgument ∧
    Order.new 1 100 "AAPL" 50 0 .BUY .LIMIT 0 = .error .InvalidArgument :=
  ⟨(order_construction 1 100 "AAPL" 50 150 .BUY .LIMIT 0).2.1 (by norm_num),
    (order_construction 1 100 "AAPL" 0 150 .BUY .LIMIT 0).1.mpr (Or.inl (le_refl 0)),
    (order_construction 1 100 "AAPL" 50 0 .BUY .LIMIT 0).1.mpr (Or.inr ⟨rfl, le_refl 0⟩)⟩

/-- C23 (`Order::addFill`). The call fails with `InvalidArgument` if and only if the
quantity is not positive or the filled quantity plus the quantity exceeds the quantity
of the order (a failed call changes nothing: both throws come before any assignment).
Otherwise it succeeds, the filled quantity increases by exactly the quantity, every
field other than filled quantity and status stays, and the status is `FILLED` when the
new filled quantity equals the quantity of the order and `PARTIALLY_FILLED` otherwise. -/
theorem addFill_contract (o : Order) (q : ℚ) :
    (o.addFill q = .error .InvalidArgument ↔ (q ≤ 0 ∨ o.filledQuantity + q > o.quantity)) ∧
    (¬ (q ≤ 0 ∨ o.filledQuantity + q > o.quantity) →
      ∃ o1, o.addFill q = .ok o1 ∧
        o1.filledQuantity = o.filledQuantity + q ∧
        o.sameIdentity o1 ∧
        (o1.filledQuantity = o1.quantity → o1.status = .FILLED) ∧
        (o1.filledQuantity ≠ o1.quantity → o1.status = .PARTIALLY_FILLED)) := by
  constructor
  · constructor
    · intro h
      exact (Order.addFill_error h).2
    · intro h
      simp only [Order.addFill]
      rcases h with h | h
      · rw [if_pos h]
      · by_cases hq : q ≤ 0
        · rw [if_pos hq]
        · rw [if_neg hq, if_pos h]
  · intro h
    push_neg at h
    obtain ⟨hq, hle⟩ := h
    simp only [Order.addFill]
    rw [if_neg (not_le.mpr hq), if_neg (not_lt.mpr hle)]
    by_cases hc : o.filledQuantity + q ≥ o.quantity
    · have hcomplete : Order.isComplete { o with filledQuantity := o.filledQuantity + q } = true := by
        simp [Order.isComplete, hc]
      rw [if_pos hcomplete]
      refine ⟨_, rfl, rfl, by simp [Order.sameIdentity], fun _ => rfl, ?_⟩
      intro hne
      exact absurd (le_antisymm hle hc) hne
    · have hcomplete : ¬ Order.isComplete { o with filledQuantity := o.filledQuantity + q } = true := by
        simp [Order.isComplete]
        exact not_le.mp hc
      rw [if_neg hcomplete]
      refine ⟨_, rfl, rfl, by simp [Order.sameIdentity], ?_, fun _ => rfl⟩
      intro heq
      exact absurd (le_of_eq heq.symm) hc

/-- Witness of C23, the tests `OrderTest.AddFillPartial`, `AddFillComplete` and
`AddFillExceedsQuantity` on a buy of 100 shares. -/
theorem addFill_contract_witness :
    (∃ o1, (sampleOrder 4 100 155 .BUY).addFill 30 = .ok o1 ∧
      o1.filledQuantity = (sampleOrder 4 100 155 .BUY).filledQuantity + 30 ∧
      (sampleOrder 4 100 155 .BUY).sameIdentity o1 ∧
      (o1.filledQuantity = o1.quantity → o1.status = .FILLED) ∧
      (o1.filledQuantity ≠ o1.quantity → o1.status = .PARTIALLY_FILLED)) ∧
    (sampleOrder 4 100 155 .BUY).addFill 120 = .error .InvalidArgument :=
  ⟨(addFill_contract (sampleOrder 4 100 155 .BUY) 30).2
      (by simp only [sampleOrder]; norm_num),
    (addFill_contract (sampleOrder 4 100 155 .BUY) 120).1.mpr
      (Or.inr (by simp only [sampleOrder]; norm_num))⟩

/-- C24 (`Order::operator<`). For two orders `a` and `b` of one side, `a < b` (`a` ranks
below `b`) holds exactly when `b` has the strictly better price (higher for buys, lower for
sells), or the prices are equal and the timestamp of `b` is strictly earlier than that of
`a`. Among the orders of one side the relation is irreflexive, asymmetric and
transitive. -/
theorem priority_relation (a b c : Order) :
    (a.side = b.side →
      (a.lt b = true ↔
        ((a.side = .BUY ∧ a.price < b.price) ∨ (a.side = .SELL ∧ b.price < a.price)) ∨
          (a.price = b.price ∧ b.timestamp < a.timestamp))) ∧
    a.lt a = false ∧
    (a.side = b.side → a.lt b = true → b.lt a = false) ∧
    (a.side = b.side → b.side = c.side → a.lt b = true → b.lt c = true → a.lt c = true) := by
  refine ⟨?_, ?_, ?_, ?_⟩
  · intro _
    rw [Order.lt_iff]
    cases hs : a.side <;> simp
  · rw [← Bool.not_eq_true, Order.lt_iff]
    cases hs : a.side <;> simp
  · intro hs h
    exact Order.lt_oneWay hs h
  · intro hab _ h1 h2
    exact Order.lt_chain hab h1 h2

/-- Witness of C24, the test `OrderTest.PriorityComparison`: of two buys the one at 155
ranks above the one at 150, and of two buys at 150 the earlier ranks above the later. -/
theorem priority_relation_witness :
    (sampleOrder 1 100 150 .BUY).lt (sampleOrder 2 100 155 .BUY) = true ∧
    (sampleOrder 2 100 155 .BUY).lt (sampleOrder 1 100 150 .BUY) = false ∧
    (sampleOrder 3 100 150 .BUY).lt (sampleOrder 1 100 150 .BUY) = true :=
  ⟨((priority_relation (sampleOrder 1 100 150 .BUY) (sampleOrder 2 100 155 .BUY)
        (sampleOrder 2 100 155 .BUY)).1 rfl).mpr
      (Or.inl (Or.inl ⟨rfl, by simp only [sampleOrder]; norm_num⟩)),
    (priority_relation (sampleOrder 1 100 150 .BUY) (sampleOrder 2 100 155 .BUY)
        (sampleOrder 2 100 155 .BUY)).2.2.1 rfl
      (by with_unfolding_all decide),
    ((priority_relation (sampleOrder 3 100 150 .BUY) (sampleOrder 1 100 150 .BUY)
        (sampleOrder 1 100 150 .BUY)).1 rfl).mpr
      (Or.inr ⟨rfl, by simp only [sampleOrder]; norm_num⟩)⟩

/-- C27 (`OrderBook::addOrder`, symbol check). When the symbol of the order differs from
the symbol of the book, `addOrder` fails with `InvalidArgument`, and the book (both
priority queues, the lookup index and the trade log) and every order of the arena, the
submitted one included, are as they were before the call. -/
theorem addOrder_symbol_mismatch (b : OrderBook) (h : Heap) (n : Ptr)
    (hsym : (h n).symbol ≠ b.symbol) :
    (b.addOrder h n).outcome = .threw .InvalidArgument ∧
    (b.addOrder h n).book = b ∧
    (b.addOrder h n).book.bids = b.bids ∧
    (b.addOrder h n).book.asks = b.asks ∧
    (b.addOrder h n).book.orderMap = b.orderMap ∧
    (b.addOrder h n).book.trades = b.trades ∧
    (b.addOrder h n).heap = h ∧
    (b.addOrder h n).heap n = h n := by
  have hr : b.addOrder h n = { book := b, heap := h, outcome := .threw .InvalidArgument } := by
    unfold OrderBook.addOrder
    rw [if_pos hsym]
  rw [hr]
  exact ⟨rfl, rfl, rfl, rfl, rfl, rfl, rfl, rfl⟩

/-- Witness of C27, the test `OrderBookTest.WrongSymbol`: an order for `GOOGL` is
refused by the book of `AAPL`. -/
theorem addOrder_symbol_mismatch_witness :
    ((OrderBook.new "AAPL").addOrder
        (blankHeap.set 1 { sampleOrder 1 100 150 .BUY with symbol := "GOOGL" }) 1).outcome =
      .threw .InvalidArgument ∧
    ((OrderBook.new "AAPL").addOrder
        (blankHeap.set 1 { sampleOrder 1 100 150 .BUY with symbol := "GOOGL" }) 1).book =
      OrderBook.new "AAPL" :=
  ⟨(addOrder_symbol_mismatch (OrderBook.new "AAPL")
      (blankHeap.set 1 { sampleOrder 1 100 150 .BUY with symbol := "GOOGL" }) 1
      (by with_unfolding_all decide)).1,
    (addOrder_symbol_mismatch (OrderBook.new "AAPL")
      (blankHeap.set 1 { sampleOrder 1 100 150 .BUY with symbol := "GOOGL" }) 1
      (by with_unfolding_all decide)).2.1⟩

/-- Counterexample to C29 as stated. Alice is registered and holds 100 in cash; her
limit buy of quantity 0 at 10 passes the cash check and is refused by the `Order`
constructor with `InvalidArgument`, after the id counter was advanced. The state after
the call differs from the state before: the same accepted order receives the id 1 before
the refused call and the id 2 after it. -/
theorem argument_rejection_counterexample :
    (sampleEngine.getTrader 1).isSome = true ∧
    (sampleEngine.submitOrder 1 "X" 0 10 .BUY .LIMIT 0).outcome = .threw .InvalidArgument ∧
    (sampleEngine.submitOrder 1 "X" 0 10 .BUY .LIMIT 0).engine ≠ sampleEngine ∧
    sampleEngine.nextOrderId = 1 ∧
    (sampleEngine.submitOrder 1 "X" 0 10 .BUY .LIMIT 0).engine.nextOrderId = 2 ∧
    (sampleEngine.submitOrder 1 "X" 1 10 .BUY .LIMIT 1).outcome = .returned 1 ∧
    ((sampleEngine.submitOrder 1 "X" 0 10 .BUY .LIMIT 0).engine.submitOrder
        1 "X" 1 10 .BUY .LIMIT 1).outcome = .returned 2 :=
  ⟨by with_unfolding_all decide, by with_unfolding_all decide,
    fun h => absurd (congrArg MatchingEngine.nextOrderId h) (by with_unfolding_all decide),
    by with_unfolding_all decide, by with_unfolding_all decide,
    by with_unfolding_all decide, by with_unfolding_all decide⟩

/-- C29, amended. Whenever `submitOrder` for a registered trader is given a quantity that
is not positive, or a limit order with a price that is not positive, and fails with
`InvalidArgument`, the engine state after the call equals the state before it except for
the id counter, which is advanced by one: traders, books, order index and orders are as
before, and the next accepted order receives the id after the one it would have
received. -/
theorem argument_rejection_spends_id (e : MatchingEngine) (traderId : Int) (symbol : String)
    (quantity price : ℚ) (side : OrderSide) (type : OrderType) (now : Nat) (trader : Trader)
    (ht : e.getTrader traderId = some trader)
    (hbad : quantity ≤ 0 ∨ (type = .LIMIT ∧ price ≤ 0))
    (hthrow : (e.submitOrder traderId symbol quantity price side type now).outcome =
      .threw .InvalidArgument) :
    (e.submitOrder traderId symbol quantity price side type now).engine =
        { e with nextOrderId := e.nextOrderId + 1 } ∧
    (e.submitOrder traderId symbol quantity price side type now).engine.traders = e.traders ∧
    (e.submitOrder traderId symbol quantity price side type now).engine.orderBooks =
        e.orderBooks ∧
    (e.submitOrder traderId symbol quantity price side type now).engine.orders = e.orders ∧
    (e.submitOrder traderId symbol quantity price side type now).engine.heap = e.heap ∧
    (e.submitOrder traderId symbol quantity price side type now).engine.nextOrderId =
        e.nextOrderId + 1 := by
  rcases MatchingEngine.submitOrder_cases e traderId symbol quantity price side type now with
    ⟨hnone, -⟩ | ⟨trader1, -, hcase⟩
  · rw [ht] at hnone
    cases hnone
  · rcases hcase with ⟨-, -, hr⟩ | ⟨-, -, hr⟩ | ⟨-, -, hcase2⟩
    · rw [hr] at hthrow
      cases hthrow
    · rw [hr] at hthrow
      cases hthrow
    · rcases hcase2 with ⟨-, hr⟩ | ⟨order, ho, -⟩
      · rw [hr]
        exact ⟨rfl, rfl, rfl, rfl, rfl, rfl⟩
      · exfalso
        obtain ⟨hq, hp, -⟩ := Order.new_ok ho
        rcases hbad with hb | ⟨hb1, hb2⟩
        · exact absurd hq (not_lt.mpr hb)
        · exact absurd (hp hb1) (not_lt.mpr hb2)

/-- Witness of the amended C29: the refused limit buy of quantity 0 by Alice. -/
theorem argument_rejection_spends_id_witness :
    (sampleEngine.submitOrder 1 "X" 0 10 .BUY .LIMIT 0).engine =
        { sampleEngine with nextOrderId := sampleEngine.nextOrderId + 1 } ∧
    (sampleEngine.submitOrder 1 "X" 0 10 .BUY .LIMIT 0).engine.traders =
        sampleEngine.traders :=
  let h := argument_rejection_spends_id sampleEngine 1 "X" 0 10 .BUY .LIMIT 0
    (Trader.new 1 "Alice" 100) (by with_unfolding_all rfl) (Or.inl (le_refl 0))
    (by with_unfolding_all decide)
  ⟨h.1, h.2.1⟩

theorem BookReach.queues_invariant {b : OrderBook} {h : Heap} (hr : BookReach b h) :
    b.wellFormed h := by
  induction hr with
  | start symbol h => exact OrderBook.wellFormed_new symbol h
  | addOrder b h n _ ih => exact OrderBook.wellFormed_addOrder n ih
  | cancelOrder b h orderId _ ih => exact OrderBook.wellFormed_cancelOrder orderId ih

/-- The scan returns 0 on a queue without a live entry. -/
theorem bestLivePrice_none (h : Heap) :
    ∀ q : List Ptr, (∀ p ∈ q, (h p).isLive = false) → OrderBook.bestLivePrice h q = 0 := by
  intro q
  induction q with
  | nil => intro _; rfl
  | cons y q ih =>
    intro hq
    have hy : (h y).isLive = false := hq y (List.mem_cons_self _ _)
    unfold OrderBook.bestLivePrice
    unfold Order.isLive at hy
    rw [if_neg (by rw [hy]; simp)]
    exact ih (fun p hp => hq p (List.mem_cons_of_mem _ hp))

/-- On a queue with a live entry the scan returns the price of a live entry. -/
theorem bestLivePrice_attained (h : Heap) :
    ∀ q : List Ptr, (∃ p ∈ q, (h p).isLive = true) →
      ∃ r ∈ q, (h r).isLive = true ∧ OrderBook.bestLivePrice h q = (h r).price := by
  intro q
  induction q with
  | nil => rintro ⟨p, hp, -⟩; cases hp
  | cons y q ih =>
    rintro ⟨p, hp, hlive⟩
    by_cases hy : (h y).isLive = true
    · refine ⟨y, List.mem_cons_self _ _, hy, ?_⟩
      unfold OrderBook.bestLivePrice
      unfold Order.isLive at hy
      rw [if_pos hy]
    · have hpq : p ∈ q := by
        rcases List.mem_cons.mp hp with rfl | hpq
        · exact absurd hlive hy
        · exact hpq
      obtain ⟨r, hr, hrl, hbest⟩ := ih ⟨p, hpq, hlive⟩
      refine ⟨r, List.mem_cons_of_mem _ hr, hrl, ?_⟩
      unfold OrderBook.bestLivePrice
      unfold Order.isLive at hy
      rw [if_neg hy]
      exact hbest

/-- On an ordered queue no live entry has a better price than the one the scan
returns. -/
theorem bestLivePrice_bound (h : Heap) (side : OrderSide) :
    ∀ q : List Ptr, queueOrdered h side q → ∀ p ∈ q, (h p).isLive = true →
      if side = .BUY then (h p).price ≤ OrderBook.bestLivePrice h q
      else OrderBook.bestLivePrice h q ≤ (h p).price := by
  intro q
  induction q with
  | nil => intro _ p hp; cases hp
  | cons y q ih =>
    intro hq p hp hlive
    by_cases hy : (h y).isLive = true
    · have hbest : OrderBook.bestLivePrice h (y :: q) = (h y).price := by
        unfold OrderBook.bestLivePrice
        unfold Order.isLive at hy
        rw [if_pos hy]
      rw [hbest]
      rcases List.mem_cons.mp hp with rfl | hpq
      · split_ifs <;> exact le_refl _
      · have hlt : (h y).lt (h p) = false := (List.pairwise_cons.mp hq.2).1 p hpq
        have hys : (h y).side = side := hq.1 y (List.mem_cons_self _ _)
        rw [← Bool.not_eq_true, Order.lt_iff, hys] at hlt
        push_neg at hlt
        by_cases hs : side = .BUY
        · rw [if_pos hs] at hlt ⊢
          exact not_lt.mp hlt.1
        · rw [if_neg hs] at hlt ⊢
          exact not_lt.mp hlt.1
    · have hpq : p ∈ q := by
        rcases List.mem_cons.mp hp with rfl | hpq
        · exact absurd hlive hy
        · exact hpq
      have hbest : OrderBook.bestLivePrice h (y :: q) = OrderBook.bestLivePrice h q := by
        conv_lhs => unfold OrderBook.bestLivePrice
        unfold Order.isLive at hy
        rw [if_neg hy]
      rw [hbest]
      exact ih (queueOrdered_tail hq) p hpq hlive

/-- Best prices for the queue type of `OrderBook.hpp` (the scratch queues of
`removeCompletedOrders` carrying `OrderPtrCompare` too). In every book state reached
through `addOrder` and `cancelOrder`, `getBestBidPrice` returns the maximum of the prices
of the live entries of the bid queue (it is the price of a live bid, and no live bid has
a higher price) and `getBestAskPrice` the minimum of the prices of the live entries of
the ask queue; each returns 0 when its queue has no live entry. -/
theorem BookReach.best_prices_of_ordered_queues (b : OrderBook) (h : Heap) (hr : BookReach b h) :
    (∀ p ∈ b.bids, (h p).isLive = true → (h p).price ≤ b.getBestBidPrice h) ∧
    ((∃ p ∈ b.bids, (h p).isLive = true) →
      ∃ r ∈ b.bids, (h r).isLive = true ∧ b.getBestBidPrice h = (h r).price) ∧
    ((∀ p ∈ b.bids, (h p).isLive = false) → b.getBestBidPrice h = 0) ∧
    (∀ p ∈ b.asks, (h p).isLive = true → b.getBestAskPrice h ≤ (h p).price) ∧
    ((∃ p ∈ b.asks, (h p).isLive = true) →
      ∃ r ∈ b.asks, (h r).isLive = true ∧ b.getBestAskPrice h = (h r).price) ∧
    ((∀ p ∈ b.asks, (h p).isLive = false) → b.getBestAskPrice h = 0) := by
  have hwf := hr.queues_invariant
  refine ⟨?_, bestLivePrice_attained h b.bids, bestLivePrice_none h b.bids, ?_,
    bestLivePrice_attained h b.asks, bestLivePrice_none h b.asks⟩
  · intro p hp hlive
    have := bestLivePrice_bound h .BUY b.bids hwf.1 p hp hlive
    simpa using this
  · intro p hp hlive
    have := bestLivePrice_bound h .SELL b.asks hwf.2 p hp hlive
    simpa using this

/-- Counterexample to C26 as stated. A market buy constructed with the price 0 and a limit
sell at 150 are added to an empty book; both constructions succeed, both orders rest and
are live. The best bid is 0 and the best ask 150, and `getSpread` returns 0, not best ask
minus best bid. -/
theorem spread_counterexample :
    Order.new 1 101 "AAPL" 100 0 .BUY .MARKET 1 = .ok (marketBidHeap 1) ∧
    Order.new 2 102 "AAPL" 50 150 .SELL .LIMIT 2 = .ok (marketBidHeap 2) ∧
    marketBid.outcome = .returned () ∧
    (∃ p ∈ marketBid.book.bids, (marketBid.heap p).isLive = true) ∧
    (∃ p ∈ marketBid.book.asks, (marketBid.heap p).isLive = true) ∧
    marketBid.book.getBestBidPrice marketBid.heap = 0 ∧
    marketBid.book.getBestAskPrice marketBid.heap = 150 ∧
    marketBid.book.getSpread marketBid.heap = 0 ∧
    marketBid.book.getSpread marketBid.heap ≠
      marketBid.book.getBestAskPrice marketBid.heap -
        marketBid.book.getBestBidPrice marketBid.heap :=
  ⟨by with_unfolding_all rfl, by with_unfolding_all rfl, by with_unfolding_all decide,
    ⟨1, by with_unfolding_all decide, by with_unfolding_all decide⟩,
    ⟨2, by with_unfolding_all decide, by with_unfolding_all decide⟩,
    by with_unfolding_all decide, by with_unfolding_all decide, by with_unfolding_all decide,
    by with_unfolding_all decide⟩

/-- C26, amended. `getSpread` returns 0 whenever the book does not hold both a live bid
and a live ask. When it holds at least one live bid and at least one live ask, and every
live entry of its queues has a price above 0 (as every limit order has), `getSpread`
returns best ask minus best bid. -/
theorem spread_contract (b : OrderBook) (h : Heap) :
    ((∀ p, (p ∈ b.bids ∨ p ∈ b.asks) → (h p).isLive = true → 0 < (h p).price) →
      (∃ p ∈ b.bids, (h p).isLive = true) → (∃ p ∈ b.asks, (h p).isLive = true) →
      b.getSpread h = b.getBestAskPrice h - b.getBestBidPrice h) ∧
    (¬ ((∃ p ∈ b.bids, (h p).isLive = true) ∧ (∃ p ∈ b.asks, (h p).isLive = true)) →
      b.getSpread h = 0) := by
  constructor
  · intro hpos hbid hask
    obtain ⟨r1, hr1, hl1, hb1⟩ := bestLivePrice_attained h b.bids hbid
    obtain ⟨r2, hr2, hl2, hb2⟩ := bestLivePrice_attained h b.asks hask
    have h1 : b.getBestBidPrice h > 0 := by
      unfold OrderBook.getBestBidPrice
      rw [hb1]
      exact hpos r1 (Or.inl hr1) hl1
    have h2 : b.getBestAskPrice h > 0 := by
      unfold OrderBook.getBestAskPrice
      rw [hb2]
      exact hpos r2 (Or.inr hr2) hl2
    unfold OrderBook.getSpread
    rw [if_pos ⟨h1, h2⟩]
  · intro hnot
    unfold OrderBook.getSpread
    apply if_neg
    rintro ⟨h1, h2⟩
    apply hnot
    constructor
    · by_contra hc
      push_neg at hc
      have : b.getBestBidPrice h = 0 :=
        bestLivePrice_none h b.bids (fun p hp => by simpa using hc p hp)
      rw [this] at h1
      exact lt_irrefl _ h1
    · by_contra hc
      push_neg at hc
      have : b.getBestAskPrice h = 0 :=
        bestLivePrice_none h b.asks (fun p hp => by simpa using hc p hp)
      rw [this] at h2
      exact lt_irrefl _ h2

/-- Witness of the amended C26, the test `OrderBookTest.NoMatchDueToPrice`: a buy at 140
and a sell at 150 rest, the spread is 10; the newly constructed book has the spread 0. -/
theorem spread_contract_witness :
    noMatch.book.getSpread noMatch.heap =
      noMatch.book.getBestAskPrice noMatch.heap - noMatch.book.getBestBidPrice noMatch.heap ∧
    noMatch.book.getSpread noMatch.heap = 10 ∧
    (OrderBook.new "AAPL").getSpread noMatchHeap = 0 :=
  ⟨(spread_contract noMatch.book noMatch.heap).1
      (by
        intro p hp _
        have hb : noMatch.book.bids = [1] := by with_unfolding_all decide
        have ha : noMatch.book.asks = [2] := by with_unfolding_all decide
        rw [hb, ha] at hp
        rcases hp with hp | hp
        · rw [List.mem_singleton.mp hp]
          with_unfolding_all decide
        · rw [List.mem_singleton.mp hp]
          with_unfolding_all decide)
      ⟨1, by with_unfolding_all decide, by with_unfolding_all decide⟩
      ⟨2, by with_unfolding_all decide, by with_unfolding_all decide⟩,
    by with_unfolding_all decide,
    (spread_contract (OrderBook.new "AAPL") noMatchHeap).2
      (fun hb => by
        obtain ⟨⟨p, hp, -⟩, -⟩ := hb
        cases hp)⟩

/-- A push puts the new entry on top when every entry of the queue ranks below it (or is
the entry itself). -/
theorem pqPush_head (h : Heap) (r : Ptr) :
    ∀ q : List Ptr, (∀ y ∈ q, y = r ∨ (h y).lt (h r) = true) →
      ∃ rest, pqPush h r q = r :: rest := by
  intro q
  cases q with
  | nil => intro _; exact ⟨[], rfl⟩
  | cons y q =>
    intro hq
    unfold pqPush
    by_cases hlt : (h y).lt (h r) = true
    · rw [if_pos hlt]; exact ⟨_, rfl⟩
    · rw [if_neg hlt]
      rcases hq y (List.mem_cons_self _ _) with h1 | h1
      · rw [h1]; exact ⟨_, rfl⟩
      · exact absurd h1 hlt

/-- The purge keeps the top of the queue it builds when no later entry outranks it. -/
theorem purgeQueue_keeps_head (h : Heap) (r : Ptr) :
    ∀ (q acc : List Ptr) (m : List (Int × Ptr)), (∀ y ∈ q, (h r).lt (h y) = false) →
      ∃ rest, (OrderBook.purgeQueue h q (r :: acc, m)).1 = r :: rest := by
  intro q
  induction q with
  | nil => intro acc m _; exact ⟨acc, rfl⟩
  | cons y q ih =>
    intro acc m hq
    have hy : (h r).lt (h y) = false := hq y (List.mem_cons_self _ _)
    have hq1 : ∀ z ∈ q, (h r).lt (h z) = false := fun z hz => hq z (List.mem_cons_of_mem _ hz)
    unfold OrderBook.purgeQueue
    split_ifs
    · have hpush : pqPush h y (r :: acc) = r :: pqPush h y acc := by
        conv_lhs => unfold pqPush
        rw [if_neg (by rw [hy]; simp)]
      rw [hpush]
      exact ih _ _ hq1
    · exact ih _ _ hq1

/-- The purge of an ordered queue with a live top entry keeps that entry on top. -/
theorem purgeQueue_head {h : Heap} {side : OrderSide} {r : Ptr} {rest : List Ptr}
    (hq : queueOrdered h side (r :: rest)) (hlive : (h r).isLive = true)
    (m : List (Int × Ptr)) :
    ∃ rest1, (OrderBook.purgeQueue h (r :: rest) ([], m)).1 = r :: rest1 := by
  unfold OrderBook.purgeQueue
  unfold Order.isLive at hlive
  rw [if_pos hlive]
  have hpush : pqPush h r [] = [r] := rfl
  rw [hpush]
  exact purgeQueue_keeps_head h r rest [] m (List.pairwise_cons.mp hq.2).1

/-- The queue of either side after the purge is the purge of that queue. -/
theorem OrderBook.opposite_removeCompletedOrders (b : OrderBook) (h : Heap) (o : Order) :
    ∃ m, (b.removeCompletedOrders h).opposite o =
      (OrderBook.purgeQueue h (b.opposite o) ([], m)).1 := by
  unfold OrderBook.removeCompletedOrders OrderBook.opposite
  by_cases hb : o.isBuy = true
  · simp only [hb, if_true]
    exact ⟨_, rfl⟩
  · simp only [hb]
    exact ⟨_, rfl⟩

/-- The trades that the loop has made stay in front of those it goes on to make. -/
theorem matchLoop_trades_extend (symbol : String) (n : Ptr) (fuel : Nat) (s : MatchState) :
    ∃ ts, (matchLoop symbol n fuel s).1.trades = s.trades ++ ts := by
  refine matchLoop_invariant symbol n (fun s1 => ∃ ts, s1.trades = s.trades ++ ts) ?_ ?_
    fuel s ⟨[], by simp⟩
  · intro s1 s2 ⟨ts, hts⟩ hstep
    obtain ⟨best, rest, -, -, hcase⟩ := matchStep_next hstep
    rcases hcase with ⟨-, hs2⟩ | ⟨-, -, -, n1, b1, -, -, hs2⟩
    · subst hs2; exact ⟨ts, hts⟩
    · subst hs2
      exact ⟨ts ++ [_], by simp only [hts, List.append_assoc]; rfl⟩
  · intro s1 s2 e ⟨ts, hts⟩ hstep
    obtain ⟨best, rest, -, -, htr, -⟩ := matchStep_threw hstep
    exact ⟨ts, by rw [htr, hts]⟩

/-- Of two orders of one side that differ in price or in timestamp, one ranks below the
other. -/
theorem Order.lt_of_not_lt {a b : Order} (hs : a.side = b.side) (h : b.lt a = false)
    (hne : a.price ≠ b.price ∨ a.timestamp ≠ b.timestamp) : a.lt b = true := by
  rw [← Bool.not_eq_true, Order.lt_iff, ← hs] at h
  rw [Order.lt_iff]
  push_neg at h
  obtain ⟨h1, h2⟩ := h
  by_cases hp : a.price = b.price
  · right
    refine ⟨hp, ?_⟩
    have hts : a.timestamp ≠ b.timestamp := by
      rcases hne with hne | hne
      · exact absurd hp hne
      · exact hne
    have := h2 hp.symm
    omega
  · left
    by_cases hb : a.side = .BUY
    · rw [if_pos hb] at h1 ⊢
      exact lt_of_le_of_ne (not_lt.mp h1) hp
    · rw [if_neg hb] at h1 ⊢
      exact lt_of_le_of_ne (not_lt.mp h1) (Ne.symm hp)

/-- The fate of a resting order in the matching loop of an incoming order. -/
theorem matchLoop_restingFate (symbol : String) (n r : Ptr) (h : Heap) (side : OrderSide)
    (q0 : List Ptr) (fuel : Nat) (hord : queueOrdered h side q0) (hn : n ∉ q0)
    (hrn : r ≠ n) :
    restingFate h side q0 n r
      (matchLoop symbol n fuel { heap := h, queue := q0, trades := [] }).1 := by
  have key := matchLoop_invariant symbol n
    (fun s => queueOrdered s.heap side s.queue ∧ (∀ y ∈ s.queue, y ∈ q0) ∧
      restingFate h side q0 n r s) ?_ ?_ fuel { heap := h, queue := q0, trades := [] }
    ⟨hord, fun y hy => hy, Or.inl rfl⟩
  · exact key.2.2
  · intro s s1 ⟨hord, hsub, hfate⟩ hstep
    have hord1 := matchStep_next_ordered hstep hord
    have hsub1 : ∀ y ∈ s1.queue, y ∈ q0 :=
      fun p hp => hsub p (matchStep_next_queue hstep p hp)
    refine ⟨hord1, hsub1, ?_⟩
    have hid := matchStep_next_sameIdentity hstep
    obtain ⟨best, rest, hq, hinc, hcase⟩ := matchStep_next hstep
    rcases hcase with ⟨-, hs1⟩ | ⟨hbinc, -, -, n1, b1, hn1, hb1, hs1⟩
    · subst hs1
      rcases hfate with h1 | h2 | ⟨hc, -⟩
      · exact Or.inl h1
      · exact Or.inr (Or.inl h2)
      · rw [hinc] at hc; cases hc
    · obtain ⟨hne, hb1', hhn, hhb, hoth⟩ := matchStep_trade_heap hinc rfl hn1 hb1
      subst hs1
      by_cases hbr : best = r
      · subst hbr
        by_cases hcomp : b1.isComplete = true
        · right; left
          show (((s.heap.set n n1).set best b1) best).isComplete = true
          rw [hhb]; exact hcomp
        · have hcomp1 : b1.isComplete = false := by simpa using hcomp
          right; right
          refine ⟨?_, ?_, rest, ?_, ?_, ?_⟩
          · show (((s.heap.set n n1).set best b1) n).isComplete = true
            rw [hhn]
            exact trade_completes rfl hn1 hb1' hcomp1
          · show (((s.heap.set n n1).set best b1) best).status = .PARTIALLY_FILLED
            rw [hhb]
            obtain ⟨-, -, hf, hidb, hst⟩ := Order.addFill_ok hb1'
            rw [hst]
            rw [Order.isComplete_false_iff, hf, hidb.2.2.2.1] at hcomp1
            rw [if_neg (not_le.mpr hcomp1)]
          · show (if (((s.heap.set n n1).set best b1) best).isComplete = true then rest
              else pqPush ((s.heap.set n n1).set best b1) best rest) = _
            rw [hhb, if_neg hcomp]
          · rw [hq] at hord
            exact queueOrdered_congr hid hord
          · intro y hy
            exact hsub y (by rw [hq]; exact List.mem_cons_of_mem _ hy)
      · have hr1 : ((s.heap.set n n1).set best b1) r = s.heap r :=
          hoth r hrn (Ne.symm hbr)
        rcases hfate with h1 | h2 | ⟨hc, -⟩
        · left
          show ((s.heap.set n n1).set best b1) r = h r
          rw [hr1, h1]
        · right; left
          show (((s.heap.set n n1).set best b1) r).isComplete = true
          rw [hr1]; exact h2
        · rw [hinc] at hc; cases hc
  · intro s s1 e ⟨_, hsub, _⟩ hstep
    obtain ⟨rest, hq⟩ := matchStep_threw_alias hstep
    exact absurd (hsub n (by rw [hq]; exact List.mem_cons_self _ _)) hn

theorem OrderBook.opposite_setOpposite (b : OrderBook) (o : Order) (q : List Ptr) :
    (b.setOpposite o q).opposite o = q := by
  unfold OrderBook.setOpposite OrderBook.opposite
  by_cases hb : o.isBuy = true
  · simp only [hb, if_true]
  · simp only [hb]
    rfl

/-- With a well-formed book the matching loop of `addOrder` returns. -/
theorem OrderBook.matchLoop_returns {b : OrderBook} {h : Heap} (hwf : b.wellFormed h)
    (n : Ptr) :
    (matchLoop b.symbol n ((b.opposite (h n)).length + 2)
      { heap := h, queue := b.opposite (h n), trades := [] }).2 = .returned () := by
  have hn : n ∉ b.opposite (h n) := OrderBook.not_mem_opposite hwf n
  have h1 := matchLoop_no_throw b.symbol n ((b.opposite (h n)).length + 2)
    { heap := h, queue := b.opposite (h n), trades := [] } hn
  have h2 := matchLoop_terminates b.symbol n ((b.opposite (h n)).length + 2)
    { heap := h, queue := b.opposite (h n), trades := [] } (Or.inl le_rfl)
  cases hout : (matchLoop b.symbol n ((b.opposite (h n)).length + 2)
      { heap := h, queue := b.opposite (h n), trades := [] }).2 with
  | returned u => rfl
  | threw e => exact absurd hout (h1 e)
  | outOfFuel => exact absurd hout h2

/-- When `addOrder` has filled a part of a resting order that no other resting order ties
with, the order is live and on top of its queue afterwards. -/
theorem OrderBook.addOrder_partial_head (b : OrderBook) (h : Heap) (n r : Ptr)
    (hwf : b.wellFormed h) (hr : r ∈ b.opposite (h n))
    (htie : ∀ y ∈ b.opposite (h n),
      y = r ∨ (h y).price ≠ (h r).price ∨ (h y).timestamp ≠ (h r).timestamp)
    (hfill : (h r).filledQuantity < ((b.addOrder h n).heap r).filledQuantity)
    (hpart : ((b.addOrder h n).heap r).isComplete = false) :
    (b.addOrder h n).outcome = .returned () ∧ ((b.addOrder h n).heap r).isLive = true ∧
      ∃ rest, (b.addOrder h n).book.opposite (h n) = r :: rest := by
  have hsym : (h n).symbol = b.symbol := by
    by_contra hc
    have hheap : (b.addOrder h n).heap = h := by
      unfold OrderBook.addOrder
      rw [if_pos hc]
    rw [hheap] at hfill
    exact lt_irrefl _ hfill
  have hn : n ∉ b.opposite (h n) := OrderBook.not_mem_opposite hwf n
  have hrn : r ≠ n := fun hc => hn (hc ▸ hr)
  have hq0 := OrderBook.wellFormed_opposite hwf (h n)
  have hout := OrderBook.matchLoop_returns hwf n
  have hfate := matchLoop_restingFate b.symbol n r h (oppositeSide (h n)) (b.opposite (h n))
    ((b.opposite (h n)).length + 2) hq0 hn hrn
  have hid := matchLoop_sameIdentity b.symbol n ((b.opposite (h n)).length + 2)
    { heap := h, queue := b.opposite (h n), trades := [] }
  have hord := matchLoop_ordered b.symbol n (oppositeSide (h n))
    ((b.opposite (h n)).length + 2) { heap := h, queue := b.opposite (h n), trades := [] } hq0
  generalize hS : matchLoop b.symbol n ((b.opposite (h n)).length + 2)
    { heap := h, queue := b.opposite (h n), trades := [] } = S at hout hfate hid hord
  obtain ⟨s, out⟩ := S
  simp only at hout hfate hid hord
  subst hout
  have hadd := OrderBook.addOrder_of_returned b h n s hsym hS
  rw [hadd] at hfill hpart ⊢
  simp only at hfill hpart ⊢
  rcases hfate with h1 | h2 | ⟨hc, hst, rest, hqueue, hordr, hsub⟩
  · rw [h1] at hfill
    exact absurd hfill (lt_irrefl _)
  · rw [h2] at hpart
    cases hpart
  · have hlive : (s.heap r).isLive = true := by
      rw [Order.isLive_iff]
      exact ⟨hpart, by rw [hst]; decide⟩
    refine ⟨trivial, hlive, ?_⟩
    -- the order is pushed back on top
    have hhead : ∃ rest1, s.queue = r :: rest1 := by
      rw [hqueue]
      apply pqPush_head
      intro y hy
      rcases htie y (hsub y hy) with heq | hne
      · exact Or.inl heq
      · right
        rw [Order.lt_congr (hid y) (hid r)]
        apply Order.lt_of_not_lt
        · rw [hq0.1 y (hsub y hy), hq0.1 r hr]
        · rw [← Order.lt_congr (hid r) (hid y)]
          exact (List.pairwise_cons.mp hordr.2).1 y hy
        · exact hne
    obtain ⟨rest1, hrest1⟩ := hhead
    rw [if_neg (by rw [hc]; simp)]
    obtain ⟨m, hm⟩ := OrderBook.opposite_removeCompletedOrders
      { (({ b with orderMap := mapInsert (h n).orderId n b.orderMap } : OrderBook).setOpposite
            (h n) s.queue) with
        trades := b.trades ++ s.trades } s.heap (h n)
    rw [hm]
    have hopp : OrderBook.opposite
        { (({ b with orderMap := mapInsert (h n).orderId n b.orderMap } : OrderBook).setOpposite
              (h n) s.queue) with
          trades := b.trades ++ s.trades } (h n) = s.queue :=
      OrderBook.opposite_setOpposite _ (h n) s.queue
    rw [hopp, hrest1]
    rw [hrest1] at hord
    exact purgeQueue_head hord hlive m

/-- The first trade of `addOrder` is made with the top entry of the opposite queue, when
that entry is live and the incoming order, not yet complete, crosses its price. -/
theorem OrderBook.addOrder_first_trade (b : OrderBook) (h : Heap) (m r : Ptr)
    (rest : List Ptr) (hwf : b.wellFormed h) (hsym : (h m).symbol = b.symbol)
    (hq : b.opposite (h m) = r :: rest) (hm : (h m).isComplete = false)
    (hlive : (h r).isLive = true) (hcross : crosses (h m) (h r) = true) :
    ∃ t ts, (b.addOrder h m).book.trades = b.trades ++ t :: ts ∧
      t.price = (h r).price ∧
      t.quantity = min (h m).getRemainingQuantity (h r).getRemainingQuantity ∧
      (if (h m).isBuy then t.buyOrderId = (h m).orderId ∧ t.sellOrderId = (h r).orderId
        else t.buyOrderId = (h r).orderId ∧ t.sellOrderId = (h m).orderId) := by
  have hnm : m ∉ b.opposite (h m) := OrderBook.not_mem_opposite hwf m
  have hout := OrderBook.matchLoop_returns hwf m
  obtain ⟨hrc, hrs⟩ := (Order.isLive_iff _).mp hlive
  -- the first pass makes a trade with `r`
  have hfirst : ∃ s1 t, matchStep b.symbol m
        { heap := h, queue := b.opposite (h m), trades := [] } = .next s1 ∧
      s1.trades = [t] ∧ t.price = (h r).price ∧
      t.quantity = min (h m).getRemainingQuantity (h r).getRemainingQuantity ∧
      (if (h m).isBuy then t.buyOrderId = (h m).orderId ∧ t.sellOrderId = (h r).orderId
        else t.buyOrderId = (h r).orderId ∧ t.sellOrderId = (h m).orderId) := by
    cases hstep : matchStep b.symbol m
        { heap := h, queue := b.opposite (h m), trades := [] } with
    | exit s1 =>
      exfalso
      have hs1 := matchStep_exit hstep
      subst hs1
      rcases matchStep_exit_cases hstep with h1 | h1 | ⟨best, rest1, h1, -, h3⟩
      · simp only [hq] at h1
        cases h1
      · simp only at h1
        rw [hm] at h1
        cases h1
      · simp only [hq, List.cons.injEq] at h1
        obtain ⟨h1, -⟩ := h1
        subst h1
        simp only at h3
        rw [hcross] at h3
        cases h3
    | threw s1 e =>
      exfalso
      obtain ⟨rest1, h1⟩ := matchStep_threw_alias hstep
      simp only at h1
      exact hnm (by rw [h1]; exact List.mem_cons_self _ _)
    | next s1 =>
      obtain ⟨best, rest1, h1, -, hcase⟩ := matchStep_next hstep
      simp only [hq, List.cons.injEq] at h1
      obtain ⟨h1, -⟩ := h1
      subst h1
      rcases hcase with ⟨hbad, -⟩ | ⟨-, -, -, n1, b1, -, -, hs1⟩
      · exfalso
        simp only at hbad
        rcases hbad with hbad | hbad
        · rw [hrc] at hbad; cases hbad
        · exact hrs hbad
      · have htr : s1.trades = ([] : List Trade) ++
            [mkTrade b.symbol (((h.set m n1).set r b1) m) (((h.set m n1).set r b1) r)
              (min (h m).getRemainingQuantity (h r).getRemainingQuantity) (h r).price] := by
          rw [hs1]
        obtain ⟨r1, rest2, h1, hqty, -, -, hids⟩ :=
          matchStep_trade b.symbol m _ s1 _ hstep htr
        simp only [hq, List.cons.injEq] at h1
        obtain ⟨h1, -⟩ := h1
        subst h1
        exact ⟨s1, _, rfl, by rw [htr]; rfl, mkTrade_price _ _ _ _ _, hqty, hids⟩
  obtain ⟨s1, t, hstep, htr, hprice, hqty, hids⟩ := hfirst
  have hloop : matchLoop b.symbol m ((b.opposite (h m)).length + 2)
        { heap := h, queue := b.opposite (h m), trades := [] } =
      matchLoop b.symbol m ((b.opposite (h m)).length + 1) s1 := by
    conv_lhs => unfold matchLoop
    simp only [hstep]
  obtain ⟨ts, hts⟩ := matchLoop_trades_extend b.symbol m ((b.opposite (h m)).length + 1) s1
  rw [← hloop, htr] at hts
  generalize hS : matchLoop b.symbol m ((b.opposite (h m)).length + 2)
    { heap := h, queue := b.opposite (h m), trades := [] } = S at hout hts
  obtain ⟨s, out⟩ := S
  simp only at hout hts
  subst hout
  have hadd := OrderBook.addOrder_of_returned b h m s hsym hS
  refine ⟨t, ts, ?_, hprice, hqty, hids⟩
  rw [hadd]
  simp only [OrderBook.removeCompletedOrders_trades]
  rw [hts]
  split_ifs <;> rfl

theorem OrderBook.addOrder_keeps_symbol (b : OrderBook) (h : Heap) (n : Ptr) :
    (b.addOrder h n).book.symbol = b.symbol := by
  unfold OrderBook.addOrder
  split_ifs
  · rfl
  · simp only
    split
    · simp [OrderBook.setOpposite_symbol]
    · simp [OrderBook.setOpposite_symbol]
    · simp only [OrderBook.removeCompletedOrders_symbol]
      split_ifs <;> simp [OrderBook.setOpposite_symbol]

/-- Counterexample to C30 as stated. Two sells at 150 constructed at the same clock
reading rest in the book, the one with the id 1 on top. A buy of 50 at 150 fills 50 of
order 1, which is left partially filled, with its price and timestamp, in the ask queue.
The next buy, of 30 at 150, crosses the price of order 1, and trades with order 2:
order 1, pushed back after its fill, went behind the order that ties with it. -/
theorem partial_fill_keeps_priority_counterexample :
    Order.new 1 101 "AAPL" 100 150 .SELL .LIMIT 5 = .ok (tieHeap 1) ∧
    Order.new 2 102 "AAPL" 100 150 .SELL .LIMIT 5 = .ok (tieHeap 2) ∧
    tieResting.book.asks = [1, 2] ∧
    tiePartial.outcome = .returned () ∧
    (tiePartial.heap 1).filledQuantity = 50 ∧
    (tiePartial.heap 1).status = .PARTIALLY_FILLED ∧
    (tiePartial.heap 1).price = (tieHeap 1).price ∧
    (tiePartial.heap 1).timestamp = (tieHeap 1).timestamp ∧
    tiePartial.book.asks = [2, 1] ∧
    crosses (tiePartial.heap 4) (tiePartial.heap 1) = true ∧
    (tiePartial.heap 2).price = (tiePartial.heap 1).price ∧
    tieNext.outcome = .returned () ∧
    tieNext.book.trades = tiePartial.book.trades ++
      [{ buyOrderId := 4, sellOrderId := 2, buyTraderId := 104, sellTraderId := 102,
         symbol := "AAPL", quantity := 30, price := 150 }] ∧
    (tieNext.heap 1).filledQuantity = 50 ∧
    (tieNext.heap 2).filledQuantity = 30 :=
  ⟨by with_unfolding_all rfl, by with_unfolding_all rfl, by with_unfolding_all decide,
    by with_unfolding_all decide, by with_unfolding_all decide, by with_unfolding_all decide,
    by with_unfolding_all decide, by with_unfolding_all decide, by with_unfolding_all decide,
    by with_unfolding_all decide, by with_unfolding_all decide, by with_unfolding_all decide,
    by with_unfolding_all decide, by with_unfolding_all decide, by with_unfolding_all decide⟩

/-- With every queue of the type of the header: let the book be well formed and let
`addOrder` of an order `n` leave a resting order `r` of the opposite queue partially
filled, where no other entry of that queue has both the price and the timestamp of `r`.
Then `r` keeps its price and its timestamp and stays in its queue, and the next incoming
order `m` of the side of `n` that is not complete and crosses the price of `r` makes its
first trade with `r`, at the price of `r`. -/
theorem OrderBook.partial_fill_of_ordered_queue (b : OrderBook) (h : Heap) (n r m : Ptr)
    (hwf : b.wellFormed h) (hr : r ∈ b.opposite (h n))
    (htie : ∀ y ∈ b.opposite (h n),
      y = r ∨ (h y).price ≠ (h r).price ∨ (h y).timestamp ≠ (h r).timestamp)
    (hfill : (h r).filledQuantity < ((b.addOrder h n).heap r).filledQuantity)
    (hpart : ((b.addOrder h n).heap r).isComplete = false)
    (hmside : ((b.addOrder h n).heap m).side = (h n).side)
    (hmsym : ((b.addOrder h n).heap m).symbol = b.symbol)
    (hmlive : ((b.addOrder h n).heap m).isComplete = false)
    (hmcross : crosses ((b.addOrder h n).heap m) ((b.addOrder h n).heap r) = true) :
    ((b.addOrder h n).heap r).price = (h r).price ∧
    ((b.addOrder h n).heap r).timestamp = (h r).timestamp ∧
    r ∈ (b.addOrder h n).book.opposite (h n) ∧
    ∃ t ts, ((b.addOrder h n).book.addOrder (b.addOrder h n).heap m).book.trades =
        (b.addOrder h n).book.trades ++ t :: ts ∧
      t.price = (h r).price ∧
      t.quantity = min ((b.addOrder h n).heap m).getRemainingQuantity
        ((b.addOrder h n).heap r).getRemainingQuantity ∧
      (if (h n).isBuy then t.sellOrderId = (h r).orderId
        else t.buyOrderId = (h r).orderId) := by
  have hid := OrderBook.addOrder_sameIdentity b h n
  obtain ⟨-, hlive, rest, hhead⟩ :=
    OrderBook.addOrder_partial_head b h n r hwf hr htie hfill hpart
  have hwf1 := OrderBook.wellFormed_addOrder n hwf
  have hbuy : ((b.addOrder h n).heap m).isBuy = (h n).isBuy := by
    unfold Order.isBuy
    rw [hmside]
  have hopp : (b.addOrder h n).book.opposite ((b.addOrder h n).heap m) = r :: rest := by
    rw [← hhead]
    unfold OrderBook.opposite
    rw [hbuy]
  obtain ⟨t, ts, htrades, hprice, hqty, hids⟩ :=
    OrderBook.addOrder_first_trade (b.addOrder h n).book (b.addOrder h n).heap m r rest hwf1
      (by rw [hmsym, OrderBook.addOrder_keeps_symbol]) hopp hmlive hlive hmcross
  refine ⟨(hid r).2.2.2.2.1, (hid r).2.2.2.2.2.2.2, ?_, t, ts, htrades, ?_, hqty, ?_⟩
  · rw [hhead]; exact List.mem_cons_self _ _
  · rw [hprice]; exact (hid r).2.2.2.2.1
  · rw [hbuy] at hids
    rw [← (hid r).1]
    split_ifs at hids ⊢
    · exact hids.2
    · exact hids.1

/-- While the incoming order is not complete, the trades made and the entries still in
the queue are together at most the entries that the queue had at the start. -/
theorem matchLoop_trades_bound (symbol : String) (n : Ptr) (fuel : Nat) (s : MatchState) :
    (matchLoop symbol n fuel s).1.trades.length ≤ s.trades.length + s.queue.length := by
  have key := matchLoop_invariant symbol n
    (fun s1 => s1.trades.length ≤ s.trades.length + s.queue.length ∧
      ((s1.heap n).isComplete = false →
        s1.trades.length + s1.queue.length ≤ s.trades.length + s.queue.length)) ?_ ?_
    fuel s ⟨Nat.le_add_right _ _, fun _ => le_refl _⟩
  · exact key.1
  · intro s1 s2 ⟨_, h2⟩ hstep
    obtain ⟨best, rest, hq, hinc, hcase⟩ := matchStep_next hstep
    have h3 := h2 hinc
    rw [hq] at h3
    simp only [List.length_cons] at h3
    rcases hcase with ⟨-, hs2⟩ | ⟨-, -, -, n1, b1, hn1, hb1, hs2⟩
    · subst hs2
      exact ⟨by simp only; omega, fun _ => by simp only; omega⟩
    · obtain ⟨hne, hb1', hhn, hhb, -⟩ := matchStep_trade_heap hinc rfl hn1 hb1
      subst hs2
      refine ⟨by simp only [List.length_append, List.length_singleton]; omega, ?_⟩
      intro hinc2
      simp only [List.length_append, List.length_singleton]
      have hcomp : b1.isComplete = true := by
        by_contra hc
        have hc1 : b1.isComplete = false := by simpa using hc
        have := trade_completes rfl hn1 hb1' hc1
        simp only [hhn] at hinc2
        rw [this] at hinc2
        cases hinc2
      rw [hhb, if_pos hcomp]
      omega
  · intro s1 s2 e ⟨h1, h2⟩ hstep
    obtain ⟨best, rest, hq, hq1, htr, hinc, -⟩ := matchStep_threw hstep
    have h3 := h2 hinc
    rw [hq] at h3
    simp only [List.length_cons] at h3
    rw [htr, hq1]
    exact ⟨h1, fun _ => by omega⟩

/-- With exact arithmetic, for every book, arena and incoming order, the matching loop
ends within two evaluations of its condition more than the opposite queue has entries
(and with any larger allowance), and the number of trades it makes is at most the number
of entries of the opposite queue before the call. -/
theorem OrderBook.matchOrder_bounded (b : OrderBook) (h : Heap) (n : Ptr) :
    (∀ fuel, (b.opposite (h n)).length + 2 ≤ fuel →
      (matchLoop b.symbol n fuel { heap := h, queue := b.opposite (h n), trades := [] }).2
          ≠ .outOfFuel ∧
      (matchLoop b.symbol n fuel
        { heap := h, queue := b.opposite (h n), trades := [] }).1.trades.length ≤
          (b.opposite (h n)).length) ∧
    (b.matchOrder h n).2 ≠ .outOfFuel ∧
    (b.matchOrder h n).1.trades.length ≤ (b.opposite (h n)).length ∧
    (b.addOrder h n).outcome ≠ .outOfFuel ∧
    (b.addOrder h n).book.trades.length ≤ b.trades.length + (b.opposite (h n)).length := by
  have hb : ∀ fuel, (matchLoop b.symbol n fuel
      { heap := h, queue := b.opposite (h n), trades := [] }).1.trades.length ≤
        (b.opposite (h n)).length := by
    intro fuel
    have := matchLoop_trades_bound b.symbol n fuel
      { heap := h, queue := b.opposite (h n), trades := [] }
    simpa using this
  refine ⟨?_, ?_, hb _, OrderBook.addOrder_ends b h n, ?_⟩
  · intro fuel hfuel
    exact ⟨matchLoop_terminates b.symbol n fuel _ (Or.inl hfuel), hb fuel⟩
  · exact matchLoop_terminates b.symbol n _ _ (Or.inl le_rfl)
  · rcases OrderBook.addOrder_trades b h n with h0 | ⟨-, h1⟩
    · rw [h0]; omega
    · rw [h1, List.length_append]
      have := hb ((b.opposite (h n)).length + 2)
      exact Nat.add_le_add_left this _

/-- When the last branch of `updatePositionOnTrade` runs, the position is stored with the
remaining quantity and with the trade price as its average price. -/
theorem Trader.updatePositionOnTrade_signFlips {t : Trader} {symbol : String}
    {quantity : ℚ} (price : ℚ) (h : t.signFlips symbol quantity = true) :
    ∃ position, mapFind t.positions symbol = some position ∧
      t.updatePositionOnTrade symbol quantity price =
        t.storePosition symbol
          { position with quantity := position.quantity + quantity, averagePrice := price } := by
  unfold Trader.signFlips at h
  cases hfind : mapFind t.positions symbol with
  | none => rw [hfind] at h; cases h
  | some position =>
    rw [hfind] at h
    simp only [Bool.and_eq_true, Bool.not_eq_true', decide_eq_false_iff_not] at h
    obtain ⟨⟨h1, h2⟩, h3⟩ := h
    refine ⟨position, rfl, ?_⟩
    unfold Trader.updatePositionOnTrade
    rw [hfind]
    simp only [if_neg h1, if_neg h2, if_neg h3]

theorem Trader.storePosition_positive {t : Trader} {symbol : String} {position : Position}
    (ht : ∀ pk ∈ t.positions, 0 < pk.2.quantity)
    (hp : 0 < position.quantity ∨ |position.quantity| < positionEpsilon) :
    ∀ pk ∈ (t.storePosition symbol position).positions, 0 < pk.2.quantity := by
  unfold Trader.storePosition
  split_ifs with h
  · intro pk hpk
    exact ht pk (mem_mapErase hpk)
  · intro pk hpk
    rcases mem_mapInsert hpk with h1 | h1
    · rw [h1]
      rcases hp with hp | hp
      · exact hp
      · exact absurd hp h
    · exact ht pk h1

/-- The position update keeps all quantities above 0 when it does not take a position
below 0. -/
theorem Trader.updatePositionOnTrade_positive {t : Trader} {symbol : String}
    {quantity price : ℚ} (ht : ∀ pk ∈ t.positions, 0 < pk.2.quantity)
    (hq : ∀ position, mapFind t.positions symbol = some position →
      0 ≤ position.quantity + quantity) :
    ∀ pk ∈ (t.updatePositionOnTrade symbol quantity price).positions, 0 < pk.2.quantity := by
  have heps : (0 : ℚ) < positionEpsilon := by unfold positionEpsilon; norm_num
  unfold Trader.updatePositionOnTrade
  cases hfind : mapFind t.positions symbol with
  | none =>
    simp only
    split_ifs with h
    · intro pk hpk
      rcases mem_mapInsert hpk with h1 | h1
      · rw [h1]; exact h
      · exact ht pk h1
    · exact ht
  | some position =>
    have hpq : 0 < position.quantity := ht _ (mapFind_mem hfind)
    have hsum := hq position hfind
    simp only
    split_ifs with h1 h2 h3 h4
    · apply Trader.storePosition_positive ht
      left
      show 0 < position.quantity + quantity
      rcases h1 with ⟨_, h1⟩ | ⟨h1, _⟩ <;> linarith
    · apply Trader.storePosition_positive ht
      left
      show 0 < position.quantity + quantity
      rcases h1 with ⟨_, h1⟩ | ⟨h1, _⟩ <;> linarith
    · intro pk hpk
      exact ht pk (mem_mapErase hpk)
    · apply Trader.storePosition_positive ht
      left
      show 0 < position.quantity + quantity
      rcases h4 with ⟨_, h4⟩ | ⟨h4, _⟩ <;> linarith
    · apply Trader.storePosition_positive ht
      right
      show |position.quantity + quantity| < positionEpsilon
      have h0 : position.quantity + quantity = 0 := by
        by_contra hne
        exact h4 (Or.inl ⟨hpq, lt_of_le_of_ne hsum (Ne.symm hne)⟩)
      rw [h0, abs_zero]
      exact heps

theorem Trader.onOrderFilled_positive {t t1 : Trader} {symbol : String} {quantity price : ℚ}
    {isBuy : Bool} (ht : ∀ pk ∈ t.positions, 0 < pk.2.quantity) (hq : 0 < quantity)
    (hfill : t.onOrderFilled symbol quantity price isBuy = .ok t1) :
    ∀ pk ∈ t1.positions, 0 < pk.2.quantity := by
  simp only [Trader.onOrderFilled] at hfill
  split_ifs at hfill with hb hc hs
  · injection hfill with hfill
    subst hfill
    refine Trader.updatePositionOnTrade_positive
      (t := { t with cash := t.cash - quantity * price }) ht ?_
    intro position hfind
    have := ht _ (mapFind_mem hfind)
    simp only at this
    linarith
  · injection hfill with hfill
    subst hfill
    refine Trader.updatePositionOnTrade_positive
      (t := { t with cash := t.cash + quantity * price }) ht ?_
    intro position hfind
    simp only [Trader.hasSufficientShares, Bool.not_eq_true'] at hs
    simp only at hfind
    rw [hfind] at hs
    have : quantity ≤ position.quantity := by simpa using hs
    linarith

theorem PositiveFillReach.positions_positive {t : Trader} (h : PositiveFillReach t) :
    ∀ pk ∈ t.positions, 0 < pk.2.quantity := by
  induction h with
  | start traderId name initialCash => intro pk hpk; simp [Trader.new] at hpk
  | fill t t1 symbol quantity price isBuy _ hq hfill ih =>
    exact Trader.onOrderFilled_positive ih hq hfill
  | refused t symbol quantity price isBuy e _ _ _ ih => exact ih

/-- With the erase branch of the position update taken as returning. Start from a trader
with no positions and let any sequence of `onOrderFilled` calls with a quantity above 0
follow, accepted or refused. Then every stored position has a quantity above 0, and the
last branch of the position update (the remaining quantity takes the sign opposite to
the position and the trade price becomes the average price) is not taken by the next
call with a quantity above 0: not by a purchase, and not by a sale that passes the
inventory check. -/
theorem PositiveFillReach.no_sign_flip (t : Trader) (hr : PositiveFillReach t) :
    (∀ pk ∈ t.positions, 0 < pk.2.quantity) ∧
    (∀ symbol quantity, 0 < quantity →
      t.signFlips symbol quantity = false ∧
      (t.hasSufficientShares symbol quantity = true →
        t.signFlips symbol (-quantity) = false)) := by
  have hpos := hr.positions_positive
  have heps : (0 : ℚ) < positionEpsilon := by unfold positionEpsilon; norm_num
  refine ⟨hpos, ?_⟩
  intro symbol quantity hq
  unfold Trader.signFlips Trader.hasSufficientShares
  cases hfind : mapFind t.positions symbol with
  | none => exact ⟨rfl, fun _ => rfl⟩
  | some position =>
    have hpq : 0 < position.quantity := hpos _ (mapFind_mem hfind)
    simp only
    constructor
    · have h1 : (position.quantity > 0 ∧ quantity > 0) ∨
          (position.quantity < 0 ∧ quantity < 0) := Or.inl ⟨hpq, hq⟩
      simp only [decide_eq_true h1, Bool.not_true, Bool.false_and]
    · intro hs
      have hle : quantity ≤ position.quantity := by simpa using hs
      by_cases h2 : |position.quantity + -quantity| < positionEpsilon
      · simp only [decide_eq_true h2, Bool.not_true, Bool.and_false, Bool.false_and]
      · have h3 : (position.quantity > 0 ∧ position.quantity + -quantity > 0) ∨
            (position.quantity < 0 ∧ position.quantity + -quantity < 0) := by
          left
          refine ⟨hpq, ?_⟩
          by_contra hc
          have h0 : position.quantity + -quantity = 0 := by linarith
          rw [h0, abs_zero] at h2
          exact h2 heps
        simp only [decide_eq_true h3, Bool.not_true, Bool.and_false]

theorem mapInsert_sum_present {κ ν : Type} [DecidableEq κ] [LT κ]
    [DecidableRel (fun (a b : κ) => a < b)] (hirr : ∀ a : κ, ¬ a < a)
    (htrans : ∀ a b c : κ, a < b → b < c → a < c) (f : ν → ℚ) (k : κ) (v old : ν) :
    ∀ m : List (κ × ν), m.Pairwise (fun a b => a.1 < b.1) → mapFind m k = some old →
      ((mapInsert k v m).map (fun e => f e.2)).sum =
        (m.map (fun e => f e.2)).sum - f old + f v := by
  intro m
  induction m with
  | nil => intro _ h; simp [mapFind] at h
  | cons x m ih =>
    obtain ⟨k1, v1⟩ := x
    intro hs hfind
    obtain ⟨hx, hm⟩ := List.pairwise_cons.mp hs
    unfold mapFind at hfind
    unfold mapInsert
    split_ifs at hfind ⊢ with h1 h2
    · injection hfind with hfind
      subst hfind
      simp only [List.map_cons, List.sum_cons]; ring
    · exfalso
      have := hx _ (mapFind_mem hfind)
      exact hirr _ (htrans _ _ _ h2 this)
    · simp only [List.map_cons, List.sum_cons, ih hm hfind]; ring

/-- With a well-formed book, `addOrder` returns unless the symbol check refuses the
order, and then it leaves book and arena as they were. -/
theorem OrderBook.addOrder_cases {b : OrderBook} {h : Heap} (hwf : b.wellFormed h) (n : Ptr) :
    ((h n).symbol ≠ b.symbol ∧
      b.addOrder h n = { book := b, heap := h, outcome := .threw .InvalidArgument }) ∨
    ((h n).symbol = b.symbol ∧ (b.addOrder h n).outcome = .returned () ∧
      ∃ s, matchLoop b.symbol n ((b.opposite (h n)).length + 2)
          { heap := h, queue := b.opposite (h n), trades := [] } = (s, .returned ())) := by
  by_cases hsym : (h n).symbol = b.symbol
  · right
    have hout := OrderBook.matchLoop_returns hwf n
    generalize hS : matchLoop b.symbol n ((b.opposite (h n)).length + 2)
      { heap := h, queue := b.opposite (h n), trades := [] } = S at hout
    obtain ⟨sf, out⟩ := S
    simp only at hout
    subst hout
    refine ⟨hsym, ?_, sf, rfl⟩
    rw [OrderBook.addOrder_of_returned b h n sf hsym hS]
  · left
    refine ⟨hsym, ?_⟩
    unfold OrderBook.addOrder
    rw [if_pos hsym]

/-- The calls `addOrder` and `cancelOrder` leave live orders only in the queues of a
reached book. -/
theorem BookReach.allLive {b : OrderBook} {h : Heap} (hr : BookReach b h) : b.allLive h := by
  induction hr with
  | start symbol h =>
    intro p hp
    simp [OrderBook.new] at hp
  | addOrder b h n hb ih =>
    rcases OrderBook.addOrder_cases hb.queues_invariant n with ⟨-, h1⟩ | ⟨-, h1, -⟩
    · rw [h1]; exact ih
    · exact OrderBook.allLive_addOrder b h n h1
  | cancelOrder b h orderId _ ih => exact OrderBook.allLive_cancelOrder b h orderId ih

/-- The call `addOrder` keeps a well-formed book from being crossed. -/
theorem OrderBook.neverCrossed_addOrder {b : OrderBook} {h : Heap} (n : Ptr)
    (hwf : b.wellFormed h) (hnc : b.neverCrossed h) :
    (b.addOrder h n).book.neverCrossed (b.addOrder h n).heap := by
  rcases OrderBook.addOrder_cases hwf n with ⟨-, h1⟩ | ⟨hsym, -, sf, hS⟩
  · rw [h1]; exact hnc
  · have hid := matchLoop_sameIdentity b.symbol n ((b.opposite (h n)).length + 2)
      { heap := h, queue := b.opposite (h n), trades := [] }
    have hord := matchLoop_ordered b.symbol n (oppositeSide (h n))
      ((b.opposite (h n)).length + 2) { heap := h, queue := b.opposite (h n), trades := [] }
      (OrderBook.wellFormed_opposite hwf (h n))
    have hsub := matchLoop_queue_subset b.symbol n ((b.opposite (h n)).length + 2)
      { heap := h, queue := b.opposite (h n), trades := [] }
    have hexit := matchLoop_returned_exit b.symbol n ((b.opposite (h n)).length + 2)
      { heap := h, queue := b.opposite (h n), trades := [] } (by rw [hS])
    rw [hS] at hid hord hsub hexit
    simp only at hid hord hsub hexit
    have hprice : ∀ p, (sf.heap p).price = (h p).price := fun p => (hid p).2.2.2.2.1
    have hbuy : (sf.heap n).isBuy = (h n).isBuy := by
      unfold Order.isBuy
      rw [(hid n).2.2.2.2.2.1]
    -- an incomplete incoming order crosses nothing that is left in the opposite queue
    have hfar : (sf.heap n).isComplete = false → ∀ y ∈ sf.queue,
        (if (h n).isBuy then (h n).price < (h y).price else (h y).price < (h n).price) := by
      intro hinc y hy
      rcases matchStep_exit_cases hexit with h1 | h1 | ⟨best, rest, h1, -, h3⟩
      · rw [h1] at hy; cases hy
      · rw [hinc] at h1; cases h1
      · rw [h1] at hy hord
        have hside : oppositeSide (h n) = oppositeSide (sf.heap n) := by
          unfold oppositeSide
          rw [hbuy]
        have := no_cross_behind hside hord h3 y hy
        rw [hbuy, hprice, hprice] at this
        exact this
    rw [OrderBook.addOrder_of_returned b h n sf hsym hS]
    intro x hx y hy
    simp only at hx hy ⊢
    rw [OrderBook.mem_removeCompletedOrders_bids] at hx
    rw [OrderBook.mem_removeCompletedOrders_asks] at hy
    obtain ⟨hx, -⟩ := hx
    obtain ⟨hy, -⟩ := hy
    rw [hprice, hprice]
    by_cases hb : (h n).isBuy = true
    · have hb1 : (sf.heap n).isBuy = true := by rw [hbuy, hb]
      have hq : ∀ z ∈ sf.queue, z ∈ b.asks := by
        intro z hz
        have := hsub z hz
        simpa [OrderBook.opposite, hb] using this
      simp only [hb, hb1, if_true, OrderBook.setOpposite, OrderBook.opposite] at hx hy hfar
      by_cases hc : (sf.heap n).isComplete = true
      · simp only [hc, Bool.not_true, Bool.false_eq_true, if_false] at hx hy
        exact hnc x hx y (hq y hy)
      · have hc1 : (sf.heap n).isComplete = false := by simpa using hc
        simp only [hc1, Bool.not_false, if_true] at hx hy
        rcases mem_pqPush.mp hx with hx | hx
        · rw [hx]
          exact hfar hc1 y hy
        · exact hnc x hx y (hq y hy)
    · have hb0 : (h n).isBuy = false := by simpa using hb
      have hb1 : (sf.heap n).isBuy = false := by rw [hbuy, hb0]
      have hq : ∀ z ∈ sf.queue, z ∈ b.bids := by
        intro z hz
        have := hsub z hz
        simpa [OrderBook.opposite, hb0] using this
      simp only [hb0, hb1, Bool.false_eq_true, if_false, OrderBook.setOpposite,
        OrderBook.opposite] at hx hy hfar
      by_cases hc : (sf.heap n).isComplete = true
      · simp only [hc, Bool.not_true, Bool.false_eq_true, if_false] at hx hy
        exact hnc x (hq x hx) y hy
      · have hc1 : (sf.heap n).isComplete = false := by simpa using hc
        simp only [hc1, Bool.not_false, if_true] at hx hy
        rcases mem_pqPush.mp hy with hy | hy
        · rw [hy]
          exact hfar hc1 x hx
        · exact hnc x (hq x hx) y hy

/-- The call `cancelOrder` keeps a book from being crossed. -/
theorem OrderBook.neverCrossed_cancelOrder {b : OrderBook} {h : Heap} (orderId : Int)
    (hnc : b.neverCrossed h) :
    (b.cancelOrder h orderId).book.neverCrossed (b.cancelOrder h orderId).heap := by
  have hid := OrderBook.cancelOrder_sameIdentity b h orderId
  intro x hx y hy
  rw [(hid x).2.2.2.2.1, (hid y).2.2.2.2.1]
  unfold OrderBook.cancelOrder at hx hy
  cases hfind : mapFind b.orderMap orderId with
  | none =>
    rw [hfind] at hx hy
    exact hnc x hx y hy
  | some p =>
    rw [hfind] at hx hy
    simp only at hx hy
    rw [OrderBook.mem_removeCompletedOrders_bids] at hx
    rw [OrderBook.mem_removeCompletedOrders_asks] at hy
    exact hnc x hx.1 y hy.1

theorem BookReach.neverCrossed {b : OrderBook} {h : Heap} (hr : BookReach b h) :
    b.neverCrossed h := by
  induction hr with
  | start symbol h =>
    intro x hx
    simp [OrderBook.new] at hx
  | addOrder b h n hb ih => exact OrderBook.neverCrossed_addOrder n hb.queues_invariant ih
  | cancelOrder b h orderId _ ih => exact OrderBook.neverCrossed_cancelOrder orderId ih

/-- With every queue of the type of the header: in every book state reached from the
empty book through `addOrder` and `cancelOrder`, every entry of the two queues is live
and every bid has a price strictly below the price of every ask; so `getSpread` is above
0 whenever both sides are non-empty and the resting bids have prices above 0. -/
theorem BookReach.never_crossed_of_ordered_queues (b : OrderBook) (h : Heap) (hr : BookReach b h) :
    (∀ p, (p ∈ b.bids ∨ p ∈ b.asks) → (h p).isLive = true) ∧
    (∀ x ∈ b.bids, ∀ y ∈ b.asks, (h x).price < (h y).price) ∧
    ((∀ x ∈ b.bids, 0 < (h x).price) → b.bids ≠ [] → b.asks ≠ [] → 0 < b.getSpread h) := by
  have hlive := hr.allLive
  have hnc := hr.neverCrossed
  refine ⟨hlive, hnc, ?_⟩
  intro hpos hbids hasks
  obtain ⟨x, hx⟩ := List.exists_mem_of_ne_nil _ hbids
  obtain ⟨y, hy⟩ := List.exists_mem_of_ne_nil _ hasks
  obtain ⟨r1, hr1, -, hb1⟩ := bestLivePrice_attained h b.bids ⟨x, hx, hlive x (Or.inl hx)⟩
  obtain ⟨r2, hr2, -, hb2⟩ := bestLivePrice_attained h b.asks ⟨y, hy, hlive y (Or.inr hy)⟩
  have h1 : 0 < (h r1).price := hpos r1 hr1
  have h2 : (h r1).price < (h r2).price := hnc r1 hr1 r2 hr2
  unfold OrderBook.getSpread OrderBook.getBestBidPrice OrderBook.getBestAskPrice
  rw [hb1, hb2, if_pos ⟨h1, lt_trans h1 h2⟩]
  linarith

/-- Every trade of the matching loop is a trade between the incoming order and an entry of
the opposite queue. -/
theorem matchLoop_roles (symbol : String) (n : Ptr) (h : Heap) (q0 : List Ptr)
    (fuel : Nat) (s : MatchState) (hid : h.sameIdentity s.heap)
    (hq : ∀ p ∈ s.queue, p ∈ q0) (ht : ∀ t ∈ s.trades, tradeBetween h symbol n q0 t) :
    ∀ t ∈ (matchLoop symbol n fuel s).1.trades, tradeBetween h symbol n q0 t := by
  have key := matchLoop_invariant symbol n
    (fun s => h.sameIdentity s.heap ∧ (∀ p ∈ s.queue, p ∈ q0) ∧
      ∀ t ∈ s.trades, tradeBetween h symbol n q0 t) ?_ ?_ fuel s ⟨hid, hq, ht⟩
  · exact key.2.2
  · intro s s1 ⟨hid, hq, ht⟩ hstep
    have hid1 := Heap.identity_trans hid (matchStep_next_sameIdentity hstep)
    refine ⟨hid1, fun p hp => hq p (matchStep_next_queue hstep p hp), ?_⟩
    obtain ⟨best, rest, hqe, hinc, hcase⟩ := matchStep_next hstep
    rcases hcase with ⟨-, hs1⟩ | ⟨-, -, -, n1, b1, hn1, hb1, hs1⟩
    · subst hs1; exact ht
    · subst hs1
      intro t htm
      simp only [List.mem_append, List.mem_singleton] at htm
      rcases htm with htm | htm
      · exact ht t htm
      · subst htm
        simp only at hid1
        refine ⟨mkTrade_symbol _ _ _ _ _, best, hq best (by rw [hqe]; exact List.mem_cons_self _ _),
          ?_⟩
        have hbuy : (((s.heap.set n n1).set best b1) n).isBuy = (h n).isBuy := by
          unfold Order.isBuy
          rw [(hid1 n).2.2.2.2.2.1]
        unfold mkTrade
        rw [hbuy]
        split_ifs
        · exact ⟨(hid1 n).1, (hid1 n).2.1, (hid1 best).1, (hid1 best).2.1⟩
        · exact ⟨(hid1 best).1, (hid1 best).2.1, (hid1 n).1, (hid1 n).2.1⟩
  · intro s s1 e ⟨hid, hq, ht⟩ hstep
    refine ⟨Heap.identity_trans hid (matchStep_threw_sameIdentity hstep),
      fun p hp => hq p (matchStep_threw_queue hstep p hp), ?_⟩
    obtain ⟨best, rest, -, -, htr, -⟩ := matchStep_threw hstep
    rw [htr]; exact ht

/-- The matching loop writes to the incoming order and to entries of the opposite queue
only. -/
theorem matchLoop_frame (symbol : String) (n : Ptr) (fuel : Nat) (s : MatchState)
    (p : Ptr) (hpn : p ≠ n) (hp : p ∉ s.queue) :
    (matchLoop symbol n fuel s).1.heap p = s.heap p := by
  have key := matchLoop_invariant symbol n
    (fun s1 => (∀ x ∈ s1.queue, x ∈ s.queue) ∧ s1.heap p = s.heap p) ?_ ?_ fuel s
    ⟨fun x hx => hx, rfl⟩
  · exact key.2
  · intro s1 s2 ⟨hsub, hheap⟩ hstep
    refine ⟨fun x hx => hsub x (matchStep_next_queue hstep x hx), ?_⟩
    obtain ⟨best, rest, hqe, hinc, hcase⟩ := matchStep_next hstep
    rcases hcase with ⟨-, hs1⟩ | ⟨-, -, -, n1, b1, hn1, hb1, hs1⟩
    · subst hs1; exact hheap
    · subst hs1
      have hpb : p ≠ best := by
        intro hc
        apply hp
        rw [hc]
        exact hsub best (by rw [hqe]; exact List.mem_cons_self _ _)
      show ((s1.heap.set n n1).set best b1) p = s.heap p
      rw [Heap.set_other _ _ _ _ hpb, Heap.set_other _ _ _ _ hpn]
      exact hheap
  · intro s1 s2 e ⟨hsub, hheap⟩ hstep
    refine ⟨fun x hx => hsub x (matchStep_threw_queue hstep x hx), ?_⟩
    obtain ⟨best, rest, -, -, -, -, -, hcase⟩ := matchStep_threw hstep
    rcases hcase with ⟨hh, -⟩ | ⟨n1, -, hh, -⟩
    · rw [hh]; exact hheap
    · rw [hh, Heap.set_other _ _ _ _ hpn]; exact hheap

theorem tradedQuantity_append (orderId : Int) (ts us : List Trade) :
    tradedQuantity orderId (ts ++ us) = tradedQuantity orderId ts + tradedQuantity orderId us := by
  simp [tradedQuantity]

theorem tradedQuantity_nil (orderId : Int) : tradedQuantity orderId [] = 0 := rfl

/-- A log in which no trade names the id adds nothing to it. -/
theorem tradedQuantity_unnamed (orderId : Int) (ts : List Trade)
    (h : ∀ t ∈ ts, t.buyOrderId ≠ orderId ∧ t.sellOrderId ≠ orderId) :
    tradedQuantity orderId ts = 0 := by
  induction ts with
  | nil => rfl
  | cons t ts ih =>
    have ht := h t (List.mem_cons_self _ _)
    simp only [tradedQuantity, List.map_cons, List.sum_cons]
    rw [if_neg (by rintro (h1 | h1); exact ht.1 h1; exact ht.2 h1)]
    have := ih (fun x hx => h x (List.mem_cons_of_mem _ hx))
    simp only [tradedQuantity] at this
    rw [this]; ring

/-- The fills of the matching loop are the trades it makes: for orders with distinct ids,
the filled quantity of each grows by the quantities of the trades that name it. -/
theorem matchLoop_accounting (symbol : String) (n : Ptr) (h : Heap) (S : List Ptr)
    (fuel : Nat) (hn : n ∈ S)
    (hinj : ∀ x ∈ S, ∀ y ∈ S, (h x).orderId = (h y).orderId → x = y)
    (q0 : List Ptr) (hq0 : ∀ p ∈ q0, p ∈ S) (hnq : n ∉ q0) :
    ∀ p ∈ S,
      ((matchLoop symbol n fuel { heap := h, queue := q0, trades := [] }).1.heap p).filledQuantity
        = (h p).filledQuantity + tradedQuantity (h p).orderId
          (matchLoop symbol n fuel { heap := h, queue := q0, trades := [] }).1.trades := by
  have key := matchLoop_invariant symbol n
    (fun s => h.sameIdentity s.heap ∧ (∀ x ∈ s.queue, x ∈ q0) ∧
      ∀ p ∈ S, (s.heap p).filledQuantity =
        (h p).filledQuantity + tradedQuantity (h p).orderId s.trades) ?_ ?_ fuel
    { heap := h, queue := q0, trades := [] }
    ⟨Heap.identity_refl h, fun x hx => hx, fun p _ => by simp [tradedQuantity]⟩
  · exact key.2.2
  · intro s s1 ⟨hid, hsub0, hacc⟩ hstep
    have hsub : ∀ x ∈ s.queue, x ∈ S := fun x hx => hq0 x (hsub0 x hx)
    have hid1 := Heap.identity_trans hid (matchStep_next_sameIdentity hstep)
    refine ⟨hid1, fun x hx => hsub0 x (matchStep_next_queue hstep x hx), ?_⟩
    obtain ⟨best, rest, hqe, hinc, hcase⟩ := matchStep_next hstep
    rcases hcase with ⟨-, hs1⟩ | ⟨-, -, -, n1, b1, hn1, hb1, hs1⟩
    · subst hs1; exact hacc
    · obtain ⟨hne, hb1', hhn, hhb, hoth⟩ := matchStep_trade_heap hinc rfl hn1 hb1
      obtain ⟨-, -, hfn, -, -⟩ := Order.addFill_ok hn1
      obtain ⟨-, -, hfb, -, -⟩ := Order.addFill_ok hb1'
      have hbS : best ∈ S := hsub best (by rw [hqe]; exact List.mem_cons_self _ _)
      subst hs1
      simp only at hid1
      intro p hp
      simp only
      rw [tradedQuantity_append]
      have hbuy : (((s.heap.set n n1).set best b1) n).isBuy = (h n).isBuy := by
        unfold Order.isBuy
        rw [(hid1 n).2.2.2.2.2.1]
      -- the ids that the new trade names
      have hnames : ∀ i : Int,
          tradedQuantity i [mkTrade symbol (((s.heap.set n n1).set best b1) n)
            (((s.heap.set n n1).set best b1) best)
            (min (s.heap n).getRemainingQuantity (s.heap best).getRemainingQuantity)
            (s.heap best).price] =
          if (h n).orderId = i ∨ (h best).orderId = i then
            min (s.heap n).getRemainingQuantity (s.heap best).getRemainingQuantity
          else 0 := by
        intro i
        unfold mkTrade
        rw [hbuy]
        simp only [tradedQuantity, List.map_cons, List.map_nil, List.sum_cons, List.sum_nil,
          add_zero]
        split_ifs with h1 h2 h3 h4 h5 h6 <;>
          simp only [(hid1 n).1, (hid1 best).1] at * <;> tauto
      rw [hnames]
      by_cases hpn : p = n
      · subst hpn
        rw [hhn, hfn, hacc p hp, if_pos (Or.inl rfl)]
        ring
      · by_cases hpb : p = best
        · subst hpb
          rw [hhb, hfb, hacc p hp, if_pos (Or.inr rfl)]
          ring
        · rw [hoth p hpn hpb, hacc p hp]
          rw [if_neg]
          · ring
          · rintro (h1 | h1)
            · exact hpn (hinj p hp n hn h1.symm)
            · exact hpb (hinj p hp best hbS h1.symm)
  · intro s s1 e ⟨hid, hsub, hacc⟩ hstep
    obtain ⟨rest, hq⟩ := matchStep_threw_alias hstep
    exact absurd (hsub n (by rw [hq]; exact List.mem_cons_self _ _)) hnq

/-- The test `takesSkip` holds exactly when the pass of the loop discards the top entry
without a trade. -/
theorem takesSkip_iff {symbol : String} {n : Ptr} {s : MatchState} :
    takesSkip n s = true ↔
      ∃ best rest, s.queue = best :: rest ∧
        matchStep symbol n s = .next { s with queue := rest } ∧
        ((s.heap best).isComplete = true ∨ (s.heap best).status = .CANCELLED) := by
  constructor
  · intro h
    unfold takesSkip at h
    cases hq : s.queue with
    | nil => rw [hq] at h; cases h
    | cons best rest =>
      rw [hq] at h
      simp only [Bool.and_eq_true, Bool.not_eq_true', Bool.or_eq_true, decide_eq_true_eq] at h
      obtain ⟨h1, h2⟩ := h
      refine ⟨best, rest, rfl, ?_, h2⟩
      simp only [matchStep, hq]
      rw [if_neg (by rw [h1]; simp), if_pos (by simpa using h2)]
  · rintro ⟨best, rest, hq, hstep, h2⟩
    obtain ⟨best1, rest1, hq1, hinc, -⟩ := matchStep_next hstep
    rw [hq] at hq1
    injection hq1 with hb hr
    unfold takesSkip
    rw [hq]
    simp only [Bool.and_eq_true, Bool.not_eq_true', Bool.or_eq_true, decide_eq_true_eq]
    exact ⟨hinc, h2⟩

theorem OrderBook.cancelOrder_keeps_symbol (b : OrderBook) (h : Heap) (orderId : Int) :
    (b.cancelOrder h orderId).book.symbol = b.symbol := by
  unfold OrderBook.cancelOrder
  split <;> rfl

theorem OrderBook.cancelOrder_trades (b : OrderBook) (h : Heap) (orderId : Int) :
    (b.cancelOrder h orderId).book.trades = b.trades := by
  unfold OrderBook.cancelOrder
  split <;> rfl

/-- The trade log after an `addOrder` that returns: the trades of the matching loop are
appended. -/
theorem OrderBook.addOrder_trades_returned (b : OrderBook) (h : Heap) (n : Ptr)
    (s : MatchState) (hsym : (h n).symbol = b.symbol)
    (hs : matchLoop b.symbol n ((b.opposite (h n)).length + 2)
      { heap := h, queue := b.opposite (h n), trades := [] } = (s, .returned ())) :
    (b.addOrder h n).book.trades = b.trades ++ s.trades ∧ (b.addOrder h n).heap = s.heap := by
  rw [OrderBook.addOrder_of_returned b h n s hsym hs]
  refine ⟨?_, rfl⟩
  rw [OrderBook.removeCompletedOrders_trades]
  split_ifs <;> rfl

theorem AddedReach.bookReach {b : OrderBook} {h : Heap} {given : List Ptr}
    (hr : AddedReach b h given) : BookReach b h := by
  induction hr with
  | start symbol h => exact BookReach.start symbol h
  | addOrder b h given n _ ih => exact BookReach.addOrder b h n ih
  | cancelOrder b h given orderId _ ih => exact BookReach.cancelOrder b h orderId ih

/-- The entries of the queues are orders that `addOrder` was given, and carry the symbol
of the book. -/
theorem AddedReach.queues_given {b : OrderBook} {h : Heap} {given : List Ptr}
    (hr : AddedReach b h given) :
    ∀ p, (p ∈ b.bids ∨ p ∈ b.asks) → p ∈ given ∧ (h p).symbol = b.symbol := by
  induction hr with
  | start symbol h =>
    intro p hp
    simp [OrderBook.new] at hp
  | addOrder b h given n hb ih =>
    intro p hp
    have hid := OrderBook.addOrder_sameIdentity b h n
    rw [OrderBook.addOrder_keeps_symbol, (hid p).2.2.1]
    rcases OrderBook.addOrder_cases hb.bookReach.queues_invariant n with ⟨-, h1⟩ | ⟨hsym, -, -⟩
    · rw [h1] at hp
      exact ⟨List.mem_cons_of_mem _ (ih p hp).1, (ih p hp).2⟩
    · rcases OrderBook.addOrder_queues b h n p hp with h2 | h2
      · rw [h2]
        exact ⟨List.mem_cons_self _ _, hsym⟩
      · exact ⟨List.mem_cons_of_mem _ (ih p h2).1, (ih p h2).2⟩
  | cancelOrder b h given orderId _ ih =>
    intro p hp
    have hid := OrderBook.cancelOrder_sameIdentity b h orderId
    rw [OrderBook.cancelOrder_keeps_symbol, (hid p).2.2.1]
    exact ih p (OrderBook.cancelOrder_queues b h orderId p hp)

/-- The trades that an `addOrder` appends to the log of a reached book are trades
between the order it was given and entries of the opposite queue. -/
theorem OrderBook.addOrder_new_trades {b : OrderBook} {h : Heap} (hwf : b.wellFormed h)
    (n : Ptr) :
    ∃ ts, (b.addOrder h n).book.trades = b.trades ++ ts ∧
      (ts ≠ [] → (h n).symbol = b.symbol) ∧
      ∀ t ∈ ts, tradeBetween h b.symbol n (b.opposite (h n)) t := by
  rcases OrderBook.addOrder_cases hwf n with ⟨-, h1⟩ | ⟨hsym, -, sf, hS⟩
  · rw [h1]
    exact ⟨[], by simp, fun hc => absurd rfl hc, fun t ht => by cases ht⟩
  · refine ⟨sf.trades, (OrderBook.addOrder_trades_returned b h n sf hsym hS).1,
      fun _ => hsym, ?_⟩
    have := matchLoop_roles b.symbol n h (b.opposite (h n)) ((b.opposite (h n)).length + 2)
      { heap := h, queue := b.opposite (h n), trades := [] } (Heap.identity_refl h)
      (fun p hp => hp) (fun t ht => by cases ht)
    rw [hS] at this
    exact this

/-- The roles in the trades of the log of a reached book. -/
theorem AddedReach.roles_invariant {b : OrderBook} {h : Heap} {given : List Ptr}
    (hr : AddedReach b h given) :
    ∀ t ∈ b.trades, t.symbol = b.symbol ∧
      ∃ x ∈ given, ∃ y ∈ given,
        ((h x).side = .BUY ∧ (h x).symbol = b.symbol ∧
          t.buyOrderId = (h x).orderId ∧ t.buyTraderId = (h x).traderId) ∧
        ((h y).side = .SELL ∧ (h y).symbol = b.symbol ∧
          t.sellOrderId = (h y).orderId ∧ t.sellTraderId = (h y).traderId) := by
  induction hr with
  | start symbol h =>
    intro t ht
    simp [OrderBook.new] at ht
  | addOrder b h given n hb ih =>
    have hwf := hb.bookReach.queues_invariant
    have hid := OrderBook.addOrder_sameIdentity b h n
    obtain ⟨ts, htr, hsymn, hts⟩ := OrderBook.addOrder_new_trades hwf n
    intro t ht
    rw [htr] at ht
    rw [OrderBook.addOrder_keeps_symbol]
    rcases List.mem_append.mp ht with ht | ht
    · obtain ⟨h1, x, hx, y, hy, ⟨a1, a2, a3, a4⟩, ⟨b1, b2, b3, b4⟩⟩ := ih t ht
      refine ⟨h1, x, List.mem_cons_of_mem _ hx, y, List.mem_cons_of_mem _ hy, ?_, ?_⟩
      · rw [(hid x).2.2.2.2.2.1, (hid x).2.2.1, (hid x).1, (hid x).2.1]
        exact ⟨a1, a2, a3, a4⟩
      · rw [(hid y).2.2.2.2.2.1, (hid y).2.2.1, (hid y).1, (hid y).2.1]
        exact ⟨b1, b2, b3, b4⟩
    · have hsym : (h n).symbol = b.symbol := hsymn (List.ne_nil_of_mem ht)
      obtain ⟨h1, r, hr, hroles⟩ := hts t ht
      have hrside := (OrderBook.wellFormed_opposite hwf (h n)).1 r hr
      obtain ⟨hrg, hrsym⟩ := hb.queues_given r (OrderBook.mem_opposite hr)
      refine ⟨h1, ?_⟩
      by_cases hbuy : (h n).isBuy = true
      · rw [if_pos hbuy] at hroles
        obtain ⟨c1, c2, c3, c4⟩ := hroles
        refine ⟨n, List.mem_cons_self _ _, r, List.mem_cons_of_mem _ hrg, ?_, ?_⟩
        · rw [(hid n).2.2.2.2.2.1, (hid n).2.2.1, (hid n).1, (hid n).2.1]
          exact ⟨(Order.isBuy_iff _).mp hbuy, hsym, c1, c2⟩
        · rw [(hid r).2.2.2.2.2.1, (hid r).2.2.1, (hid r).1, (hid r).2.1]
          refine ⟨?_, hrsym, c3, c4⟩
          rw [hrside]
          unfold oppositeSide
          rw [if_pos hbuy]
      · rw [if_neg hbuy] at hroles
        obtain ⟨c1, c2, c3, c4⟩ := hroles
        refine ⟨r, List.mem_cons_of_mem _ hrg, n, List.mem_cons_self _ _, ?_, ?_⟩
        · rw [(hid r).2.2.2.2.2.1, (hid r).2.2.1, (hid r).1, (hid r).2.1]
          refine ⟨?_, hrsym, c1, c2⟩
          rw [hrside]
          unfold oppositeSide
          rw [if_neg hbuy]
        · rw [(hid n).2.2.2.2.2.1, (hid n).2.2.1, (hid n).1, (hid n).2.1]
          refine ⟨?_, hsym, c3, c4⟩
          rw [Order.isBuy_iff] at hbuy
          cases hs : (h n).side with
          | BUY => exact absurd hs hbuy
          | SELL => rfl
  | cancelOrder b h given orderId _ ih =>
    have hid := OrderBook.cancelOrder_sameIdentity b h orderId
    intro t ht
    rw [OrderBook.cancelOrder_trades] at ht
    rw [OrderBook.cancelOrder_keeps_symbol]
    obtain ⟨h1, x, hx, y, hy, ⟨a1, a2, a3, a4⟩, ⟨b1, b2, b3, b4⟩⟩ := ih t ht
    refine ⟨h1, x, hx, y, hy, ?_, ?_⟩
    · rw [(hid x).2.2.2.2.2.1, (hid x).2.2.1, (hid x).1, (hid x).2.1]
      exact ⟨a1, a2, a3, a4⟩
    · rw [(hid y).2.2.2.2.2.1, (hid y).2.2.1, (hid y).1, (hid y).2.1]
      exact ⟨b1, b2, b3, b4⟩

/-- C34 (trade roles). In every book state reached through `addOrder` and `cancelOrder`,
every trade of the log carries the symbol of the book, its `buyOrderId` is the id of a
buy order and its `sellOrderId` the id of a sell order, both among the orders that
`addOrder` was given and both of the book's symbol, and `buyTraderId` and `sellTraderId`
are the trader ids of those two orders, whichever of the two was the incoming one. -/
theorem trade_roles (b : OrderBook) (h : Heap) (given : List Ptr)
    (hr : AddedReach b h given) (t : Trade) (ht : t ∈ b.trades) :
    t.symbol = b.symbol ∧
    ∃ x ∈ given, ∃ y ∈ given,
      ((h x).side = .BUY ∧ (h x).symbol = b.symbol ∧
        t.buyOrderId = (h x).orderId ∧ t.buyTraderId = (h x).traderId) ∧
      ((h y).side = .SELL ∧ (h y).symbol = b.symbol ∧
        t.sellOrderId = (h y).orderId ∧ t.sellTraderId = (h y).traderId) :=
  hr.roles_invariant t ht

/-- Witness of C34, the test `OrderBookTest.SimpleMatchSellAgainstBuy`: a resting buy
(id 1, trader 101) and an incoming sell (id 2, trader 102) trade 50 at 150. -/
theorem trade_roles_witness :
    sellAgainstBuy.book.trades =
      [{ buyOrderId := 1, sellOrderId := 2, buyTraderId := 101, sellTraderId := 102,
         symbol := "AAPL", quantity := 50, price := 150 }] ∧
    ∃ x ∈ [2, 1], ∃ y ∈ [2, 1],
      ((sellAgainstBuy.heap x).side = .BUY ∧
        (sellAgainstBuy.heap x).symbol = sellAgainstBuy.book.symbol ∧
        (1 : Int) = (sellAgainstBuy.heap x).orderId ∧
        (101 : Int) = (sellAgainstBuy.heap x).traderId) ∧
      ((sellAgainstBuy.heap y).side = .SELL ∧
        (sellAgainstBuy.heap y).symbol = sellAgainstBuy.book.symbol ∧
        (2 : Int) = (sellAgainstBuy.heap y).orderId ∧
        (102 : Int) = (sellAgainstBuy.heap y).traderId) :=
  ⟨by with_unfolding_all decide,
    (trade_roles sellAgainstBuy.book sellAgainstBuy.heap [2, 1]
      (AddedReach.addOrder _ _ _ 2 (AddedReach.addOrder _ _ _ 1
        (AddedReach.start "AAPL" sellAgainstBuyHeap)))
      { buyOrderId := 1, sellOrderId := 2, buyTraderId := 101, sellTraderId := 102,
        symbol := "AAPL", quantity := 50, price := 150 }
      (by with_unfolding_all decide)).2⟩

/-- The call `addOrder` writes to the order it is given and to entries of the opposite
queue only. -/
theorem OrderBook.addOrder_frame (b : OrderBook) (h : Heap) (n p : Ptr) (hpn : p ≠ n)
    (hp : p ∉ b.opposite (h n)) : (b.addOrder h n).heap p = h p := by
  rcases OrderBook.addOrder_heap b h n with h0 | h1
  · rw [h0]
  · rw [h1]
    exact matchLoop_frame b.symbol n _ { heap := h, queue := b.opposite (h n), trades := [] }
      p hpn hp

theorem OrderBook.cancelOrder_filledQuantity (b : OrderBook) (h : Heap) (orderId : Int)
    (p : Ptr) : ((b.cancelOrder h orderId).heap p).filledQuantity = (h p).filledQuantity := by
  rcases OrderBook.cancelOrder_heap b h orderId with h0 | ⟨q, -, h1⟩
  · rw [h0]
  · rw [h1, Heap.set_apply]
    split_ifs with hc
    · rw [hc]; rfl
    · rfl

theorem mapFind_purgeQueue_some (h : Heap) (k : Int) (p : Ptr) :
    ∀ (q acc : List Ptr) (m : List (Int × Ptr)),
      mapFind (OrderBook.purgeQueue h q (acc, m)).2 k = some p → mapFind m k = some p := by
  intro q
  induction q with
  | nil => intro acc m hm; simpa [OrderBook.purgeQueue] using hm
  | cons y q ih =>
    intro acc m hm
    unfold OrderBook.purgeQueue at hm
    split_ifs at hm with hl
    · exact ih _ _ hm
    · exact (mapFind_mapErase_some (ih _ _ hm)).2

theorem OrderBook.removeCompletedOrders_orderMap_some {b : OrderBook} {h : Heap} {k : Int}
    {p : Ptr} (hm : mapFind (b.removeCompletedOrders h).orderMap k = some p) :
    mapFind b.orderMap k = some p := by
  unfold OrderBook.removeCompletedOrders at hm
  exact mapFind_purgeQueue_some h k p _ _ _ (mapFind_purgeQueue_some h k p _ _ _ hm)

/-- An entry of the index after `addOrder` is the entry of the order given, or was in the
index before. -/
theorem OrderBook.addOrder_orderMap_some {b : OrderBook} {h : Heap} {n : Ptr} {k : Int}
    {p : Ptr} (hm : mapFind (b.addOrder h n).book.orderMap k = some p) :
    (k = (h n).orderId ∧ p = n) ∨ mapFind b.orderMap k = some p := by
  have hins : ∀ q : List Ptr, mapFind (OrderBook.setOpposite
      { b with orderMap := mapInsert (h n).orderId n b.orderMap } (h n) q).orderMap k = some p →
      (k = (h n).orderId ∧ p = n) ∨ mapFind b.orderMap k = some p := by
    intro q hq
    rw [OrderBook.setOpposite_orderMap] at hq
    rcases mapFind_mapInsert_some hq with ⟨h1, h2⟩ | ⟨-, h2⟩
    · exact Or.inl ⟨h1, h2⟩
    · exact Or.inr h2
  unfold OrderBook.addOrder at hm
  split_ifs at hm with hsym
  · exact Or.inr hm
  · simp only at hm
    split at hm
    · exact hins _ hm
    · exact hins _ hm
    · have hm1 := OrderBook.removeCompletedOrders_orderMap_some hm
      split_ifs at hm1
      · exact hins _ hm1
      · exact hins _ hm1
      · exact hins _ hm1

theorem OrderBook.cancelOrder_orderMap_some {b : OrderBook} {h : Heap} {orderId k : Int}
    {p : Ptr} (hm : mapFind (b.cancelOrder h orderId).book.orderMap k = some p) :
    mapFind b.orderMap k = some p := by
  unfold OrderBook.cancelOrder at hm
  cases hfind : mapFind b.orderMap orderId with
  | none => rw [hfind] at hm; exact hm
  | some q =>
    rw [hfind] at hm
    simp only at hm
    exact (mapFind_mapErase_some (OrderBook.removeCompletedOrders_orderMap_some hm)).2

theorem FreshReach.added {h0 : Heap} {b : OrderBook} {h : Heap} {given : List Ptr}
    (hr : FreshReach h0 b h given) : AddedReach b h given := by
  induction hr with
  | start symbol _ => exact AddedReach.start symbol h0
  | addOrder b h given n _ _ _ ih => exact AddedReach.addOrder b h given n ih
  | cancelOrder b h given orderId _ ih => exact AddedReach.cancelOrder b h given orderId ih

theorem FreshReach.constructed {h0 : Heap} {b : OrderBook} {h : Heap} {given : List Ptr}
    (hr : FreshReach h0 b h given) :
    ∀ p, ∃ orderId traderId sym quantity price side type now,
      Order.new orderId traderId sym quantity price side type now = .ok (h0 p) := by
  induction hr with
  | start symbol hnew => exact hnew
  | addOrder b h given n _ _ _ ih => exact ih
  | cancelOrder b h given orderId _ ih => exact ih

theorem FreshReach.identity {h0 : Heap} {b : OrderBook} {h : Heap} {given : List Ptr}
    (hr : FreshReach h0 b h given) : h0.sameIdentity h := by
  induction hr with
  | start symbol _ => exact Heap.identity_refl h0
  | addOrder b h given n _ _ _ ih =>
    exact Heap.identity_trans ih (OrderBook.addOrder_sameIdentity b h n)
  | cancelOrder b h given orderId _ ih =>
    exact Heap.identity_trans ih (OrderBook.cancelOrder_sameIdentity b h orderId)

/-- The orders given are distinct objects with distinct ids. -/
theorem FreshReach.given_distinct {h0 : Heap} {b : OrderBook} {h : Heap} {given : List Ptr}
    (hr : FreshReach h0 b h given) :
    given.Nodup ∧ ∀ x ∈ given, ∀ y ∈ given, (h0 x).orderId = (h0 y).orderId → x = y := by
  induction hr with
  | start symbol _ => exact ⟨List.nodup_nil, fun x hx => by cases hx⟩
  | addOrder b h given n _ hn hid ih =>
    refine ⟨List.nodup_cons.mpr ⟨hn, ih.1⟩, ?_⟩
    intro x hx y hy hxy
    rcases List.mem_cons.mp hx with hx | hx <;> rcases List.mem_cons.mp hy with hy | hy
    · rw [hx, hy]
    · rw [hx] at hxy
      exact absurd hxy.symm (hid y hy)
    · rw [hy] at hxy
      exact absurd hxy (hid x hx)
    · exact ih.2 x hx y hy hxy
  | cancelOrder b h given orderId _ ih => exact ih

/-- The index of the book holds orders given, each under its id. -/
theorem FreshReach.index_given {h0 : Heap} {b : OrderBook} {h : Heap} {given : List Ptr}
    (hr : FreshReach h0 b h given) :
    ∀ k p, mapFind b.orderMap k = some p → p ∈ given ∧ (h0 p).orderId = k := by
  induction hr with
  | start symbol _ =>
    intro k p hm
    simp [OrderBook.new, mapFind] at hm
  | addOrder b h given n hb _ _ ih =>
    intro k p hm
    rcases OrderBook.addOrder_orderMap_some hm with ⟨h1, h2⟩ | h1
    · rw [h1, h2]
      exact ⟨List.mem_cons_self _ _, ((hb.identity n).1).symm⟩
    · exact ⟨List.mem_cons_of_mem _ (ih k p h1).1, (ih k p h1).2⟩
  | cancelOrder b h given orderId _ ih =>
    intro k p hm
    exact ih k p (OrderBook.cancelOrder_orderMap_some hm)

/-- An order that no call was given yet is as its constructor left it. -/
theorem FreshReach.untouched {h0 : Heap} {b : OrderBook} {h : Heap} {given : List Ptr}
    (hr : FreshReach h0 b h given) : ∀ p, p ∉ given → h p = h0 p := by
  induction hr with
  | start symbol _ => exact fun _ _ => rfl
  | addOrder b h given n hb _ _ ih =>
    intro p hp
    have hpn : p ≠ n := fun hc => hp (hc ▸ List.mem_cons_self _ _)
    have hpg : p ∉ given := fun hc => hp (List.mem_cons_of_mem _ hc)
    rw [OrderBook.addOrder_frame b h n p hpn
      (fun hc => hpg (hb.added.queues_given p (OrderBook.mem_opposite hc)).1)]
    exact ih p hpg
  | cancelOrder b h given orderId hb ih =>
    intro p hp
    rcases OrderBook.cancelOrder_heap b h orderId with h1 | ⟨q, hq, h1⟩
    · rw [h1]; exact ih p hp
    · have hpq : p ≠ q := by
        intro hc
        rw [hc] at hp
        exact hp (hb.index_given orderId q hq).1
      rw [h1, Heap.set_other _ _ _ _ hpq]
      exact ih p hp

/-- The trades of the log name ids of orders given. -/
theorem FreshReach.trades_named {h0 : Heap} {b : OrderBook} {h : Heap} {given : List Ptr}
    (hr : FreshReach h0 b h given) :
    ∀ t ∈ b.trades, ∃ x ∈ given, ∃ y ∈ given,
      t.buyOrderId = (h0 x).orderId ∧ t.sellOrderId = (h0 y).orderId := by
  intro t ht
  obtain ⟨-, x, hx, y, hy, ⟨-, -, a3, -⟩, ⟨-, -, b3, -⟩⟩ := hr.added.roles_invariant t ht
  exact ⟨x, hx, y, hy, by rw [a3, (hr.identity x).1], by rw [b3, (hr.identity y).1]⟩

/-- The filled quantity of every order given is the sum of the quantities of the trades
of the log that name its id. -/
theorem FreshReach.fills_accounted {h0 : Heap} {b : OrderBook} {h : Heap}
    {given : List Ptr} (hr : FreshReach h0 b h given) :
    ∀ p ∈ given, (h p).filledQuantity = tradedQuantity (h0 p).orderId b.trades := by
  induction hr with
  | start symbol _ => exact fun p hp => by cases hp
  | addOrder b h given n hb hn hfresh ih =>
    have hwf := hb.added.bookReach.queues_invariant
    have hid := hb.identity
    -- the order given has no fill yet and no trade names it
    have hn0 : (h n).filledQuantity = tradedQuantity (h0 n).orderId b.trades := by
      rw [hb.untouched n hn]
      obtain ⟨orderId, traderId, sym, quantity, price, side, type, now, hnew⟩ :=
        hb.constructed n
      rw [(Order.new_ok hnew).2.2]
      simp only
      symm
      apply tradedQuantity_unnamed
      intro t ht
      obtain ⟨x, hx, y, hy, h1, h2⟩ := hb.trades_named t ht
      rw [h1, h2]
      have e1 : (h0 n).orderId = orderId := by rw [(Order.new_ok hnew).2.2]
      rw [← e1]
      exact ⟨hfresh x hx, hfresh y hy⟩
    have hold : ∀ p ∈ n :: given,
        (h p).filledQuantity = tradedQuantity (h0 p).orderId b.trades := by
      intro p hp
      rcases List.mem_cons.mp hp with hp | hp
      · rw [hp]; exact hn0
      · exact ih p hp
    rcases OrderBook.addOrder_cases hwf n with ⟨-, h1⟩ | ⟨hsym, -, sf, hS⟩
    · rw [h1]
      exact hold
    · obtain ⟨htr, hheap⟩ := OrderBook.addOrder_trades_returned b h n sf hsym hS
      have hdist := (FreshReach.addOrder b h given n hb hn hfresh).given_distinct
      have hacc := matchLoop_accounting b.symbol n h (n :: given)
        ((b.opposite (h n)).length + 2) (List.mem_cons_self _ _)
        (fun x hx y hy hxy => hdist.2 x hx y hy (by rw [← (hid x).1, ← (hid y).1]; exact hxy))
        (b.opposite (h n))
        (fun p hp => List.mem_cons_of_mem _
          (hb.added.queues_given p (OrderBook.mem_opposite hp)).1)
        (OrderBook.not_mem_opposite hwf n)
      rw [hS] at hacc
      simp only at hacc
      intro p hp
      rw [htr, hheap, tradedQuantity_append, hacc p hp, hold p hp, (hid p).1]
  | cancelOrder b h given orderId _ ih =>
    intro p hp
    rw [OrderBook.cancelOrder_filledQuantity, OrderBook.cancelOrder_trades]
    exact ih p hp

/-- With exact arithmetic, in every book state reached through `cancelOrder` calls and
`addOrder` calls that are each given a new order, the filled quantity of each order given
is the sum of the quantities of the trades of the log that name its id. -/
theorem FreshReach.fills_logged (h0 : Heap) (b : OrderBook) (h : Heap) (given : List Ptr)
    (hr : FreshReach h0 b h given) (p : Ptr) (hp : p ∈ given) :
    (h p).filledQuantity = tradedQuantity (h p).orderId b.trades := by
  rw [(hr.identity p).1]
  exact hr.fills_accounted p hp

theorem mapInsert_sorted {κ ν : Type} [DecidableEq κ] [LT κ]
    [DecidableRel (fun (a b : κ) => a < b)] (htri : ∀ a b : κ, a = b ∨ a < b ∨ b < a)
    (htrans : ∀ a b c : κ, a < b → b < c → a < c) (k : κ) (v : ν) :
    ∀ m : List (κ × ν), m.Pairwise (fun a b => a.1 < b.1) →
      (mapInsert k v m).Pairwise (fun a b => a.1 < b.1) := by
  intro m
  induction m with
  | nil => intro _; simp [mapInsert]
  | cons x m ih =>
    obtain ⟨k1, v1⟩ := x
    intro hs
    obtain ⟨hx, hm⟩ := List.pairwise_cons.mp hs
    unfold mapInsert
    split_ifs with h1 h2
    · subst h1
      exact List.pairwise_cons.mpr ⟨hx, hm⟩
    · refine List.pairwise_cons.mpr ⟨?_, hs⟩
      intro b hb
      rcases List.mem_cons.mp hb with hb | hb
      · rw [hb]; exact h2
      · exact htrans _ _ _ h2 (hx b hb)
    · refine List.pairwise_cons.mpr ⟨?_, ih hm⟩
      intro b hb
      rcases mem_mapInsert hb with hb | hb
      · rw [hb]
        rcases htri k1 k with h3 | h3 | h3
        · exact absurd h3 h1
        · exact h3
        · exact absurd h3 h2
      · exact hx b hb

theorem Int.lt_cases (a b : Int) : a = b ∨ a < b ∨ b < a := by omega

theorem Trader.onOrderFilled_cash {t t1 : Trader} {symbol : String} {quantity price : ℚ}
    {isBuy : Bool} (h : t.onOrderFilled symbol quantity price isBuy = .ok t1) :
    t1.cash = t.cash + (if isBuy then -(quantity * price) else quantity * price) := by
  simp only [Trader.onOrderFilled] at h
  split_ifs at h with hb hc hs
  · injection h with h
    subst h
    rw [Trader.updatePositionOnTrade_cash, if_pos hb]
    simp only
    ring
  · injection h with h
    subst h
    rw [Trader.updatePositionOnTrade_cash, if_neg hb]

/-- What a ledger notification that does not throw has done. -/
theorem MatchingEngine.notifyTrader_cases {e e1 : MatchingEngine} {traderId : Int}
    {trade : Trade} {isBuy : Bool} (h : e.notifyTrader traderId trade isBuy = .ok e1) :
    (e.getTrader traderId = none ∧ e1 = e) ∨
    ∃ t t1, e.getTrader traderId = some t ∧
      t.onOrderFilled trade.symbol trade.quantity trade.price isBuy = .ok t1 ∧
      e1 = { e with traders := mapInsert traderId t1 e.traders } := by
  unfold MatchingEngine.notifyTrader at h
  cases hfind : e.getTrader traderId with
  | none =>
    rw [hfind] at h
    injection h with h
    exact Or.inl ⟨rfl, h.symm⟩
  | some t =>
    rw [hfind] at h
    simp only at h
    cases hfill : t.onOrderFilled trade.symbol trade.quantity trade.price isBuy with
    | error err => rw [hfill] at h; cases h
    | ok t1 =>
      rw [hfill] at h
      injection h with h
      exact Or.inr ⟨t, t1, rfl, hfill, h.symm⟩

theorem registered_mapInsert {traders : List (Int × Trader)} {k j : Int} {v : Trader}
    (h : ∃ t, mapFind traders j = some t) : ∃ t, mapFind (mapInsert k v traders) j = some t := by
  by_cases hj : j = k
  · rw [hj]; exact ⟨v, mapFind_mapInsert_same _ _ _⟩
  · rw [mapFind_mapInsert_other _ hj]; exact h

/-- A notification keeps the registry in order and keeps every registered id registered;
for a registered trader it moves the total cash by the value of the trade. -/
theorem MatchingEngine.notifyTrader_registry {e e1 : MatchingEngine} {traderId : Int}
    {trade : Trade} {isBuy : Bool} (h : e.notifyTrader traderId trade isBuy = .ok e1)
    (hs : e.traders.Pairwise (fun a b => a.1 < b.1)) :
    e1.traders.Pairwise (fun a b => a.1 < b.1) ∧
    (∀ k, (∃ t, e.getTrader k = some t) → ∃ t, e1.getTrader k = some t) ∧
    ((∃ t, e.getTrader traderId = some t) →
      e1.totalCash = e.totalCash +
        (if isBuy then -(trade.quantity * trade.price) else trade.quantity * trade.price)) := by
  rcases MatchingEngine.notifyTrader_cases h with ⟨hnone, he⟩ | ⟨t, t1, hfind, hfill, he⟩
  · subst he
    refine ⟨hs, fun k hk => hk, ?_⟩
    rintro ⟨t, ht⟩
    rw [hnone] at ht
    cases ht
  · subst he
    refine ⟨mapInsert_sorted Int.lt_cases (fun a b c => lt_trans) _ _ _ hs, ?_, ?_⟩
    · intro k hk
      exact registered_mapInsert hk
    · intro _
      unfold MatchingEngine.totalCash
      simp only
      rw [mapInsert_sum_present (fun a => lt_irrefl a) (fun a b c => lt_trans)
        (fun t : Trader => t.cash) traderId t1 t e.traders hs hfind]
      rw [Trader.onOrderFilled_cash hfill]
      ring

/-- The ledger pass keeps the registry in order and every registered id registered,
however it ends. -/
theorem MatchingEngine.processTradeNotifications_registry :
    ∀ (trades : List Trade) (e : MatchingEngine),
      e.traders.Pairwise (fun a b => a.1 < b.1) →
      (e.processTradeNotifications trades).1.traders.Pairwise (fun a b => a.1 < b.1) ∧
      ∀ k, (∃ t, e.getTrader k = some t) →
        ∃ t, (e.processTradeNotifications trades).1.getTrader k = some t := by
  intro trades
  induction trades with
  | nil => intro e hs; exact ⟨hs, fun k hk => hk⟩
  | cons tr rest ih =>
    intro e hs
    unfold MatchingEngine.processTradeNotifications
    cases h1 : e.notifyTrader tr.buyTraderId tr true with
    | error err => exact ⟨hs, fun k hk => hk⟩
    | ok e1 =>
      obtain ⟨a1, a2, -⟩ := MatchingEngine.notifyTrader_registry h1 hs
      simp only
      cases h2 : e1.notifyTrader tr.sellTraderId tr false with
      | error err => exact ⟨a1, a2⟩
      | ok e2 =>
        obtain ⟨b1, b2, -⟩ := MatchingEngine.notifyTrader_registry h2 a1
        simp only
        obtain ⟨c1, c2⟩ := ih e2 b1
        exact ⟨c1, fun k hk => c2 k (b2 k (a2 k hk))⟩

/-- A ledger pass that returns, over trades between registered traders, leaves the total
cash as it was. -/
theorem MatchingEngine.processTradeNotifications_totalCash :
    ∀ (trades : List Trade) (e : MatchingEngine),
      e.traders.Pairwise (fun a b => a.1 < b.1) →
      (∀ tr ∈ trades, (∃ t, e.getTrader tr.buyTraderId = some t) ∧
        ∃ t, e.getTrader tr.sellTraderId = some t) →
      (e.processTradeNotifications trades).2 = .returned () →
      (e.processTradeNotifications trades).1.totalCash = e.totalCash := by
  intro trades
  induction trades with
  | nil => intro e _ _ _; rfl
  | cons tr rest ih =>
    intro e hs hreg hret
    obtain ⟨hb, hsl⟩ := hreg tr (List.mem_cons_self _ _)
    unfold MatchingEngine.processTradeNotifications at hret ⊢
    cases h1 : e.notifyTrader tr.buyTraderId tr true with
    | error err => simp [h1] at hret
    | ok e1 =>
      simp only [h1] at hret ⊢
      obtain ⟨a1, a2, a3⟩ := MatchingEngine.notifyTrader_registry h1 hs
      cases h2 : e1.notifyTrader tr.sellTraderId tr false with
      | error err => simp [h2] at hret
      | ok e2 =>
        simp only [h2] at hret ⊢
        obtain ⟨b1, b2, b3⟩ := MatchingEngine.notifyTrader_registry h2 a1
        rw [ih e2 b1 (fun x hx =>
          ⟨b2 _ (a2 _ (hreg x (List.mem_cons_of_mem _ hx)).1),
            b2 _ (a2 _ (hreg x (List.mem_cons_of_mem _ hx)).2)⟩) hret]
        rw [b3 (a2 _ hsl), a3 hb]
        simp only [if_true, Bool.false_eq_true, if_false]
        ring

/-- The trades that `addOrder` appends are trades between the order it was given and
entries of the opposite queue. -/
theorem OrderBook.addOrder_appended_roles (b : OrderBook) (h : Heap) (n : Ptr) :
    ∃ ts, (b.addOrder h n).book.trades = b.trades ++ ts ∧
      ∀ t ∈ ts, tradeBetween h b.symbol n (b.opposite (h n)) t := by
  rcases OrderBook.addOrder_trades b h n with h0 | ⟨-, h1⟩
  · exact ⟨[], by simpa using h0, fun t ht => by cases ht⟩
  · refine ⟨_, h1, ?_⟩
    exact matchLoop_roles b.symbol n h (b.opposite (h n)) ((b.opposite (h n)).length + 2)
      { heap := h, queue := b.opposite (h n), trades := [] } (Heap.identity_refl h)
      (fun p hp => hp) (fun t ht => by cases ht)

/-- The property `ownersRegistered` looks at the registry only through the order of its
entries and the ids that are registered. -/
theorem MatchingEngine.ownersRegistered_frame {e e1 : MatchingEngine}
    (hinv : e.ownersRegistered) (hheap : e1.heap = e.heap)
    (hbooks : e1.orderBooks = e.orderBooks) (hnext : e1.nextOrderId = e.nextOrderId)
    (hs : e1.traders.Pairwise (fun a b => a.1 < b.1))
    (hreg : ∀ k, (∃ t, e.getTrader k = some t) → ∃ t, e1.getTrader k = some t) :
    e1.ownersRegistered := by
  refine ⟨hs, ?_⟩
  intro bk hbk p hp
  rw [hbooks] at hbk
  obtain ⟨h1, h2⟩ := hinv.2 bk hbk p hp
  rw [hnext, hheap]
  exact ⟨h1, hreg _ h2⟩

theorem MatchingEngine.routeOrder_owners (e : MatchingEngine) (symbol : String)
    (order : Order) (hinv : e.ownersRegistered)
    (hreg : ∃ t, e.getTrader order.traderId = some t) :
    (e.routeOrder symbol order).engine.ownersRegistered := by
  obtain ⟨book, books, hbook, hbooks, hshape⟩ := MatchingEngine.routeOrder_shape e symbol order
  have hid := OrderBook.addOrder_sameIdentity book (e.heap.set e.nextOrderId order)
    e.nextOrderId
  have hbookq : ∀ p, (p ∈ book.bids ∨ p ∈ book.asks) →
      p < e.nextOrderId ∧ ∃ t, e.getTrader (e.heap p).traderId = some t := by
    intro p hp
    rcases hbook with h | h
    · rw [h] at hp; simp [OrderBook.new] at hp
    · exact hinv.2 _ h p hp
  have hE1 : MatchingEngine.ownersRegistered
      { nextOrderId := e.nextOrderId + 1,
        orderBooks := mapInsert symbol
          (book.addOrder (e.heap.set e.nextOrderId order) e.nextOrderId).book books,
        traders := e.traders,
        orders := mapInsert e.nextOrderId e.nextOrderId e.orders,
        heap := (book.addOrder (e.heap.set e.nextOrderId order) e.nextOrderId).heap } := by
    refine ⟨hinv.1, ?_⟩
    intro bk hbk p hp
    simp only at hbk ⊢
    have hold : p < e.nextOrderId ∧ (∃ t, e.getTrader (e.heap p).traderId = some t) →
        p < e.nextOrderId + 1 ∧ ∃ t, mapFind e.traders
          ((book.addOrder (e.heap.set e.nextOrderId order) e.nextOrderId).heap p).traderId
            = some t := by
      rintro ⟨h1, h2⟩
      refine ⟨Int.lt_add_one_iff.mpr (Int.le_of_lt h1), ?_⟩
      rw [(hid p).2.1, Heap.set_other _ _ _ _ (ne_of_lt h1)]
      exact h2
    rcases mem_mapInsert hbk with h | h
    · rw [h] at hp
      rcases OrderBook.addOrder_queues _ _ _ _ hp with h1 | h1
      · rw [h1]
        refine ⟨Int.lt_add_one_iff.mpr (Int.le_refl _), ?_⟩
        rw [(hid _).2.1, Heap.set_same]
        exact hreg
      · exact hold (hbookq p h1)
    · rcases hbooks bk h with h1 | h1
      · exact hold (hinv.2 bk h1 p hp)
      · rw [h1] at hp; simp [OrderBook.new] at hp
  rcases hshape with h | ⟨-, h⟩
  · rw [h]; exact hE1
  · rw [h]
    obtain ⟨f1, -, f3, f4⟩ := MatchingEngine.processTradeNotifications_frame
      ((book.addOrder (e.heap.set e.nextOrderId order)
        e.nextOrderId).book.trades.drop book.trades.length)
      { nextOrderId := e.nextOrderId + 1,
        orderBooks := mapInsert symbol
          (book.addOrder (e.heap.set e.nextOrderId order) e.nextOrderId).book books,
        traders := e.traders,
        orders := mapInsert e.nextOrderId e.nextOrderId e.orders,
        heap := (book.addOrder (e.heap.set e.nextOrderId order) e.nextOrderId).heap }
    obtain ⟨g1, g2⟩ := MatchingEngine.processTradeNotifications_registry
      ((book.addOrder (e.heap.set e.nextOrderId order)
        e.nextOrderId).book.trades.drop book.trades.length)
      { nextOrderId := e.nextOrderId + 1,
        orderBooks := mapInsert symbol
          (book.addOrder (e.heap.set e.nextOrderId order) e.nextOrderId).book books,
        traders := e.traders,
        orders := mapInsert e.nextOrderId e.nextOrderId e.orders,
        heap := (book.addOrder (e.heap.set e.nextOrderId order) e.nextOrderId).heap } hinv.1
    exact MatchingEngine.ownersRegistered_frame hE1 f1 f3 f4 g1 g2

theorem MatchingEngine.cancelOrder_owners (e : MatchingEngine) (orderId : Int)
    (hinv : e.ownersRegistered) : (e.cancelOrder orderId).engine.ownersRegistered := by
  unfold MatchingEngine.cancelOrder
  split
  · exact hinv
  · rename_i p hp
    split
    · rename_i orderBook hbook
      have hmem := mapFind_mem hbook
      have hid := OrderBook.cancelOrder_sameIdentity orderBook e.heap orderId
      have hB : MatchingEngine.ownersRegistered
          { e with heap := (orderBook.cancelOrder e.heap orderId).heap,
                   orderBooks := mapInsert (e.heap p).symbol
                     (orderBook.cancelOrder e.heap orderId).book e.orderBooks } := by
        refine ⟨hinv.1, ?_⟩
        intro bk hbk q hq
        simp only at hbk ⊢
        have hold : q < e.nextOrderId ∧ (∃ t, e.getTrader (e.heap q).traderId = some t) →
            q < e.nextOrderId ∧ ∃ t, mapFind e.traders
              ((orderBook.cancelOrder e.heap orderId).heap q).traderId = some t := by
          rintro ⟨h1, h2⟩
          refine ⟨h1, ?_⟩
          rw [(hid q).2.1]
          exact h2
        rcases mem_mapInsert hbk with h | h
        · rw [h] at hq
          exact hold (hinv.2 _ hmem q (OrderBook.cancelOrder_queues _ _ _ _ hq))
        · exact hold (hinv.2 bk h q hq)
      simp only
      split
      · exact hB
      · exact hB
    · exact hinv

theorem MarketReach.owners_invariant {e : MatchingEngine} (hr : MarketReach e) :
    e.ownersRegistered := by
  induction hr with
  | start heap =>
    refine ⟨List.Pairwise.nil, ?_⟩
    intro bk hbk
    simp [MatchingEngine.new] at hbk
  | registerTrader e trader _ ih =>
    refine MatchingEngine.ownersRegistered_frame ih rfl rfl rfl
      (mapInsert_sorted Int.lt_cases (fun a b c => lt_trans) _ _ _ ih.1) ?_
    intro k hk
    exact registered_mapInsert hk
  | submitOrder e traderId symbol quantity price side type now _ ih =>
    rcases MatchingEngine.submitOrder_cases e traderId symbol quantity price side type now with
      ⟨-, hr⟩ | ⟨trader0, ht, ⟨-, -, hr⟩ | ⟨-, -, hr⟩ | ⟨-, -, ⟨-, hr⟩ | ⟨order, ho, hr⟩⟩⟩
    · rw [hr]; exact ih
    · rw [hr]; exact ih
    · rw [hr]; exact ih
    · rw [hr]
      refine ⟨ih.1, ?_⟩
      intro bk hbk p hp
      obtain ⟨h1, h2⟩ := ih.2 bk hbk p hp
      exact ⟨Int.lt_add_one_iff.mpr (Int.le_of_lt h1), h2⟩
    · rw [hr]
      apply MatchingEngine.routeOrder_owners e symbol order ih
      rw [(Order.new_ok ho).2.2]
      exact ⟨trader0, ht⟩
  | cancelOrder e orderId _ ih => exact MatchingEngine.cancelOrder_owners e orderId ih
  | ledgerCall e traderId t t1 _ hfind ih =>
    refine MatchingEngine.ownersRegistered_frame ih rfl rfl rfl
      (mapInsert_sorted Int.lt_cases (fun a b c => lt_trans) _ _ _ ih.1) ?_
    intro k hk
    exact registered_mapInsert hk
  | orderCall e heap _ hid ih =>
    refine ⟨ih.1, ?_⟩
    intro bk hbk p hp
    obtain ⟨h1, h2⟩ := ih.2 bk hbk p hp
    refine ⟨h1, ?_⟩
    simp only
    rw [(hid p).2.1]
    exact h2

/-- With exact sums, and over the histories of `MarketReach` (calls on the engine and on
the shared `Trader` and `Order` objects, none on a book that `getOrderBook` hands out), a
`submitOrder` call that returns an order id leaves the total cash as it was. -/
theorem MarketReach.cash_conserved_exact (e : MatchingEngine) (hr : MarketReach e)
    (traderId : Int) (symbol : String) (quantity price : ℚ) (side : OrderSide)
    (type : OrderType) (now : Nat) (orderId : Int)
    (hret : (e.submitOrder traderId symbol quantity price side type now).outcome =
      .returned orderId) :
    (e.submitOrder traderId symbol quantity price side type now).engine.totalCash =
      e.totalCash := by
  have hinv := hr.owners_invariant
  rcases MatchingEngine.submitOrder_cases e traderId symbol quantity price side type now with
    ⟨-, hs⟩ | ⟨trader0, ht, ⟨-, -, hs⟩ | ⟨-, -, hs⟩ | ⟨-, -, ⟨-, hs⟩ | ⟨order, ho, hs⟩⟩⟩
  · rw [hs] at hret; cases hret
  · rw [hs] at hret; cases hret
  · rw [hs] at hret; cases hret
  · rw [hs] at hret; cases hret
  · rw [hs] at hret ⊢
    obtain ⟨book, e3, hbook, -, htraders, -, hproc, heng⟩ :=
      MatchingEngine.routeOrder_returned hret
    have hget : ∀ k, e3.getTrader k = e.getTrader k := by
      intro k
      unfold MatchingEngine.getTrader
      rw [htraders]
    have hotrader : order.traderId = traderId := by rw [(Order.new_ok ho).2.2]
    obtain ⟨ts, htr, hts⟩ := OrderBook.addOrder_appended_roles book
      (e.heap.set e.nextOrderId order) e.nextOrderId
    have hdrop : (book.addOrder (e.heap.set e.nextOrderId order)
        e.nextOrderId).book.trades.drop book.trades.length = ts := by
      rw [htr, List.drop_left]
    rw [hdrop] at hproc heng
    rw [heng]
    have hcash : e3.totalCash = e.totalCash := by
      unfold MatchingEngine.totalCash
      rw [htraders]
    rw [← hcash]
    apply MatchingEngine.processTradeNotifications_totalCash ts e3
      (by rw [htraders]; exact hinv.1) _ hproc
    intro tr htrm
    obtain ⟨-, r, hrq, hroles⟩ := hts tr htrm
    have hn : ∃ t, e3.getTrader ((e.heap.set e.nextOrderId order) e.nextOrderId).traderId
        = some t := by
      rw [Heap.set_same, hotrader, hget]
      exact ⟨trader0, ht⟩
    have hrreg : ∃ t, e3.getTrader ((e.heap.set e.nextOrderId order) r).traderId = some t := by
      have hrb := OrderBook.mem_opposite hrq
      rcases hbook with h | ⟨-, h⟩
      · obtain ⟨h1, h2⟩ := hinv.2 _ (mapFind_mem h) r hrb
        rw [Heap.set_other _ _ _ _ (ne_of_lt h1), hget]
        exact h2
      · rw [h] at hrb
        simp [OrderBook.new] at hrb
    split_ifs at hroles
    · obtain ⟨-, a2, -, a4⟩ := hroles
      rw [a2, a4]
      exact ⟨hn, hrreg⟩
    · obtain ⟨-, a2, -, a4⟩ := hroles
      rw [a2, a4]
      exact ⟨hrreg, hn⟩

/-- When `updatePositionOnTradeRaw` has a result, it is the one of
`updatePositionOnTrade`. -/
theorem Trader.updatePositionOnTradeRaw_some {t t1 : Trader} {symbol : String}
    {quantity price : ℚ} (h : t.updatePositionOnTradeRaw symbol quantity price = some t1) :
    t.updatePositionOnTrade symbol quantity price = t1 := by
  unfold Trader.updatePositionOnTradeRaw at h
  unfold Trader.updatePositionOnTrade
  cases hfind : mapFind t.positions symbol with
  | none =>
    rw [hfind] at h
    simp only at h ⊢
    split_ifs at h ⊢ <;> exact Option.some.inj h
  | some position =>
    rw [hfind] at h
    simp only at h ⊢
    split_ifs at h ⊢ <;> exact Option.some.inj h

/-- The calls without a defined result: the symbol has a position of less than the
epsilon, the trade goes against it and leaves less than the epsilon. -/
theorem Trader.updatePositionOnTradeRaw_none_iff (t : Trader) (symbol : String)
    (quantity price : ℚ) :
    t.updatePositionOnTradeRaw symbol quantity price = none ↔
      ∃ position, mapFind t.positions symbol = some position ∧
        ¬ ((position.quantity > 0 ∧ quantity > 0) ∨ (position.quantity < 0 ∧ quantity < 0)) ∧
        |position.quantity + quantity| < positionEpsilon ∧
        |position.quantity| < positionEpsilon := by
  unfold Trader.updatePositionOnTradeRaw
  cases hfind : mapFind t.positions symbol with
  | none =>
    simp only
    constructor
    · intro h
      split_ifs at h
    · rintro ⟨position, hp, -⟩
      cases hp
  | some position =>
    simp only
    constructor
    · intro h
      split_ifs at h with h1 h2 h3
      exact ⟨position, rfl, h1, h2, h3⟩
    · rintro ⟨p, hp, h1, h2, h3⟩
      cases hp
      rw [if_neg h1, if_pos h2, if_pos h3]

theorem Trader.onOrderFilledRaw_some {t : Trader} {symbol : String} {quantity price : ℚ}
    {isBuy : Bool} {r : Except Error Trader}
    (h : t.onOrderFilledRaw symbol quantity price isBuy = some r) :
    t.onOrderFilled symbol quantity price isBuy = r := by
  unfold Trader.onOrderFilledRaw at h
  unfold Trader.onOrderFilled
  cases isBuy with
  | true =>
    simp only [if_true] at h ⊢
    split_ifs at h ⊢
    · exact Option.some.inj h
    · split at h
      · cases h
      · rename_i t1 h1
        rw [Trader.updatePositionOnTradeRaw_some h1]
        exact Option.some.inj h
  | false =>
    simp only [Bool.false_eq_true, if_false] at h ⊢
    split_ifs at h ⊢
    · exact Option.some.inj h
    · split at h
      · cases h
      · rename_i t1 h1
        rw [Trader.updatePositionOnTradeRaw_some h1]
        exact Option.some.inj h

/-- A sell fill with a quantity above 0 from a ledger with positive positions has no
defined result exactly when it passes the inventory test on a holding of less than the
epsilon; a buy fill always has one. -/
theorem Trader.onOrderFilledRaw_none_iff (t : Trader)
    (hpos : ∀ pk ∈ t.positions, 0 < pk.2.quantity) (symbol : String) (quantity price : ℚ)
    (hq : 0 < quantity) (isBuy : Bool) :
    t.onOrderFilledRaw symbol quantity price isBuy = none ↔
      isBuy = false ∧ ∃ position, mapFind t.positions symbol = some position ∧
        quantity ≤ position.quantity ∧ position.quantity < positionEpsilon := by
  have heps : (0 : ℚ) < positionEpsilon := by unfold positionEpsilon; norm_num
  unfold Trader.onOrderFilledRaw
  cases isBuy with
  | true =>
    simp only [if_true, Bool.true_eq_false, false_and, iff_false]
    split_ifs
    · simp
    · intro h
      split at h
      · rename_i hn
        obtain ⟨position, hp, h1, -, -⟩ :=
          (Trader.updatePositionOnTradeRaw_none_iff _ _ _ _).mp hn
        exact h1 (Or.inl ⟨hpos _ (mapFind_mem hp), hq⟩)
      · cases h
  | false =>
    simp only [Bool.false_eq_true, if_false, true_and]
    constructor
    · intro h
      split_ifs at h with hs
      split at h
      · rename_i hn
        obtain ⟨position, hp, -, h2, h3⟩ :=
          (Trader.updatePositionOnTradeRaw_none_iff _ _ _ _).mp hn
        refine ⟨position, hp, ?_, ?_⟩
        · have : t.hasSufficientShares symbol quantity = true := by simpa using hs
          unfold Trader.hasSufficientShares at this
          simp only at hp
          rw [hp] at this
          simpa using this
        · have := hpos _ (mapFind_mem hp)
          rw [abs_of_pos this] at h3
          exact h3
      · cases h
    · rintro ⟨position, hp, hle, hsmall⟩
      have hs : t.hasSufficientShares symbol quantity = true := by
        unfold Trader.hasSufficientShares
        rw [hp]
        simpa using hle
      rw [if_neg (by simp [hs])]
      have hpq := hpos _ (mapFind_mem hp)
      have hn : ({ t with cash := t.cash + quantity * price }).updatePositionOnTradeRaw
          symbol (-quantity) price = none := by
        rw [Trader.updatePositionOnTradeRaw_none_iff]
        refine ⟨position, hp, ?_, ?_, ?_⟩
        · rintro (⟨-, h2⟩ | ⟨h1, -⟩) <;> linarith
        · rw [abs_of_nonneg (by linarith)]
          linarith
        · rw [abs_of_pos hpq]
          exact hsmall
      rw [hn]

theorem RawFillReach.positiveFillReach {t : Trader} (hr : RawFillReach t) :
    PositiveFillReach t := by
  induction hr with
  | start traderId name initialCash => exact PositiveFillReach.start traderId name initialCash
  | fill t t1 symbol quantity price isBuy _ hq hfill ih =>
    exact PositiveFillReach.fill t t1 symbol quantity price isBuy ih hq
      (Trader.onOrderFilledRaw_some hfill)
  | refused t symbol quantity price isBuy e _ hq hfill ih =>
    exact PositiveFillReach.refused t symbol quantity price isBuy e ih hq
      (Trader.onOrderFilledRaw_some hfill)

/-- A call without a defined result found a position of less than the epsilon. -/
theorem Trader.onOrderFilledRaw_none {t : Trader} {symbol : String} {quantity price : ℚ}
    {isBuy : Bool} (h : t.onOrderFilledRaw symbol quantity price isBuy = none) :
    ∃ position, mapFind t.positions symbol = some position ∧
      |position.quantity| < positionEpsilon := by
  unfold Trader.onOrderFilledRaw at h
  cases isBuy with
  | true =>
    simp only [if_true] at h
    split_ifs at h
    split at h
    · rename_i hn
      obtain ⟨position, hp, -, -, h3⟩ :=
        (Trader.updatePositionOnTradeRaw_none_iff _ _ _ _).mp hn
      exact ⟨position, hp, h3⟩
    · cases h
  | false =>
    simp only [Bool.false_eq_true, if_false] at h
    split_ifs at h
    split at h
    · rename_i hn
      obtain ⟨position, hp, -, -, h3⟩ :=
        (Trader.updatePositionOnTradeRaw_none_iff _ _ _ _).mp hn
      exact ⟨position, hp, h3⟩
    · cases h

/-- The throws of `onOrderFilledRaw` are the throws of `onOrderFilled`. -/
theorem Trader.onOrderFilledRaw_error_iff (t : Trader) (symbol : String)
    (quantity price : ℚ) (isBuy : Bool) (err : Error) :
    t.onOrderFilledRaw symbol quantity price isBuy = some (.error err) ↔
      t.onOrderFilled symbol quantity price isBuy = .error err := by
  constructor
  · exact Trader.onOrderFilledRaw_some
  · intro h
    unfold Trader.onOrderFilled at h
    unfold Trader.onOrderFilledRaw
    cases isBuy with
    | true =>
      simp only [if_true] at h ⊢
      split_ifs at h ⊢
      rw [h]
    | false =>
      simp only [Bool.false_eq_true, if_false] at h ⊢
      split_ifs at h ⊢
      rw [h]

/-- When the position found is not below the epsilon, `onOrderFilledRaw` has the result
of `onOrderFilled`. -/
theorem Trader.onOrderFilledRaw_defined (t : Trader) (symbol : String) (quantity price : ℚ)
    (isBuy : Bool)
    (h : ∀ position, mapFind t.positions symbol = some position →
      positionEpsilon ≤ |position.quantity|) :
    t.onOrderFilledRaw symbol quantity price isBuy =
      some (t.onOrderFilled symbol quantity price isBuy) := by
  cases hr : t.onOrderFilledRaw symbol quantity price isBuy with
  | none =>
    obtain ⟨position, hp, hsmall⟩ := Trader.onOrderFilledRaw_none hr
    exact absurd hsmall (not_lt.mpr (h position hp))
  | some r => rw [Trader.onOrderFilledRaw_some hr]

/-- C32 (oversell is unreachable). Start from a trader with no positions and let any
sequence of `onOrderFilled` calls with a quantity above 0 follow, accepted or refused
(a call that has no defined result, the sale of a holding of less than 1e-9, ends the
sequence). Then every stored position has a quantity above 0, and the last branch of the
position update (the remaining quantity takes the sign opposite to the position and the
trade price becomes the average price) is not taken by the next call with a quantity
above 0: not by a purchase, and not by a sale that passes the inventory check. The next
call has no defined result exactly when it is a sale that passes the inventory check on
a holding of less than 1e-9. -/
theorem oversell_unreachable (t : Trader) (hr : RawFillReach t) :
    (∀ pk ∈ t.positions, 0 < pk.2.quantity) ∧
    (∀ symbol quantity, 0 < quantity →
      t.signFlips symbol quantity = false ∧
      (t.hasSufficientShares symbol quantity = true →
        t.signFlips symbol (-quantity) = false)) ∧
    (∀ symbol quantity price isBuy, 0 < quantity →
      (t.onOrderFilledRaw symbol quantity price isBuy = none ↔
        isBuy = false ∧ ∃ position, mapFind t.positions symbol = some position ∧
          quantity ≤ position.quantity ∧ position.quantity < positionEpsilon)) := by
  have h := PositiveFillReach.no_sign_flip t hr.positiveFillReach
  exact ⟨h.1, h.2, fun symbol quantity price isBuy hq =>
    Trader.onOrderFilledRaw_none_iff t h.1 symbol quantity price hq isBuy⟩

/-- Witness of C32: Alice, constructed with 100 in cash, after a first purchase of
0.0000000001 shares of X at 1. Her position is above 0, neither a purchase nor a sale of
that quantity takes the last branch, and the sale of the 0.0000000001 shares has no
defined result. -/
theorem oversell_unreachable_witness :
    (∀ pk ∈ dustHolder.positions, 0 < pk.2.quantity) ∧
    dustHolder.signFlips "X" (1 / 10000000000) = false ∧
    dustHolder.signFlips "X" (-(1 / 10000000000)) = false ∧
    dustHolder.onOrderFilledRaw "X" (1 / 10000000000) 1 false = none :=
  let h := oversell_unreachable dustHolder
    (RawFillReach.fill (Trader.new 1 "Alice" 100) dustHolder "X" (1 / 10000000000) 1 true
      (RawFillReach.start 1 "Alice" 100) (by norm_num) (by with_unfolding_all rfl))
  ⟨h.1, (h.2.1 "X" (1 / 10000000000) (by norm_num)).1,
    (h.2.1 "X" (1 / 10000000000) (by norm_num)).2 (by with_unfolding_all decide),
    (h.2.2 "X" (1 / 10000000000) 1 false (by norm_num)).mpr
      ⟨rfl, Position.new "X" (1 / 10000000000) 1, by with_unfolding_all rfl,
        by simp only [Position.new]; exact le_refl _,
        by simp only [Position.new, positionEpsilon]; norm_num⟩⟩

/-- Counterexample to C18 as stated. Bob holds 1 share of X and sells 0.9999999999 of it
at 100. The fill is accepted, and his position does not have its quantity decreased to
0.0000000001 with the average cost kept: the remaining quantity is not zero but below the
epsilon of the ledger, and the position is removed. -/
theorem ledger_sell_fill_counterexample :
    mapFind oneShareHolder.positions "X" =
      some { symbol := "X", quantity := 1, averagePrice := 100, unrealizedPnL := 0 } ∧
    nearlyAllSale =
      some (.ok { traderId := 2, name := "Bob", cash := 9999999999 / 100000000,
                  positions := [] }) :=
  ⟨by with_unfolding_all rfl, by with_unfolding_all rfl⟩

/-- C18, amended (ledger sell fill). For a quantity greater than 0, the sell fill
`onOrderFilled(symbol, quantity, price, false)` fails with `InsufficientInventory` if and
only if the trader has no position in the symbol or a position whose quantity is less
than the quantity (a failed call changes nothing: the throw comes before any assignment).
Otherwise, when the quantity held is at least the epsilon 1e-9, it is accepted, cash
increases by exactly quantity times price, the positions in other symbols are unchanged,
and the position in the symbol has its quantity decreased by the quantity with its
average cost unchanged when the remaining quantity is at least 1e-9, and is removed from
the position set when the remaining quantity is below 1e-9, zero included. -/
theorem ledger_sell_fill (t : Trader) (symbol : String) (quantity price : ℚ)
    (hq : 0 < quantity) :
    (t.onOrderFilledRaw symbol quantity price false = some (.error .InsufficientInventory) ↔
      (mapFind t.positions symbol = none ∨
        ∃ position, mapFind t.positions symbol = some position ∧
          position.quantity < quantity)) ∧
    (∀ position, mapFind t.positions symbol = some position → quantity ≤ position.quantity →
      positionEpsilon ≤ position.quantity →
      ∃ t1, t.onOrderFilledRaw symbol quantity price false = some (.ok t1) ∧
        t1.cash = t.cash + quantity * price ∧
        (∀ sym, sym ≠ symbol → mapFind t1.positions sym = mapFind t.positions sym) ∧
        (positionEpsilon ≤ position.quantity - quantity →
          mapFind t1.positions symbol =
            some { position with quantity := position.quantity - quantity }) ∧
        (position.quantity - quantity < positionEpsilon →
          mapFind t1.positions symbol = none)) := by
  obtain ⟨h1, h2⟩ := Trader.onOrderFilled_sell t symbol quantity price hq
  constructor
  · rw [Trader.onOrderFilledRaw_error_iff]
    exact h1
  · intro position hfind hle hbig
    obtain ⟨t1, ht1, hrest⟩ := h2 position hfind hle
    refine ⟨t1, ?_, hrest⟩
    rw [Trader.onOrderFilledRaw_defined t symbol quantity price false, ht1]
    intro p hp
    rw [hfind] at hp
    cases hp
    exact le_trans hbig (le_abs_self _)

/-- Witness of the amended C18, the test `TraderTest.SellOrderFilled` on Bob's ledger: Bob
holds 1 share of X bought at 100 and sells half a share at 110. -/
theorem ledger_sell_fill_witness :
    (0 : ℚ) < 1 / 2 ∧
    (∃ t1, oneShareHolder.onOrderFilledRaw "X" (1 / 2) 110 false = some (.ok t1) ∧
      t1.cash = oneShareHolder.cash + 1 / 2 * 110 ∧
      mapFind t1.positions "X" =
        some { symbol := "X", quantity := 1 - 1 / 2, averagePrice := 100,
               unrealizedPnL := 0 }) :=
  ⟨by norm_num,
    by
      obtain ⟨t1, h1, h2, -, h4, -⟩ :=
        (ledger_sell_fill oneShareHolder "X" (1 / 2) 110 (by norm_num)).2
          { symbol := "X", quantity := 1, averagePrice := 100, unrealizedPnL := 0 }
          (by with_unfolding_all rfl) (by norm_num) (by unfold positionEpsilon; norm_num)
      exact ⟨t1, h1, h2, h4 (by unfold positionEpsilon; norm_num)⟩⟩

theorem matchStepWith_pqPush (symbol : String) (n : Ptr) (s : MatchState) :
    matchStepWith pqPush symbol n s = matchStep symbol n s := rfl

theorem matchLoopWith_pqPush (symbol : String) (n : Ptr) :
    ∀ (fuel : Nat) (s : MatchState),
      matchLoopWith pqPush symbol n fuel s = matchLoop symbol n fuel s := by
  intro fuel
  induction fuel with
  | zero => intro s; rfl
  | succ k ih =>
    intro s
    unfold matchLoopWith matchLoop
    rw [matchStepWith_pqPush]
    cases matchStep symbol n s with
    | exit s1 => rfl
    | threw s1 e => rfl
    | next s1 => exact ih s1

theorem OrderBook.purgeQueueWith_pqPush (h : Heap) :
    ∀ (q : List Ptr) (acc : List Ptr × List (Int × Ptr)),
      OrderBook.purgeQueueWith pqPush h q acc = OrderBook.purgeQueue h q acc := by
  intro q
  induction q with
  | nil => intro acc; rfl
  | cons p rest ih =>
    intro acc
    obtain ⟨newQueue, m⟩ := acc
    unfold OrderBook.purgeQueueWith OrderBook.purgeQueue
    split_ifs
    · exact ih _
    · exact ih _

theorem OrderBook.removeCompletedOrdersWith_pqPush (b : OrderBook) (h : Heap) :
    OrderBook.removeCompletedOrdersWith pqPush b h = b.removeCompletedOrders h := by
  unfold OrderBook.removeCompletedOrdersWith OrderBook.removeCompletedOrders
  simp only [OrderBook.purgeQueueWith_pqPush]

/-- With the queue type of the header for the members and the scratch queues, the
parametrised `addOrder` is `addOrder`. -/
theorem OrderBook.addOrderWith_pqPush (b : OrderBook) (h : Heap) (n : Ptr) :
    OrderBook.addOrderWith pqPush pqPush b h n = b.addOrder h n := by
  unfold OrderBook.addOrderWith OrderBook.addOrder OrderBook.matchOrderWith
    OrderBook.matchOrder
  simp only [matchLoopWith_pqPush, OrderBook.removeCompletedOrdersWith_pqPush]
  try rfl

/-- With the queue type of the header for the scratch queues, the parametrised
`cancelOrder` is `cancelOrder`. -/
theorem OrderBook.cancelOrderWith_pqPush (b : OrderBook) (h : Heap) (orderId : Int) :
    OrderBook.cancelOrderWith pqPush b h orderId = b.cancelOrder h orderId := by
  unfold OrderBook.cancelOrderWith OrderBook.cancelOrder
  simp only [OrderBook.removeCompletedOrdersWith_pqPush]
  try rfl

/-- C1 at its failing input, the orders of the test
`MatchingEngineTest.PriorityOrderMatching` with the scratch queues of
`removeCompletedOrders` typed as `OrderBook.cpp` types them and the members as
`OrderBook.hpp` does. The sell at 150 lies at the higher address; after the two sells
are added it is on top of the ask queue, above the sell at 149. The buy of 50 at 155 is
matched against it, at 150, while the sell at 149, which is live and rests on the same
side, has the strictly better price and is left untouched. With the type of the scratch
queues for the members too, the trade is the same. -/
theorem scratch_queue_loses_priority :
    (priorityResting pqPush).outcome = .returned () ∧
    (priorityResting pqPush).book.asks = [2, 1] ∧
    ((priorityResting pqPush).heap 2).price = 150 ∧
    ((priorityResting pqPush).heap 1).price = 149 ∧
    ((priorityResting pqPush).heap 1).isLive = true ∧
    (priorityMatch pqPush).outcome = .returned () ∧
    (priorityMatch pqPush).book.trades =
      [{ buyOrderId := 3, sellOrderId := 1, buyTraderId := 103, sellTraderId := 101,
         symbol := "AAPL", quantity := 50, price := 150 }] ∧
    ((priorityMatch pqPush).heap 1).filledQuantity = 0 ∧
    ¬ (((priorityResting pqPush).heap 2).price < ((priorityResting pqPush).heap 1).price ∨
      (((priorityResting pqPush).heap 1).price = ((priorityResting pqPush).heap 2).price ∧
        ((priorityResting pqPush).heap 2).timestamp ≤
          ((priorityResting pqPush).heap 1).timestamp)) ∧
    (priorityMatch pqPushByAddress).book.trades = (priorityMatch pqPush).book.trades :=
  ⟨by with_unfolding_all decide, by with_unfolding_all decide, by with_unfolding_all decide,
    by with_unfolding_all decide, by with_unfolding_all decide, by with_unfolding_all decide,
    by with_unfolding_all decide, by with_unfolding_all decide, by with_unfolding_all decide,
    by with_unfolding_all decide⟩

/-- C5 at its failing input, with the scratch queues of `removeCompletedOrders` typed as
`OrderBook.cpp` types them and the members as `OrderBook.hpp` does. A sell at 149 and, at
a higher address, a sell at 150 rest in the book; the sell at 150 is on top. A buy of 50
at the limit 149 looks at the top entry only, finds that it does not cross, and rests:
`addOrder` returns with the buy in the bid queue, not filled at all, while the live sell
at 149, a price within the limit, remains in the book. With the type of the scratch
queues for the members too, the queues are the same. -/
theorem scratch_queue_leaves_crossing_ask :
    (laterWorseResting pqPush).book.asks = [2, 1] ∧
    (laterWorseBuy pqPush).outcome = .returned () ∧
    (laterWorseBuy pqPush).book.trades = [] ∧
    (laterWorseBuy pqPush).book.bids = [3] ∧
    ((laterWorseBuy pqPush).heap 3).filledQuantity = 0 ∧
    ((laterWorseBuy pqPush).heap 3).price = 149 ∧
    1 ∈ (laterWorseBuy pqPush).book.asks ∧
    ((laterWorseBuy pqPush).heap 1).isLive = true ∧
    ((laterWorseBuy pqPush).heap 1).price ≤ ((laterWorseBuy pqPush).heap 3).price ∧
    (laterWorseBuy pqPushByAddress).book.trades = [] ∧
    (laterWorseBuy pqPushByAddress).book.bids = [3] ∧
    (laterWorseBuy pqPushByAddress).book.asks = (laterWorseBuy pqPush).book.asks :=
  ⟨by with_unfolding_all decide, by with_unfolding_all decide, by with_unfolding_all decide,
    by with_unfolding_all decide, by with_unfolding_all decide, by with_unfolding_all decide,
    by with_unfolding_all decide, by with_unfolding_all decide, by with_unfolding_all decide,
    by with_unfolding_all decide, by with_unfolding_all decide, by with_unfolding_all decide⟩

/-- C25 at its failing input, the tests `OrderBookTest.AddMultipleSellOrders` and
`OrderBookTest.AddMultipleBuyOrders` with the scratch queues of `removeCompletedOrders`
typed as `OrderBook.cpp` types them, the members as `OrderBook.hpp` does, and the three
orders of each test at increasing addresses. All three orders rest and are live;
`getBestAskPrice` returns 165, the price of the order at the highest address, where the
minimum over the live sells, which the test expects, is 155; `getBestBidPrice` returns
145 where the maximum over the live buys is 155. With the type of the scratch queues for
the members too, the two prices are the same. -/
theorem scratch_queue_best_prices :
    (multipleSells pqPush).book.asks = [3, 2, 1] ∧
    (∀ p ∈ (multipleSells pqPush).book.asks,
      ((multipleSells pqPush).heap p).isLive = true) ∧
    ((multipleSells pqPush).heap 2).price = 155 ∧
    (multipleSells pqPush).book.getBestAskPrice (multipleSells pqPush).heap = 165 ∧
    (multipleBuysByAddress pqPush).book.bids = [3, 2, 1] ∧
    (∀ p ∈ (multipleBuysByAddress pqPush).book.bids,
      ((multipleBuysByAddress pqPush).heap p).isLive = true) ∧
    ((multipleBuysByAddress pqPush).heap 2).price = 155 ∧
    (multipleBuysByAddress pqPush).book.getBestBidPrice
      (multipleBuysByAddress pqPush).heap = 145 ∧
    (multipleSells pqPushByAddress).book.getBestAskPrice
      (multipleSells pqPushByAddress).heap = 165 ∧
    (multipleBuysByAddress pqPushByAddress).book.getBestBidPrice
      (multipleBuysByAddress pqPushByAddress).heap = 145 :=
  ⟨by with_unfolding_all decide,
    by
      have h : (multipleSells pqPush).book.asks = [3, 2, 1] := by with_unfolding_all decide
      intro p hp
      rw [h] at hp
      simp only [List.mem_cons, List.mem_singleton, List.not_mem_nil, or_false] at hp
      rcases hp with hp | hp | hp <;> rw [hp] <;> with_unfolding_all decide,
    by with_unfolding_all decide, by with_unfolding_all decide,
    by with_unfolding_all decide,
    by
      have h : (multipleBuysByAddress pqPush).book.bids = [3, 2, 1] := by
        with_unfolding_all decide
      intro p hp
      rw [h] at hp
      simp only [List.mem_cons, List.mem_singleton, List.not_mem_nil, or_false] at hp
      rcases hp with hp | hp | hp <;> rw [hp] <;> with_unfolding_all decide,
    by with_unfolding_all decide, by with_unfolding_all decide,
    by with_unfolding_all decide, by with_unfolding_all decide⟩

theorem roundHalfEven_intCast (z : ℤ) : roundHalfEven (z : ℚ) = z := by
  unfold roundHalfEven
  rw [Int.floor_intCast, sub_self, if_pos (by norm_num)]

theorem twoPow_eq_zpow (e : ℤ) : twoPow e = (2 : ℚ) ^ e := by
  unfold twoPow
  split_ifs with h
  · obtain ⟨k, rfl⟩ := Int.eq_ofNat_of_zero_le h
    simp
  · obtain ⟨k, hk⟩ := Int.eq_ofNat_of_zero_le (show 0 ≤ -e by omega)
    have he : e = -(k : ℤ) := by omega
    subst he
    simp

theorem twoPow_pos (e : ℤ) : 0 < twoPow e := by
  rw [twoPow_eq_zpow]; positivity

theorem twoPow_add (a b : ℤ) : twoPow (a + b) = twoPow a * twoPow b := by
  simp only [twoPow_eq_zpow]
  exact zpow_add₀ (by norm_num) a b

theorem twoPow_natCast (k : ℕ) : twoPow (k : ℤ) = ((2 ^ k : ℕ) : ℚ) := by
  rw [twoPow_eq_zpow]; simp

theorem twoPow_lt_twoPow {a b : ℤ} (h : twoPow a < twoPow b) : a < b := by
  simp only [twoPow_eq_zpow] at h
  by_contra hc
  have hba : b ≤ a := not_lt.mp hc
  have : (2 : ℚ) ^ b ≤ (2 : ℚ) ^ a := zpow_le_zpow_right₀ (by norm_num) hba
  exact absurd h (not_lt.mpr this)

theorem pow_floorLog2_le : ∀ (fuel n : ℕ), 1 ≤ n → 2 ^ floorLog2 fuel n ≤ n := by
  intro fuel
  induction fuel with
  | zero => intro n h; simpa [floorLog2] using h
  | succ f ih =>
    intro n h
    unfold floorLog2
    split_ifs with h2
    · simpa using h
    · have h3 : 1 ≤ n / 2 := by omega
      have := ih (n / 2) h3
      calc 2 ^ (floorLog2 f (n / 2) + 1) = 2 ^ floorLog2 f (n / 2) * 2 := by ring
        _ ≤ n / 2 * 2 := Nat.mul_le_mul_right 2 this
        _ ≤ n := Nat.div_mul_le_self n 2

theorem lt_pow_floorLog2 : ∀ (fuel n : ℕ), n ≤ fuel → n < 2 ^ (floorLog2 fuel n + 1) := by
  intro fuel
  induction fuel with
  | zero => intro n h; have : n = 0 := by omega
            subst this; simp [floorLog2]
  | succ f ih =>
    intro n h
    unfold floorLog2
    split_ifs with h2
    · simpa using h2
    · have h3 : n / 2 ≤ f := by omega
      have := ih (n / 2) h3
      have h4 : n < (n / 2 + 1) * 2 := by omega
      calc n < (n / 2 + 1) * 2 := h4
        _ ≤ 2 ^ (floorLog2 f (n / 2) + 1) * 2 := Nat.mul_le_mul_right 2 this
        _ = 2 ^ (floorLog2 f (n / 2) + 1 + 1) := by ring

/-- The exponent that `binade` gives is not too large: `2 ^ binade x ≤ |x|`. -/
theorem twoPow_binade_le (x : ℚ) (hx : x ≠ 0) : twoPow (binade x) ≤ |x| := by
  unfold binade
  split_ifs with h
  · exact h
  · have hnum : 1 ≤ x.num.natAbs := Int.natAbs_pos.mpr (Rat.num_ne_zero.mpr hx)
    have h1 := pow_floorLog2_le x.num.natAbs x.num.natAbs hnum
    have h2 := lt_pow_floorLog2 x.den x.den le_rfl
    have hden : (0 : ℚ) < x.den := by exact_mod_cast x.den_pos
    have habs : |x| = (x.num.natAbs : ℚ) / x.den := by
      conv_lhs => rw [← Rat.num_div_den x]
      rw [abs_div, abs_of_pos hden]
      congr 1
      rw [← Int.cast_abs, Int.abs_eq_natAbs, Int.cast_natCast]
    rw [habs, sub_sub, twoPow_eq_zpow, zpow_sub₀ (by norm_num), le_div_iff₀ hden,
      div_mul_eq_mul_div, div_le_iff₀ (by positivity)]
    have e1 : ((2 : ℚ) ^ ((floorLog2 x.num.natAbs x.num.natAbs : ℕ) : ℤ)) ≤ x.num.natAbs := by
      rw [zpow_natCast]; exact_mod_cast h1
    have e2 : (x.den : ℚ) ≤ (2 : ℚ) ^ (((floorLog2 x.den x.den : ℕ) : ℤ) + 1) := by
      rw [show (((floorLog2 x.den x.den : ℕ) : ℤ) + 1) = ((floorLog2 x.den x.den + 1 : ℕ) : ℤ) by
        push_cast; rfl, zpow_natCast]
      exact_mod_cast h2.le
    calc (2 : ℚ) ^ ((floorLog2 x.num.natAbs x.num.natAbs : ℕ) : ℤ) * x.den
        ≤ x.num.natAbs * x.den := by gcongr
      _ ≤ x.num.natAbs * (2 : ℚ) ^ (((floorLog2 x.den x.den : ℕ) : ℤ) + 1) := by gcongr

/-- A multiple `a * 2 ^ e` with `a < 2 ^ 53` and `-1074 ≤ e` is a `double`: rounding
leaves it as it is. -/
theorem roundDouble_grid (a : ℕ) (e : ℤ) (ha : a < 2 ^ 53) (he : -1074 ≤ e) :
    roundDouble ((a : ℚ) * twoPow e) = (a : ℚ) * twoPow e := by
  unfold roundDouble
  split_ifs with h0
  · exact h0.symm
  · have hb := twoPow_binade_le _ h0
    have hpos : 0 < twoPow e := twoPow_pos e
    rw [abs_of_nonneg (mul_nonneg (Nat.cast_nonneg a) hpos.le)] at hb
    have hlt : twoPow (binade ((a : ℚ) * twoPow e)) < twoPow (53 + e) := by
      rw [twoPow_add]
      refine lt_of_le_of_lt hb (mul_lt_mul_of_pos_right ?_ hpos)
      rw [show (53 : ℤ) = ((53 : ℕ) : ℤ) by rfl, twoPow_natCast]
      exact_mod_cast ha
    have hbin := twoPow_lt_twoPow hlt
    generalize binade ((a : ℚ) * twoPow e) = B at hbin ⊢
    have hE : max B (-1022) - 52 ≤ e := by
      have : max B (-1022) ≤ e + 52 := max_le (by omega) (by omega)
      omega
    obtain ⟨k, hk⟩ := Int.eq_ofNat_of_zero_le (show 0 ≤ e - (max B (-1022) - 52) by omega)
    have hek : e = (max B (-1022) - 52) + (k : ℤ) := by omega
    generalize max B (-1022) - 52 = E at hek ⊢
    subst hek
    have hE0 : twoPow E ≠ 0 := (twoPow_pos E).ne.symm
    have hx : (a : ℚ) * twoPow (E + k) / twoPow E = (((a * 2 ^ k : ℕ) : ℤ) : ℚ) := by
      rw [twoPow_add, twoPow_natCast]
      push_cast
      field_simp
      ring
    rw [hx, roundHalfEven_intCast, twoPow_add, twoPow_natCast]
    push_cast
    ring

/-- Orders whose quantities are whole numbers below `2 ^ 52` are on the grid of
`2 ^ 0`. -/
theorem Order.onBinaryGrid_of_natCast {o : Order} (a b : ℕ) (ha : o.quantity = a)
    (hb : o.filledQuantity = b) (hle : b ≤ a) (hlt : a < 2 ^ 52) : o.onBinaryGrid 0 := by
  refine ⟨by norm_num, by norm_num, a, b, ?_, ?_, hle, hlt⟩
  · rw [ha, show twoPow 0 = 1 by rfl, mul_one]
  · rw [hb, show twoPow 0 = 1 by rfl, mul_one]

theorem Order.onBinaryGrid_remaining {e : ℤ} {o : Order} (h : o.onBinaryGrid e) :
    ∃ c : ℕ, o.getRemainingQuantity = c * twoPow e ∧ c < 2 ^ 52 ∧
      o.getRemainingQuantityDouble = o.getRemainingQuantity := by
  obtain ⟨he, -, a, b, ha, hb, hle, hlt⟩ := h
  have hc : o.quantity - o.filledQuantity = ((a - b : ℕ) : ℚ) * twoPow e := by
    rw [ha, hb]
    push_cast [hle]
    ring
  refine ⟨a - b, hc, by omega, ?_⟩
  unfold Order.getRemainingQuantityDouble Order.getRemainingQuantity
  rw [hc]
  exact roundDouble_grid _ e (by omega) he

theorem Order.addFillDouble_eq (o : Order) (q : ℚ) (e : ℤ) (b c : ℕ) (he : -1074 ≤ e)
    (hb : o.filledQuantity = b * twoPow e) (hc : q = c * twoPow e)
    (hlt : b + c < 2 ^ 53) : o.addFillDouble q = o.addFill q := by
  have hr : roundDouble (o.filledQuantity + q) = o.filledQuantity + q := by
    rw [hb, hc]
    have := roundDouble_grid (b + c) e hlt he
    push_cast at this
    rw [add_mul] at this
    exact this
  unfold Order.addFillDouble Order.addFill
  rw [hr]

theorem Order.addFill_onBinaryGrid {e : ℤ} {o o1 : Order} {q : ℚ} (h : o.onBinaryGrid e) (c : ℕ)
    (hc : q = c * twoPow e) (hfill : o.addFill q = .ok o1) : o1.onBinaryGrid e := by
  obtain ⟨he, he2, a, b, ha, hb, hle, hlt⟩ := h
  obtain ⟨-, h2, h3, hid, -⟩ := Order.addFill_ok hfill
  refine ⟨he, he2, a, b + c, ?_, ?_, ?_, hlt⟩
  · rw [hid.2.2.2.1, ha]
  · rw [h3, hb, hc]
    push_cast
    ring
  · rw [ha, hb, hc, ← add_mul] at h2
    have := le_of_mul_le_mul_right h2 (twoPow_pos e)
    exact_mod_cast this

theorem Heap.set_onBinaryGrid {e : ℤ} {h : Heap} {p : Ptr} {o : Order}
    (hh : ∀ q, (h q).onBinaryGrid e) (ho : o.onBinaryGrid e) :
    ∀ q, ((h.set p o) q).onBinaryGrid e := by
  intro q
  rw [Heap.set_apply]
  split_ifs
  · exact ho
  · exact hh q

/-- The trade quantity of a pass over orders on one grid is on the grid. -/
theorem tradeQuantity_onBinaryGrid {e : ℤ} {x y : Order} (hx : x.onBinaryGrid e) (hy : y.onBinaryGrid e) :
    ∃ c : ℕ, min x.getRemainingQuantity y.getRemainingQuantity = c * twoPow e ∧
      c < 2 ^ 52 := by
  obtain ⟨c1, h1, hl1, -⟩ := Order.onBinaryGrid_remaining hx
  obtain ⟨c2, h2, hl2, -⟩ := Order.onBinaryGrid_remaining hy
  refine ⟨min c1 c2, ?_, ?_⟩
  · rw [h1, h2]
    rcases le_total c1 c2 with hle | hle
    · rw [min_eq_left hle, min_eq_left]
      exact mul_le_mul_of_nonneg_right (by exact_mod_cast hle) (twoPow_pos e).le
    · rw [min_eq_right hle, min_eq_right]
      exact mul_le_mul_of_nonneg_right (by exact_mod_cast hle) (twoPow_pos e).le
  · exact lt_of_le_of_lt (min_le_left _ _) hl1

/-- Over orders on one grid a pass of the loop with the arithmetic of `double` is the
pass with exact arithmetic. -/
theorem matchStepDouble_eq (e : ℤ) (symbol : String) (n : Ptr) (s : MatchState)
    (hs : ∀ p, (s.heap p).onBinaryGrid e) :
    matchStepDouble symbol n s = matchStep symbol n s := by
  unfold matchStepDouble matchStep
  cases hq : s.queue with
  | nil => rfl
  | cons best rest =>
    simp only
    obtain ⟨_, -, -, hrn⟩ := Order.onBinaryGrid_remaining (hs n)
    obtain ⟨_, -, -, hrb⟩ := Order.onBinaryGrid_remaining (hs best)
    obtain ⟨c, hc, hclt⟩ := tradeQuantity_onBinaryGrid (hs n) (hs best)
    rw [hrn, hrb]
    obtain ⟨he, -, a, b, -, hb, hle, hlt⟩ := hs n
    have h1 : (s.heap n).addFillDouble
        (min (s.heap n).getRemainingQuantity (s.heap best).getRemainingQuantity) =
        (s.heap n).addFill
          (min (s.heap n).getRemainingQuantity (s.heap best).getRemainingQuantity) :=
      Order.addFillDouble_eq _ _ e b c he hb hc (by omega)
    rw [h1]
    cases hn1 : (s.heap n).addFill
        (min (s.heap n).getRemainingQuantity (s.heap best).getRemainingQuantity) with
    | error err => rfl
    | ok n1 =>
      have hw1 : ∀ p, ((s.heap.set n n1) p).onBinaryGrid e :=
        Heap.set_onBinaryGrid hs (Order.addFill_onBinaryGrid (hs n) c hc hn1)
      obtain ⟨-, -, a2, b2, -, hb2, hle2, hlt2⟩ := hw1 best
      have h2 : ((s.heap.set n n1) best).addFillDouble
          (min (s.heap n).getRemainingQuantity (s.heap best).getRemainingQuantity) =
          ((s.heap.set n n1) best).addFill
            (min (s.heap n).getRemainingQuantity (s.heap best).getRemainingQuantity) :=
        Order.addFillDouble_eq _ _ e b2 c he hb2 hc (by omega)
      simp only [h2]
      try rfl

theorem matchStep_next_onBinaryGrid {e : ℤ} {symbol : String} {n : Ptr} {s s1 : MatchState}
    (hs : ∀ p, (s.heap p).onBinaryGrid e) (hstep : matchStep symbol n s = .next s1) :
    ∀ p, (s1.heap p).onBinaryGrid e := by
  obtain ⟨best, rest, -, -, hcase⟩ := matchStep_next hstep
  rcases hcase with ⟨-, hs1⟩ | ⟨-, -, -, n1, b1, hn1, hb1, hs1⟩
  · subst hs1; exact hs
  · subst hs1
    obtain ⟨c, hc, -⟩ := tradeQuantity_onBinaryGrid (hs n) (hs best)
    have hw1 : ∀ p, ((s.heap.set n n1) p).onBinaryGrid e :=
      Heap.set_onBinaryGrid hs (Order.addFill_onBinaryGrid (hs n) c hc hn1)
    exact Heap.set_onBinaryGrid hw1 (Order.addFill_onBinaryGrid (hw1 best) c hc hb1)

theorem matchStep_threw_onBinaryGrid {e : ℤ} {symbol : String} {n : Ptr} {s s1 : MatchState}
    {err : Error} (hs : ∀ p, (s.heap p).onBinaryGrid e)
    (hstep : matchStep symbol n s = .threw s1 err) : ∀ p, (s1.heap p).onBinaryGrid e := by
  obtain ⟨best, rest, -, -, -, -, -, hcase⟩ := matchStep_threw hstep
  rcases hcase with ⟨hh, -⟩ | ⟨n1, hn1, hh, -⟩
  · rw [hh]; exact hs
  · rw [hh]
    obtain ⟨c, hc, -⟩ := tradeQuantity_onBinaryGrid (hs n) (hs best)
    exact Heap.set_onBinaryGrid hs (Order.addFill_onBinaryGrid (hs n) c hc hn1)

theorem matchLoop_onBinaryGrid (e : ℤ) (symbol : String) (n : Ptr) (fuel : Nat) (s : MatchState)
    (hs : ∀ p, (s.heap p).onBinaryGrid e) :
    ∀ p, ((matchLoop symbol n fuel s).1.heap p).onBinaryGrid e :=
  matchLoop_invariant symbol n (fun s => ∀ p, (s.heap p).onBinaryGrid e)
    (fun _ _ h hstep => matchStep_next_onBinaryGrid h hstep)
    (fun _ _ _ h hstep => matchStep_threw_onBinaryGrid h hstep) fuel s hs

/-- Over orders on one grid the loop with the arithmetic of `double` is the loop with
exact arithmetic. -/
theorem matchLoopDouble_eq (e : ℤ) (symbol : String) (n : Ptr) :
    ∀ (fuel : Nat) (s : MatchState), (∀ p, (s.heap p).onBinaryGrid e) →
      matchLoopDouble symbol n fuel s = matchLoop symbol n fuel s := by
  intro fuel
  induction fuel with
  | zero => intro s _; rfl
  | succ k ih =>
    intro s hs
    unfold matchLoopDouble matchLoop
    rw [matchStepDouble_eq e symbol n s hs]
    cases hstep : matchStep symbol n s with
    | exit s1 => rfl
    | threw s1 err => rfl
    | next s1 => exact ih s1 (matchStep_next_onBinaryGrid hs hstep)

/-- A loop that has ended within `fuel` evaluations of its condition gives the same
result with any larger number. -/
theorem matchLoop_fuel_mono (symbol : String) (n : Ptr) :
    ∀ (fuel : Nat) (s : MatchState), (matchLoop symbol n fuel s).2 ≠ .outOfFuel →
      ∀ k, matchLoop symbol n (fuel + k) s = matchLoop symbol n fuel s := by
  intro fuel
  induction fuel with
  | zero => intro s h; simp [matchLoop] at h
  | succ f ih =>
    intro s h k
    have hk : f + 1 + k = (f + k) + 1 := by omega
    rw [hk]
    unfold matchLoop at h ⊢
    cases hstep : matchStep symbol n s with
    | exit s1 => rfl
    | threw s1 err => rfl
    | next s1 =>
      simp only [hstep] at h ⊢
      exact ih s1 h k

/-- Over orders on one grid, and with at least two evaluations of the loop condition
more than the opposite queue has entries, `addOrder` with the arithmetic of `double` is
`addOrder` with exact arithmetic. -/
theorem OrderBook.addOrderDouble_eq (e : ℤ) (fuel : Nat) (b : OrderBook) (h : Heap)
    (n : Ptr) (hh : ∀ p, (h p).onBinaryGrid e) (hfuel : (b.opposite (h n)).length + 2 ≤ fuel) :
    b.addOrderDouble fuel h n = b.addOrder h n := by
  have hl : ∀ (b1 : OrderBook), b1.opposite (h n) = b.opposite (h n) →
      matchLoopDouble b1.symbol n fuel { heap := h, queue := b1.opposite (h n), trades := [] }
        = matchLoop b1.symbol n ((b1.opposite (h n)).length + 2)
            { heap := h, queue := b1.opposite (h n), trades := [] } := by
    intro b1 hb1
    rw [matchLoopDouble_eq e _ _ _ _ hh]
    obtain ⟨k, hk⟩ : ∃ k, fuel = (b1.opposite (h n)).length + 2 + k :=
      ⟨fuel - ((b1.opposite (h n)).length + 2), by rw [hb1]; omega⟩
    rw [hk]
    exact matchLoop_fuel_mono b1.symbol n ((b1.opposite (h n)).length + 2)
      { heap := h, queue := b1.opposite (h n), trades := [] }
      (matchLoop_terminates _ _ _ _ (Or.inl (le_refl _))) k
  unfold OrderBook.addOrderDouble OrderBook.addOrder OrderBook.matchOrderDouble
    OrderBook.matchOrder
  by_cases hsym : (h n).symbol ≠ b.symbol
  · rw [if_pos hsym, if_pos hsym]
  · rw [if_neg hsym, if_neg hsym]
    have hl2 := hl { b with orderMap := mapInsert (h n).orderId n b.orderMap } rfl
    simp only [] at hl2 ⊢
    rw [hl2]
    try rfl

/-- The arena stays on its grid through `addOrder`. -/
theorem OrderBook.addOrder_onBinaryGrid (e : ℤ) (b : OrderBook) (h : Heap) (n : Ptr)
    (hh : ∀ p, (h p).onBinaryGrid e) : ∀ p, ((b.addOrder h n).heap p).onBinaryGrid e := by
  have hm := matchLoop_onBinaryGrid e b.symbol n ((b.opposite (h n)).length + 2)
    { heap := h, queue := b.opposite (h n), trades := [] } hh
  unfold OrderBook.addOrder OrderBook.matchOrder
  by_cases hsym : (h n).symbol ≠ b.symbol
  · rw [if_pos hsym]; exact hh
  · rw [if_neg hsym]
    simp only []
    have hopp : ({ b with orderMap := mapInsert (h n).orderId n b.orderMap } :
        OrderBook).opposite (h n) = b.opposite (h n) := rfl
    rw [hopp]
    generalize matchLoop b.symbol n ((b.opposite (h n)).length + 2)
      { heap := h, queue := b.opposite (h n), trades := [] } = r at hm ⊢
    cases hr : r.2 with
    | returned u => exact hm
    | threw err => exact hm
    | outOfFuel => exact hm

/-- The arena stays on its grid through `cancelOrder`. -/
theorem OrderBook.cancelOrder_onBinaryGrid (e : ℤ) (b : OrderBook) (h : Heap) (orderId : Int)
    (hh : ∀ p, (h p).onBinaryGrid e) : ∀ p, ((b.cancelOrder h orderId).heap p).onBinaryGrid e := by
  unfold OrderBook.cancelOrder
  cases hf : mapFind b.orderMap orderId with
  | none => exact hh
  | some q =>
    refine Heap.set_onBinaryGrid hh ?_
    obtain ⟨he, he2, a, c, ha, hc, hle, hlt⟩ := hh q
    exact ⟨he, he2, a, c, ha, hc, hle, hlt⟩

/-- A history of new orders with the arithmetic of `double` over orders on one grid is
such a history with exact arithmetic, and the arena stays on the grid. -/
theorem GridFreshReach.toFreshReach {e : ℤ} {h0 : Heap} {b : OrderBook} {h : Heap}
    {given : List Ptr} (hr : GridFreshReach e h0 b h given) :
    FreshReach h0 b h given ∧ ∀ p, (h p).onBinaryGrid e := by
  induction hr with
  | start symbol hnew hh => exact ⟨FreshReach.start symbol hnew, hh⟩
  | addOrder b h given n fuel _ hn hid hfuel ih =>
    rw [OrderBook.addOrderDouble_eq e fuel b h n ih.2 hfuel]
    exact ⟨FreshReach.addOrder b h given n ih.1 hn hid,
      OrderBook.addOrder_onBinaryGrid e b h n ih.2⟩
  | cancelOrder b h given orderId _ ih =>
    exact ⟨FreshReach.cancelOrder b h given orderId ih.1,
      OrderBook.cancelOrder_onBinaryGrid e b h orderId ih.2⟩

/-- What a successful `addFill` with the arithmetic of `double` does. -/
theorem Order.addFillDouble_ok {o o1 : Order} {q : ℚ} (h : o.addFillDouble q = .ok o1) :
    0 < q ∧ roundDouble (o.filledQuantity + q) ≤ o.quantity ∧
    o1.filledQuantity = roundDouble (o.filledQuantity + q) ∧ o.sameIdentity o1 := by
  simp only [Order.addFillDouble, Order.isComplete, ge_iff_le, decide_eq_true_eq] at h
  split_ifs at h with h1 h2 h3
  · injection h with h; subst h
    refine ⟨lt_of_not_ge h1, le_of_not_gt h2, rfl, ?_⟩
    simp [Order.sameIdentity]
  · injection h with h; subst h
    refine ⟨lt_of_not_ge h1, le_of_not_gt h2, rfl, ?_⟩
    simp [Order.sameIdentity]

/-- The two ways in which a pass with the arithmetic of `double` leads to another
evaluation of the loop condition: a terminal entry was discarded, or a trade was made. -/
theorem matchStepDouble_next {symbol : String} {n : Ptr} {s s1 : MatchState}
    (h : matchStepDouble symbol n s = .next s1) :
    ∃ best rest, s.queue = best :: rest ∧ (s.heap n).isComplete = false ∧
      ((((s.heap best).isComplete = true ∨ (s.heap best).status = .CANCELLED) ∧
          s1 = { s with queue := rest }) ∨
       ((s.heap best).isComplete = false ∧ (s.heap best).status ≠ .CANCELLED ∧
         crosses (s.heap n) (s.heap best) = true ∧
         ∃ n1 b1,
           (s.heap n).addFillDouble
             (min (s.heap n).getRemainingQuantityDouble
               (s.heap best).getRemainingQuantityDouble) = .ok n1 ∧
           ((s.heap.set n n1) best).addFillDouble
             (min (s.heap n).getRemainingQuantityDouble
               (s.heap best).getRemainingQuantityDouble) = .ok b1 ∧
           s1 =
             { heap := (s.heap.set n n1).set best b1,
               queue :=
                 if (((s.heap.set n n1).set best b1) best).isComplete then rest
                 else pqPush ((s.heap.set n n1).set best b1) best rest,
               trades := s.trades ++
                 [mkTrade symbol (((s.heap.set n n1).set best b1) n)
                   (((s.heap.set n n1).set best b1) best)
                   (min (s.heap n).getRemainingQuantityDouble
                     (s.heap best).getRemainingQuantityDouble)
                   (s.heap best).price] })) := by
  unfold matchStepDouble at h
  split at h
  · cases h
  · rename_i best rest hq
    refine ⟨best, rest, hq, ?_⟩
    simp only at h
    split_ifs at h with h1 h2 h3
    · simp only [Bool.not_eq_true] at h1
      refine ⟨h1, Or.inl ⟨?_, ?_⟩⟩
      · simpa using h2
      · injection h with h; exact h.symm
    · simp only [Bool.not_eq_true] at h1
      simp only [Bool.or_eq_true, decide_eq_true_eq, not_or, Bool.not_eq_true] at h2
      refine ⟨h1, Or.inr ⟨h2.1, h2.2, h3, ?_⟩⟩
      split at h
      · cases h
      · rename_i n1 hn1
        split at h
        · cases h
        · rename_i b1 hb1
          injection h with h
          exact ⟨n1, b1, hn1, hb1, h.symm⟩

/-- With the arithmetic of `double` too, a pass that appends a trade takes the top entry
of the queue, for the minimum of the two remaining quantities as `getRemainingQuantity`
returns them; that quantity is above 0, and the trade names the two orders. -/
theorem matchStepDouble_trade (symbol : String) (n : Ptr) (s s1 : MatchState) (t : Trade)
    (hstep : matchStepDouble symbol n s = .next s1) (htrade : s1.trades = s.trades ++ [t]) :
    ∃ r rest, s.queue = r :: rest ∧
      t.quantity = min (s.heap n).getRemainingQuantityDouble
        (s.heap r).getRemainingQuantityDouble ∧
      0 < t.quantity ∧
      (if (s.heap n).isBuy then
          t.buyOrderId = (s.heap n).orderId ∧ t.sellOrderId = (s.heap r).orderId
        else t.buyOrderId = (s.heap r).orderId ∧ t.sellOrderId = (s.heap n).orderId) := by
  obtain ⟨best, rest, hq, hinc, hcase⟩ := matchStepDouble_next hstep
  refine ⟨best, rest, hq, ?_⟩
  rcases hcase with ⟨-, hs1⟩ | ⟨-, -, -, n1, b1, hn1, hb1, hs1⟩
  · subst hs1
    simp at htrade
  · obtain ⟨hpos, -, -, hidn⟩ := Order.addFillDouble_ok hn1
    obtain ⟨-, -, -, hidb⟩ := Order.addFillDouble_ok hb1
    subst hs1
    simp only [List.append_cancel_left_eq, List.cons.injEq, and_true] at htrade
    subst htrade
    rw [mkTrade_quantity]
    refine ⟨rfl, hpos, ?_⟩
    have hbest : ((s.heap.set n n1).set best b1) best = b1 := Heap.set_same _ _ _
    have hb1id : b1.orderId = (s.heap best).orderId := by
      rw [hidb.1]
      by_cases hbn : best = n
      · rw [hbn, Heap.set_same]; exact hidn.1
      · rw [Heap.set_other _ _ _ _ hbn]
    have hnid : (((s.heap.set n n1).set best b1) n).orderId = (s.heap n).orderId ∧
        (((s.heap.set n n1).set best b1) n).side = (s.heap n).side := by
      by_cases hbn : n = best
      · rw [hbn, Heap.set_same]
        refine ⟨hb1id, ?_⟩
        rw [hidb.2.2.2.2.2.1, ← hbn, Heap.set_same]
        exact hidn.2.2.2.2.2.1
      · rw [Heap.set_other _ _ _ _ hbn, Heap.set_same]
        exact ⟨hidn.1, hidn.2.2.2.2.2.1⟩
    rw [hbest]
    have hbuy : (((s.heap.set n n1).set best b1) n).isBuy = (s.heap n).isBuy := by
      simp [Order.isBuy, hnid.2]
    unfold mkTrade
    rw [hbuy]
    split_ifs
    · exact ⟨hnid.1, hb1id⟩
    · exact ⟨hb1id, hnid.1⟩

/-- Over orders on one grid, and with at least two evaluations of the loop condition
more than the opposite queue has entries, `matchOrder` with the arithmetic of `double`
is `matchOrder` with exact arithmetic. -/
theorem OrderBook.matchOrderDouble_eq (e : ℤ) (fuel : Nat) (b : OrderBook) (h : Heap)
    (n : Ptr) (hh : ∀ p, (h p).onBinaryGrid e) (hfuel : (b.opposite (h n)).length + 2 ≤ fuel) :
    b.matchOrderDouble fuel h n = b.matchOrder h n := by
  unfold OrderBook.matchOrderDouble OrderBook.matchOrder
  rw [matchLoopDouble_eq e _ _ _ _ hh]
  obtain ⟨k, hk⟩ : ∃ k, fuel = (b.opposite (h n)).length + 2 + k :=
    ⟨fuel - ((b.opposite (h n)).length + 2), by omega⟩
  rw [hk]
  exact matchLoop_fuel_mono b.symbol n ((b.opposite (h n)).length + 2)
    { heap := h, queue := b.opposite (h n), trades := [] }
    (matchLoop_terminates _ _ _ _ (Or.inl (le_refl _))) k

/-- The sample orders with whole-number quantities below `2 ^ 52` are on the grid of
`2 ^ 0`. -/
theorem sampleOrder_onBinaryGrid (id : Int) (a : ℕ) (price : ℚ) (side : OrderSide)
    (ha : a < 2 ^ 52) : (sampleOrder id a price side).onBinaryGrid 0 :=
  Order.onBinaryGrid_of_natCast a 0 rfl (by simp [sampleOrder]) (Nat.zero_le _) ha

theorem sampleHeap_onBinaryGrid : ∀ p, (sampleHeap p).onBinaryGrid 0 := by
  intro p
  unfold sampleHeap
  split_ifs
  · exact sampleOrder_onBinaryGrid 1 30 150 .SELL (by norm_num)
  · exact sampleOrder_onBinaryGrid 2 40 151 .SELL (by norm_num)
  · exact sampleOrder_onBinaryGrid 3 50 152 .SELL (by norm_num)
  · exact sampleOrder_onBinaryGrid 4 100 155 .BUY (by norm_num)

theorem simpleMatchHeap_onBinaryGrid : ∀ p, (simpleMatchHeap p).onBinaryGrid 0 := by
  intro p
  unfold simpleMatchHeap
  split_ifs
  · exact sampleOrder_onBinaryGrid 1 100 150 .SELL (by norm_num)
  · exact sampleOrder_onBinaryGrid 2 50 150 .BUY (by norm_num)

theorem simpleMatchHeap_constructed :
    ∀ p, ∃ orderId traderId sym quantity price side type now,
      Order.new orderId traderId sym quantity price side type now = .ok (simpleMatchHeap p) := by
  intro p
  unfold simpleMatchHeap
  split_ifs
  · exact ⟨1, 101, "AAPL", 100, 150, .SELL, .LIMIT, 1, by with_unfolding_all rfl⟩
  · exact ⟨2, 102, "AAPL", 50, 150, .BUY, .LIMIT, 2, by with_unfolding_all rfl⟩

theorem dustTradeHeap_constructed :
    ∀ p, ∃ orderId traderId sym quantity price side type now,
      Order.new orderId traderId sym quantity price side type now = .ok (dustTradeHeap p) := by
  intro p
  unfold dustTradeHeap
  split_ifs
  · exact ⟨1, 101, "AAPL", 1 / 2 + 1 / 4503599627370496, 10, .SELL, .LIMIT, 1,
      by with_unfolding_all rfl⟩
  · exact ⟨2, 102, "AAPL", 10, 11, .SELL, .LIMIT, 2, by with_unfolding_all rfl⟩
  · exact ⟨3, 103, "AAPL", 3 + 1 / 2251799813685248, 20, .BUY, .LIMIT, 3,
      by with_unfolding_all rfl⟩

theorem overfillHeap_constructed :
    ∀ p, ∃ orderId traderId sym quantity price side type now,
      Order.new orderId traderId sym quantity price side type now = .ok (overfillHeap p) := by
  intro p
  unfold overfillHeap
  split_ifs
  · exact ⟨1, 101, "AAPL", 1 - 1 / 4503599627370496, 10, .SELL, .LIMIT, 1,
      by with_unfolding_all rfl⟩
  · exact ⟨2, 102, "AAPL", 10, 11, .SELL, .LIMIT, 2, by with_unfolding_all rfl⟩
  · exact ⟨3, 103, "AAPL", 3 + 1 / 2251799813685248, 20, .BUY, .LIMIT, 3,
      by with_unfolding_all rfl⟩

set_option maxRecDepth 100000 in
/-- The history of `dustTradeBuy`: three new orders, each added once. -/
theorem dustTradeBuy_reach :
    DoubleFreshReach dustTradeHeap dustTradeBuy.book dustTradeBuy.heap [3, 2, 1] := by
  have h1 := DoubleFreshReach.addOrder (OrderBook.new "AAPL") dustTradeHeap [] 1 10
    (DoubleFreshReach.start "AAPL" dustTradeHeap_constructed) (by simp)
    (fun p hp => by cases hp) (by decide)
  have h2 := DoubleFreshReach.addOrder _ _ [1] 2 10 h1 (by decide) (by
    intro p hp
    rw [List.mem_singleton.mp hp]
    with_unfolding_all decide) (by with_unfolding_all decide)
  exact DoubleFreshReach.addOrder _ _ [2, 1] 3 10 h2 (by decide) (by
    intro p hp
    simp only [List.mem_cons, List.mem_singleton, List.not_mem_nil, or_false] at hp
    rcases hp with hp | hp <;> rw [hp] <;> with_unfolding_all decide)
    (by with_unfolding_all decide)

set_option maxRecDepth 100000 in
/-- The history of `overfillBuy`: three new orders, each added once. -/
theorem overfillBuy_reach :
    DoubleFreshReach overfillHeap overfillBuy.book overfillBuy.heap [3, 2, 1] := by
  have h1 := DoubleFreshReach.addOrder (OrderBook.new "AAPL") overfillHeap [] 1 10
    (DoubleFreshReach.start "AAPL" overfillHeap_constructed) (by simp)
    (fun p hp => by cases hp) (by decide)
  have h2 := DoubleFreshReach.addOrder _ _ [1] 2 10 h1 (by decide) (by
    intro p hp
    rw [List.mem_singleton.mp hp]
    with_unfolding_all decide) (by with_unfolding_all decide)
  exact DoubleFreshReach.addOrder _ _ [2, 1] 3 10 h2 (by decide) (by
    intro p hp
    simp only [List.mem_cons, List.mem_singleton, List.not_mem_nil, or_false] at hp
    rcases hp with hp | hp <;> rw [hp] <;> with_unfolding_all decide)
    (by with_unfolding_all decide)

set_option maxRecDepth 100000 in
/-- The history of `simpleMatchBuyDouble`. -/
theorem simpleMatchBuyDouble_reach :
    GridFreshReach 0 simpleMatchHeap simpleMatchBuyDouble.book simpleMatchBuyDouble.heap
      [2, 1] := by
  have h1 := GridFreshReach.addOrder (OrderBook.new "AAPL") simpleMatchHeap [] 1 2
    (GridFreshReach.start "AAPL" simpleMatchHeap_constructed simpleMatchHeap_onBinaryGrid)
    (by simp) (fun p hp => by cases hp) (by decide)
  exact GridFreshReach.addOrder _ _ [1] 2 3 h1 (by decide) (by
    intro p hp
    rw [List.mem_singleton.mp hp]
    with_unfolding_all decide) (by with_unfolding_all decide)

set_option maxRecDepth 100000 in
/-- The claim C3 fails with the arithmetic of `double`. Two sells rest, of 1/2 + 2^-52 at
10 and of 10 at 11, and a buy of 3 + 2^-51 at 20 comes in. The sweep of the claim gives
two trades, of 1/2 + 2^-52 and of 5/2 + 2^-52. `addOrder` returns with three trades in
the log: after the first, `getRemainingQuantity` rounds 5/2 + 2^-52 to 5/2, the second
trade is made for 5/2, the filled quantity of the buy rounds to 3, and a third trade with
the same sell takes the 2^-51 that is left. -/
theorem greedy_sweep_counterexample :
    (dustTradeResting.heap 3).symbol = dustTradeResting.book.symbol ∧
    (3 :: dustTradeResting.book.opposite (dustTradeResting.heap 3)).Nodup ∧
    (greedySweep dustTradeResting.book.symbol (dustTradeResting.heap 3)
        (dustTradeResting.heap 3).getRemainingQuantity 0
        (((dustTradeResting.book.opposite (dustTradeResting.heap 3)).filter
          (fun p => (dustTradeResting.heap p).isLive)).map dustTradeResting.heap)).map
      (fun t => (t.sellOrderId, t.quantity)) =
        [(1, 1 / 2 + 1 / 4503599627370496), (2, 5 / 2 + 1 / 4503599627370496)] ∧
    dustTradeBuy.outcome = .returned () ∧
    dustTradeBuy.book.trades.map (fun t => (t.sellOrderId, t.quantity)) =
      [(1, 1 / 2 + 1 / 4503599627370496), (2, 5 / 2), (2, 1 / 2251799813685248)] := by
  refine ⟨by with_unfolding_all decide, by with_unfolding_all decide,
    by with_unfolding_all rfl, by with_unfolding_all rfl, by with_unfolding_all rfl⟩

/-- C3 (greedy sweep), for quantities on one grid. Let all orders have quantities and
filled quantities that are multiples of one power of two `2 ^ e`, below `2 ^ 52 * 2 ^ e`
(so that `double` arithmetic on them does not round), let the incoming order `n` carry
the symbol of the book and let the entries of the opposite queue be distinct objects,
none of them `n`. Write `Q` for the quantity of `n` that is still to fill and `a1 .. an`
for the live entries of the opposite queue in queue order. Then `addOrder` returns and
appends to the trade log exactly the trades of `greedySweep`: one trade per `a1 .. ak`,
in that order, where `k` is the last index up to which every `a_i` has a price that
crosses the limit of `n` and `r1 + ... + r(i-1) < Q`; trade `i` is made with `a_i`, at
the price of `a_i`, for the quantity `min r_i (Q - (r1 + ... + r(i-1)))`. -/
theorem greedy_sweep (e : ℤ) (fuel : Nat) (b : OrderBook) (h : Heap) (n : Ptr)
    (hg : ∀ p, (h p).onBinaryGrid e) (hfuel : (b.opposite (h n)).length + 2 ≤ fuel)
    (hsym : (h n).symbol = b.symbol) (hnd : (n :: b.opposite (h n)).Nodup) :
    (b.addOrderDouble fuel h n).outcome = .returned () ∧
    (b.addOrderDouble fuel h n).book.trades = b.trades ++
      greedySweep b.symbol (h n) (h n).getRemainingQuantityDouble 0
        (((b.opposite (h n)).filter (fun p => (h p).isLive)).map h) := by
  rw [OrderBook.addOrderDouble_eq e fuel b h n hg hfuel,
    (Order.onBinaryGrid_remaining (hg n)).choose_spec.2.2]
  exact OrderBook.addOrder_greedySweep b h n hsym hnd

/-- Witness of C3 on the test `MultipleMatches`: whole-number quantities, the three
resting sells are distinct objects and the incoming buy carries the symbol of the
book. -/
theorem greedy_sweep_witness :
    (sampleBook.addOrderDouble 5 sampleHeap 4).outcome = .returned () ∧
    (sampleBook.addOrderDouble 5 sampleHeap 4).book.trades = sampleBook.trades ++
      greedySweep sampleBook.symbol (sampleHeap 4) (sampleHeap 4).getRemainingQuantityDouble 0
        (((sampleBook.opposite (sampleHeap 4)).filter
          (fun p => (sampleHeap p).isLive)).map sampleHeap) :=
  greedy_sweep 0 5 sampleBook sampleHeap 4 sampleHeap_onBinaryGrid (by decide) (by decide)
    (by decide)

set_option maxRecDepth 100000 in
/-- The claim C4 fails with the arithmetic of `double`, in the second pass of the loop
for the buy of 3 + 2^-51 against the sells of 1/2 + 2^-52 and of 10. Before the pass
the buy has 1/2 + 2^-52 filled and `getRemainingQuantity` returns 5/2 (the difference
5/2 + 2^-52 rounded); the trade is made for 5/2; the filled quantity becomes 3 (the sum
3 + 2^-52 rounded), and `getRemainingQuantity` returns 2^-51 afterwards, not 0. -/
theorem trade_atomicity_counterexample :
    matchStepDouble "AAPL" 3 dustTradeStart = .next dustTradeFirst ∧
    matchStepDouble "AAPL" 3 dustTradeFirst = .next dustTradeSecond ∧
    dustTradeSecond.trades = dustTradeFirst.trades ++
      [{ buyOrderId := 3, sellOrderId := 2, buyTraderId := 103, sellTraderId := 102,
         symbol := "AAPL", quantity := 5 / 2, price := 11 }] ∧
    (dustTradeFirst.heap 3).getRemainingQuantityDouble = 5 / 2 ∧
    (dustTradeFirst.heap 2).getRemainingQuantityDouble = 10 ∧
    (dustTradeSecond.heap 3).getRemainingQuantityDouble = 1 / 2251799813685248 ∧
    (dustTradeSecond.heap 3).getRemainingQuantityDouble ≠
      (dustTradeFirst.heap 3).getRemainingQuantityDouble - 5 / 2 := by
  refine ⟨by with_unfolding_all rfl, by with_unfolding_all rfl,
    by with_unfolding_all rfl, by with_unfolding_all rfl,
    by with_unfolding_all rfl, by with_unfolding_all rfl,
    by with_unfolding_all decide⟩

/-- C4 (trade atomicity), with the arithmetic of `double`. A pass of the matching loop of
`addOrder` that appends a trade `t` takes the entry `r` on top of the opposite queue;
`t` names the incoming order `n` and `r` as its buy and sell order; and the quantity of
`t` is the minimum of the remaining quantities that `getRemainingQuantity` returns for
`n` and `r` just before the pass. When the quantities and filled quantities of all
orders are multiples of one power of two `2 ^ e`, below `2 ^ 52 * 2 ^ e`, the remaining
quantity of each of the two orders is smaller after the pass by exactly the quantity of
`t`. -/
theorem trade_atomicity (symbol : String) (n : Ptr) (s s1 : MatchState) (t : Trade)
    (hstep : matchStepDouble symbol n s = .next s1) (htrade : s1.trades = s.trades ++ [t]) :
    ∃ r rest, s.queue = r :: rest ∧
      t.quantity = min (s.heap n).getRemainingQuantityDouble
        (s.heap r).getRemainingQuantityDouble ∧
      (if (s.heap n).isBuy then
          t.buyOrderId = (s.heap n).orderId ∧ t.sellOrderId = (s.heap r).orderId
        else t.buyOrderId = (s.heap r).orderId ∧ t.sellOrderId = (s.heap n).orderId) ∧
      ∀ e, (∀ p, (s.heap p).onBinaryGrid e) →
        (s1.heap n).getRemainingQuantityDouble =
          (s.heap n).getRemainingQuantityDouble - t.quantity ∧
        (s1.heap r).getRemainingQuantityDouble =
          (s.heap r).getRemainingQuantityDouble - t.quantity := by
  obtain ⟨r, rest, hq, htq, -, hids⟩ := matchStepDouble_trade symbol n s s1 t hstep htrade
  refine ⟨r, rest, hq, htq, hids, ?_⟩
  intro e hs
  rw [matchStepDouble_eq e symbol n s hs] at hstep
  obtain ⟨r2, rest2, hq2, -, hn2, hr2, -⟩ := matchStep_trade symbol n s s1 t hstep htrade
  have hrr : r2 = r := by
    rw [hq] at hq2
    exact (List.cons.inj hq2).1.symm
  subst hrr
  have hs1 := matchStep_next_onBinaryGrid hs hstep
  rw [(Order.onBinaryGrid_remaining (hs n)).choose_spec.2.2,
    (Order.onBinaryGrid_remaining (hs r2)).choose_spec.2.2,
    (Order.onBinaryGrid_remaining (hs1 n)).choose_spec.2.2,
    (Order.onBinaryGrid_remaining (hs1 r2)).choose_spec.2.2]
  exact ⟨hn2, hr2⟩

/-- Witness of C4 on the first pass of the test `MultipleMatches`: the incoming buy
100@155 meets the resting sell 30@150; all quantities are whole numbers (the grid with
`e = 0`), and both remaining quantities go down by the 30 traded. -/
theorem trade_atomicity_witness :
    ∃ r rest, sampleStart.queue = r :: rest ∧
      (30 : ℚ) = min (sampleStart.heap 4).getRemainingQuantityDouble
        (sampleStart.heap r).getRemainingQuantityDouble ∧
      (if (sampleStart.heap 4).isBuy then
          (4 : Int) = (sampleStart.heap 4).orderId ∧ (1 : Int) = (sampleStart.heap r).orderId
        else (1 : Int) = (sampleStart.heap r).orderId ∧
          (4 : Int) = (sampleStart.heap 4).orderId) ∧
      (sampleAfterFirst.heap 4).getRemainingQuantityDouble =
        (sampleStart.heap 4).getRemainingQuantityDouble - 30 ∧
      (sampleAfterFirst.heap r).getRemainingQuantityDouble =
        (sampleStart.heap r).getRemainingQuantityDouble - 30 := by
  obtain ⟨r, rest, h1, h2, h3, h4⟩ :=
    trade_atomicity "AAPL" 4 sampleStart sampleAfterFirst
      { buyOrderId := 4, sellOrderId := 1, buyTraderId := 104, sellTraderId := 101,
        symbol := "AAPL", quantity := 30, price := 150 }
      ((matchStepDouble_eq 0 "AAPL" 4 sampleStart sampleHeap_onBinaryGrid).trans
        (by with_unfolding_all rfl))
      (by with_unfolding_all decide)
  exact ⟨r, rest, h1, h2, h3, h4 0 sampleHeap_onBinaryGrid⟩

set_option maxRecDepth 100000 in
/-- The claim C37 fails with the arithmetic of `double`. Two sells rest, of 1/2 + 2^-52
at 10 and of 10 at 11, and a buy of 3 + 2^-51 at 20 comes in: the opposite queue has two
entries and `matchOrder` returns with three trades, the second and the third with the
same sell. `addOrder` appends the three to the log. -/
theorem matching_terminates_bounded_counterexample :
    (dustTradeResting.book.opposite (dustTradeResting.heap 3)).length = 2 ∧
    (dustTradeResting.book.matchOrderDouble 10 dustTradeResting.heap 3).2 = .returned () ∧
    (dustTradeResting.book.matchOrderDouble 10 dustTradeResting.heap 3).1.trades.map
      (fun t => (t.sellOrderId, t.quantity)) =
        [(1, 1 / 2 + 1 / 4503599627370496), (2, 5 / 2), (2, 1 / 2251799813685248)] ∧
    dustTradeBuy.book.trades.length = dustTradeResting.book.trades.length + 3 := by
  refine ⟨by with_unfolding_all decide, by with_unfolding_all decide,
    by with_unfolding_all rfl, by with_unfolding_all decide⟩

set_option maxRecDepth 100000 in
/-- The claim C38 fails with the arithmetic of `double`. In the history of
`dustTradeBuy` (three new orders with distinct ids, each added once, every call
returning) the buy ends with the filled quantity 3 + 2^-51, and the three trades of the
log that name it sum to 3 + 3 * 2^-52. In the history of `overfillBuy` the last
`addOrder` throws in its second pass: the sell with the id 1 has been filled by then,
and the log, to which the trades of a call are appended after the loop, names no trade
for it. -/
theorem fills_accounted_by_log_counterexample :
    DoubleFreshReach dustTradeHeap dustTradeBuy.book dustTradeBuy.heap [3, 2, 1] ∧
    (dustTradeBuy.heap 3).filledQuantity = 3 + 1 / 2251799813685248 ∧
    tradedQuantity (dustTradeBuy.heap 3).orderId dustTradeBuy.book.trades =
      3 + 3 / 4503599627370496 ∧
    DoubleFreshReach overfillHeap overfillBuy.book overfillBuy.heap [3, 2, 1] ∧
    (overfillBuy.heap 1).filledQuantity = 1 - 1 / 4503599627370496 ∧
    (overfillBuy.heap 1).status = .FILLED ∧
    tradedQuantity (overfillBuy.heap 1).orderId overfillBuy.book.trades = 0 := by
  refine ⟨dustTradeBuy_reach, by with_unfolding_all rfl, by with_unfolding_all rfl,
    overfillBuy_reach, by with_unfolding_all rfl, by with_unfolding_all decide,
    by with_unfolding_all rfl⟩

/-- C38 (fills are accounted for by the trade log), for quantities on one grid. When the
quantities of all orders are multiples of one power of two `2 ^ e`, below
`2 ^ 52 * 2 ^ e`, then in every book state reached from the empty book through
`cancelOrder` calls and `addOrder` calls that are each given a new order with an id not
given before, the filled quantity of each order given equals the sum of the quantities
of the trades in the log of the book that name its id as buy order or as sell order. -/
theorem fills_accounted_by_log (e : ℤ) (h0 : Heap) (b : OrderBook) (h : Heap)
    (given : List Ptr) (hr : GridFreshReach e h0 b h given) (p : Ptr) (hp : p ∈ given) :
    (h p).filledQuantity = tradedQuantity (h p).orderId b.trades :=
  FreshReach.fills_logged h0 b h given hr.toFreshReach.1 p hp

set_option maxRecDepth 100000 in
/-- Witness of C38, the test `OrderBookTest.SimpleMatchBuyAgainstSell` with whole-number
quantities: the sell with the id 1 has 50 filled, the quantity of the one trade that
names it. -/
theorem fills_accounted_by_log_witness :
    (simpleMatchBuyDouble.heap 1).filledQuantity =
      tradedQuantity (simpleMatchBuyDouble.heap 1).orderId simpleMatchBuyDouble.book.trades ∧
    (simpleMatchBuyDouble.heap 1).filledQuantity = 50 :=
  ⟨fills_accounted_by_log 0 simpleMatchHeap simpleMatchBuyDouble.book
      simpleMatchBuyDouble.heap [2, 1] simpleMatchBuyDouble_reach 1 (by decide),
    by with_unfolding_all rfl⟩

theorem mem_pqPushByAddress {h : Heap} {x p : Ptr} {q : List Ptr} :
    p ∈ pqPushByAddress h x q ↔ p = x ∨ p ∈ q := by
  induction q with
  | nil => simp [pqPushByAddress]
  | cons y q ih =>
    unfold pqPushByAddress
    split_ifs
    · simp
    · simp only [List.mem_cons, ih]
      tauto

theorem pushKeepsEntries_pqPush : pushKeepsEntries pqPush :=
  fun _ _ _ _ => mem_pqPush

theorem pushKeepsEntries_pqPushByAddress : pushKeepsEntries pqPushByAddress :=
  fun _ _ _ _ => mem_pqPushByAddress

/-- A pass for members of any type is the pass for members of the type of the header,
but for the place at which a resting order that stays incomplete is pushed back; the
incoming order is complete then. -/
theorem matchStepWith_cases (push : Heap → Ptr → List Ptr → List Ptr) (symbol : String)
    (n : Ptr) (s : MatchState) :
    matchStepWith push symbol n s = matchStep symbol n s ∨
    ∃ s1 best rest, matchStep symbol n s = .next s1 ∧ s.queue = best :: rest ∧
      s1.queue = pqPush s1.heap best rest ∧ (s1.heap n).isComplete = true ∧
      matchStepWith push symbol n s = .next { s1 with queue := push s1.heap best rest } := by
  unfold matchStepWith matchStep
  cases hq : s.queue with
  | nil => exact Or.inl rfl
  | cons best rest =>
    simp only
    by_cases h1 : (s.heap n).isComplete = true
    · rw [if_pos h1, if_pos h1]; exact Or.inl rfl
    · rw [if_neg h1, if_neg h1]
      by_cases h2 : ((s.heap best).isComplete ||
          decide ((s.heap best).status = .CANCELLED)) = true
      · rw [if_pos h2, if_pos h2]; exact Or.inl rfl
      · rw [if_neg h2, if_neg h2]
        by_cases h3 : crosses (s.heap n) (s.heap best) = true
        · rw [if_pos h3, if_pos h3]
          cases hn1 : (s.heap n).addFill
              (min (s.heap n).getRemainingQuantity (s.heap best).getRemainingQuantity) with
          | error e => exact Or.inl rfl
          | ok n1 =>
            simp only
            cases hb1 : ((s.heap.set n n1) best).addFill
                (min (s.heap n).getRemainingQuantity (s.heap best).getRemainingQuantity) with
            | error e => exact Or.inl rfl
            | ok b1 =>
              simp only
              by_cases hc : (((s.heap.set n n1).set best b1) best).isComplete = true
              · rw [if_pos hc, if_pos hc]; exact Or.inl rfl
              · rw [if_neg hc, if_neg hc]
                right
                have hinc : (s.heap n).isComplete = false := by simpa using h1
                obtain ⟨hne, hb1', hhn, hhb, -⟩ := matchStep_trade_heap hinc rfl hn1 hb1
                have hbc : b1.isComplete = false := by
                  rw [hhb] at hc
                  simpa using hc
                refine ⟨_, best, rest, rfl, rfl, ?_, ?_, rfl⟩
                · rfl
                · show (((s.heap.set n n1).set best b1) n).isComplete = true
                  rw [hhn]
                  exact trade_completes rfl hn1 hb1' hbc
        · rw [if_neg h3, if_neg h3]; exact Or.inl rfl

/-- With the incoming order complete the loop ends at its first test. -/
theorem matchLoop_of_complete (symbol : String) (n : Ptr) (fuel : Nat) (s : MatchState)
    (hc : (s.heap n).isComplete = true) :
    matchLoop symbol n (fuel + 1) s = (s, .returned ()) := by
  unfold matchLoop matchStep
  cases hq : s.queue with
  | nil => rfl
  | cons best rest =>
    simp only
    rw [if_pos hc]

theorem matchLoopWith_of_complete (push : Heap → Ptr → List Ptr → List Ptr)
    (symbol : String) (n : Ptr) (fuel : Nat) (s : MatchState)
    (hc : (s.heap n).isComplete = true) :
    matchLoopWith push symbol n (fuel + 1) s = (s, .returned ()) := by
  unfold matchLoopWith matchStepWith
  cases hq : s.queue with
  | nil => rfl
  | cons best rest =>
    simp only
    rw [if_pos hc]

/-- The matching loop for members of any type that keeps its entries ends as the loop for
members of the type of the header does, with the same arena and the same trades, and
with the same entries in the queue. -/
theorem matchLoopWith_lockstep (push : Heap → Ptr → List Ptr → List Ptr)
    (hpush : pushKeepsEntries push) (symbol : String) (n : Ptr) :
    ∀ (fuel : Nat) (s : MatchState),
      (matchLoopWith push symbol n fuel s).2 = (matchLoop symbol n fuel s).2 ∧
      (matchLoopWith push symbol n fuel s).1.heap = (matchLoop symbol n fuel s).1.heap ∧
      (matchLoopWith push symbol n fuel s).1.trades = (matchLoop symbol n fuel s).1.trades ∧
      ∀ p, p ∈ (matchLoopWith push symbol n fuel s).1.queue ↔
        p ∈ (matchLoop symbol n fuel s).1.queue := by
  intro fuel
  induction fuel with
  | zero => intro s; exact ⟨rfl, rfl, rfl, fun _ => Iff.rfl⟩
  | succ k ih =>
    intro s
    rcases matchStepWith_cases push symbol n s with heq | ⟨s1, best, rest, hH, -, hq1, hc, hW⟩
    · unfold matchLoopWith matchLoop
      rw [heq]
      cases matchStep symbol n s with
      | exit s1 => exact ⟨rfl, rfl, rfl, fun _ => Iff.rfl⟩
      | threw s1 e => exact ⟨rfl, rfl, rfl, fun _ => Iff.rfl⟩
      | next s1 => exact ih s1
    · have hWl : matchLoopWith push symbol n (k + 1) s =
          matchLoopWith push symbol n k { s1 with queue := push s1.heap best rest } := by
        conv_lhs => unfold matchLoopWith
        rw [hW]
      have hHl : matchLoop symbol n (k + 1) s = matchLoop symbol n k s1 := by
        conv_lhs => unfold matchLoop
        rw [hH]
      rw [hWl, hHl]
      have hmem : ∀ p, p ∈ push s1.heap best rest ↔ p ∈ s1.queue := by
        intro p
        rw [hq1, hpush, mem_pqPush]
      cases k with
      | zero => exact ⟨rfl, rfl, rfl, hmem⟩
      | succ j =>
        rw [matchLoopWith_of_complete push symbol n j
            { s1 with queue := push s1.heap best rest } hc,
          matchLoop_of_complete symbol n j s1 hc]
        exact ⟨rfl, rfl, rfl, hmem⟩

theorem OrderBook.removeCompletedOrdersWith_trades
    (scratch : Heap → Ptr → List Ptr → List Ptr) (b : OrderBook) (h : Heap) :
    (OrderBook.removeCompletedOrdersWith scratch b h).trades = b.trades := rfl

theorem OrderBook.removeCompletedOrdersWith_symbol
    (scratch : Heap → Ptr → List Ptr → List Ptr) (b : OrderBook) (h : Heap) :
    (OrderBook.removeCompletedOrdersWith scratch b h).symbol = b.symbol := rfl

theorem OrderBook.opposite_removeCompletedOrdersWith
    (scratch : Heap → Ptr → List Ptr → List Ptr) (b : OrderBook) (h : Heap) (o : Order) :
    ∃ m, (OrderBook.removeCompletedOrdersWith scratch b h).opposite o =
      (OrderBook.purgeQueueWith scratch h (b.opposite o) ([], m)).1 := by
  unfold OrderBook.removeCompletedOrdersWith OrderBook.opposite
  by_cases hb : o.isBuy = true
  · simp only [hb, if_true]
    exact ⟨_, rfl⟩
  · simp only [hb]
    exact ⟨_, rfl⟩

/-- `addOrder` for members of any type that keeps its entries, and scratch queues of any
type, ends as `addOrder` for queues of the type of the header does, with the same arena
and the same trade log, for the same symbol. -/
theorem OrderBook.addOrderWith_lockstep (push scratch : Heap → Ptr → List Ptr → List Ptr)
    (hpush : pushKeepsEntries push) (b : OrderBook) (h : Heap) (n : Ptr) :
    (b.addOrderWith push scratch h n).outcome = (b.addOrder h n).outcome ∧
    (b.addOrderWith push scratch h n).heap = (b.addOrder h n).heap ∧
    (b.addOrderWith push scratch h n).book.trades = (b.addOrder h n).book.trades ∧
    (b.addOrderWith push scratch h n).book.symbol = b.symbol := by
  obtain ⟨h1, h2, h3, -⟩ := matchLoopWith_lockstep push hpush b.symbol n
    ((b.opposite (h n)).length + 2) { heap := h, queue := b.opposite (h n), trades := [] }
  unfold OrderBook.addOrderWith OrderBook.addOrder OrderBook.matchOrderWith
    OrderBook.matchOrder
  by_cases hsym : (h n).symbol ≠ b.symbol
  · rw [if_pos hsym, if_pos hsym]
    exact ⟨rfl, rfl, rfl, rfl⟩
  · rw [if_neg hsym, if_neg hsym]
    simp only []
    have e1 : ({ b with orderMap := mapInsert (h n).orderId n b.orderMap } :
        OrderBook).opposite (h n) = b.opposite (h n) := rfl
    rw [e1]
    generalize matchLoopWith push b.symbol n ((b.opposite (h n)).length + 2)
      { heap := h, queue := b.opposite (h n), trades := [] } = rW at h1 h2 h3 ⊢
    generalize matchLoop b.symbol n ((b.opposite (h n)).length + 2)
      { heap := h, queue := b.opposite (h n), trades := [] } = rH at h1 h2 h3 ⊢
    obtain ⟨sW, oW⟩ := rW
    obtain ⟨sH, oH⟩ := rH
    simp only at h1 h2 h3 ⊢
    subst h1
    cases oW with
    | threw e =>
      simp only [OrderBook.setOpposite_trades, OrderBook.setOpposite_symbol]
      exact ⟨trivial, h2, trivial, trivial⟩
    | outOfFuel =>
      simp only [OrderBook.setOpposite_trades, OrderBook.setOpposite_symbol]
      exact ⟨trivial, h2, trivial, trivial⟩
    | returned u =>
      simp only [OrderBook.removeCompletedOrdersWith_trades,
        OrderBook.removeCompletedOrders_trades, OrderBook.removeCompletedOrdersWith_symbol]
      refine ⟨trivial, h2, ?_, ?_⟩
      · rw [h2, h3]
        simp only [OrderBook.setOpposite_trades]
        split_ifs <;> rfl
      · split_ifs <;> simp only [OrderBook.setOpposite_symbol]

/-- The opposite queue after `addOrder` has returned with the incoming order complete:
the rebuild of a queue that holds the entries that the loop for members of the type
of the header leaves. -/
theorem OrderBook.addOrderWith_opposite (push scratch : Heap → Ptr → List Ptr → List Ptr)
    (hpush : pushKeepsEntries push) (b : OrderBook) (h : Heap) (n : Ptr)
    (hsym : (h n).symbol = b.symbol) (hret : (b.matchOrder h n).2 = .returned ())
    (hc : ((b.matchOrder h n).1.heap n).isComplete = true) :
    ∃ qW m, (∀ p, p ∈ qW ↔ p ∈ (b.matchOrder h n).1.queue) ∧
      (b.addOrderWith push scratch h n).book.opposite (h n) =
        (OrderBook.purgeQueueWith scratch (b.matchOrder h n).1.heap qW ([], m)).1 := by
  obtain ⟨h1, h2, -, h4⟩ := matchLoopWith_lockstep push hpush b.symbol n
    ((b.opposite (h n)).length + 2) { heap := h, queue := b.opposite (h n), trades := [] }
  unfold OrderBook.matchOrder at hret hc ⊢
  unfold OrderBook.addOrderWith OrderBook.matchOrderWith
  rw [if_neg (by simpa using hsym)]
  simp only []
  have e1 : ({ b with orderMap := mapInsert (h n).orderId n b.orderMap } :
      OrderBook).opposite (h n) = b.opposite (h n) := rfl
  rw [e1]
  generalize matchLoopWith push b.symbol n ((b.opposite (h n)).length + 2)
    { heap := h, queue := b.opposite (h n), trades := [] } = rW at h1 h2 h4 ⊢
  generalize matchLoop b.symbol n ((b.opposite (h n)).length + 2)
    { heap := h, queue := b.opposite (h n), trades := [] } = rH at h1 h2 h4 hret hc ⊢
  obtain ⟨sW, oW⟩ := rW
  obtain ⟨sH, oH⟩ := rH
  simp only at h1 h2 h4 hret hc ⊢
  subst h1
  subst hret
  rw [← h2] at hc ⊢
  simp only []
  rw [if_neg (by rw [hc]; simp)]
  obtain ⟨m, hm⟩ := OrderBook.opposite_removeCompletedOrdersWith scratch
    { (({ b with orderMap := mapInsert (h n).orderId n b.orderMap } : OrderBook).setOpposite
          (h n) sW.queue) with
      trades := (({ b with orderMap := mapInsert (h n).orderId n b.orderMap } :
        OrderBook).setOpposite (h n) sW.queue).trades ++ sW.trades } sW.heap (h n)
  refine ⟨sW.queue, m, h4, ?_⟩
  rw [hm]
  have hopp : OrderBook.opposite
      { (({ b with orderMap := mapInsert (h n).orderId n b.orderMap } : OrderBook).setOpposite
            (h n) sW.queue) with
        trades := (({ b with orderMap := mapInsert (h n).orderId n b.orderMap } :
          OrderBook).setOpposite (h n) sW.queue).trades ++ sW.trades } (h n) = sW.queue :=
    OrderBook.opposite_setOpposite _ (h n) sW.queue
  rw [hopp]

/-- The loop returns when the incoming order is not in the queue it is matched
against. -/
theorem matchLoop_returns_of_not_mem (symbol : String) (n : Ptr) (s : MatchState)
    (hn : n ∉ s.queue) :
    (matchLoop symbol n (s.queue.length + 2) s).2 = .returned () := by
  have h1 := matchLoop_no_throw symbol n (s.queue.length + 2) s hn
  have h2 := matchLoop_terminates symbol n (s.queue.length + 2) s (Or.inl le_rfl)
  cases hout : (matchLoop symbol n (s.queue.length + 2) s).2 with
  | returned u => rfl
  | threw e => exact absurd hout (h1 e)
  | outOfFuel => exact absurd hout h2

/-- The fate of a resting order in the matching loop when the queue is in the order of
the addresses: nothing has happened to it; or it is complete; or the incoming order is
complete and the resting order, partially filled, is in the queue, and no entry of the
queue has a greater address. -/
theorem matchLoop_fateByAddress (symbol : String) (n r : Ptr) (h : Heap) (q0 : List Ptr)
    (fuel : Nat) (hsorted : q0.Pairwise (fun x y => y ≤ x)) (hn : n ∉ q0) (hrn : r ≠ n) :
    ((matchLoop symbol n fuel { heap := h, queue := q0, trades := [] }).1.heap r = h r) ∨
    ((matchLoop symbol n fuel { heap := h, queue := q0, trades := [] }).1.heap r).isComplete
      = true ∨
    (((matchLoop symbol n fuel { heap := h, queue := q0, trades := [] }).1.heap n).isComplete
        = true ∧
      ((matchLoop symbol n fuel { heap := h, queue := q0, trades := [] }).1.heap r).status
        = .PARTIALLY_FILLED ∧
      r ∈ (matchLoop symbol n fuel { heap := h, queue := q0, trades := [] }).1.queue ∧
      ∀ y ∈ (matchLoop symbol n fuel { heap := h, queue := q0, trades := [] }).1.queue,
        y ≤ r) := by
  have key := matchLoop_invariant symbol n
    (fun s => ((s.heap n).isComplete = false → s.queue.Pairwise (fun x y => y ≤ x)) ∧
      (∀ y ∈ s.queue, y ∈ q0) ∧
      (s.heap r = h r ∨ (s.heap r).isComplete = true ∨
        ((s.heap n).isComplete = true ∧ (s.heap r).status = .PARTIALLY_FILLED ∧
          r ∈ s.queue ∧ ∀ y ∈ s.queue, y ≤ r))) ?_ ?_ fuel
    { heap := h, queue := q0, trades := [] } ⟨fun _ => hsorted, fun y hy => hy, Or.inl rfl⟩
  · exact key.2.2
  · intro s s1 ⟨hsort, hsub, hfate⟩ hstep
    have hsub1 : ∀ y ∈ s1.queue, y ∈ q0 :=
      fun p hp => hsub p (matchStep_next_queue hstep p hp)
    obtain ⟨best, rest, hq, hinc, hcase⟩ := matchStep_next hstep
    have hsq := hsort hinc
    rw [hq] at hsq
    rcases hcase with ⟨-, hs1⟩ | ⟨hbinc, -, -, n1, b1, hn1, hb1, hs1⟩
    · subst hs1
      refine ⟨fun _ => (List.pairwise_cons.mp hsq).2, hsub1, ?_⟩
      rcases hfate with h1 | h2 | ⟨hc, -⟩
      · exact Or.inl h1
      · exact Or.inr (Or.inl h2)
      · rw [hinc] at hc; cases hc
    · obtain ⟨hne, hb1', hhn, hhb, hoth⟩ := matchStep_trade_heap hinc rfl hn1 hb1
      subst hs1
      refine ⟨?_, hsub1, ?_⟩
      · intro hnc
        have hnc1 : n1.isComplete = false := by
          have : (((s.heap.set n n1).set best b1) n).isComplete = false := hnc
          rwa [hhn] at this
        have hbc : b1.isComplete = true := by
          by_contra hb
          have hb0 : b1.isComplete = false := by simpa using hb
          rw [trade_completes rfl hn1 hb1' hb0] at hnc1
          cases hnc1
        show (if (((s.heap.set n n1).set best b1) best).isComplete = true then rest
          else pqPush ((s.heap.set n n1).set best b1) best rest).Pairwise _
        rw [hhb, if_pos hbc]
        exact (List.pairwise_cons.mp hsq).2
      · by_cases hbr : best = r
        · subst hbr
          by_cases hcomp : b1.isComplete = true
          · right; left
            show (((s.heap.set n n1).set best b1) best).isComplete = true
            rw [hhb]; exact hcomp
          · have hcomp1 : b1.isComplete = false := by simpa using hcomp
            right; right
            have hqueue : (if (((s.heap.set n n1).set best b1) best).isComplete = true then rest
                else pqPush ((s.heap.set n n1).set best b1) best rest) =
                pqPush ((s.heap.set n n1).set best b1) best rest := by
              rw [hhb, if_neg hcomp]
            refine ⟨?_, ?_, ?_, ?_⟩
            · show (((s.heap.set n n1).set best b1) n).isComplete = true
              rw [hhn]
              exact trade_completes rfl hn1 hb1' hcomp1
            · show (((s.heap.set n n1).set best b1) best).status = .PARTIALLY_FILLED
              rw [hhb]
              obtain ⟨-, -, hf, hidb, hst⟩ := Order.addFill_ok hb1'
              rw [hst]
              rw [Order.isComplete_false_iff, hf, hidb.2.2.2.1] at hcomp1
              rw [if_neg (not_le.mpr hcomp1)]
            · show best ∈ (if (((s.heap.set n n1).set best b1) best).isComplete = true then rest
                else pqPush ((s.heap.set n n1).set best b1) best rest)
              rw [hqueue]
              exact mem_pqPush.mpr (Or.inl rfl)
            · intro y hy
              have hy1 : y ∈ pqPush ((s.heap.set n n1).set best b1) best rest := by
                rw [← hqueue]; exact hy
              rcases mem_pqPush.mp hy1 with heq | hmem
              · rw [heq]
              · exact (List.pairwise_cons.mp hsq).1 y hmem
        · have hr1 : ((s.heap.set n n1).set best b1) r = s.heap r :=
            hoth r hrn (Ne.symm hbr)
          rcases hfate with h1 | h2 | ⟨hc, -⟩
          · left
            show ((s.heap.set n n1).set best b1) r = h r
            rw [hr1, h1]
          · right; left
            show (((s.heap.set n n1).set best b1) r).isComplete = true
            rw [hr1]; exact h2
          · rw [hinc] at hc; cases hc
  · intro s s1 e ⟨_, hsub, _⟩ hstep
    obtain ⟨rest, hq⟩ := matchStep_threw_alias hstep
    exact absurd (hsub n (by rw [hq]; exact List.mem_cons_self _ _)) hn

/-- A push by address leaves the top entry where it is when the new entry does not have
a greater address. -/
theorem pqPushByAddress_keeps_head (h : Heap) (r y : Ptr) (acc : List Ptr) (hy : y ≤ r) :
    pqPushByAddress h y (r :: acc) = r :: pqPushByAddress h y acc := by
  conv_lhs => unfold pqPushByAddress
  rw [if_neg (not_lt.mpr hy)]

/-- A push by address puts the new entry on top when no entry has a greater address. -/
theorem pqPushByAddress_head (h : Heap) (r : Ptr) (acc : List Ptr)
    (hacc : ∀ y ∈ acc, y ≤ r) : ∃ rest, pqPushByAddress h r acc = r :: rest := by
  cases acc with
  | nil => exact ⟨[], rfl⟩
  | cons y q =>
    unfold pqPushByAddress
    by_cases hlt : y < r
    · rw [if_pos hlt]; exact ⟨_, rfl⟩
    · rw [if_neg hlt]
      have hyr : y = r := le_antisymm (hacc y (List.mem_cons_self _ _)) (not_lt.mp hlt)
      rw [hyr]
      exact ⟨_, rfl⟩

theorem purgeByAddress_keeps_head (h : Heap) (r : Ptr) :
    ∀ (q acc : List Ptr) (m : List (Int × Ptr)), (∀ y ∈ q, y ≤ r) →
      ∃ rest, (OrderBook.purgeQueueWith pqPushByAddress h q (r :: acc, m)).1 = r :: rest := by
  intro q
  induction q with
  | nil => intro acc m _; exact ⟨acc, rfl⟩
  | cons y q ih =>
    intro acc m hq
    have hy : y ≤ r := hq y (List.mem_cons_self _ _)
    have hq1 : ∀ z ∈ q, z ≤ r := fun z hz => hq z (List.mem_cons_of_mem _ hz)
    unfold OrderBook.purgeQueueWith
    split_ifs
    · rw [pqPushByAddress_keeps_head h r y acc hy]
      exact ih _ _ hq1
    · exact ih _ _ hq1

/-- The rebuild by address of a queue puts on top a live entry than which no entry has a
greater address. -/
theorem purgeByAddress_head (h : Heap) (r : Ptr) (hlive : (h r).isLive = true) :
    ∀ (q acc : List Ptr) (m : List (Int × Ptr)), r ∈ q → (∀ y ∈ q, y ≤ r) →
      (∀ y ∈ acc, y ≤ r) →
      ∃ rest, (OrderBook.purgeQueueWith pqPushByAddress h q (acc, m)).1 = r :: rest := by
  intro q
  induction q with
  | nil => intro acc m hr; cases hr
  | cons y q ih =>
    intro acc m hr hq hacc
    have hq1 : ∀ z ∈ q, z ≤ r := fun z hz => hq z (List.mem_cons_of_mem _ hz)
    unfold OrderBook.purgeQueueWith
    by_cases hyr : y = r
    · subst hyr
      unfold Order.isLive at hlive
      rw [if_pos hlive]
      obtain ⟨rest, hrest⟩ := pqPushByAddress_head h y acc hacc
      rw [hrest]
      exact purgeByAddress_keeps_head h y q rest m hq1
    · have hrq : r ∈ q := by
        rcases List.mem_cons.mp hr with h1 | h1
        · exact absurd h1.symm hyr
        · exact h1
      split_ifs
      · refine ih _ _ hrq hq1 ?_
        intro z hz
        rcases mem_pqPushByAddress.mp hz with h1 | h1
        · rw [h1]; exact hq y (List.mem_cons_self _ _)
        · exact hacc z h1
      · exact ih _ _ hrq hq1 hacc

theorem mem_purgeQueueWith (scratch : Heap → Ptr → List Ptr → List Ptr)
    (hscratch : pushKeepsEntries scratch) (h : Heap) (p : Ptr) :
    ∀ (q acc : List Ptr) (m : List (Int × Ptr)),
      p ∈ (OrderBook.purgeQueueWith scratch h q (acc, m)).1 → p ∈ acc ∨ p ∈ q := by
  intro q
  induction q with
  | nil => intro acc m hp; exact Or.inl hp
  | cons y q ih =>
    intro acc m hp
    unfold OrderBook.purgeQueueWith at hp
    split_ifs at hp
    · rcases ih _ _ hp with h1 | h1
      · rcases (hscratch _ _ _ _).mp h1 with h2 | h2
        · exact Or.inr (h2 ▸ List.mem_cons_self _ _)
        · exact Or.inl h2
      · exact Or.inr (List.mem_cons_of_mem _ h1)
    · rcases ih _ _ hp with h1 | h1
      · exact Or.inl h1
      · exact Or.inr (List.mem_cons_of_mem _ h1)

/-- The first trade of the matching loop is made with the top entry of the queue, when
that entry is live and is not the incoming order, and the incoming order, not yet
complete, crosses its price. -/
theorem matchLoop_first_trade (symbol : String) (m r : Ptr) (rest : List Ptr) (h : Heap)
    (fuel : Nat) (hrm : r ≠ m) (hm : (h m).isComplete = false)
    (hlive : (h r).isLive = true) (hcross : crosses (h m) (h r) = true) :
    ∃ t ts, (matchLoop symbol m (fuel + 1)
        { heap := h, queue := r :: rest, trades := [] }).1.trades = t :: ts ∧
      t.price = (h r).price ∧
      t.quantity = min (h m).getRemainingQuantity (h r).getRemainingQuantity ∧
      (if (h m).isBuy then t.buyOrderId = (h m).orderId ∧ t.sellOrderId = (h r).orderId
        else t.buyOrderId = (h r).orderId ∧ t.sellOrderId = (h m).orderId) := by
  obtain ⟨hrc, hrs⟩ := (Order.isLive_iff _).mp hlive
  have hfirst : ∃ s1 t, matchStep symbol m
        { heap := h, queue := r :: rest, trades := [] } = .next s1 ∧
      s1.trades = [t] ∧ t.price = (h r).price ∧
      t.quantity = min (h m).getRemainingQuantity (h r).getRemainingQuantity ∧
      (if (h m).isBuy then t.buyOrderId = (h m).orderId ∧ t.sellOrderId = (h r).orderId
        else t.buyOrderId = (h r).orderId ∧ t.sellOrderId = (h m).orderId) := by
    cases hstep : matchStep symbol m
        { heap := h, queue := r :: rest, trades := [] } with
    | exit s1 =>
      exfalso
      have hs1 := matchStep_exit hstep
      subst hs1
      rcases matchStep_exit_cases hstep with h1 | h1 | ⟨best, rest1, h1, -, h3⟩
      · cases h1
      · simp only at h1
        rw [hm] at h1
        cases h1
      · simp only [List.cons.injEq] at h1
        obtain ⟨h1, -⟩ := h1
        subst h1
        simp only at h3
        rw [hcross] at h3
        cases h3
    | threw s1 e =>
      exfalso
      obtain ⟨rest1, h1⟩ := matchStep_threw_alias hstep
      simp only [List.cons.injEq] at h1
      exact hrm h1.1
    | next s1 =>
      obtain ⟨best, rest1, h1, -, hcase⟩ := matchStep_next hstep
      simp only [List.cons.injEq] at h1
      obtain ⟨h1, -⟩ := h1
      subst h1
      rcases hcase with ⟨hbad, -⟩ | ⟨-, -, -, n1, b1, -, -, hs1⟩
      · exfalso
        simp only at hbad
        rcases hbad with hbad | hbad
        · rw [hrc] at hbad; cases hbad
        · exact hrs hbad
      · have htr : s1.trades = ([] : List Trade) ++
            [mkTrade symbol (((h.set m n1).set r b1) m) (((h.set m n1).set r b1) r)
              (min (h m).getRemainingQuantity (h r).getRemainingQuantity) (h r).price] := by
          rw [hs1]
        obtain ⟨r1, rest2, h1, hqty, -, -, hids⟩ :=
          matchStep_trade symbol m _ s1 _ hstep htr
        simp only [List.cons.injEq] at h1
        obtain ⟨h1, -⟩ := h1
        subst h1
        exact ⟨s1, _, rfl, by rw [htr]; rfl, mkTrade_price _ _ _ _ _, hqty, hids⟩
  obtain ⟨s1, t, hstep, htr, hprice, hqty, hids⟩ := hfirst
  have hloop : matchLoop symbol m (fuel + 1)
        { heap := h, queue := r :: rest, trades := [] } =
      matchLoop symbol m fuel s1 := by
    conv_lhs => unfold matchLoop
    simp only [hstep]
  obtain ⟨ts, hts⟩ := matchLoop_trades_extend symbol m fuel s1
  rw [← hloop, htr] at hts
  exact ⟨t, ts, hts, hprice, hqty, hids⟩

theorem OrderBook.wellFormedByAddress_opposite {b : OrderBook} {h : Heap}
    (hwf : b.wellFormedByAddress h) (o : Order) :
    queueByAddress h (oppositeSide o) (b.opposite o) := by
  unfold oppositeSide OrderBook.opposite
  split_ifs
  · exact hwf.2
  · exact hwf.1

/-- An order is not of the side opposite to its own. -/
theorem oppositeSide_ne (o : Order) : o.side ≠ oppositeSide o := by
  unfold oppositeSide Order.isBuy
  by_cases hb : o.side = .BUY
  · simp [hb]
  · simp only [hb, decide_False, Bool.false_eq_true, if_false]
    exact hb

/-- The first trade of `addOrder` is made with the top entry of the opposite queue, when
that entry is live, the incoming order is not in that queue and, not yet complete,
crosses its price. -/
theorem OrderBook.addOrder_first_trade_of_not_mem (b : OrderBook) (h : Heap) (m r : Ptr)
    (rest : List Ptr) (hsym : (h m).symbol = b.symbol)
    (hq : b.opposite (h m) = r :: rest) (hnm : m ∉ r :: rest)
    (hm : (h m).isComplete = false) (hlive : (h r).isLive = true)
    (hcross : crosses (h m) (h r) = true) :
    ∃ t ts, (b.addOrder h m).book.trades = b.trades ++ t :: ts ∧
      t.price = (h r).price ∧
      t.quantity = min (h m).getRemainingQuantity (h r).getRemainingQuantity ∧
      (if (h m).isBuy then t.buyOrderId = (h m).orderId ∧ t.sellOrderId = (h r).orderId
        else t.buyOrderId = (h r).orderId ∧ t.sellOrderId = (h m).orderId) := by
  have hrm : r ≠ m := fun hc => hnm (hc ▸ List.mem_cons_self _ _)
  have hret := matchLoop_returns_of_not_mem b.symbol m
    { heap := h, queue := b.opposite (h m), trades := [] } (by rw [hq]; exact hnm)
  obtain ⟨t, ts, hts, hprice, hqty, hids⟩ :=
    matchLoop_first_trade b.symbol m r rest h (rest.length + 2) hrm hm hlive hcross
  have hloop : matchLoop b.symbol m ((b.opposite (h m)).length + 2)
      { heap := h, queue := b.opposite (h m), trades := [] } =
      matchLoop b.symbol m (rest.length + 2 + 1)
        { heap := h, queue := r :: rest, trades := [] } := by
    rw [hq]
    rfl
  simp only at hret
  rw [hloop] at hret
  generalize hS : matchLoop b.symbol m (rest.length + 2 + 1)
    { heap := h, queue := r :: rest, trades := [] } = S at hret hts hloop
  obtain ⟨s, out⟩ := S
  simp only at hret hts
  subst hret
  have hadd := OrderBook.addOrder_of_returned b h m s hsym hloop
  refine ⟨t, ts, ?_, hprice, hqty, hids⟩
  rw [hadd]
  simp only [OrderBook.removeCompletedOrders_trades]
  rw [hts]
  split_ifs <;> rfl

/-- With scratch queues that compare addresses, and members of any type that keeps its
entries: when `addOrder` has filled a part of a resting order, the order keeps its price
and timestamp, is on top of its queue afterwards, and the next incoming order of the
side of the first that crosses its price makes its first trade with it. -/
theorem OrderBook.partial_fill_by_address (push : Heap → Ptr → List Ptr → List Ptr)
    (hpush : pushKeepsEntries push) (b : OrderBook) (h : Heap) (n r m : Ptr)
    (hwf : b.wellFormedByAddress h) (hr : r ∈ b.opposite (h n))
    (hfill : (h r).filledQuantity <
      ((b.addOrderWith push pqPushByAddress h n).heap r).filledQuantity)
    (hpart : ((b.addOrderWith push pqPushByAddress h n).heap r).isComplete = false)
    (hmside : ((b.addOrderWith push pqPushByAddress h n).heap m).side = (h n).side)
    (hmsym : ((b.addOrderWith push pqPushByAddress h n).heap m).symbol = b.symbol)
    (hmlive : ((b.addOrderWith push pqPushByAddress h n).heap m).isComplete = false)
    (hmcross : crosses ((b.addOrderWith push pqPushByAddress h n).heap m)
      ((b.addOrderWith push pqPushByAddress h n).heap r) = true) :
    ((b.addOrderWith push pqPushByAddress h n).heap r).price = (h r).price ∧
    ((b.addOrderWith push pqPushByAddress h n).heap r).timestamp = (h r).timestamp ∧
    r ∈ (b.addOrderWith push pqPushByAddress h n).book.opposite (h n) ∧
    ∃ t ts, ((b.addOrderWith push pqPushByAddress h n).book.addOrderWith push
          pqPushByAddress (b.addOrderWith push pqPushByAddress h n).heap m).book.trades =
        (b.addOrderWith push pqPushByAddress h n).book.trades ++ t :: ts ∧
      t.price = (h r).price ∧
      t.quantity = min ((b.addOrderWith push pqPushByAddress h n).heap m).getRemainingQuantity
        ((b.addOrderWith push pqPushByAddress h n).heap r).getRemainingQuantity ∧
      (if (h n).isBuy then t.sellOrderId = (h r).orderId
        else t.buyOrderId = (h r).orderId) := by
  obtain ⟨-, hheap, -, hbsym⟩ :=
    OrderBook.addOrderWith_lockstep push pqPushByAddress hpush b h n
  have hid := OrderBook.addOrder_sameIdentity b h n
  rw [← hheap] at hid
  have hsym : (h n).symbol = b.symbol := by
    by_contra hc
    have hh : (b.addOrder h n).heap = h := by
      unfold OrderBook.addOrder
      rw [if_pos hc]
    rw [hheap, hh] at hfill
    exact lt_irrefl _ hfill
  have hq0 := OrderBook.wellFormedByAddress_opposite hwf (h n)
  have hn : n ∉ b.opposite (h n) := fun hc => oppositeSide_ne (h n) (hq0.1 n hc)
  have hrn : r ≠ n := fun hc => hn (hc ▸ hr)
  have hout := matchLoop_returns_of_not_mem b.symbol n
    { heap := h, queue := b.opposite (h n), trades := [] } hn
  have hfate := matchLoop_fateByAddress b.symbol n r h (b.opposite (h n))
    ((b.opposite (h n)).length + 2) hq0.2 hn hrn
  have hsub := matchLoop_queue_subset b.symbol n ((b.opposite (h n)).length + 2)
    { heap := h, queue := b.opposite (h n), trades := [] }
  have hopp := OrderBook.addOrderWith_opposite push pqPushByAddress hpush b h n hsym
  unfold OrderBook.matchOrder at hopp
  simp only at hout hsub
  generalize hS : matchLoop b.symbol n ((b.opposite (h n)).length + 2)
    { heap := h, queue := b.opposite (h n), trades := [] } = S at hout hfate hsub hopp
  obtain ⟨s, out⟩ := S
  simp only at hout hfate hsub hopp
  subst hout
  have hadd := OrderBook.addOrder_of_returned b h n s hsym hS
  have hheap1 : (b.addOrderWith push pqPushByAddress h n).heap = s.heap := by
    rw [hheap, hadd]
  rw [hheap1] at hfill hpart
  rcases hfate with h1 | h2 | ⟨hc, hst, hrq, hle⟩
  · rw [h1] at hfill
    exact absurd hfill (lt_irrefl _)
  · rw [h2] at hpart
    cases hpart
  · have hlive : (s.heap r).isLive = true := by
      rw [Order.isLive_iff]
      exact ⟨hpart, by rw [hst]; decide⟩
    obtain ⟨qW, mp, hmem, hoppeq⟩ := hopp rfl hc
    obtain ⟨rest1, hrest1⟩ := purgeByAddress_head s.heap r hlive qW [] mp
      ((hmem r).mpr hrq) (fun y hy => hle y ((hmem y).mp hy)) (fun y hy => by cases hy)
    have hhead : (b.addOrderWith push pqPushByAddress h n).book.opposite (h n) =
        r :: rest1 := by
      rw [hoppeq, hrest1]
    have hmemq0 : ∀ p ∈ r :: rest1, p ∈ b.opposite (h n) := by
      intro p hp
      rw [← hrest1] at hp
      rcases mem_purgeQueueWith pqPushByAddress pushKeepsEntries_pqPushByAddress
        s.heap p qW [] mp hp with h1 | h1
      · cases h1
      · exact hsub p ((hmem p).mp h1)
    have hbuy : ((b.addOrderWith push pqPushByAddress h n).heap m).isBuy = (h n).isBuy := by
      unfold Order.isBuy
      rw [hmside]
    have hopp2 : (b.addOrderWith push pqPushByAddress h n).book.opposite
        ((b.addOrderWith push pqPushByAddress h n).heap m) = r :: rest1 := by
      rw [← hhead]
      unfold OrderBook.opposite
      rw [hbuy]
    have hnm : m ∉ r :: rest1 := by
      intro hc2
      have h1 : (h m).side = oppositeSide (h n) := hq0.1 m (hmemq0 m hc2)
      have h2 : ((b.addOrderWith push pqPushByAddress h n).heap m).side = (h m).side :=
        (hid m).2.2.2.2.2.1
      rw [h2, h1] at hmside
      exact oppositeSide_ne (h n) hmside.symm
    have hlive2 : ((b.addOrderWith push pqPushByAddress h n).heap r).isLive = true := by
      rw [hheap1]; exact hlive
    obtain ⟨t, ts, htrades, hprice, hqty, hids⟩ :=
      OrderBook.addOrder_first_trade_of_not_mem
        (b.addOrderWith push pqPushByAddress h n).book
        (b.addOrderWith push pqPushByAddress h n).heap m r rest1
        (by rw [hmsym, hbsym]) hopp2 hnm hmlive hlive2 hmcross
    obtain ⟨-, -, htr2, -⟩ := OrderBook.addOrderWith_lockstep push pqPushByAddress hpush
      (b.addOrderWith push pqPushByAddress h n).book
      (b.addOrderWith push pqPushByAddress h n).heap m
    refine ⟨(hid r).2.2.2.2.1, (hid r).2.2.2.2.2.2.2, ?_, t, ts, ?_, ?_, hqty, ?_⟩
    · rw [hhead]; exact List.mem_cons_self _ _
    · rw [htr2]; exact htrades
    · rw [hprice]; exact (hid r).2.2.2.2.1
    · rw [hbuy] at hids
      rw [← (hid r).1]
      split_ifs at hids ⊢
      · exact hids.2
      · exact hids.1

/-- C30, amended, for each typing of the queues: the members and the scratch queues of
`removeCompletedOrders` with the comparator of `OrderBook.hpp`, or the scratch queues
ordered by address as `OrderBook.cpp` declares them (the members with either type). Let
the queues of the book be in the order of their type and let `addOrder` of an order `n`
leave a resting order `r` of the opposite queue partially filled, where no other entry
of that queue has both the price and the timestamp of `r`. Then `r` keeps its price and
its timestamp and stays in its queue, and the next incoming order `m` of the side of `n`
that is not complete and crosses the price of `r` makes its first trade with `r`, at the
price of `r`. -/
theorem partial_fill_keeps_priority (push scratch : Heap → Ptr → List Ptr → List Ptr)
    (b : OrderBook) (h : Heap) (n r m : Ptr)
    (htype : (push = pqPush ∧ scratch = pqPush ∧ b.wellFormed h) ∨
      ((push = pqPush ∨ push = pqPushByAddress) ∧ scratch = pqPushByAddress ∧
        b.wellFormedByAddress h))
    (hr : r ∈ b.opposite (h n))
    (htie : ∀ y ∈ b.opposite (h n),
      y = r ∨ (h y).price ≠ (h r).price ∨ (h y).timestamp ≠ (h r).timestamp)
    (hfill : (h r).filledQuantity < ((b.addOrderWith push scratch h n).heap r).filledQuantity)
    (hpart : ((b.addOrderWith push scratch h n).heap r).isComplete = false)
    (hmside : ((b.addOrderWith push scratch h n).heap m).side = (h n).side)
    (hmsym : ((b.addOrderWith push scratch h n).heap m).symbol = b.symbol)
    (hmlive : ((b.addOrderWith push scratch h n).heap m).isComplete = false)
    (hmcross : crosses ((b.addOrderWith push scratch h n).heap m)
      ((b.addOrderWith push scratch h n).heap r) = true) :
    ((b.addOrderWith push scratch h n).heap r).price = (h r).price ∧
    ((b.addOrderWith push scratch h n).heap r).timestamp = (h r).timestamp ∧
    r ∈ (b.addOrderWith push scratch h n).book.opposite (h n) ∧
    ∃ t ts, ((b.addOrderWith push scratch h n).book.addOrderWith push scratch
          (b.addOrderWith push scratch h n).heap m).book.trades =
        (b.addOrderWith push scratch h n).book.trades ++ t :: ts ∧
      t.price = (h r).price ∧
      t.quantity = min ((b.addOrderWith push scratch h n).heap m).getRemainingQuantity
        ((b.addOrderWith push scratch h n).heap r).getRemainingQuantity ∧
      (if (h n).isBuy then t.sellOrderId = (h r).orderId
        else t.buyOrderId = (h r).orderId) := by
  rcases htype with ⟨hp, hs, hwf⟩ | ⟨hp, hs, hwf⟩
  · subst hp
    subst hs
    simp only [OrderBook.addOrderWith_pqPush] at hfill hpart hmside hmsym hmlive hmcross ⊢
    exact OrderBook.partial_fill_of_ordered_queue b h n r m hwf hr htie hfill hpart hmside
      hmsym hmlive hmcross
  · subst hs
    have hpush : pushKeepsEntries push := by
      rcases hp with hp | hp
      · rw [hp]; exact pushKeepsEntries_pqPush
      · rw [hp]; exact pushKeepsEntries_pqPushByAddress
    exact OrderBook.partial_fill_by_address push hpush b h n r m hwf hr hfill hpart hmside
      hmsym hmlive hmcross

/-- Witness of the amended C30, with the members typed as in `OrderBook.hpp` and the
scratch queues as in `OrderBook.cpp`: two sells at 150 with the timestamps 1 and 2 rest,
the second on top; a buy of 50 at 150 fills a part of it, and the next buy, of 30 at
150, makes its first trade with it. -/
theorem partial_fill_keeps_priority_witness :
    ((partialFillByAddress.book.addOrderWith pqPush pqPushByAddress
      partialFillByAddress.heap 3).heap 2).price = (partialFillByAddress.heap 2).price ∧
    2 ∈ (partialFillByAddress.book.addOrderWith pqPush pqPushByAddress
      partialFillByAddress.heap 3).book.opposite (partialFillByAddress.heap 3) ∧
    ∃ t ts, ((partialFillByAddress.book.addOrderWith pqPush pqPushByAddress
          partialFillByAddress.heap 3).book.addOrderWith pqPush pqPushByAddress
          (partialFillByAddress.book.addOrderWith pqPush pqPushByAddress
            partialFillByAddress.heap 3).heap 4).book.trades =
        (partialFillByAddress.book.addOrderWith pqPush pqPushByAddress
          partialFillByAddress.heap 3).book.trades ++ t :: ts ∧
      t.price = (partialFillByAddress.heap 2).price := by
  have hopp : partialFillByAddress.book.opposite (partialFillByAddress.heap 3) = [2, 1] := by
    with_unfolding_all decide
  have hbids : partialFillByAddress.book.bids = [] := by with_unfolding_all decide
  have hasks : partialFillByAddress.book.asks = [2, 1] := by with_unfolding_all decide
  have hwf : partialFillByAddress.book.wellFormedByAddress partialFillByAddress.heap := by
    unfold OrderBook.wellFormedByAddress queueByAddress
    rw [hbids, hasks]
    refine ⟨⟨fun p hp => (by cases hp), List.Pairwise.nil⟩, ?_, ?_⟩
    · intro p hp
      simp only [List.mem_cons, List.mem_singleton, List.not_mem_nil, or_false] at hp
      rcases hp with hp | hp <;> rw [hp] <;> with_unfolding_all decide
    · decide
  obtain ⟨h1, -, h3, t, ts, h4, h5, -⟩ :=
    partial_fill_keeps_priority pqPush pqPushByAddress partialFillByAddress.book
      partialFillByAddress.heap 3 2 4 (Or.inr ⟨Or.inl rfl, rfl, hwf⟩)
      (by with_unfolding_all decide)
      (by
        intro y hy
        rw [hopp] at hy
        rcases List.mem_cons.mp hy with hy | hy
        · exact Or.inl hy
        · rw [List.mem_singleton.mp hy]
          right; right
          with_unfolding_all decide)
      (by with_unfolding_all decide) (by with_unfolding_all decide)
      (by with_unfolding_all decide) (by with_unfolding_all decide)
      (by with_unfolding_all decide) (by with_unfolding_all decide)
  exact ⟨h1, h3, t, ts, h4, h5⟩

/-- With every queue of the type of the header the histories over the parametrised
operations are the histories over `addOrder` and `cancelOrder`. -/
theorem BookReachWith.of_headerType {b : OrderBook} {h : Heap}
    (hr : BookReachWith pqPush pqPush b h) : BookReach b h := by
  induction hr with
  | start symbol h => exact BookReach.start symbol h
  | addOrder b h n _ ih =>
    rw [OrderBook.addOrderWith_pqPush]
    exact BookReach.addOrder b h n ih
  | cancelOrder b h orderId _ ih =>
    rw [OrderBook.cancelOrderWith_pqPush]
    exact BookReach.cancelOrder b h orderId ih

/-- Counterexample to C35 as stated, for each typing of the queues. A market buy
constructed with the price 0 and a limit sell at 150 are added to an empty book and
rest: both sides are non-empty, the bid is priced below the ask, and `getSpread`
returns 0, which is not above 0. -/
theorem book_never_crossed_counterexample :
    Order.new 1 101 "AAPL" 100 0 .BUY .MARKET 1 = .ok (marketBidHeap 1) ∧
    BookReachWith pqPush pqPush (marketBidWith pqPush pqPush).book
      (marketBidWith pqPush pqPush).heap ∧
    (marketBidWith pqPush pqPush).book.bids = [1] ∧
    (marketBidWith pqPush pqPush).book.asks = [2] ∧
    ((marketBidWith pqPush pqPush).heap 1).price <
      ((marketBidWith pqPush pqPush).heap 2).price ∧
    (marketBidWith pqPush pqPush).book.getSpread (marketBidWith pqPush pqPush).heap = 0 ∧
    ¬ (0 < (marketBidWith pqPush pqPush).book.getSpread (marketBidWith pqPush pqPush).heap) ∧
    BookReachWith pqPush pqPushByAddress (marketBidWith pqPush pqPushByAddress).book
      (marketBidWith pqPush pqPushByAddress).heap ∧
    (marketBidWith pqPush pqPushByAddress).book.bids = [1] ∧
    (marketBidWith pqPush pqPushByAddress).book.asks = [2] ∧
    (marketBidWith pqPush pqPushByAddress).book.getSpread
      (marketBidWith pqPush pqPushByAddress).heap = 0 :=
  ⟨by with_unfolding_all rfl,
    BookReachWith.addOrder _ _ 2
      (BookReachWith.addOrder _ _ 1 (BookReachWith.start "AAPL" marketBidHeap)),
    by with_unfolding_all decide, by with_unfolding_all decide,
    by with_unfolding_all decide, by with_unfolding_all decide, by with_unfolding_all decide,
    BookReachWith.addOrder _ _ 2
      (BookReachWith.addOrder _ _ 1 (BookReachWith.start "AAPL" marketBidHeap)),
    by with_unfolding_all decide, by with_unfolding_all decide,
    by with_unfolding_all decide⟩

/-- C35, amended, with the scratch queues of `removeCompletedOrders` ordered by the
comparator of the members, the type of `OrderBook.hpp`. In every book state reached from
the empty book through `addOrder` and `cancelOrder`, every entry of the two queues is
live and every bid has a price strictly below the price of every ask. So `getSpread` is
above 0 whenever both sides are non-empty and the resting bids have prices above 0 (as
all limit orders have). -/
theorem book_never_crossed (push scratch : Heap → Ptr → List Ptr → List Ptr)
    (hpush : push = pqPush) (hscratch : scratch = pqPush) (b : OrderBook) (h : Heap)
    (hr : BookReachWith push scratch b h) :
    (∀ p, (p ∈ b.bids ∨ p ∈ b.asks) → (h p).isLive = true) ∧
    (∀ x ∈ b.bids, ∀ y ∈ b.asks, (h x).price < (h y).price) ∧
    ((∀ x ∈ b.bids, 0 < (h x).price) → b.bids ≠ [] → b.asks ≠ [] → 0 < b.getSpread h) := by
  subst hpush
  subst hscratch
  exact BookReach.never_crossed_of_ordered_queues b h hr.of_headerType

/-- Witness of the amended C35, the test `OrderBookTest.NoMatchDueToPrice`: the buy at
140 and the sell at 150 rest, and the spread is above 0. -/
theorem book_never_crossed_witness :
    (∀ x ∈ (noMatchWith pqPush pqPush).book.bids, ∀ y ∈ (noMatchWith pqPush pqPush).book.asks,
      ((noMatchWith pqPush pqPush).heap x).price <
        ((noMatchWith pqPush pqPush).heap y).price) ∧
    0 < (noMatchWith pqPush pqPush).book.getSpread (noMatchWith pqPush pqPush).heap := by
  have h := book_never_crossed pqPush pqPush rfl rfl (noMatchWith pqPush pqPush).book
    (noMatchWith pqPush pqPush).heap
    (BookReachWith.addOrder _ _ 2
      (BookReachWith.addOrder _ _ 1 (BookReachWith.start "AAPL" noMatchHeap)))
  have hb : (noMatchWith pqPush pqPush).book.bids = [1] := by with_unfolding_all decide
  have ha : (noMatchWith pqPush pqPush).book.asks = [2] := by with_unfolding_all decide
  refine ⟨h.2.1, h.2.2 ?_ (by rw [hb]; simp) (by rw [ha]; simp)⟩
  intro x hx
  rw [hb] at hx
  rw [List.mem_singleton.mp hx]
  with_unfolding_all decide

theorem Trader.storePositionDouble_cash (t : Trader) (symbol : String) (position : Position) :
    (t.storePositionDouble symbol position).cash = t.cash := by
  unfold Trader.storePositionDouble
  split_ifs <;> rfl

/-- The position update with the arithmetic of `double` leaves the cash as it is. -/
theorem Trader.updatePositionOnTradeDouble_cash {t t1 : Trader} {symbol : String}
    {quantity price : ℚ} (h : t.updatePositionOnTradeDouble symbol quantity price = some t1) :
    t1.cash = t.cash := by
  unfold Trader.updatePositionOnTradeDouble at h
  cases hfind : mapFind t.positions symbol with
  | none =>
    rw [hfind] at h
    simp only at h
    split_ifs at h <;> (rw [← Option.some.inj h])
  | some position =>
    rw [hfind] at h
    simp only at h
    split_ifs at h <;>
      first
        | (rw [← Option.some.inj h]; simp only [Trader.storePositionDouble_cash])
        | (rw [← Option.some.inj h])

/-- The cash that an `onOrderFilledDouble` call that returns leaves: a buy has a cost of
at most the cash held and takes it off, a sell adds its proceeds, each operation rounded. -/
theorem Trader.onOrderFilledDouble_cash {t t1 : Trader} {symbol : String}
    {quantity price : ℚ} {isBuy : Bool}
    (h : t.onOrderFilledDouble symbol quantity price isBuy = some (.ok t1)) :
    (isBuy = true → roundDouble (quantity * price) ≤ t.cash ∧
      t1.cash = roundDouble (t.cash - roundDouble (quantity * price))) ∧
    (isBuy = false → t1.cash = roundDouble (t.cash + roundDouble (quantity * price))) := by
  unfold Trader.onOrderFilledDouble at h
  by_cases hb : isBuy = true
  · rw [if_pos hb] at h
    simp only at h
    by_cases hc : roundDouble (quantity * price) > t.cash
    · rw [if_pos hc] at h
      cases h
    · rw [if_neg hc] at h
      cases hu : ({ t with cash := roundDouble (t.cash - roundDouble (quantity * price)) } :
          Trader).updatePositionOnTradeDouble symbol quantity price with
      | none => rw [hu] at h; cases h
      | some t2 =>
        rw [hu] at h
        simp only [Option.some.injEq, Except.ok.injEq] at h
        subst h
        refine ⟨fun _ => ⟨not_lt.mp hc, ?_⟩, fun hf => ?_⟩
        · rw [Trader.updatePositionOnTradeDouble_cash hu]
        · rw [hb] at hf; cases hf
  · rw [if_neg hb] at h
    by_cases hs : (!t.hasSufficientShares symbol quantity) = true
    · rw [if_pos hs] at h
      cases h
    · rw [if_neg hs] at h
      cases hu : ({ t with cash := roundDouble (t.cash + roundDouble (quantity * price)) } :
          Trader).updatePositionOnTradeDouble symbol (-quantity) price with
      | none => rw [hu] at h; cases h
      | some t2 =>
        rw [hu] at h
        simp only [Option.some.injEq, Except.ok.injEq] at h
        subst h
        refine ⟨fun ht => absurd ht hb, fun _ => ?_⟩
        rw [Trader.updatePositionOnTradeDouble_cash hu]

/-- What a ledger notification that returns has done. -/
theorem MatchingEngine.notifyTraderDouble_cases {e e1 : MatchingEngine} {traderId : Int}
    {trade : Trade} {isBuy : Bool}
    (h : e.notifyTraderDouble traderId trade isBuy = some (.ok e1)) :
    (e.getTrader traderId = none ∧ e1 = e) ∨
    ∃ t t1, e.getTrader traderId = some t ∧
      t.onOrderFilledDouble trade.symbol trade.quantity trade.price isBuy = some (.ok t1) ∧
      e1 = { e with traders := mapInsert traderId t1 e.traders } := by
  unfold MatchingEngine.notifyTraderDouble at h
  cases hfind : e.getTrader traderId with
  | none =>
    rw [hfind] at h
    simp only [Option.some.injEq, Except.ok.injEq] at h
    exact Or.inl ⟨rfl, h.symm⟩
  | some t =>
    rw [hfind] at h
    simp only at h
    cases hfill : t.onOrderFilledDouble trade.symbol trade.quantity trade.price isBuy with
    | none => rw [hfill] at h; cases h
    | some x =>
      cases x with
      | error err => rw [hfill] at h; cases h
      | ok t1 =>
        rw [hfill] at h
        simp only [Option.some.injEq, Except.ok.injEq] at h
        exact Or.inr ⟨t, t1, rfl, hfill, h.symm⟩

/-- A balance of a registry without negative balances is at most the sum of all. -/
theorem cash_le_totalCash {traders : List (Int × Trader)} {k : Int} {t : Trader}
    (hnn : ∀ kt ∈ traders, 0 ≤ kt.2.cash) (hfind : mapFind traders k = some t) :
    t.cash ≤ (traders.map (fun kv => kv.2.cash)).sum := by
  have hmem := mapFind_mem hfind
  apply List.single_le_sum
  · intro x hx
    obtain ⟨kt, hkt, rfl⟩ := List.mem_map.mp hx
    exact hnn kt hkt
  · exact List.mem_map.mpr ⟨(k, t), hmem, rfl⟩


theorem isSome_mapInsert {traders : List (Int × Trader)} {k j : Int} {v : Trader}
    (h : (mapFind traders j).isSome = true) :
    (mapFind (mapInsert k v traders) j).isSome = true := by
  by_cases hj : j = k
  · rw [hj, mapFind_mapInsert_same]; rfl
  · rw [mapFind_mapInsert_other _ hj]; exact h

/-- A notification that returns keeps the registry in order, every registered id
registered and every balance on the grid; for a registered trader it moves the total cash
by the value of the trade, without rounding. -/
theorem MatchingEngine.notifyTraderDouble_registry {e e1 : MatchingEngine} {traderId : Int}
    {trade : Trade} {isBuy : Bool} {g : ℤ}
    (h : e.notifyTraderDouble traderId trade isBuy = some (.ok e1))
    (hs : e.traders.Pairwise (fun a b => a.1 < b.1)) (hg : -1074 ≤ g)
    (hgrid : ∀ kt ∈ e.traders, ∃ m : ℕ, kt.2.cash = m * twoPow g)
    (hv : trade.valueOnGrid g)
    (hsum : e.totalCash + (if isBuy then 0 else trade.quantity * trade.price)
      < 2 ^ 53 * twoPow g) :
    e1.traders.Pairwise (fun a b => a.1 < b.1) ∧
    (∀ k, (e.getTrader k).isSome = true → (e1.getTrader k).isSome = true) ∧
    (∀ kt ∈ e1.traders, ∃ m : ℕ, kt.2.cash = m * twoPow g) ∧
    ((e.getTrader traderId).isSome = true →
      e1.totalCash = e.totalCash +
        (if isBuy then -(trade.quantity * trade.price) else trade.quantity * trade.price)) := by
  rcases MatchingEngine.notifyTraderDouble_cases h with ⟨hnone, he⟩ | ⟨t, t1, hfind, hfill, he⟩
  · subst he
    refine ⟨hs, fun k hk => hk, hgrid, ?_⟩
    intro hsome
    rw [hnone] at hsome
    cases hsome
  · subst he
    obtain ⟨v, hv1, hv2⟩ := hv
    have hfind1 : mapFind e.traders traderId = some t := hfind
    obtain ⟨m, hm⟩ := hgrid (traderId, t) (mapFind_mem hfind1)
    simp only at hm
    have hpos : 0 < twoPow g := twoPow_pos g
    have hnn : ∀ kt ∈ e.traders, 0 ≤ kt.2.cash := by
      intro kt hkt
      obtain ⟨m1, hm1⟩ := hgrid kt hkt
      rw [hm1]
      exact mul_nonneg (Nat.cast_nonneg _) hpos.le
    have hle : t.cash ≤ e.totalCash := cash_le_totalCash hnn hfind1
    have hrV : roundDouble (trade.quantity * trade.price) = trade.quantity * trade.price := by
      rw [hv1]; exact roundDouble_grid v g hv2 hg
    obtain ⟨hbuy, hsell⟩ := Trader.onOrderFilledDouble_cash hfill
    have key : (∃ m1 : ℕ, t1.cash = m1 * twoPow g) ∧
        t1.cash = t.cash +
          (if isBuy then -(trade.quantity * trade.price) else trade.quantity * trade.price) := by
      cases isBuy with
      | true =>
        obtain ⟨hc, hcash⟩ := hbuy rfl
        rw [hrV] at hc hcash
        simp only [if_true, add_zero] at hsum
        have hvm : v ≤ m := by
          have h1 : (v : ℚ) * twoPow g ≤ (m : ℚ) * twoPow g := by rw [← hv1, ← hm]; exact hc
          exact_mod_cast le_of_mul_le_mul_right h1 hpos
        have hm53 : m < 2 ^ 53 := by
          have h1 : (m : ℚ) * twoPow g < 2 ^ 53 * twoPow g := by
            rw [← hm]; exact lt_of_le_of_lt hle hsum
          exact_mod_cast lt_of_mul_lt_mul_right h1 hpos.le
        have hd : t.cash - trade.quantity * trade.price = ((m - v : ℕ) : ℚ) * twoPow g := by
          rw [hm, hv1]
          push_cast [hvm]
          ring
        rw [hd, roundDouble_grid (m - v) g (lt_of_le_of_lt (Nat.sub_le _ _) hm53) hg] at hcash
        refine ⟨⟨m - v, hcash⟩, ?_⟩
        rw [hcash, ← hd]
        simp only [if_true]
        ring
      | false =>
        have hcash := hsell rfl
        rw [hrV] at hcash
        simp only [Bool.false_eq_true, if_false] at hsum
        have hd : t.cash + trade.quantity * trade.price = ((m + v : ℕ) : ℚ) * twoPow g := by
          rw [hm, hv1]
          push_cast
          ring
        have hmv : m + v < 2 ^ 53 := by
          have h1 : ((m + v : ℕ) : ℚ) * twoPow g < 2 ^ 53 * twoPow g := by
            rw [← hd]
            exact lt_of_le_of_lt (add_le_add_right hle _) hsum
          exact_mod_cast lt_of_mul_lt_mul_right h1 hpos.le
        rw [hd, roundDouble_grid (m + v) g hmv hg] at hcash
        refine ⟨⟨m + v, hcash⟩, ?_⟩
        rw [hcash, ← hd]
        simp only [Bool.false_eq_true, if_false]
    refine ⟨mapInsert_sorted Int.lt_cases (fun a b c => lt_trans) _ _ _ hs, ?_, ?_, ?_⟩
    · intro k hk
      exact isSome_mapInsert hk
    · intro kt hkt
      rcases mem_mapInsert hkt with hk | hk
      · rw [hk]; exact key.1
      · exact hgrid kt hk
    · intro _
      unfold MatchingEngine.totalCash
      simp only
      rw [mapInsert_sum_present (fun a => lt_irrefl a) (fun a b c => lt_trans)
        (fun t : Trader => t.cash) traderId t1 t e.traders hs hfind1]
      rw [key.2]
      ring

/-- A ledger pass that returns, over trades between registered traders whose values are
on the grid of the balances, leaves the total cash as it was. -/
theorem MatchingEngine.processTradeNotificationsDouble_totalCash (g : ℤ) (hg : -1074 ≤ g) :
    ∀ (trades : List Trade) (e : MatchingEngine) (r2 : MatchingEngine × Outcome Unit),
      e.traders.Pairwise (fun a b => a.1 < b.1) →
      (∀ kt ∈ e.traders, ∃ m : ℕ, kt.2.cash = m * twoPow g) →
      e.totalCash < 2 ^ 53 * twoPow g →
      (∀ tr ∈ trades, (e.getTrader tr.buyTraderId).isSome = true ∧
        (e.getTrader tr.sellTraderId).isSome = true ∧ tr.valueOnGrid g) →
      e.processTradeNotificationsDouble trades = some r2 → r2.2 = .returned () →
      r2.1.totalCash = e.totalCash := by
  intro trades
  induction trades with
  | nil =>
    intro e r2 _ _ _ _ hcall _
    unfold MatchingEngine.processTradeNotificationsDouble at hcall
    rw [← Option.some.inj hcall]
  | cons tr rest ih =>
    intro e r2 hs hgrid hsum hreg hcall hret
    obtain ⟨hb, hsl, hv⟩ := hreg tr (List.mem_cons_self _ _)
    unfold MatchingEngine.processTradeNotificationsDouble at hcall
    cases h1 : e.notifyTraderDouble tr.buyTraderId tr true with
    | none => rw [h1] at hcall; cases hcall
    | some x1 =>
      cases x1 with
      | error err =>
        rw [h1] at hcall
        simp only [Option.some.injEq] at hcall
        rw [← hcall] at hret
        cases hret
      | ok e1 =>
        rw [h1] at hcall
        simp only at hcall
        obtain ⟨a1, a2, a3, a4⟩ := MatchingEngine.notifyTraderDouble_registry h1 hs hg hgrid hv
          (by simpa using hsum)
        have a5 := a4 hb
        simp only [if_true] at a5
        cases h2 : e1.notifyTraderDouble tr.sellTraderId tr false with
        | none => rw [h2] at hcall; cases hcall
        | some x2 =>
          cases x2 with
          | error err =>
            rw [h2] at hcall
            simp only [Option.some.injEq] at hcall
            rw [← hcall] at hret
            cases hret
          | ok e2 =>
            rw [h2] at hcall
            simp only at hcall
            obtain ⟨b1, b2, b3, b4⟩ := MatchingEngine.notifyTraderDouble_registry h2 a1 hg a3
              hv (by
                rw [a5]
                simp only [Bool.false_eq_true, if_false]
                have : e.totalCash + -(tr.quantity * tr.price) + tr.quantity * tr.price
                  = e.totalCash := by ring
                rw [this]
                exact hsum)
            have b5 := b4 (a2 _ hsl)
            simp only [Bool.false_eq_true, if_false] at b5
            have htot : e2.totalCash = e.totalCash := by rw [b5, a5]; ring
            rw [ih e2 r2 b1 b3 (by rw [htot]; exact hsum)
              (fun x hx =>
                ⟨b2 _ (a2 _ (hreg x (List.mem_cons_of_mem _ hx)).1),
                  b2 _ (a2 _ (hreg x (List.mem_cons_of_mem _ hx)).2.1),
                  (hreg x (List.mem_cons_of_mem _ hx)).2.2⟩) hcall hret]
            exact htot


/-- The value of a trade made for a part of the remaining quantity of a resting order, at
that order's price, is on the grid of the values. -/
theorem tradeValue_onGrid {q d : ℤ} {x y : Order} (hx : x.onBinaryGrid q)
    (hy : y.onBinaryGrid q) (hv : y.valueOnGrid q d) :
    ∃ v : ℕ, min x.getRemainingQuantity y.getRemainingQuantity * y.price
      = v * twoPow (q + d) ∧ v < 2 ^ 53 := by
  obtain ⟨c, hc, -⟩ := tradeQuantity_onBinaryGrid hx hy
  obtain ⟨a, k, ha, hk, hak⟩ := hv
  obtain ⟨-, -, a1, b1, -, hb1, -, -⟩ := hy
  have hpos : 0 < twoPow q := twoPow_pos q
  have hca : c ≤ a := by
    have h1 : (c : ℚ) * twoPow q ≤ (a : ℚ) * twoPow q := by
      rw [← hc, ← ha]
      refine le_trans (min_le_right _ _) ?_
      unfold Order.getRemainingQuantity
      rw [hb1]
      have : 0 ≤ (b1 : ℚ) * twoPow q := mul_nonneg (Nat.cast_nonneg _) hpos.le
      linarith
    exact_mod_cast le_of_mul_le_mul_right h1 hpos
  refine ⟨c * k, ?_, lt_of_le_of_lt (Nat.mul_le_mul_right k hca) hak⟩
  rw [hc, hk, twoPow_add]
  push_cast
  ring

/-- Every trade of the matching loop has its value on the grid of the values, when the
orders are on the grid of the quantities and the entries of the opposite queue have
their values on the grid. -/
theorem matchLoop_valueOnGrid (q d : ℤ) (symbol : String) (n : Ptr) (h : Heap)
    (q0 : List Ptr) (fuel : Nat) (s : MatchState) (hid : h.sameIdentity s.heap)
    (hgrid : ∀ p, (s.heap p).onBinaryGrid q) (hq : ∀ p ∈ s.queue, p ∈ q0)
    (hval : ∀ r ∈ q0, (h r).valueOnGrid q d)
    (ht : ∀ t ∈ s.trades, t.valueOnGrid (q + d)) :
    ∀ t ∈ (matchLoop symbol n fuel s).1.trades, t.valueOnGrid (q + d) := by
  have key := matchLoop_invariant symbol n
    (fun s => h.sameIdentity s.heap ∧ (∀ p, (s.heap p).onBinaryGrid q) ∧
      (∀ p ∈ s.queue, p ∈ q0) ∧ ∀ t ∈ s.trades, t.valueOnGrid (q + d)) ?_ ?_ fuel s
    ⟨hid, hgrid, hq, ht⟩
  · exact key.2.2.2
  · intro s s1 ⟨hid, hgrid, hq, ht⟩ hstep
    refine ⟨Heap.identity_trans hid (matchStep_next_sameIdentity hstep),
      matchStep_next_onBinaryGrid hgrid hstep,
      fun p hp => hq p (matchStep_next_queue hstep p hp), ?_⟩
    obtain ⟨best, rest, hqe, hinc, hcase⟩ := matchStep_next hstep
    rcases hcase with ⟨-, hs1⟩ | ⟨-, -, -, n1, b1, hn1, hb1, hs1⟩
    · subst hs1; exact ht
    · subst hs1
      intro t htm
      simp only [List.mem_append, List.mem_singleton] at htm
      rcases htm with htm | htm
      · exact ht t htm
      · subst htm
        have hbest : best ∈ q0 := hq best (by rw [hqe]; exact List.mem_cons_self _ _)
        have hvb : (s.heap best).valueOnGrid q d := by
          obtain ⟨a, k, ha, hk, hak⟩ := hval best hbest
          exact ⟨a, k, by rw [(hid best).2.2.2.1]; exact ha,
            by rw [(hid best).2.2.2.2.1]; exact hk, hak⟩
        obtain ⟨v, hv1, hv2⟩ := tradeValue_onGrid (hgrid n) (hgrid best) hvb
        refine ⟨v, ?_, hv2⟩
        rw [mkTrade_quantity, mkTrade_price]
        exact hv1
  · intro s s1 e ⟨hid, hgrid, hq, ht⟩ hstep
    refine ⟨Heap.identity_trans hid (matchStep_threw_sameIdentity hstep),
      matchStep_threw_onBinaryGrid hgrid hstep,
      fun p hp => hq p (matchStep_threw_queue hstep p hp), ?_⟩
    obtain ⟨best, rest, -, -, htr, -⟩ := matchStep_threw hstep
    rw [htr]; exact ht

/-- The trade log after an `addOrderDouble` call that returns: the trades of the matching
loop are appended. -/
theorem OrderBook.addOrderDouble_trades (fuel : Nat) (b : OrderBook) (h : Heap) (n : Ptr)
    (hret : (b.addOrderDouble fuel h n).outcome = .returned ()) :
    (b.addOrderDouble fuel h n).book.trades = b.trades ++
      (matchLoopDouble b.symbol n fuel
        { heap := h, queue := b.opposite (h n), trades := [] }).1.trades := by
  unfold OrderBook.addOrderDouble at hret ⊢
  by_cases hsym : (h n).symbol ≠ b.symbol
  · rw [if_pos hsym] at hret
    cases hret
  · rw [if_neg hsym] at hret ⊢
    simp only at hret ⊢
    have hm : OrderBook.matchOrderDouble fuel
        { b with orderMap := mapInsert (h n).orderId n b.orderMap } h n =
        matchLoopDouble b.symbol n fuel
          { heap := h, queue := b.opposite (h n), trades := [] } := rfl
    rw [hm] at hret ⊢
    generalize matchLoopDouble b.symbol n fuel
      { heap := h, queue := b.opposite (h n), trades := [] } = r at hret ⊢
    obtain ⟨s, out⟩ := r
    cases out with
    | threw err => cases hret
    | outOfFuel => cases hret
    | returned u =>
      simp only [OrderBook.removeCompletedOrders_trades]
      split_ifs <;> simp [OrderBook.setOpposite_trades]

/-- The trades that an `addOrderDouble` call that returns appends, over orders on one
grid: trades between the order given and entries of the opposite queue, with their
values on the grid of the values. -/
theorem OrderBook.addOrderDouble_appended (q d : ℤ) (fuel : Nat) (b : OrderBook) (h : Heap)
    (n : Ptr) (hgrid : ∀ p, (h p).onBinaryGrid q)
    (hval : ∀ r ∈ b.opposite (h n), (h r).valueOnGrid q d)
    (hret : (b.addOrderDouble fuel h n).outcome = .returned ()) :
    ∃ ts, (b.addOrderDouble fuel h n).book.trades = b.trades ++ ts ∧
      ∀ t ∈ ts, tradeBetween h b.symbol n (b.opposite (h n)) t ∧ t.valueOnGrid (q + d) := by
  refine ⟨_, OrderBook.addOrderDouble_trades fuel b h n hret, ?_⟩
  have hg0 : ∀ p, ((MatchState.mk h (b.opposite (h n)) []).heap p).onBinaryGrid q := hgrid
  rw [matchLoopDouble_eq q b.symbol n fuel _ hg0]
  intro t ht
  exact ⟨matchLoop_roles b.symbol n h (b.opposite (h n)) fuel
      { heap := h, queue := b.opposite (h n), trades := [] } (Heap.identity_refl h)
      (fun p hp => hp) (fun t ht => by cases ht) t ht,
    matchLoop_valueOnGrid q d b.symbol n h (b.opposite (h n)) fuel
      { heap := h, queue := b.opposite (h n), trades := [] } (Heap.identity_refl h)
      hgrid (fun p hp => hp) hval (fun t ht => by cases ht) t ht⟩


/-- The ledger pass of a `submitOrderDouble` call, over the trades that the matching of
the new order has appended: when it returns, the total cash is as before the call. -/
theorem MatchingEngine.ledgerPass_totalCash (q d : ℤ) (e e3 : MatchingEngine)
    (symbol : String) (book : OrderBook) (fuel : Nat) (order : Order)
    (r2 : MatchingEngine × Outcome Unit)
    (hown : e.restingOwnersRegistered) (hgrid : ∀ p, (e.heap p).onBinaryGrid q)
    (hvalue : ∀ bk ∈ e.orderBooks, ∀ p ∈ bk.2.bids ++ bk.2.asks, (e.heap p).valueOnGrid q d)
    (hcash : e.cashOnGrid (q + d)) (horder : order.onBinaryGrid q)
    (hreg : (e.getTrader order.traderId).isSome = true)
    (hbook : book = OrderBook.new symbol ∨ mapFind e.orderBooks symbol = some book)
    (hadd : (book.addOrderDouble fuel (e.heap.set e.nextOrderId order) e.nextOrderId).outcome
      = .returned ())
    (he3 : e3.traders = e.traders)
    (hproc : e3.processTradeNotificationsDouble
      ((book.addOrderDouble fuel (e.heap.set e.nextOrderId order)
        e.nextOrderId).book.trades.drop book.trades.length) = some r2)
    (hret : r2.2 = .returned ()) :
    r2.1.totalCash = e.totalCash := by
  have hgrid1 : ∀ p, ((e.heap.set e.nextOrderId order) p).onBinaryGrid q :=
    Heap.set_onBinaryGrid hgrid horder
  have hrest : ∀ r ∈ book.opposite ((e.heap.set e.nextOrderId order) e.nextOrderId),
      (e.heap.set e.nextOrderId order) r = e.heap r ∧ (e.heap r).valueOnGrid q d ∧
        (e.getTrader (e.heap r).traderId).isSome = true := by
    intro r hr
    have hrb := OrderBook.mem_opposite hr
    rcases hbook with hb | hb
    · rw [hb] at hrb
      simp [OrderBook.new] at hrb
    · have hmem : r ∈ book.bids ++ book.asks := List.mem_append.mpr hrb
      obtain ⟨h1, h2⟩ := hown.2 (symbol, book) (mapFind_mem hb) r hmem
      exact ⟨Heap.set_other _ _ _ _ h1, hvalue (symbol, book) (mapFind_mem hb) r hmem, h2⟩
  obtain ⟨ts, htr, hts⟩ := OrderBook.addOrderDouble_appended q d fuel book
    (e.heap.set e.nextOrderId order) e.nextOrderId hgrid1
    (fun r hr => by rw [(hrest r hr).1]; exact (hrest r hr).2.1) hadd
  have hdrop : (book.addOrderDouble fuel (e.heap.set e.nextOrderId order)
      e.nextOrderId).book.trades.drop book.trades.length = ts := by
    rw [htr, List.drop_left]
  rw [hdrop] at hproc
  have hget : ∀ k, e3.getTrader k = e.getTrader k := by
    intro k
    unfold MatchingEngine.getTrader
    rw [he3]
  have htot : e3.totalCash = e.totalCash := by
    unfold MatchingEngine.totalCash
    rw [he3]
  rw [← htot]
  apply MatchingEngine.processTradeNotificationsDouble_totalCash (q + d) hcash.1 ts e3 r2
    (by rw [he3]; exact hown.1) (by rw [he3]; exact hcash.2.1) (by rw [htot]; exact hcash.2.2)
    _ hproc hret
  intro tr htrm
  obtain ⟨⟨-, r, hrq, hroles⟩, hv⟩ := hts tr htrm
  have hn : (e3.getTrader ((e.heap.set e.nextOrderId order) e.nextOrderId).traderId).isSome
      = true := by
    rw [Heap.set_same, hget]
    exact hreg
  have hrreg : (e3.getTrader ((e.heap.set e.nextOrderId order) r).traderId).isSome = true := by
    rw [(hrest r hrq).1, hget]
    exact (hrest r hrq).2.2
  split_ifs at hroles
  · obtain ⟨-, a2, -, a4⟩ := hroles
    rw [a2, a4]
    exact ⟨hn, hrreg, hv⟩
  · obtain ⟨-, a2, -, a4⟩ := hroles
    rw [a2, a4]
    exact ⟨hrreg, hn, hv⟩

/-- What a `submitOrderDouble` call that returns an order id has done: the trader is
registered, the order was constructed and placed at the address of its id, `addOrderDouble`
on the symbol's book (a new empty one when the symbol had none) has returned, and the
ledger pass over the appended trades has returned and left the engine of the result. -/
theorem MatchingEngine.submitOrderDouble_returned {fuel : Nat} {e : MatchingEngine}
    {traderId : Int} {symbol : String} {quantity price : ℚ} {side : OrderSide}
    {type : OrderType} {now : Nat} {r : EngineResult Int} {orderId : Int}
    (h : e.submitOrderDouble fuel traderId symbol quantity price side type now = some r)
    (hret : r.outcome = .returned orderId) :
    ∃ (trader0 : Trader) (order : Order) (book : OrderBook) (e3 : MatchingEngine)
      (r2 : MatchingEngine × Outcome Unit),
      e.getTrader traderId = some trader0 ∧
      Order.new e.nextOrderId traderId symbol quantity price side type now = .ok order ∧
      (book = OrderBook.new symbol ∨ mapFind e.orderBooks symbol = some book) ∧
      (book.addOrderDouble fuel (e.heap.set e.nextOrderId order) e.nextOrderId).outcome
        = .returned () ∧
      e3.traders = e.traders ∧
      e3.processTradeNotificationsDouble
        ((book.addOrderDouble fuel (e.heap.set e.nextOrderId order)
          e.nextOrderId).book.trades.drop book.trades.length) = some r2 ∧
      r2.2 = .returned () ∧ r.engine = r2.1 := by
  unfold MatchingEngine.submitOrderDouble at h
  cases hg : e.getTrader traderId with
  | none =>
    simp only [hg] at h
    rw [← Option.some.inj h] at hret
    cases hret
  | some trader =>
    simp only [hg] at h
    by_cases c1 : side = .BUY ∧
        (!trader.hasSufficientCash (roundDouble (quantity * price))) = true
    · rw [if_pos c1] at h
      rw [← Option.some.inj h] at hret
      cases hret
    · rw [if_neg c1] at h
      by_cases c2 : side ≠ .BUY ∧ (!trader.hasSufficientShares symbol quantity) = true
      · rw [if_pos c2] at h
        rw [← Option.some.inj h] at hret
        cases hret
      · rw [if_neg c2] at h
        cases ho : Order.new e.nextOrderId traderId symbol quantity price side type now with
        | error err =>
          simp only [ho] at h
          rw [← Option.some.inj h] at hret
          cases hret
        | ok order =>
          simp only [ho] at h
          unfold MatchingEngine.getOrCreateOrderBook at h
          cases hb : mapFind e.orderBooks symbol with
          | none =>
            simp only [hb] at h
            cases ha : ((OrderBook.new symbol).addOrderDouble fuel
                (e.heap.set e.nextOrderId order) e.nextOrderId).outcome with
            | threw err =>
              simp only [ha] at h
              rw [← Option.some.inj h] at hret
              cases hret
            | outOfFuel =>
              simp only [ha] at h
              rw [← Option.some.inj h] at hret
              cases hret
            | returned u =>
              simp only [ha] at h
              generalize he3 : MatchingEngine.mk _ _ _ _ _ = e3 at h
              have ht3 : e3.traders = e.traders := by rw [← he3]
              generalize hts : List.drop _ _ = ts at h
              cases hp : e3.processTradeNotificationsDouble ts with
              | none => simp [hp] at h
              | some r2 =>
                simp only [hp] at h
                cases ho2 : r2.2 with
                | threw err =>
                  simp only [ho2] at h
                  rw [← Option.some.inj h] at hret
                  cases hret
                | outOfFuel =>
                  simp only [ho2] at h
                  rw [← Option.some.inj h] at hret
                  cases hret
                | returned u2 =>
                  simp only [ho2] at h
                  refine ⟨trader, order, OrderBook.new symbol, e3, r2, rfl, rfl, Or.inl rfl,
                    ha, ht3, ?_, ho2, ?_⟩
                  · rw [← hp, ← hts]
                    rfl
                  · rw [← Option.some.inj h]
          | some ob =>
            simp only [hb] at h
            cases ha : (ob.addOrderDouble fuel
                (e.heap.set e.nextOrderId order) e.nextOrderId).outcome with
            | threw err =>
              simp only [ha] at h
              rw [← Option.some.inj h] at hret
              cases hret
            | outOfFuel =>
              simp only [ha] at h
              rw [← Option.some.inj h] at hret
              cases hret
            | returned u =>
              simp only [ha] at h
              generalize he3 : MatchingEngine.mk _ _ _ _ _ = e3 at h
              have ht3 : e3.traders = e.traders := by rw [← he3]
              generalize hts : List.drop _ _ = ts at h
              cases hp : e3.processTradeNotificationsDouble ts with
              | none => simp [hp] at h
              | some r2 =>
                simp only [hp] at h
                cases ho2 : r2.2 with
                | threw err =>
                  simp only [ho2] at h
                  rw [← Option.some.inj h] at hret
                  cases hret
                | outOfFuel =>
                  simp only [ho2] at h
                  rw [← Option.some.inj h] at hret
                  cases hret
                | returned u2 =>
                  simp only [ho2] at h
                  refine ⟨trader, order, ob, e3, r2, rfl, rfl, Or.inr rfl,
                    ha, ht3, ?_, ho2, ?_⟩
                  · rw [← hp, ← hts]
                    rfl
                  · rw [← Option.some.inj h]


theorem restingSale_heap :
    restingSale.heap = blankHeap.set 1
      { orderId := 1, traderId := 2, symbol := "X", quantity := 2, price := 100,
        side := .SELL, type := .LIMIT, status := .PENDING, filledQuantity := 0,
        timestamp := 1 } := by
  with_unfolding_all rfl

set_option maxRecDepth 100000 in
/-- Counterexamples of C39, two `submitOrder` calls that return an order id and change the
sum of the cash balances of the registered traders.

The first: Alice, registered with 150 in cash, has a buy of 1 share of X at 50 resting. A
holder of the engine adds a sell of 1 share at 100 by the trader 9, who is not
registered, through the book that `getOrderBook("X")` hands out; it rests. Alice's buy of
1 share at 100 trades with it and returns the id 2: Alice pays 100, the notification of
the seller is skipped (`if (seller)`), and the sum goes from 150 to 50.

The second: Alice has 10^17 in cash, Bob has 8 and 1 share of X, and Bob's sell of 1
share at 8 rests. Alice's buy of 1 share at 8 returns the id 2: Alice's balance
`10^17 - 8` rounds to `10^17`, Bob's becomes 16, and the sum goes from `10^17 + 8` to
`10^17 + 16`. -/
theorem cash_conserved_counterexample :
    (outsideSellResting.map (fun e => (e.totalCash, (e.getTrader 9).isSome,
        (e.getOrderBook "X").map (fun b => (b.bids, b.asks))))
      = some (150, false, some ([1], [1000])) ∧
     outsideSellCall.map (fun r => (r.outcome, r.engine.totalCash))
      = some (.returned 2, 50)) ∧
    (largeCashResting.map (fun r => (r.outcome, r.engine.totalCash,
        (r.engine.getTrader 1).map (fun t => t.cash),
        (r.engine.getTrader 2).map (fun t => t.cash)))
      = some (.returned 1, 100000000000000008, some 100000000000000000, some 8) ∧
     largeCashCall.map (fun r => (r.outcome, r.engine.totalCash,
        (r.engine.getTrader 1).map (fun t => t.cash),
        (r.engine.getTrader 2).map (fun t => t.cash)))
      = some (.returned 2, 100000000000000016, some 100000000000000000, some 16)) :=
  ⟨⟨by with_unfolding_all rfl, by with_unfolding_all rfl⟩,
    by with_unfolding_all rfl, by with_unfolding_all rfl⟩

/-- C39 (cash is conserved), amended. The engine is taken with the arithmetic of
`double` in the matching and in the ledger, each operation rounded, with the id counter
in 32 bits and the closing test of the position update read as it stands
(`submitOrderDouble`, for every number `fuel` of evaluations granted to the matching
loop). Let every order that rests in a book belong to a registered trader, and let the
amounts be such that no cash update rounds: for two exponents `q` and `d` with
`-1074 ≤ q + d`, the quantity and the filled quantity of every order and the quantity of
the new order are whole multiples of `2^q` below `2^52 * 2^q`, every resting order has a
price that is a whole multiple of `2^d` and a value, quantity times price, below
`2^53 * 2^(q+d)`, and the cash balances of the registered traders are whole multiples of
`2^(q+d)`, none below zero, with a sum below `2^53 * 2^(q+d)`. Then every `submitOrder`
call that returns an order id leaves the sum of the cash balances of all registered
traders as it was. -/
theorem cash_conserved (e : MatchingEngine) (q d : ℤ) (fuel : Nat) (traderId : Int)
    (symbol : String) (quantity price : ℚ) (side : OrderSide) (type : OrderType) (now : Nat)
    (r : EngineResult Int) (orderId : Int)
    (hown : e.restingOwnersRegistered)
    (hgrid : ∀ p, (e.heap p).onBinaryGrid q)
    (hvalue : ∀ bk ∈ e.orderBooks, ∀ p ∈ bk.2.bids ++ bk.2.asks, (e.heap p).valueOnGrid q d)
    (hcash : e.cashOnGrid (q + d))
    (hquantity : ∃ a : ℕ, quantity = a * twoPow q ∧ a < 2 ^ 52)
    (hcall : e.submitOrderDouble fuel traderId symbol quantity price side type now = some r)
    (hret : r.outcome = .returned orderId) :
    r.engine.totalCash = e.totalCash := by
  obtain ⟨trader0, order, book, e3, r2, ht, ho, hbook, hadd, he3, hproc, hret2, heng⟩ :=
    MatchingEngine.submitOrderDouble_returned hcall hret
  obtain ⟨a, ha, ha52⟩ := hquantity
  obtain ⟨-, -, hord⟩ := Order.new_ok ho
  have horder : order.onBinaryGrid q := by
    obtain ⟨h1, h2, -⟩ := hgrid 0
    refine ⟨h1, h2, a, 0, ?_, ?_, Nat.zero_le _, ha52⟩
    · rw [hord]; exact ha
    · rw [hord]; simp
  have hreg : (e.getTrader order.traderId).isSome = true := by
    rw [hord]
    simp only
    rw [ht]
    rfl
  rw [heng]
  exact MatchingEngine.ledgerPass_totalCash q d e e3 symbol book fuel order r2 hown hgrid
    hvalue hcash horder hreg hbook hadd he3 hproc hret2

set_option maxRecDepth 100000 in
/-- Witness of the amended C39, with quantities, prices and cash in whole numbers
(`q = 0`, `d = 0`): Bob's sell of 2 shares of X at 100 rests; Alice, with 100 in cash,
buys 1 share at 100. The call returns the id 2, Alice's cash goes from 100 to 0, Bob's
from 0 to 100, and the total stays 100. -/
theorem cash_conserved_witness :
    restingSale.submitOrderDouble 10 1 "X" 1 100 .BUY .LIMIT 2 =
      some (restingSale.submitOrder 1 "X" 1 100 .BUY .LIMIT 2) ∧
    (restingSale.submitOrder 1 "X" 1 100 .BUY .LIMIT 2).outcome = .returned 2 ∧
    (restingSale.submitOrder 1 "X" 1 100 .BUY .LIMIT 2).engine.totalCash =
      restingSale.totalCash ∧
    restingSale.totalCash = 100 ∧
    ((restingSale.submitOrder 1 "X" 1 100 .BUY .LIMIT 2).engine.getTrader 1).map
      (fun t => t.cash) = some 0 ∧
    ((restingSale.submitOrder 1 "X" 1 100 .BUY .LIMIT 2).engine.getTrader 2).map
      (fun t => t.cash) = some 100 := by
  have hbooks : restingSale.orderBooks.map (fun bk => bk.2.bids ++ bk.2.asks) = [[1]] := by
    with_unfolding_all rfl
  have htraders : restingSale.traders.map (fun kt => kt.2.cash) = [100, 0] := by
    with_unfolding_all rfl
  have hown : restingSale.restingOwnersRegistered := by
    unfold MatchingEngine.restingOwnersRegistered
    with_unfolding_all decide
  have hgrid : ∀ p, (restingSale.heap p).onBinaryGrid 0 := by
    rw [restingSale_heap]
    exact Heap.set_onBinaryGrid (fun _ => sampleOrder_onBinaryGrid 0 1 1 .BUY (by norm_num))
      (Order.onBinaryGrid_of_natCast 2 0 (by norm_num) (by norm_num) (Nat.zero_le _)
        (by norm_num))
  have hvalue : ∀ bk ∈ restingSale.orderBooks, ∀ p ∈ bk.2.bids ++ bk.2.asks,
      (restingSale.heap p).valueOnGrid 0 0 := by
    intro bk hbk p hp
    have h1 : bk.2.bids ++ bk.2.asks ∈ [[(1 : Ptr)]] := by
      rw [← hbooks]
      exact List.mem_map.mpr ⟨bk, hbk, rfl⟩
    rw [List.mem_singleton] at h1
    rw [h1, List.mem_singleton] at hp
    rw [hp, restingSale_heap, Heap.set_same]
    exact ⟨2, 100, by norm_num [twoPow], by norm_num [twoPow], by norm_num⟩
  have hcash : restingSale.cashOnGrid (0 + 0) := by
    refine ⟨by norm_num, ?_, by with_unfolding_all decide⟩
    intro kt hkt
    have h1 : kt.2.cash ∈ [(100 : ℚ), 0] := by
      rw [← htraders]
      exact List.mem_map.mpr ⟨kt, hkt, rfl⟩
    simp only [List.mem_cons, List.mem_singleton, List.not_mem_nil, or_false] at h1
    rcases h1 with h1 | h1
    · exact ⟨100, by rw [h1]; norm_num [twoPow]⟩
    · exact ⟨0, by rw [h1]; norm_num⟩
  have hcall : restingSale.submitOrderDouble 10 1 "X" 1 100 .BUY .LIMIT 2 =
      some (restingSale.submitOrder 1 "X" 1 100 .BUY .LIMIT 2) := by
    with_unfolding_all rfl
  have hret : (restingSale.submitOrder 1 "X" 1 100 .BUY .LIMIT 2).outcome = .returned 2 := by
    with_unfolding_all decide
  exact ⟨hcall, hret,
    cash_conserved restingSale 0 0 10 1 "X" 1 100 .BUY .LIMIT 2 _ 2 hown hgrid hvalue hcash
      ⟨1, by norm_num [twoPow], by norm_num⟩ hcall hret,
    by with_unfolding_all rfl, by with_unfolding_all rfl, by with_unfolding_all rfl⟩

theorem roundHalfEven_mono {a b : ℚ} (h : a ≤ b) : roundHalfEven a ≤ roundHalfEven b := by
  have hfl : ⌊a⌋ ≤ ⌊b⌋ := Int.floor_mono h
  have ha1 : roundHalfEven a ≤ ⌊a⌋ + 1 := by unfold roundHalfEven; split_ifs <;> omega
  have hb0 : ⌊b⌋ ≤ roundHalfEven b := by unfold roundHalfEven; split_ifs <;> omega
  rcases lt_or_eq_of_le hfl with hlt | heq
  · omega
  · unfold roundHalfEven
    rw [heq]
    have hfrac : a - (⌊b⌋ : ℚ) ≤ b - ⌊b⌋ := by linarith
    split_ifs <;> first | omega | (exfalso; linarith)

theorem twoPow_le_twoPow {a b : ℤ} (h : a ≤ b) : twoPow a ≤ twoPow b := by
  simp only [twoPow_eq_zpow]
  exact zpow_le_zpow_right₀ (by norm_num) h

/-- The exponent that `binade` gives is not too small: `|x| < 2 ^ (binade x + 1)`. -/
theorem lt_twoPow_binade_succ (x : ℚ) (hx : x ≠ 0) : |x| < twoPow (binade x + 1) := by
  unfold binade
  split_ifs with h
  · have hnum : 1 ≤ x.num.natAbs := Int.natAbs_pos.mpr (Rat.num_ne_zero.mpr hx)
    have h1 := lt_pow_floorLog2 x.num.natAbs x.num.natAbs le_rfl
    have h2 := pow_floorLog2_le x.den x.den x.den_pos
    have hden : (0 : ℚ) < x.den := by exact_mod_cast x.den_pos
    have habs : |x| = (x.num.natAbs : ℚ) / x.den := by
      conv_lhs => rw [← Rat.num_div_den x]
      rw [abs_div, abs_of_pos hden]
      congr 1
      rw [← Int.cast_abs, Int.abs_eq_natAbs, Int.cast_natCast]
    have e1 : (x.num.natAbs : ℚ) < (2 : ℚ) ^ (((floorLog2 x.num.natAbs x.num.natAbs : ℕ) : ℤ) + 1) := by
      rw [show (((floorLog2 x.num.natAbs x.num.natAbs : ℕ) : ℤ) + 1)
        = ((floorLog2 x.num.natAbs x.num.natAbs + 1 : ℕ) : ℤ) by push_cast; rfl, zpow_natCast]
      exact_mod_cast h1
    have e2 : (2 : ℚ) ^ ((floorLog2 x.den x.den : ℕ) : ℤ) ≤ x.den := by
      rw [zpow_natCast]; exact_mod_cast h2
    have e3 : (0 : ℚ) < (2 : ℚ) ^ ((floorLog2 x.den x.den : ℕ) : ℤ) := by positivity
    rw [habs, twoPow_eq_zpow,
      show ((floorLog2 x.num.natAbs x.num.natAbs : ℕ) : ℤ) - ((floorLog2 x.den x.den : ℕ) : ℤ) + 1
        = (((floorLog2 x.num.natAbs x.num.natAbs : ℕ) : ℤ) + 1) - ((floorLog2 x.den x.den : ℕ) : ℤ)
        by ring,
      zpow_sub₀ (by norm_num), div_lt_div_iff₀ hden e3]
    calc (x.num.natAbs : ℚ) * (2 : ℚ) ^ ((floorLog2 x.den x.den : ℕ) : ℤ)
        ≤ x.num.natAbs * x.den := by gcongr
      _ < (2 : ℚ) ^ (((floorLog2 x.num.natAbs x.num.natAbs : ℕ) : ℤ) + 1) * x.den := by gcongr
  · rw [show ((floorLog2 x.num.natAbs x.num.natAbs : ℕ) : ℤ) - ((floorLog2 x.den x.den : ℕ) : ℤ)
      - 1 + 1 = ((floorLog2 x.num.natAbs x.num.natAbs : ℕ) : ℤ) - ((floorLog2 x.den x.den : ℕ) : ℤ)
      by ring]
    exact lt_of_not_ge h

theorem binade_mono {x y : ℚ} (hx : 0 < x) (h : x ≤ y) : binade x ≤ binade y := by
  by_contra hc
  have hlt : binade y + 1 ≤ binade x := by omega
  have hy : 0 < y := lt_of_lt_of_le hx h
  have h1 := twoPow_binade_le x hx.ne.symm
  have h2 := lt_twoPow_binade_succ y hy.ne.symm
  have h3 := twoPow_le_twoPow hlt
  rw [abs_of_pos hx] at h1
  rw [abs_of_pos hy] at h2
  linarith

theorem ulpExponent_mono {x y : ℚ} (hx : 0 < x) (h : x ≤ y) : ulpExponent x ≤ ulpExponent y := by
  unfold ulpExponent
  have := binade_mono hx h
  have := max_le_max this (le_refl (-1022 : ℤ))
  omega

theorem ulpExponent_ge (x : ℚ) : -1074 ≤ ulpExponent x := by
  unfold ulpExponent
  have := le_max_right (binade x) (-1022)
  omega

theorem binade_le_ulpExponent (x : ℚ) : binade x - 52 ≤ ulpExponent x := by
  unfold ulpExponent
  have := le_max_left (binade x) (-1022)
  omega

theorem roundDouble_of_ne_zero {x : ℚ} (hx : x ≠ 0) :
    roundDouble x = (roundHalfEven (x / twoPow (ulpExponent x)) : ℚ) * twoPow (ulpExponent x) := by
  unfold roundDouble ulpExponent
  rw [if_neg hx]

theorem lt_twoPow_ulpExponent {x : ℚ} (hx : 0 < x) : x < twoPow (ulpExponent x + 53) := by
  have h2 := lt_twoPow_binade_succ x hx.ne.symm
  rw [abs_of_pos hx] at h2
  have := binade_le_ulpExponent x
  exact lt_of_lt_of_le h2 (twoPow_le_twoPow (by omega))

theorem twoPow_53 : twoPow 53 = (((2 ^ 53 : ℕ) : ℤ) : ℚ) := by
  rw [show (53 : ℤ) = ((53 : ℕ) : ℤ) by rfl, twoPow_natCast]
  push_cast
  rfl

/-- For `x > 0` the rounded value is a whole multiple `k` of the unit in the last place,
with `k` at most `2 ^ 53`. -/
theorem roundDouble_repr {x : ℚ} (hx : 0 < x) :
    ∃ k : ℕ, roundDouble x = k * twoPow (ulpExponent x) ∧ k ≤ 2 ^ 53 := by
  have hu : 0 < twoPow (ulpExponent x) := twoPow_pos _
  have h0 : (0 : ℤ) ≤ roundHalfEven (x / twoPow (ulpExponent x)) := by
    have := roundHalfEven_mono (show ((0 : ℤ) : ℚ) ≤ x / twoPow (ulpExponent x) by
      push_cast; exact (div_pos hx hu).le)
    rwa [roundHalfEven_intCast] at this
  have h1 : roundHalfEven (x / twoPow (ulpExponent x)) ≤ ((2 ^ 53 : ℕ) : ℤ) := by
    have hlt : x / twoPow (ulpExponent x) ≤ (((2 ^ 53 : ℕ) : ℤ) : ℚ) := by
      rw [div_le_iff₀ hu, ← twoPow_53, ← twoPow_add, add_comm]
      exact (lt_twoPow_ulpExponent hx).le
    have := roundHalfEven_mono hlt
    rwa [roundHalfEven_intCast] at this
  obtain ⟨k, hk⟩ := Int.eq_ofNat_of_zero_le h0
  refine ⟨k, ?_, ?_⟩
  · rw [roundDouble_of_ne_zero hx.ne.symm, hk]
    push_cast
    rfl
  · rw [hk] at h1
    exact_mod_cast h1

theorem roundDouble_zero : roundDouble 0 = 0 := by
  unfold roundDouble
  rw [if_pos rfl]

theorem roundDouble_nonneg {x : ℚ} (hx : 0 ≤ x) : 0 ≤ roundDouble x := by
  rcases eq_or_lt_of_le hx with h | h
  · rw [← h, roundDouble_zero]
  · obtain ⟨k, hk, -⟩ := roundDouble_repr h
    rw [hk]
    exact mul_nonneg (Nat.cast_nonneg _) (twoPow_pos _).le

/-- A multiple `a * 2 ^ e` with `a ≤ 2 ^ 53` and `-1074 ≤ e` is a `double`. -/
theorem roundDouble_grid_le (a : ℕ) (e : ℤ) (ha : a ≤ 2 ^ 53) (he : -1074 ≤ e) :
    roundDouble ((a : ℚ) * twoPow e) = (a : ℚ) * twoPow e := by
  rcases lt_or_eq_of_le ha with h | h
  · exact roundDouble_grid a e h he
  · have : (a : ℚ) * twoPow e = ((2 ^ 52 : ℕ) : ℚ) * twoPow (e + 1) := by
      rw [h, twoPow_add, show twoPow 1 = 2 by rfl]
      push_cast
      ring
    rw [this]
    exact roundDouble_grid (2 ^ 52) (e + 1) (by norm_num) (by omega)

/-- Rounding is idempotent: the rounded value is a `double`. -/
theorem roundDouble_idem {x : ℚ} (hx : 0 ≤ x) : roundDouble (roundDouble x) = roundDouble x := by
  rcases eq_or_lt_of_le hx with h | h
  · rw [← h, roundDouble_zero, roundDouble_zero]
  · obtain ⟨k, hk, hk53⟩ := roundDouble_repr h
    rw [hk]
    exact roundDouble_grid_le k _ hk53 (ulpExponent_ge x)

/-- A number of a normal binade is not rounded below the power of two of its binade. -/
theorem twoPow_binade_le_roundDouble {x : ℚ} (hx : 0 < x) (hb : -1022 ≤ binade x) :
    twoPow (binade x) ≤ roundDouble x := by
  have hE : ulpExponent x = binade x - 52 := by
    unfold ulpExponent
    rw [max_eq_left hb]
  have hu : 0 < twoPow (ulpExponent x) := twoPow_pos _
  have h1 := twoPow_binade_le x hx.ne.symm
  rw [abs_of_pos hx] at h1
  have h52 : twoPow 52 = (((2 ^ 52 : ℕ) : ℤ) : ℚ) := by
    rw [show (52 : ℤ) = ((52 : ℕ) : ℤ) by rfl, twoPow_natCast]
    push_cast
    rfl
  have h2 : (((2 ^ 52 : ℕ) : ℤ) : ℚ) ≤ x / twoPow (ulpExponent x) := by
    rw [le_div_iff₀ hu, ← h52, ← twoPow_add, hE]
    rw [show (52 : ℤ) + (binade x - 52) = binade x by ring]
    exact h1
  have h3 := roundHalfEven_mono h2
  rw [roundHalfEven_intCast] at h3
  rw [roundDouble_of_ne_zero hx.ne.symm]
  have h4 : (((2 ^ 52 : ℕ) : ℤ) : ℚ) ≤ (roundHalfEven (x / twoPow (ulpExponent x)) : ℚ) := by
    exact_mod_cast h3
  calc twoPow (binade x) = (((2 ^ 52 : ℕ) : ℤ) : ℚ) * twoPow (ulpExponent x) := by
        rw [← h52, ← twoPow_add, hE]
        congr 1
        ring
    _ ≤ _ := mul_le_mul_of_nonneg_right h4 hu.le

/-- Rounding is monotone (on numbers that are not below zero). -/
theorem roundDouble_mono {x y : ℚ} (hx : 0 ≤ x) (h : x ≤ y) : roundDouble x ≤ roundDouble y := by
  rcases eq_or_lt_of_le hx with h0 | h0
  · rw [← h0, roundDouble_zero]
    exact roundDouble_nonneg (le_trans hx h)
  · have hy : 0 < y := lt_of_lt_of_le h0 h
    have hE := ulpExponent_mono h0 h
    rcases lt_or_eq_of_le hE with hlt | heq
    · obtain ⟨k, hk, hk53⟩ := roundDouble_repr h0
      have hby : -1022 ≤ binade y ∧ ulpExponent x + 53 ≤ binade y := by
        have h1 := ulpExponent_ge x
        unfold ulpExponent at hlt h1 ⊢
        rcases le_total (binade y) (-1022) with hc | hc
        · rw [max_eq_right hc] at hlt
          have := le_max_right (binade x) (-1022)
          omega
        · rw [max_eq_left hc] at hlt
          exact ⟨hc, by omega⟩
      have h2 := twoPow_binade_le_roundDouble hy hby.1
      have h3 : roundDouble x ≤ twoPow (ulpExponent x + 53) := by
        rw [hk, add_comm, twoPow_add, twoPow_53]
        refine mul_le_mul_of_nonneg_right ?_ (twoPow_pos _).le
        exact_mod_cast hk53
      exact le_trans h3 (le_trans (twoPow_le_twoPow hby.2) h2)
    · rw [roundDouble_of_ne_zero h0.ne.symm, roundDouble_of_ne_zero hy.ne.symm, ← heq]
      have hu : 0 < twoPow (ulpExponent x) := twoPow_pos _
      refine mul_le_mul_of_nonneg_right ?_ hu.le
      have := roundHalfEven_mono (div_le_div_of_nonneg_right h hu.le)
      exact_mod_cast this


/-- A `double` above zero is a whole multiple `k` of its unit in the last place, with
`k` between 1 and `2 ^ 53 - 1`. -/
theorem double_repr {x : ℚ} (hx : 0 < x) (hd : roundDouble x = x) :
    ∃ k : ℕ, x = k * twoPow (ulpExponent x) ∧ 1 ≤ k ∧ k < 2 ^ 53 := by
  obtain ⟨k, hk, -⟩ := roundDouble_repr hx
  rw [hd] at hk
  have hu : 0 < twoPow (ulpExponent x) := twoPow_pos _
  refine ⟨k, hk, ?_, ?_⟩
  · rcases Nat.eq_zero_or_pos k with h0 | h0
    · rw [h0] at hk
      simp only [Nat.cast_zero, zero_mul] at hk
      exact absurd hk hx.ne.symm
    · exact h0
  · have h1 := lt_twoPow_ulpExponent hx
    rw [add_comm, twoPow_add, twoPow_53] at h1
    have h2 : (k : ℚ) * twoPow (ulpExponent x)
        < (((2 ^ 53 : ℕ) : ℤ) : ℚ) * twoPow (ulpExponent x) := by
      rw [← hk]; exact h1
    have h3 := lt_of_mul_lt_mul_right h2 hu.le
    exact_mod_cast h3

/-- Between a `double` above zero and the sum of it and its unit in the last place there
is no other `double`. -/
theorem double_succ_le {x y : ℚ} (hx : 0 < x) (hdx : roundDouble x = x)
    (hdy : roundDouble y = y) (hlt : x < y) : x + twoPow (ulpExponent x) ≤ y := by
  have hy : 0 < y := lt_trans hx hlt
  obtain ⟨k, hk, -, -⟩ := double_repr hx hdx
  obtain ⟨m, hm, -, -⟩ := double_repr hy hdy
  have hE := ulpExponent_mono hx hlt.le
  obtain ⟨d, hd⟩ := Int.eq_ofNat_of_zero_le (show 0 ≤ ulpExponent y - ulpExponent x by omega)
  have hEy : ulpExponent y = ulpExponent x + (d : ℤ) := by omega
  have hu : 0 < twoPow (ulpExponent x) := twoPow_pos _
  have hy2 : y = ((m * 2 ^ d : ℕ) : ℚ) * twoPow (ulpExponent x) := by
    rw [hm, hEy, twoPow_add, twoPow_natCast]
    push_cast
    ring
  have hkm : k < m * 2 ^ d := by
    have h1 : (k : ℚ) * twoPow (ulpExponent x)
        < ((m * 2 ^ d : ℕ) : ℚ) * twoPow (ulpExponent x) := by
      rw [← hk, ← hy2]; exact hlt
    exact_mod_cast lt_of_mul_lt_mul_right h1 hu.le
  have h2 : ((k + 1 : ℕ) : ℚ) ≤ ((m * 2 ^ d : ℕ) : ℚ) := by exact_mod_cast hkm
  have hx1 : x + twoPow (ulpExponent x) = ((k + 1 : ℕ) : ℚ) * twoPow (ulpExponent x) := by
    generalize twoPow (ulpExponent x) = u at hk
    rw [hk]
    push_cast
    ring
  calc x + twoPow (ulpExponent x) = ((k + 1 : ℕ) : ℚ) * twoPow (ulpExponent x) := hx1
    _ ≤ ((m * 2 ^ d : ℕ) : ℚ) * twoPow (ulpExponent x) :=
        mul_le_mul_of_nonneg_right h2 hu.le
    _ = y := hy2.symm

/-- The sum of a `double` above zero and its unit in the last place is a `double`. -/
theorem double_succ {x : ℚ} (hx : 0 < x) (hdx : roundDouble x = x) :
    roundDouble (x + twoPow (ulpExponent x)) = x + twoPow (ulpExponent x) := by
  obtain ⟨k, hk, -, hk53⟩ := double_repr hx hdx
  have h1 : x + twoPow (ulpExponent x) = ((k + 1 : ℕ) : ℚ) * twoPow (ulpExponent x) := by
    generalize twoPow (ulpExponent x) = u at hk
    rw [hk]
    push_cast
    ring
  rw [h1]
  exact roundDouble_grid_le (k + 1) _ (by omega) (ulpExponent_ge x)

/-- The fill of an order by its own remaining quantity, as `getRemainingQuantity`
returns it, moves the filled quantity up by a step of `2 ^ (-1074)` at least. -/
theorem fill_progress {f q : ℚ} (hf : 0 ≤ f) (hdf : roundDouble f = f)
    (hdq : roundDouble q = q) (hlt : f < q) :
    f + twoPow (-1074) ≤ roundDouble (f + roundDouble (q - f)) := by
  rcases eq_or_lt_of_le hf with h0 | h0
  · subst h0
    rw [sub_zero, hdq]
    simp only [zero_add]
    rw [hdq]
    obtain ⟨k, hk, hk1, -⟩ := double_repr hlt hdq
    rw [hk]
    have h1 : twoPow (-1074) ≤ twoPow (ulpExponent q) := twoPow_le_twoPow (ulpExponent_ge q)
    have h2 : (1 : ℚ) ≤ k := by exact_mod_cast hk1
    calc twoPow (-1074) ≤ twoPow (ulpExponent q) := h1
      _ = 1 * twoPow (ulpExponent q) := (one_mul _).symm
      _ ≤ (k : ℚ) * twoPow (ulpExponent q) :=
          mul_le_mul_of_nonneg_right h2 (twoPow_pos _).le
  · have hu : 0 < twoPow (ulpExponent f) := twoPow_pos _
    have h1 := double_succ_le h0 hdf hdq hlt
    have h2 : twoPow (ulpExponent f) ≤ q - f := by linarith
    have h3 : roundDouble (twoPow (ulpExponent f)) = twoPow (ulpExponent f) := by
      have := roundDouble_grid 1 (ulpExponent f) (by norm_num) (ulpExponent_ge f)
      simpa using this
    have h4 : twoPow (ulpExponent f) ≤ roundDouble (q - f) := by
      have := roundDouble_mono hu.le h2
      rwa [h3] at this
    have h5 : f + twoPow (ulpExponent f) ≤ f + roundDouble (q - f) := by linarith
    have h6 := roundDouble_mono (by linarith) h5
    rw [double_succ h0 hdf] at h6
    have h7 : twoPow (-1074) ≤ twoPow (ulpExponent f) := twoPow_le_twoPow (ulpExponent_ge f)
    linarith

/-- What an accepted `addFillDouble` leaves: the quantity as it was, and the filled
quantity a `double` between the old one and the quantity. -/
theorem Order.addFillDouble_inDouble {o o1 : Order} {q : ℚ} (hd : o.inDouble)
    (h : o.addFillDouble q = .ok o1) :
    o1.inDouble ∧ o1.quantity = o.quantity ∧
      o1.filledQuantity = roundDouble (o.filledQuantity + q) ∧ 0 < q ∧
      o.filledQuantity ≤ o1.filledQuantity ∧ o1.filledQuantity ≤ o.quantity := by
  obtain ⟨hdq, hdf, hf0⟩ := hd
  unfold Order.addFillDouble at h
  by_cases h1 : q ≤ 0
  · rw [if_pos h1] at h; cases h
  · rw [if_neg h1] at h
    by_cases h2 : roundDouble (o.filledQuantity + q) > o.quantity
    · rw [if_pos h2] at h; cases h
    · rw [if_neg h2] at h
      have hq : 0 < q := lt_of_not_ge h1
      have hsum : 0 ≤ o.filledQuantity + q := by linarith
      have hmono : o.filledQuantity ≤ roundDouble (o.filledQuantity + q) := by
        have := roundDouble_mono hf0 (show o.filledQuantity ≤ o.filledQuantity + q by linarith)
        rwa [hdf] at this
      have key : o1.quantity = o.quantity ∧
          o1.filledQuantity = roundDouble (o.filledQuantity + q) := by
        simp only at h
        split_ifs at h <;> (injection h with h; subst h; exact ⟨rfl, rfl⟩)
      refine ⟨⟨?_, ?_, ?_⟩, key.1, key.2, hq, ?_, ?_⟩
      · rw [key.1]; exact hdq
      · rw [key.2]; exact roundDouble_idem hsum
      · rw [key.2]; exact le_trans hf0 hmono
      · rw [key.2]; exact hmono
      · rw [key.2, ]; exact not_lt.mp h2

theorem Order.stepsLeft_mono {o o1 : Order} (hq : o1.quantity = o.quantity)
    (hf : o.filledQuantity ≤ o1.filledQuantity) : o1.stepsLeft ≤ o.stepsLeft := by
  unfold Order.stepsLeft
  apply Int.toNat_le_toNat
  apply Int.floor_mono
  rw [hq]
  exact div_le_div_of_nonneg_right (by linarith) (twoPow_pos _).le

theorem Order.stepsLeft_lt {o o1 : Order} (hq : o1.quantity = o.quantity)
    (hf : o.filledQuantity + twoPow (-1074) ≤ o1.filledQuantity)
    (hle : o1.filledQuantity ≤ o.quantity) : o1.stepsLeft < o.stepsLeft := by
  unfold Order.stepsLeft
  have hpos : 0 < twoPow (-1074) := twoPow_pos _
  have h1 : (o1.quantity - o1.filledQuantity) / twoPow (-1074) + 1
      ≤ (o.quantity - o.filledQuantity) / twoPow (-1074) := by
    rw [hq, div_add_one hpos.ne.symm]
    exact div_le_div_of_nonneg_right (by linarith) hpos.le
  have h2 : ⌊(o1.quantity - o1.filledQuantity) / twoPow (-1074)⌋ + 1
      ≤ ⌊(o.quantity - o.filledQuantity) / twoPow (-1074)⌋ := by
    rw [← Int.floor_add_one]
    exact Int.floor_mono h1
  have h3 : 0 ≤ ⌊(o1.quantity - o1.filledQuantity) / twoPow (-1074)⌋ := by
    apply Int.floor_nonneg.mpr
    apply div_nonneg _ hpos.le
    rw [hq]; linarith
  omega


theorem sum_map_pqPush (f : Ptr → Nat) (h : Heap) (x : Ptr) (q : List Ptr) :
    ((pqPush h x q).map f).sum = f x + (q.map f).sum := by
  induction q with
  | nil => simp [pqPush]
  | cons y q ih =>
    unfold pqPush
    split_ifs
    · simp
    · simp only [List.map_cons, List.sum_cons, ih]
      omega

/-- The fill of an order by its own remaining quantity brings the number of steps left
down. -/
theorem Order.addFillDouble_stepsLeft_lt {o o1 : Order} (hd : o.inDouble)
    (hinc : o.isComplete = false)
    (h : o.addFillDouble o.getRemainingQuantityDouble = .ok o1) :
    o1.stepsLeft < o.stepsLeft := by
  obtain ⟨-, hq, hf, -, -, hle⟩ := Order.addFillDouble_inDouble hd h
  obtain ⟨hdq, hdf, hf0⟩ := hd
  refine Order.stepsLeft_lt hq ?_ hle
  rw [hf]
  exact fill_progress hf0 hdf hdq ((Order.isComplete_false_iff o).mp hinc)

/-- A pass of the loop with the arithmetic of `double` that leads to another evaluation
of the loop condition keeps the quantities `double` values and brings the measure of
the loop down. -/
theorem matchStepDouble_measure {symbol : String} {n : Ptr} {s s1 : MatchState}
    (hd : ∀ p, (s.heap p).inDouble) (h : matchStepDouble symbol n s = .next s1) :
    (∀ p, (s1.heap p).inDouble) ∧ loopMeasure n s1 < loopMeasure n s := by
  obtain ⟨best, rest, hq, hinc, hcase⟩ := matchStepDouble_next h
  rcases hcase with ⟨-, hs1⟩ | ⟨hbinc, -, -, n1, b1, hn1, hb1, hs1⟩
  · subst hs1
    refine ⟨hd, ?_⟩
    unfold loopMeasure
    rw [hq]
    simp only [List.map_cons, List.sum_cons]
    omega
  · obtain ⟨dn1, qn1, fn1, -, fle_n, -⟩ := Order.addFillDouble_inDouble (hd n) hn1
    have hd1 : ∀ p, ((s.heap.set n n1) p).inDouble := by
      intro p
      rw [Heap.set_apply]
      split_ifs
      · exact dn1
      · exact hd p
    obtain ⟨db1, qb1, fb1, -, fle_b, -⟩ := Order.addFillDouble_inDouble (hd1 best) hb1
    have hd2 : ∀ p, (((s.heap.set n n1).set best b1) p).inDouble := by
      intro p
      rw [Heap.set_apply]
      split_ifs
      · exact db1
      · exact hd1 p
    have mono01 : ∀ p, ((s.heap.set n n1) p).stepsLeft ≤ (s.heap p).stepsLeft := by
      intro p
      rw [Heap.set_apply]
      split_ifs with hp
      · rw [hp]; exact Order.stepsLeft_mono qn1 fle_n
      · exact le_refl _
    have mono12 : ∀ p, (((s.heap.set n n1).set best b1) p).stepsLeft
        ≤ ((s.heap.set n n1) p).stepsLeft := by
      intro p
      rw [Heap.set_apply]
      split_ifs with hp
      · rw [hp]; exact Order.stepsLeft_mono qb1 fle_b
      · exact le_refl _
    have mono : ∀ p, (((s.heap.set n n1).set best b1) p).stepsLeft ≤ (s.heap p).stepsLeft :=
      fun p => le_trans (mono12 p) (mono01 p)
    have hn_strict : min (s.heap n).getRemainingQuantityDouble
          (s.heap best).getRemainingQuantityDouble = (s.heap n).getRemainingQuantityDouble →
        (((s.heap.set n n1).set best b1) n).stepsLeft < (s.heap n).stepsLeft := by
      intro hmin
      rw [hmin] at hn1
      have h1 := Order.addFillDouble_stepsLeft_lt (hd n) hinc hn1
      have h2 := mono12 n
      rw [Heap.set_same] at h2
      omega
    have strict : (((s.heap.set n n1).set best b1) n).stepsLeft < (s.heap n).stepsLeft ∨
        (((s.heap.set n n1).set best b1) best).stepsLeft < (s.heap best).stepsLeft := by
      rcases min_choice (s.heap n).getRemainingQuantityDouble
        (s.heap best).getRemainingQuantityDouble with hmin | hmin
      · exact Or.inl (hn_strict hmin)
      · by_cases hbn : best = n
        · left
          apply hn_strict
          rw [hbn]
          exact min_self _
        · right
          rw [Heap.set_other _ _ _ _ hbn, hmin] at hb1
          rw [Heap.set_same]
          exact Order.addFillDouble_stepsLeft_lt (hd best) hbinc hb1
    subst hs1
    refine ⟨hd2, ?_⟩
    unfold loopMeasure
    simp only
    rw [hq]
    have hsum : ((if (((s.heap.set n n1).set best b1) best).isComplete then rest
          else pqPush ((s.heap.set n n1).set best b1) best rest).map
          (fun p => (((s.heap.set n n1).set best b1) p).stepsLeft + 1)).sum
        ≤ (((s.heap.set n n1).set best b1) best).stepsLeft + 1 +
          (rest.map (fun p => (((s.heap.set n n1).set best b1) p).stepsLeft + 1)).sum := by
      split_ifs
      · omega
      · rw [sum_map_pqPush]
    have hrest : (rest.map (fun p => (((s.heap.set n n1).set best b1) p).stepsLeft + 1)).sum
        ≤ (rest.map (fun p => (s.heap p).stepsLeft + 1)).sum := by
      apply List.sum_le_sum
      intro p _
      have := mono p
      omega
    have hmn := mono n
    have hmb := mono best
    simp only [List.map_cons, List.sum_cons]
    rcases strict with hst | hst <;> omega

/-- The loop with the arithmetic of `double` ends, by returning or by throwing, within
one evaluation of its condition more than the measure of its first state. -/
theorem matchLoopDouble_terminates (symbol : String) (n : Ptr) :
    ∀ (fuel : Nat) (s : MatchState), (∀ p, (s.heap p).inDouble) → loopMeasure n s < fuel →
      (matchLoopDouble symbol n fuel s).2 ≠ .outOfFuel := by
  intro fuel
  induction fuel with
  | zero => intro s _ h; omega
  | succ k ih =>
    intro s hd hm
    unfold matchLoopDouble
    cases hstep : matchStepDouble symbol n s with
    | exit s1 => simp
    | threw s1 err => simp
    | next s1 =>
      obtain ⟨hd1, hlt⟩ := matchStepDouble_measure hd hstep
      exact ih s1 hd1 (by omega)

/-- Orders on a binary grid hold `double` values. -/
theorem Order.inDouble_of_onBinaryGrid {e : ℤ} {o : Order} (h : o.onBinaryGrid e) :
    o.inDouble := by
  obtain ⟨he, -, a, b, ha, hb, hle, hlt⟩ := h
  have h53 : (2 : ℕ) ^ 52 < 2 ^ 53 := by norm_num
  refine ⟨?_, ?_, ?_⟩
  · rw [ha]; exact roundDouble_grid a e (by omega) he
  · rw [hb]; exact roundDouble_grid b e (by omega) he
  · rw [hb]; exact mul_nonneg (Nat.cast_nonneg _) (twoPow_pos e).le


set_option maxRecDepth 100000 in
/-- The quantities of `dustTradeHeap` are `double` values. -/
theorem dustTradeHeap_inDouble : ∀ p, (dustTradeResting.heap p).inDouble := by
  have hh : dustTradeResting.heap = dustTradeHeap := by with_unfolding_all rfl
  intro p
  rw [hh]
  unfold dustTradeHeap
  split_ifs
  · exact ⟨by with_unfolding_all rfl, by with_unfolding_all rfl, by with_unfolding_all decide⟩
  · exact ⟨by with_unfolding_all rfl, by with_unfolding_all rfl, by with_unfolding_all decide⟩
  · exact ⟨by with_unfolding_all rfl, by with_unfolding_all rfl, by with_unfolding_all decide⟩

/-- C37 (termination and bound), amended, with the arithmetic of `double`. For every
book and every incoming order, the quantities and the filled quantities being `double`
values and no filled quantity below zero, the matching loop ends, by returning or by
throwing: from some number of evaluations of the loop condition on, `matchOrder` and
`addOrder` do not use them up. When the quantities and filled quantities of all orders
are multiples of one power of two `2 ^ e`, below `2 ^ 52 * 2 ^ e`, the loop ends within
two evaluations of its condition more than the opposite queue has entries, and the
number of trades it makes, which are the trades that `addOrder` appends, is at most the
number of entries of the opposite queue before the call. -/
theorem matching_terminates_bounded (b : OrderBook) (h : Heap) (n : Ptr) :
    ((∀ p, (h p).inDouble) →
      ∃ fuel0, ∀ fuel, fuel0 ≤ fuel →
        (b.matchOrderDouble fuel h n).2 ≠ .outOfFuel ∧
        (b.addOrderDouble fuel h n).outcome ≠ .outOfFuel) ∧
    (∀ e fuel, (∀ p, (h p).onBinaryGrid e) → (b.opposite (h n)).length + 2 ≤ fuel →
      (b.matchOrderDouble fuel h n).2 ≠ .outOfFuel ∧
      (b.matchOrderDouble fuel h n).1.trades.length ≤ (b.opposite (h n)).length ∧
      (b.addOrderDouble fuel h n).outcome ≠ .outOfFuel ∧
      (b.addOrderDouble fuel h n).book.trades.length ≤
        b.trades.length + (b.opposite (h n)).length) := by
  refine ⟨?_, ?_⟩
  · intro hd
    refine ⟨loopMeasure n { heap := h, queue := b.opposite (h n), trades := [] } + 1, ?_⟩
    intro fuel hfuel
    have hloop : (matchLoopDouble b.symbol n fuel
        { heap := h, queue := b.opposite (h n), trades := [] }).2 ≠ .outOfFuel :=
      matchLoopDouble_terminates b.symbol n fuel
        { heap := h, queue := b.opposite (h n), trades := [] } hd (by omega)
    refine ⟨hloop, ?_⟩
    unfold OrderBook.addOrderDouble
    by_cases hsym : (h n).symbol ≠ b.symbol
    · rw [if_pos hsym]
      simp
    · rw [if_neg hsym]
      simp only
      have hm : OrderBook.matchOrderDouble fuel
          { b with orderMap := mapInsert (h n).orderId n b.orderMap } h n =
          matchLoopDouble b.symbol n fuel
            { heap := h, queue := b.opposite (h n), trades := [] } := rfl
      rw [hm]
      generalize matchLoopDouble b.symbol n fuel
        { heap := h, queue := b.opposite (h n), trades := [] } = r at hloop ⊢
      obtain ⟨s, out⟩ := r
      cases out with
      | threw err => simp
      | outOfFuel => exact absurd rfl hloop
      | returned u => simp
  · intro e fuel hg hfuel
    rw [OrderBook.matchOrderDouble_eq e fuel b h n hg hfuel,
      OrderBook.addOrderDouble_eq e fuel b h n hg hfuel]
    exact (OrderBook.matchOrder_bounded b h n).2

/-- Witness of the amended C37. The test `OrderBookTest.MultipleMatches`, with
whole-number quantities: the loop for the buy 100@155 against three resting sells ends
and makes at most three trades. And the loop for the buy of 3 + 2^-51 against the sells
of 1/2 + 2^-52 and of 10, whose quantities are on no common grid of the theorem, ends
as well. -/
theorem matching_terminates_bounded_witness :
    (sampleBook.matchOrderDouble 5 sampleHeap 4).2 ≠ .outOfFuel ∧
    (sampleBook.matchOrderDouble 5 sampleHeap 4).1.trades.length ≤ 3 ∧
    (∃ fuel0, ∀ fuel, fuel0 ≤ fuel →
      (dustTradeResting.book.matchOrderDouble fuel dustTradeResting.heap 3).2 ≠ .outOfFuel ∧
      (dustTradeResting.book.addOrderDouble fuel dustTradeResting.heap 3).outcome
        ≠ .outOfFuel) :=
  ⟨((matching_terminates_bounded sampleBook sampleHeap 4).2 0 5 sampleHeap_onBinaryGrid
      (by decide)).1,
    ((matching_terminates_bounded sampleBook sampleHeap 4).2 0 5 sampleHeap_onBinaryGrid
      (by decide)).2.1,
    (matching_terminates_bounded dustTradeResting.book dustTradeResting.heap 3).1
      dustTradeHeap_inDouble⟩

/-- The condition on the owners of resting orders holds in every state that is reached
through calls on the engine and on the shared `Trader` and `Order` objects. -/
theorem MarketReach.resting_owners {e : MatchingEngine} (hr : MarketReach e) :
    e.restingOwnersRegistered := by
  have h := hr.owners_invariant
  refine ⟨h.1, ?_⟩
  intro bk hbk p hp
  obtain ⟨h1, t, ht⟩ := h.2 bk hbk p (List.mem_append.mp hp)
  refine ⟨ne_of_lt h1, ?_⟩
  rw [ht]
  rfl

end FusionMatchTrade
